import Mathlib

/-!
# Scene BVH, surfel cascades and frame loop of the wyre renderer

Embedding of `src/wyre/core/scene/{aabb,triangle,bvh,bvh-maintainer}.{h,cpp}`,
of the surfel cascades and the GI stage under `src/wyre/platform/vulkan`
(`pipelines/global-illumination/{cascade,surfel-prefix}.cpp` and the `enqueue`
methods of the other pipelines, `stages/global-illumination.cpp`), of the
renderer and the frame loop (`renderer.cpp`, `device.cpp`, `wyre.cpp`), and of
the BVH packer, the mouse input and the choice of the validation layers
(`scene/bvh-packer.cpp`, `platform/windows/input.{h,cpp}`, `hardware/ext.cpp`).

Conventions of the embedding:

* `float` values are the rationals (`ℚ`) of the binary32 numbers they denote,
  and every `float` operation of the BVH build (`+`, `-`, `*`, `/`, the
  conversion of a `uint32_t`) rounds its exact result to binary32 (`fl`: to
  nearest, ties to even, gradual underflow), in the order in which the source
  writes the operations and without fused multiply-add.  `fminf`, `fmaxf` and
  comparisons are exact.  There is no infinity and no NaN: a result beyond the
  largest binary32 number stays the finite rounded value.  In a comparison
  with a finite value it behaves as the infinity of the source does; the two
  differ only where the source would go on to compute a NaN, of which the one
  case in the split search is a `scale` that overflows (`scale_finite`).  The
  literal `1e30f` is the rational value of the binary32 number it denotes.
* Arrays are lists; a read or write outside an array is undefined behaviour in
  the source and is reported as a `Fault` (`Except Fault`).  A result `.ok`
  therefore means that the run of the source is defined and ends in that state.
* `uint32_t` counters are naturals.  The one counter that the source can drive
  below zero, the partition cursor `j`, wraps modulo `2^32` as in the source.
* The storage buffers of the prefix-sum pass are lists of naturals; its
  kernels are not among the sources and are modelled from the specification,
  with bounds-checked buffer access (a read outside a buffer yields 0, a write
  outside is dropped).
* Loops are structural recursions.  Where the number of iterations is not a
  loop bound of the source (the partition loop, the recursion of `subdivide`,
  the flattening loop) the recursion carries a step budget that is at least
  the number of steps the source can take; `Fault.fuel` reports an exhausted
  budget and is shown never to be returned.
* In the host code of the cascades the `uint32_t` sizes and products wrap
  modulo `2^32` (`u32`); undefined behaviour there is a `Trap`.  Whether the
  Vulkan allocator creates a buffer or an image is an input (`VmaAllocator`),
  and so is the outcome of each of the three steps of `buf::upload` (staging
  buffer, write, copy); an upload that fails returns false and leaves its
  destination as it was.  The callers discard the flag, as in the source.
* The GI stage and the renderer are the lists of the commands and calls they
  make, in order.  The outcomes of the Vulkan calls of the frame loop are
  inputs (`StartCalls`, `EndCalls`); the frame index `fid` wraps modulo
  `2^32`; a call of `start_frame` that never returns has the result `none`.
* The split search of the build is also given as functions of the triangles
  of a node (`plane_t`, `binned`, `plane_cost`, `bin_cost`), which the loops of
  `find_best_split` are shown to compute; `sah_cost` is the cost of the claim,
  with the two sides taken by the plane position.  A triangle is in range when
  its coordinates are strictly between `-2 ^ 99` and `2 ^ 99`, which keeps
  them and the centroids off `1e30` and `-1e30`, the values the source uses
  for an empty box.
* A mouse button is the integer it converts to; an access `std::array::at`
  outside the array throws (`Thrown`).
-/

namespace wyre

/-! ## Definitions -/

/-- Undefined behaviour of the source, by the access that causes it. -/
inductive Fault where
  /-- A `glm::vec3` indexed outside `0..2`. -/
  | vec_index
  /-- An access to `prims` or `norms` outside the arrays. -/
  | prim_index
  /-- An access to `nodes` outside the node pool. -/
  | node_index
  /-- An access to `bins` outside its 8 entries. -/
  | bin_index
  /-- An access to one of the 7-entry plane arrays outside its entries. -/
  | plane_index
  /-- An access to `gpu_nodes` outside the array. -/
  | gpu_index
  /-- An access to the local `stack[128]` of `build` outside its entries. -/
  | stack_index
  /-- The step budget of the embedding is exhausted. -/
  | fuel

deriving DecidableEq

/-- Element `i` of an array, or the fault `f` when `i` is outside it. -/
def rd {α : Type} (xs : List α) (i : Nat) (f : Fault) : Except Fault α :=
  match xs[i]? with
  | some a => .ok a
  | none => .error f

/-- Array `xs` with element `i` replaced, or the fault `f` when `i` is outside it. -/
def wr {α : Type} (xs : List α) (i : Nat) (a : α) (f : Fault) : Except Fault (List α) :=
  if i < xs.length then .ok (xs.set i a) else .error f

/-- The binary32 value of the literal `1e30f`. -/
def f1e30 : ℚ := 1000000015047466219876688855040

/-- One step of the search for the leading bit of a number: `p.1` is what is
left of the number, `p.2` the bits already shifted out. -/
def bit_step (k : Nat) (p : Nat × Nat) : Nat × Nat :=
  if 2 ^ k ≤ p.1 then (p.1 / 2 ^ k, p.2 + k) else p

/-- The position of the leading bit of a number below `2 ^ 64`. -/
def bits64 (n : Nat) : Nat :=
  (bit_step 1 (bit_step 2 (bit_step 4 (bit_step 8 (bit_step 16 (bit_step 32 (n, 0))))))).2

/-- The position of the leading bit of `n`, with `f` blocks of 64 bits allowed:
for `n ≤ f` and `1 ≤ n` it is the `e` with `2 ^ e ≤ n < 2 ^ (e + 1)`. -/
def bits : Nat → Nat → Nat
  | 0, _ => 0
  | f + 1, n => if n < 2 ^ 64 then bits64 n else bits f (n / 2 ^ 64) + 64

/-- The quotient `a / d` rounded to the nearest integer, a tie to the even one. -/
def div_even (a d : Nat) : Nat :=
  let k := a / d
  let r := a % d
  if 2 * r < d then k else if d < 2 * r then k + 1 else if k % 2 = 0 then k else k + 1

/-- The exponent of the binary32 grid at the value `a / d`, for `a` and `d`
not 0: the numbers of the grid are the multiples of `2 ^ s`, with
`s = e - 23` for `2 ^ e ≤ a / d < 2 ^ (e + 1)` and `s = -149` below `2 ^ (-126)`. -/
def grid_exp (a d : Nat) : Int :=
  let e0 : Int := (bits a a : Int) - (bits d d : Int)
  let e : Int := if d * 2 ^ e0.toNat ≤ a * 2 ^ (-e0).toNat then e0 else e0 - 1
  max e (-126) - 23

/-- The `float` that an operation with the exact result `q` gives: `q` rounded
to the nearest binary32 number, a tie to the one with the even significand,
with gradual underflow.  The exponent is not bounded above: where the source
overflows to infinity the value here stays finite. -/
def fl (q : ℚ) : ℚ :=
  if q.num = 0 then 0 else
  let s := grid_exp q.num.natAbs q.den
  let m := div_even (q.num.natAbs * 2 ^ (-s).toNat) (q.den * 2 ^ s.toNat)
  mkRat (if q.num < 0 then -((m * 2 ^ s.toNat : Nat) : Int) else ((m * 2 ^ s.toNat : Nat) : Int))
    (2 ^ (-s).toNat)

/-- The integer `m` is `z` rounded to the nearest integer, a tie to the even
one. -/
def Rne (z : ℚ) (m : Int) : Prop :=
  (m : ℚ) - 1 / 2 ≤ z ∧ z ≤ (m : ℚ) + 1 / 2 ∧ (z = (m : ℚ) - 1 / 2 ∨ z = (m : ℚ) + 1 / 2 → m % 2 = 0)

/-- The sum `x + y` of two `float`s. -/
def fadd (x y : ℚ) : ℚ := fl (x + y)

/-- The difference `x - y` of two `float`s. -/
def fsub (x y : ℚ) : ℚ := fl (x - y)

/-- The product `x * y` of two `float`s. -/
def fmul (x y : ℚ) : ℚ := fl (x * y)

/-- The quotient `x / y` of two `float`s, for `y` not 0. -/
def fdiv (x y : ℚ) : ℚ := fl (x / y)

/-- The conversion `(float)n` of a `uint32_t`. -/
def of_u32 (n : Nat) : ℚ := fl (n : ℚ)

/-- C `fminf` on finite values. -/
def fminf (x y : ℚ) : ℚ := if y < x then y else x

/-- C `fmaxf` on finite values. -/
def fmaxf (x y : ℚ) : ℚ := if x < y then y else x

/-- Conversion `(int)x` of a float: truncation toward zero. -/
def to_int (x : ℚ) : Int := Int.tdiv x.num x.den

/-- The type `glm::vec3`. -/
structure Vec3 where
  x : ℚ
  y : ℚ
  z : ℚ

deriving DecidableEq

/-- The constructor `glm::vec3(s)`. -/
def Vec3.splat (s : ℚ) : Vec3 := ⟨s, s, s⟩

instance : Add Vec3 := ⟨fun a b => ⟨fadd a.x b.x, fadd a.y b.y, fadd a.z b.z⟩⟩

instance : Sub Vec3 := ⟨fun a b => ⟨fsub a.x b.x, fsub a.y b.y, fsub a.z b.z⟩⟩

/-- The operator `vec3 / float`. -/
def Vec3.div (a : Vec3) (s : ℚ) : Vec3 := ⟨fdiv a.x s, fdiv a.y s, fdiv a.z s⟩

/-- The operator `vec3[i]`; glm asserts `0 <= i < 3`. -/
def Vec3.get (v : Vec3) (i : Int) : Except Fault ℚ :=
  if i = 0 then .ok v.x
  else if i = 1 then .ok v.y
  else if i = 2 then .ok v.z
  else .error .vec_index

/-- Componentwise `glm::min(a, b)`, each component `(b < a) ? b : a`. -/
def Vec3.min (a b : Vec3) : Vec3 :=
  ⟨if b.x < a.x then b.x else a.x, if b.y < a.y then b.y else a.y,
   if b.z < a.z then b.z else a.z⟩

/-- Componentwise `glm::max(a, b)`, each component `(a < b) ? b : a`. -/
def Vec3.max (a b : Vec3) : Vec3 :=
  ⟨if a.x < b.x then b.x else a.x, if a.y < b.y then b.y else a.y,
   if a.z < b.z then b.z else a.z⟩

/-- The struct `AABB` of aabb.h, with its default member initialisers. -/
structure AABB where
  min : Vec3 := Vec3.splat f1e30
  max : Vec3 := Vec3.splat (-f1e30)

deriving DecidableEq

/-- The method `AABB::grow(const glm::vec3 point)`. -/
def AABB.grow (self : AABB) (point : Vec3) : AABB :=
  { min := Vec3.min self.min point, max := Vec3.max self.max point }

/-- The method `AABB::grow(const AABB& aabb)`. -/
def AABB.grow_aabb (self : AABB) (aabb : AABB) : AABB :=
  if aabb.min.x ≠ f1e30 then (self.grow aabb.min).grow aabb.max else self

/-- The method `AABB::area`. -/
def AABB.area (self : AABB) : ℚ :=
  let e := self.max - self.min
  fadd (fadd (fmul e.x e.x) (fmul e.y e.y)) (fmul e.z e.z)

/-- The struct `Triangle` of triangle.h. -/
structure Triangle where
  v0 : Vec3
  r : ℚ
  v1 : Vec3
  g : ℚ
  v2 : Vec3
  b : ℚ

deriving DecidableEq

/-- The method `Triangle::get_aabb`. -/
def Triangle.get_aabb (self : Triangle) : AABB :=
  ((({} : AABB).grow self.v0).grow self.v1).grow self.v2

/-- The method `Triangle::get_centroid`. -/
def Triangle.get_centroid (self : Triangle) : Vec3 :=
  Vec3.div (self.v0 + self.v1 + self.v2) 3

/-- The struct `Normals` of triangle.h; `pad0..pad2` are its padding floats. -/
structure Normals where
  n0 : Vec3
  pad0 : ℚ
  n1 : Vec3
  pad1 : ℚ
  n2 : Vec3
  pad2 : ℚ

deriving DecidableEq

/-- The struct `Bvh::Node`. -/
structure Node where
  min : Vec3
  left_first : Nat
  max : Vec3
  prim_count : Nat

deriving DecidableEq

/-- The method `Node::is_leaf`: `return prim_count;` converted to `bool`. -/
def Node.is_leaf (self : Node) : Bool := self.prim_count != 0

/-- The struct `Bvh::GPUNode`. -/
structure GPUNode where
  lmin : Vec3
  left : Nat
  lmax : Vec3
  right : Nat
  rmin : Vec3
  prim_index : Nat
  rmax : Vec3
  prim_count : Nat

deriving DecidableEq

/-- A value-initialised `Node`; it also stands for the unwritten entries of the
node pool returned by `_aligned_malloc`. -/
def Node.zero : Node := ⟨Vec3.splat 0, 0, Vec3.splat 0, 0⟩

/-- A value-initialised `GPUNode` (`new GPUNode[n]{}`). -/
def GPUNode.zero : GPUNode :=
  ⟨Vec3.splat 0, 0, Vec3.splat 0, 0, Vec3.splat 0, 0, Vec3.splat 0, 0⟩

/-- Body of the loop of `refit_node` for one primitive. -/
def refit_step (node : Node) (prim : Triangle) : Node :=
  let node := { node with min := Vec3.min node.min prim.v0 }
  let node := { node with min := Vec3.min node.min prim.v1 }
  let node := { node with min := Vec3.min node.min prim.v2 }
  let node := { node with max := Vec3.max node.max prim.v0 }
  let node := { node with max := Vec3.max node.max prim.v1 }
  { node with max := Vec3.max node.max prim.v2 }

/-- The loop `for (i = 0; i < node.prim_count; ++i)` of `refit_node`, from `i`
with `k` iterations left. -/
def refit_loop (prims : List Triangle) : Nat → Nat → Node → Except Fault Node
  | 0, _, node => .ok node
  | k + 1, i, node =>
    match rd prims (node.left_first + i) .prim_index with
    | .error f => .error f
    | .ok prim => refit_loop prims k (i + 1) (refit_step node prim)

/-- The function `refit_node(Bvh::Node& node, const Triangle* prims)`. -/
def refit_node (node : Node) (prims : List Triangle) : Except Fault Node :=
  refit_loop prims node.prim_count 0
    { node with min := Vec3.splat f1e30, max := Vec3.splat (-f1e30) }

/-- The local struct `Bin` of `find_best_split`. -/
structure Bin where
  aabb : AABB := {}
  prim_count : Nat := 0

deriving DecidableEq

/-- The constant `BINS` of `find_best_split`. -/
def BINS : Nat := 8

/-- First loop of `find_best_split` for axis `a`: the least and greatest
centroid coordinate of the node's primitives, from `i` with `k` iterations left. -/
def centroid_range (prims : List Triangle) (node : Node) (a : Nat) :
    Nat → Nat → ℚ → ℚ → Except Fault (ℚ × ℚ)
  | 0, _, bmin, bmax => .ok (bmin, bmax)
  | k + 1, i, bmin, bmax =>
    match rd prims (node.left_first + i) .prim_index with
    | .error f => .error f
    | .ok prim =>
      match prim.get_centroid.get a with
      | .error f => .error f
      | .ok c => centroid_range prims node a k (i + 1) (fminf bmin c) (fmaxf bmax c)

/-- Second loop of `find_best_split` ("populate the bins"), from `i` with `k`
iterations left. -/
def populate_bins (prims : List Triangle) (node : Node) (a : Nat) (bmin scale : ℚ) :
    Nat → Nat → List Bin → Except Fault (List Bin)
  | 0, _, bins => .ok bins
  | k + 1, i, bins =>
    match rd prims (node.left_first + i) .prim_index with
    | .error f => .error f
    | .ok prim =>
      match prim.get_centroid.get a with
      | .error f => .error f
      | .ok c =>
        let bin_idx : Int := to_int (fminf (of_u32 (BINS - 1)) (fmul (fsub c bmin) scale))
        if bin_idx < 0 then .error .bin_index else
        match rd bins bin_idx.toNat .bin_index with
        | .error f => .error f
        | .ok bin =>
          let prim_bounds := prim.get_aabb
          let bin : Bin :=
            { aabb := (bin.aabb.grow prim_bounds.min).grow prim_bounds.max,
              prim_count := bin.prim_count + 1 }
          populate_bins prims node a bmin scale k (i + 1) (bins.set bin_idx.toNat bin)

/-- The locals of the third loop of `find_best_split`. -/
structure Planes where
  l_areas : List ℚ
  r_areas : List ℚ
  l_counts : List Nat
  r_counts : List Nat
  l_aabb : AABB := {}
  r_aabb : AABB := {}
  l_sum : Nat := 0
  r_sum : Nat := 0

deriving DecidableEq

/-- Third loop of `find_best_split` ("gather data for the planes between the
bins"), from `i` with `k` iterations left. -/
def gather_planes (bins : List Bin) : Nat → Nat → Planes → Except Fault Planes
  | 0, _, p => .ok p
  | k + 1, i, p =>
    match rd bins i .bin_index with
    | .error f => .error f
    | .ok bl =>
      let l_sum := p.l_sum + bl.prim_count
      match wr p.l_counts i l_sum .plane_index with
      | .error f => .error f
      | .ok l_counts =>
        let l_aabb := p.l_aabb.grow_aabb bl.aabb
        match wr p.l_areas i l_aabb.area .plane_index with
        | .error f => .error f
        | .ok l_areas =>
          match rd bins (BINS - 1 - i) .bin_index with
          | .error f => .error f
          | .ok br =>
            let r_sum := p.r_sum + br.prim_count
            match wr p.r_counts (BINS - 2 - i) r_sum .plane_index with
            | .error f => .error f
            | .ok r_counts =>
              let r_aabb := p.r_aabb.grow_aabb br.aabb
              match wr p.r_areas (BINS - 2 - i) r_aabb.area .plane_index with
              | .error f => .error f
              | .ok r_areas =>
                gather_planes bins k (i + 1)
                  { l_areas := l_areas, r_areas := r_areas, l_counts := l_counts,
                    r_counts := r_counts, l_aabb := l_aabb, r_aabb := r_aabb,
                    l_sum := l_sum, r_sum := r_sum }

/-- The outputs of `find_best_split`: the returned cost and the reference
parameters `axis` and `t`. -/
structure Split where
  cost : ℚ
  axis : Int
  t : ℚ

deriving DecidableEq

/-- Fourth loop of `find_best_split` ("calculate the SAH cost function for all
planes"), from `i` with `k` iterations left; `best.cost` is `lowest_cost`. -/
def best_plane (p : Planes) (a : Nat) (bmin scale : ℚ) :
    Nat → Nat → Split → Except Fault Split
  | 0, _, best => .ok best
  | k + 1, i, best =>
    match rd p.l_counts i .plane_index, rd p.l_areas i .plane_index,
          rd p.r_counts i .plane_index, rd p.r_areas i .plane_index with
    | .ok lc, .ok la, .ok rc, .ok ra =>
      let plane_cost : ℚ := fadd (fmul (of_u32 lc) la) (fmul (of_u32 rc) ra)
      if plane_cost < best.cost then
        best_plane p a bmin scale k (i + 1)
          { cost := plane_cost, axis := (a : Int), t := fadd bmin (fmul scale (of_u32 (i + 1))) }
      else best_plane p a bmin scale k (i + 1) best
    | _, _, _, _ => .error .plane_index

/-- Body of the loop over the axes of `find_best_split`, for axis `a`. -/
def split_on_axis (prims : List Triangle) (node : Node) (a : Nat) (best : Split) :
    Except Fault Split :=
  match centroid_range prims node a node.prim_count 0 f1e30 (-f1e30) with
  | .error f => .error f
  | .ok (bmin, bmax) =>
    if bmin = bmax then .ok best else
    match populate_bins prims node a bmin (fdiv (of_u32 BINS) (fsub bmax bmin)) node.prim_count 0
        (List.replicate BINS {}) with
    | .error f => .error f
    | .ok bins =>
      match gather_planes bins (BINS - 1) 0
          { l_areas := List.replicate (BINS - 1) 0, r_areas := List.replicate (BINS - 1) 0,
            l_counts := List.replicate (BINS - 1) 0, r_counts := List.replicate (BINS - 1) 0 } with
      | .error f => .error f
      | .ok p => best_plane p a bmin (fdiv (fsub bmax bmin) (of_u32 BINS)) (BINS - 1) 0 best

/-- The loop `for (a = 0; a < 3; ++a)` of `find_best_split`, from `a` with `k`
iterations left. -/
def axes_loop (prims : List Triangle) (node : Node) : Nat → Nat → Split → Except Fault Split
  | 0, _, best => .ok best
  | k + 1, a, best =>
    match split_on_axis prims node a best with
    | .error f => .error f
    | .ok best => axes_loop prims node k (a + 1) best

/-- The method `Bvh::find_best_split(node, axis, t)`; `axis` and `t` are the
values the caller's variables hold at the call. -/
def find_best_split (prims : List Triangle) (node : Node) (axis : Int) (t : ℚ) :
    Except Fault Split :=
  axes_loop prims node 3 0 { cost := f1e30, axis := axis, t := t }

/-- The statement `j--` on a `uint32_t`: 0 wraps to `0xFFFFFFFF`. -/
def u32_dec (j : Nat) : Nat := if j = 0 then 4294967295 else j - 1

/-- The loop `while (i <= j)` of `Bvh::subdivide`, with a budget of `fuel`
evaluations of the loop condition. -/
def partition (split_axis : Int) (split_t : ℚ) :
    Nat → Nat → Nat → List Triangle → List Normals →
      Except Fault (Nat × List Triangle × List Normals)
  | 0, _, _, _, _ => .error .fuel
  | fuel + 1, i, j, prims, norms =>
    if i ≤ j then
      match rd prims i .prim_index with
      | .error f => .error f
      | .ok pi =>
        match pi.get_centroid.get split_axis with
        | .error f => .error f
        | .ok c =>
          if c < split_t then partition split_axis split_t fuel (i + 1) j prims norms
          else
            match rd prims j .prim_index, rd norms i .prim_index, rd norms j .prim_index with
            | .ok pj, .ok ni, .ok nj =>
              partition split_axis split_t fuel i (u32_dec j)
                ((prims.set i pj).set j pi) ((norms.set i nj).set j ni)
            | _, _, _ => .error .prim_index
    else .ok (i, prims, norms)

/-- The members of `Bvh` that `subdivide` works on, with the arrays allocated. -/
structure BvhMem where
  nodes : List Node
  nodes_used : Nat
  prims : List Triangle
  norms : List Normals

deriving DecidableEq

/-- In-place update `nodes[i] = g(nodes[i])` of the node pool. -/
def upd (nodes : List Node) (i : Nat) (g : Node → Node) : Except Fault (List Node) :=
  match nodes[i]? with
  | some nd => .ok (nodes.set i (g nd))
  | none => .error .node_index

/-- The call `refit_node(nodes[i], prims)`. -/
def refit_at (nodes : List Node) (i : Nat) (prims : List Triangle) : Except Fault (List Node) :=
  match rd nodes i .node_index with
  | .error f => .error f
  | .ok nd =>
    match refit_node nd prims with
    | .error f => .error f
    | .ok nd => .ok (nodes.set i nd)

/-- The part of `Bvh::subdivide` from "initialize the child nodes" to the two
refits: the state in which the recursive calls are made, and the children. -/
def make_children (m : BvhMem) (idx : Nat) (node : Node) (i : Nat)
    (prims : List Triangle) (norms : List Normals) : Except Fault (BvhMem × Nat × Nat) :=
  let left_count := i - node.left_first
  let left_child_idx := m.nodes_used
  let right_child_idx := m.nodes_used + 1
  match upd m.nodes left_child_idx
      (fun c => { c with left_first := node.left_first, prim_count := left_count }) with
  | .error f => .error f
  | .ok nodes =>
    match upd nodes right_child_idx
        (fun c => { c with left_first := i, prim_count := node.prim_count - left_count }) with
    | .error f => .error f
    | .ok nodes =>
      match upd nodes idx (fun c => { c with left_first := left_child_idx, prim_count := 0 }) with
      | .error f => .error f
      | .ok nodes =>
        match refit_at nodes left_child_idx prims with
        | .error f => .error f
        | .ok nodes =>
          match refit_at nodes right_child_idx prims with
          | .error f => .error f
          | .ok nodes =>
            .ok ({ nodes := nodes, nodes_used := m.nodes_used + 2, prims := prims,
                   norms := norms }, left_child_idx, right_child_idx)

/-- The method `Bvh::subdivide(node, depth)` for `node = nodes[idx]`, with a
budget of `fuel` nested calls. -/
def subdivide : Nat → BvhMem → Nat → Except Fault BvhMem
  | 0, _, _ => .error .fuel
  | fuel + 1, m, idx =>
    match rd m.nodes idx .node_index with
    | .error f => .error f
    | .ok node =>
      if node.prim_count ≤ 2 then .ok m else
      match find_best_split m.prims node (-1) 0 with
      | .error f => .error f
      | .ok split =>
        let e := node.max - node.min
        let parent_area := fadd (fadd (fmul e.x e.x) (fmul e.y e.y)) (fmul e.z e.z)
        let parent_cost := fmul (of_u32 node.prim_count) parent_area
        if split.cost ≥ parent_cost then .ok m else
        match partition split.axis split.t (node.prim_count + 1) node.left_first
            (node.left_first + node.prim_count - 1) m.prims m.norms with
        | .error f => .error f
        | .ok (i, prims, norms) =>
          let left_count := i - node.left_first
          if left_count = 0 ∨ left_count = node.prim_count then
            .ok { m with prims := prims, norms := norms }
          else
            match make_children m idx node i prims norms with
            | .error f => .error f
            | .ok (m, left_child_idx, right_child_idx) =>
              match subdivide fuel m left_child_idx with
              | .error f => .error f
              | .ok m => subdivide fuel m right_child_idx

/-- The local variables of the flattening loop of `Bvh::build`; `stack` holds
the entries `stack[0 .. stack_ptr)`, the newest first. -/
structure Flat where
  alt_node : Nat
  node_ptr : Nat
  stack : List Nat
  gpu_nodes : List GPUNode

deriving DecidableEq

/-- In-place update `gpu_nodes[i] = g(gpu_nodes[i])`. -/
def upd_gpu (gpu : List GPUNode) (i : Nat) (g : GPUNode → GPUNode) :
    Except Fault (List GPUNode) :=
  match gpu[i]? with
  | some nd => .ok (gpu.set i (g nd))
  | none => .error .gpu_index

/-- The statement `stack[stack_ptr++] = v` on the 128-entry stack. -/
def push (stack : List Nat) (v : Nat) : Except Fault (List Nat) :=
  if stack.length < 128 then .ok (v :: stack) else .error .stack_index

/-- The loop `for (;;)` of `Bvh::build` that converts the nodes to the GPU
format, with a budget of `fuel` iterations. -/
def flatten (nodes : List Node) : Nat → Flat → Except Fault (List GPUNode)
  | 0, _ => .error .fuel
  | fuel + 1, s =>
    match rd nodes s.node_ptr .node_index with
    | .error f => .error f
    | .ok node =>
      let idx := s.alt_node
      let alt_node := s.alt_node + 1
      if node.is_leaf then
        match upd_gpu s.gpu_nodes idx
            (fun g => { g with prim_count := node.prim_count, prim_index := node.left_first }) with
        | .error f => .error f
        | .ok gpu =>
          match s.stack with
          | [] => .ok gpu
          | [_] => .error .stack_index
          | node_ptr :: newNodeParent :: stack =>
            match upd_gpu gpu newNodeParent (fun g => { g with right := alt_node }) with
            | .error f => .error f
            | .ok gpu =>
              flatten nodes fuel
                { alt_node := alt_node, node_ptr := node_ptr, stack := stack, gpu_nodes := gpu }
      else
        match rd nodes node.left_first .node_index, rd nodes (node.left_first + 1) .node_index with
        | .ok left, .ok right =>
          match upd_gpu s.gpu_nodes idx
              (fun g => { g with lmin := left.min, rmin := right.min, lmax := left.max,
                                 rmax := right.max, left := alt_node }) with
          | .error f => .error f
          | .ok gpu =>
            match push s.stack idx with
            | .error f => .error f
            | .ok stack =>
              match push stack (node.left_first + 1) with
              | .error f => .error f
              | .ok stack =>
                flatten nodes fuel
                  { alt_node := alt_node, node_ptr := node.left_first, stack := stack,
                    gpu_nodes := gpu }
        | _, _ => .error .node_index

/-- The member `root_idx` of `Bvh`; it is initialised to 0 and never assigned. -/
def root_idx : Nat := 0

/-- The data members of the struct `Bvh` (bvh.h) other than `root_idx`; a
pointer member is `none` when it is null. -/
structure Bvh where
  nodes : Option (List Node) := none
  nodes_used : Nat := 2
  size : Nat := 2
  prims : Option (List Triangle) := none
  norms : Option (List Normals) := none
  prim_count : Nat := 0
  gpu_nodes : Option (List GPUNode) := none

deriving DecidableEq

/-- The method `Bvh::build(new_prims, new_norms, _prim_count)`; the argument
arrays are `none` when the pointer is null. -/
def Bvh.build (self : Bvh) (new_prims : Option (List Triangle))
    (new_norms : Option (List Normals)) (_prim_count : Nat) : Except Fault Bvh :=
  match new_prims, new_norms with
  | some new_prims, some new_norms =>
    if _prim_count = 0 then .ok self else
    let prim_count := _prim_count
    if new_prims.length < prim_count ∨ new_norms.length < prim_count then .error .prim_index else
    let prims := new_prims.take prim_count
    let norms := new_norms.take prim_count
    let size := prim_count
    let nodes := List.replicate (size * 2) Node.zero
    match upd nodes root_idx (fun c => { c with left_first := 0, prim_count := size }) with
    | .error f => .error f
    | .ok nodes =>
      match refit_at nodes root_idx prims with
      | .error f => .error f
      | .ok nodes =>
        match subdivide size { nodes := nodes, nodes_used := 2, prims := prims, norms := norms }
            root_idx with
        | .error f => .error f
        | .ok m =>
          match flatten m.nodes (m.nodes_used + 1)
              { alt_node := 0, node_ptr := 0, stack := [],
                gpu_nodes := List.replicate m.nodes_used GPUNode.zero } with
          | .error f => .error f
          | .ok gpu =>
            .ok { nodes := some m.nodes, nodes_used := m.nodes_used, size := size,
                  prims := some m.prims, norms := some m.norms, prim_count := prim_count,
                  gpu_nodes := some gpu }
  | _, _ => .ok self

/-- The slice `xs[first .. first + count)`. -/
def slice {α : Type} (xs : List α) (first count : Nat) : List α :=
  (xs.drop first).take count

/-- Componentwise order of `glm::vec3`. -/
def Vec3.le (a b : Vec3) : Prop := a.x ≤ b.x ∧ a.y ≤ b.y ∧ a.z ≤ b.z

/-- The vertices of a list of triangles. -/
def verts (ts : List Triangle) : List Vec3 := ts.flatMap fun t => [t.v0, t.v1, t.v2]

/-- Least corner that `refit_node` computes for the triangles `ts`. -/
def lo (ts : List Triangle) : Vec3 := (verts ts).foldl Vec3.min (Vec3.splat f1e30)

/-- Greatest corner that `refit_node` computes for the triangles `ts`. -/
def hi (ts : List Triangle) : Vec3 := (verts ts).foldl Vec3.max (Vec3.splat (-f1e30))

/-- The test `prims[i].get_centroid()[split_axis] < split_t` succeeds. -/
def Triangle.below (p : Triangle) (ax : Int) (t : ℚ) : Prop :=
  ∃ c, p.get_centroid.get ax = .ok c ∧ c < t

/-- The test `prims[i].get_centroid()[split_axis] < split_t` fails. -/
def Triangle.not_below (p : Triangle) (ax : Int) (t : ℚ) : Prop :=
  ∃ c, p.get_centroid.get ax = .ok c ∧ ¬ c < t

/-- What the partition loop establishes when it ends, started on `i`, `j`. -/
structure PartitionPost (ax : Int) (t : ℚ) (i j : Nat) (prims : List Triangle)
    (norms : List Normals) (r : Nat × List Triangle × List Normals) : Prop where
  le_i : i ≤ r.1
  i_le : r.1 ≤ j + 1
  len_prims : r.2.1.length = prims.length
  len_norms : r.2.2.length = norms.length
  perm : (r.2.1.zip r.2.2).Perm (prims.zip norms)
  prims_out : ∀ k, k < i ∨ j < k → r.2.1[k]? = prims[k]?
  norms_out : ∀ k, k < i ∨ j < k → r.2.2[k]? = norms[k]?
  left : ∀ k p, i ≤ k → k < r.1 → r.2.1[k]? = some p → p.below ax t
  right : ∀ k p, r.1 ≤ k → k ≤ j → r.2.1[k]? = some p → p.not_below ax t

/-- Shape of a hierarchy: a leaf is a node index with its primitive range, an
internal node is a node index with its two subtrees. -/
inductive Tree where
  | leaf (idx first count : Nat)
  | node (idx : Nat) (l r : Tree)

/-- Index of the root node in the node pool. -/
def Tree.idx : Tree → Nat
  | leaf i _ _ => i
  | node i _ _ => i

/-- Start of the primitive range. -/
def Tree.first : Tree → Nat
  | leaf _ f _ => f
  | node _ l _ => l.first

/-- Length of the primitive range. -/
def Tree.count : Tree → Nat
  | leaf _ _ c => c
  | node _ l r => l.count + r.count

/-- Number of nodes. -/
def Tree.size : Tree → Nat
  | leaf _ _ _ => 1
  | node _ l r => 1 + l.size + r.size

/-- All subtrees, in depth-first pre-order, left before right. -/
def Tree.subtrees : Tree → List Tree
  | leaf i f c => [leaf i f c]
  | node i l r => node i l r :: (l.subtrees ++ r.subtrees)

/-- The tree `T` is laid out in `nodes` over `prims`: every node holds the box
`refit_node` computes for its range, a leaf stores its range, an internal node
stores the index of its left child with the right child next to it, and the
nodes below the root are exactly the indices `u .. u' - 1`, in allocation order. -/
def Built (nodes : List Node) (prims : List Triangle) : Tree → Nat → Nat → Prop
  | .leaf idx first count, u, u' =>
    u' = u ∧ idx < u ∧ u % 2 = 0 ∧ 0 < count ∧ first + count ≤ prims.length ∧
    nodes[idx]? =
      some ⟨lo (slice prims first count), first, hi (slice prims first count), count⟩
  | .node idx l r, u, u' =>
    idx < u ∧ u % 2 = 0 ∧ l.idx = u ∧ r.idx = u + 1 ∧ r.first = l.first + l.count ∧
    nodes[idx]? =
      some ⟨lo (slice prims l.first (l.count + r.count)), u,
            hi (slice prims l.first (l.count + r.count)), 0⟩ ∧
    ∃ m, Built nodes prims l (u + 2) m ∧ Built nodes prims r m u'

/-- What `subdivide` establishes when it returns, called on the leaf `idx` with
range `first .. first + count - 1` in the state `m`. -/
structure SubdividePost (m : BvhMem) (idx first count : Nat) (m' : BvhMem) : Prop where
  tree : ∃ T : Tree, T.idx = idx ∧ T.first = first ∧ T.count = count ∧
    Built m'.nodes m'.prims T m.nodes_used m'.nodes_used
  used : m'.nodes_used + 2 ≤ m.nodes_used + 2 * count
  len_nodes : m'.nodes.length = m.nodes.length
  nodes_out : ∀ k, k ≠ idx → k < m.nodes_used ∨ m'.nodes_used ≤ k →
    m'.nodes[k]? = m.nodes[k]?
  len_prims : m'.prims.length = m.prims.length
  len_norms : m'.norms.length = m.norms.length
  perm : (m'.prims.zip m'.norms).Perm (m.prims.zip m.norms)
  prims_out : ∀ k, k < first ∨ first + count ≤ k → m'.prims[k]? = m.prims[k]?
  norms_out : ∀ k, k < first ∨ first + count ≤ k → m'.norms[k]? = m.norms[k]?

/-- The list `g` with entry `i` replaced by `f` of it. -/
def gmod (g : List GPUNode) (i : Nat) (f : GPUNode → GPUNode) : List GPUNode :=
  match g[i]? with
  | some x => g.set i (f x)
  | none => g

/-- The GPU array after the loop has converted the tree `T`, the root of which
gets the GPU index `a`. -/
def Tree.emit (nodes : List Node) : Tree → Nat → List GPUNode → List GPUNode
  | .leaf _ first count, a, g =>
    gmod g a (fun x => { x with prim_count := count, prim_index := first })
  | .node _ l r, a, g =>
    let left := nodes[l.idx]?.getD Node.zero
    let right := nodes[r.idx]?.getD Node.zero
    let g1 := gmod g a (fun x => { x with lmin := left.min, rmin := right.min,
                                          lmax := left.max, rmax := right.max, left := a + 1 })
    let g2 := l.emit nodes (a + 1) g1
    let g3 := gmod g2 a (fun x => { x with right := a + 1 + l.size })
    r.emit nodes (a + 1 + l.size) g3

/-- The loop of `build` from the point after a leaf has been written: it ends
on an empty stack and otherwise pops the pending right child. -/
def resume (nodes : List Node) (fuel alt : Nat) (stack : List Nat) (gpu : List GPUNode) :
    Except Fault (List GPUNode) :=
  match stack with
  | [] => .ok gpu
  | [_] => .error .stack_index
  | node_ptr :: newNodeParent :: stack =>
    match upd_gpu gpu newNodeParent (fun g => { g with right := alt }) with
    | .error f => .error f
    | .ok gpu =>
      flatten nodes fuel
        { alt_node := alt, node_ptr := node_ptr, stack := stack, gpu_nodes := gpu }

/-- The GPU node that the loop writes for the subtree `S` at GPU index `p`. -/
def gpu_of (nodes : List Node) (S : Tree) (p : Nat) : GPUNode :=
  match S with
  | .leaf _ first count => { GPUNode.zero with prim_count := count, prim_index := first }
  | .node _ l r =>
    let left := nodes[l.idx]?.getD Node.zero
    let right := nodes[r.idx]?.getD Node.zero
    { GPUNode.zero with lmin := left.min, rmin := right.min, lmax := left.max,
                        rmax := right.max, left := p + 1, right := p + 1 + l.size }

/-- The state of a `Bvh` after a completed `build` over the first `n` entries
of `new_prims` and `new_norms`: the arrays, and the tree laid out in them. -/
structure BuildPost (new_prims : List Triangle) (new_norms : List Normals) (n : Nat)
    (b : Bvh) (nodes : List Node) (prims : List Triangle) (norms : List Normals)
    (gpu : List GPUNode) (T : Tree) : Prop where
  nodes_eq : b.nodes = some nodes
  prims_eq : b.prims = some prims
  norms_eq : b.norms = some norms
  gpu_eq : b.gpu_nodes = some gpu
  size_eq : b.size = n
  count_eq : b.prim_count = n
  len_nodes : nodes.length = 2 * n
  len_prims : prims.length = n
  len_norms : norms.length = n
  perm : (prims.zip norms).Perm ((new_prims.take n).zip (new_norms.take n))
  root : T.idx = root_idx
  first : T.first = 0
  count : T.count = n
  built : Built nodes prims T 2 b.nodes_used
  used : b.nodes_used ≤ 2 * n
  flat : gpu = T.emit nodes 0 (List.replicate b.nodes_used GPUNode.zero)

deriving instance DecidableEq for Except

/-- `nd` is node `k` of the hierarchy of `b`: an entry of `nodes` below
`nodes_used` other than the skipped entry 1. -/
def Bvh.node (b : Bvh) (k : Nat) (nd : Node) : Prop :=
  k < b.nodes_used ∧ k ≠ 1 ∧ ∃ nodes, b.nodes = some nodes ∧ nodes[k]? = some nd

/-- `t` is primitive `p` of `b`. -/
def Bvh.prim (b : Bvh) (p : Nat) (t : Triangle) : Prop :=
  ∃ prims, b.prims = some prims ∧ prims[p]? = some t

/-- The point `v` lies in the box of `nd`. -/
def Node.contains (nd : Node) (v : Vec3) : Prop := Vec3.le nd.min v ∧ Vec3.le v nd.max

/-- Every leaf's box contains the three vertices of every triangle of its range. -/
def Bvh.leaves_contain (b : Bvh) : Prop :=
  ∀ k nd, b.node k nd → nd.is_leaf = true →
    ∀ p, nd.left_first ≤ p → p < nd.left_first + nd.prim_count →
      ∃ t, b.prim p t ∧ nd.contains t.v0 ∧ nd.contains t.v1 ∧ nd.contains t.v2

/-- Every internal node's box is the union of the boxes of its two children. -/
def Bvh.inner_tight (b : Bvh) : Prop :=
  ∀ k nd, b.node k nd → nd.is_leaf = false →
    ∃ l r, b.node nd.left_first l ∧ b.node (nd.left_first + 1) r ∧
      nd.min = ⟨Min.min l.min.x r.min.x, Min.min l.min.y r.min.y, Min.min l.min.z r.min.z⟩ ∧
      nd.max = ⟨Max.max l.max.x r.max.x, Max.max l.max.y r.max.y, Max.max l.max.z r.max.z⟩

/-- `c` is a child of the internal node `nd`. -/
def Node.child (nd : Node) (c : Nat) : Prop :=
  nd.is_leaf = false ∧ (c = nd.left_first ∨ c = nd.left_first + 1)

/-- The layout of the node pool: children come in pairs at an even index of at
least 2, after their parent; no node has two parents; every node but the root
has a parent; entry 1 and the root are nobody's child. -/
def Bvh.layout (b : Bvh) : Prop :=
  root_idx = 0 ∧ (∃ nd, b.node root_idx nd) ∧
  (∀ k nd, b.node k nd → nd.is_leaf = false →
    nd.left_first % 2 = 0 ∧ 2 ≤ nd.left_first ∧ nd.left_first < b.nodes_used ∧
      nd.left_first + 1 < b.nodes_used ∧ k < nd.left_first) ∧
  (∀ k nd c, b.node k nd → nd.child c → c ≠ 1 ∧ c ≠ root_idx) ∧
  (∀ k₁ nd₁ k₂ nd₂ c, b.node k₁ nd₁ → b.node k₂ nd₂ → nd₁.child c → nd₂.child c → k₁ = k₂) ∧
  (∀ c, 2 ≤ c → c < b.nodes_used → ∃ k nd, b.node k nd ∧ nd.child c)

/-- The primitive `p` lies in the range of the leaf `nd`. -/
def Node.owns (nd : Node) (p : Nat) : Prop :=
  nd.is_leaf = true ∧ nd.left_first ≤ p ∧ p < nd.left_first + nd.prim_count

/-- The ranges of the leaves are non-empty, lie inside `[0, prim_count)`, are
pairwise disjoint and cover `[0, prim_count)`. -/
def Bvh.leaves_partition (b : Bvh) : Prop :=
  (∀ k nd, b.node k nd → nd.is_leaf = true →
    0 < nd.prim_count ∧ nd.left_first + nd.prim_count ≤ b.prim_count) ∧
  (∀ p, p < b.prim_count → ∃ k nd, b.node k nd ∧ nd.owns p) ∧
  (∀ k₁ nd₁ k₂ nd₂ p, b.node k₁ nd₁ → b.node k₂ nd₂ → nd₁.owns p → nd₂.owns p → k₁ = k₂)

/-- Example triangle with corner `(a, 0, 0)` and legs of length 1 along x and y. -/
def ex_tri (a : ℚ) : Triangle := ⟨⟨a, 0, 0⟩, 1, ⟨a + 1, 0, 0⟩, 1, ⟨a, 1, 0⟩, 1⟩

/-- Example normals, tagged by `a`. -/
def ex_nrm (a : ℚ) : Normals := ⟨⟨a, 0, 0⟩, 0, ⟨a, 0, 0⟩, 0, ⟨a, 0, 0⟩, 0⟩

/-- Example input: three triangles along the x axis. -/
def ex_prims : List Triangle := [ex_tri 4, ex_tri 0, ex_tri 8]

/-- Example input: the normals of `ex_prims`. -/
def ex_norms : List Normals := [ex_nrm 4, ex_nrm 0, ex_nrm 8]

/-- The state `build` reaches on the example input: the root is split into the
leaf 2 with one triangle and the leaf 3 with two. -/
def ex_bvh : Bvh :=
  { nodes := some [⟨⟨0, 0, 0⟩, 2, ⟨9, 1, 0⟩, 0⟩, Node.zero, ⟨⟨0, 0, 0⟩, 0, ⟨1, 1, 0⟩, 1⟩,
                   ⟨⟨4, 0, 0⟩, 1, ⟨9, 1, 0⟩, 2⟩, Node.zero, Node.zero],
    nodes_used := 4
    size := 3
    prims := some [ex_tri 0, ex_tri 8, ex_tri 4]
    norms := some [ex_nrm 0, ex_nrm 8, ex_nrm 4]
    prim_count := 3
    gpu_nodes := some [⟨⟨0, 0, 0⟩, 1, ⟨1, 1, 0⟩, 2, ⟨4, 0, 0⟩, 0, ⟨9, 1, 0⟩, 0⟩,
                       { GPUNode.zero with prim_count := 1 },
                       { GPUNode.zero with prim_index := 1, prim_count := 2 },
                       GPUNode.zero] }

/-- The GPU node `g` written at GPU index `k` for the CPU node `nd`, in a
hierarchy whose `j`-th node in depth-first pre-order (left before right) is
`order[j]`: a leaf carries its range; an internal node carries the boxes of
its two children, which are the CPU nodes at the GPU indices `left = k + 1`
and `right`. -/
def gpu_matches (nodes : List Node) (order : List Nat) (k : Nat) (nd : Node) (g : GPUNode) :
    Prop :=
  (nd.is_leaf = true →
    g.prim_count = nd.prim_count ∧ 0 < g.prim_count ∧ g.prim_index = nd.left_first) ∧
  (nd.is_leaf = false →
    g.prim_count = 0 ∧ g.left = k + 1 ∧ order[g.left]? = some nd.left_first ∧
    order[g.right]? = some (nd.left_first + 1) ∧
    ∃ nl nr, nodes[nd.left_first]? = some nl ∧ nodes[nd.left_first + 1]? = some nr ∧
      g.lmin = nl.min ∧ g.lmax = nl.max ∧ g.rmin = nr.min ∧ g.rmax = nr.max)

/-- The GPU array holds the nodes of the hierarchy in depth-first pre-order:
there is a tree laid out in the node pool from the root, with `nodes_used - 1`
nodes, whose `k`-th subtree in pre-order has its root written at GPU index `k`. -/
def Bvh.flattened (b : Bvh) : Prop :=
  ∃ nodes prims gpu T,
    b.nodes = some nodes ∧ b.prims = some prims ∧ b.gpu_nodes = some gpu ∧
    Built nodes prims T 2 b.nodes_used ∧ T.idx = root_idx ∧ gpu.length = b.nodes_used ∧
    T.subtrees.length + 1 = b.nodes_used ∧
    (∀ c nd, b.node c nd → c ∈ T.subtrees.map Tree.idx) ∧
    ∀ k c, (T.subtrees.map Tree.idx)[k]? = some c →
      ∃ nd g, nodes[c]? = some nd ∧ gpu[k]? = some g ∧
        gpu_matches nodes (T.subtrees.map Tree.idx) k nd g

/-! ### The surfel prefix-sum pass

Embedding of `SurfelPrefixPipeline` of
`src/wyre/platform/vulkan/pipelines/global-illumination/surfel-prefix.cpp`.
The host side (the size of the segments buffer, the clear, the three dispatches
and their group counts) is the source's.  The three compute kernels are shader
binaries that are not part of the sources; they are modelled from the
specification's description of them.  Buffers of `uint32_t` are lists of
naturals, and kernel arithmetic wraps modulo `2^32`. -/

/-- Threads per work group: the macro `THREAD_GROUP_SIZE` of the source, 512. -/
def THREAD_GROUP_SIZE : Nat := 512

/-- Cells per work group: the macro `SEGMENT_SIZE` of the source,
`THREAD_GROUP_SIZE * 2`. -/
def SEGMENT_SIZE : Nat := THREAD_GROUP_SIZE * 2

/-- Reduction of a sum to `uint32_t`. -/
def u32 (x : Nat) : Nat := x % 4294967296

/-- Modelled from the spec: a kernel's read of slot `i` of a storage buffer.
The specification does not say what a kernel reads outside a buffer; the model
takes bounds-checked buffer access, where such a read yields 0. -/
def load (buf : List Nat) (i : Nat) : Nat := buf.getD i 0

/-- Modelled from the spec: a kernel's write of `v` to slot `i` of a storage
buffer.  Under bounds-checked buffer access a write outside the buffer is
dropped. -/
def store (buf : List Nat) (i v : Nat) : List Nat := buf.set i v

/-- Modelled from the spec: thread `tid` in one level of the up-sweep
(reduction) phase of the Blelloch scan over the shared array `temp`, at stride
`offset`: `temp[bi] += temp[ai]`. -/
def up_thread (offset : Nat) (temp : List Nat) (tid : Nat) : List Nat :=
  let ai := offset * (2 * tid + 1) - 1
  let bi := offset * (2 * tid + 2) - 1
  store temp bi (u32 (load temp bi + load temp ai))

/-- Modelled from the spec: thread `tid` in one level of the down-sweep phase
of the Blelloch scan, at stride `offset`:
`t = temp[ai]; temp[ai] = temp[bi]; temp[bi] += t`. -/
def down_thread (offset : Nat) (temp : List Nat) (tid : Nat) : List Nat :=
  let ai := offset * (2 * tid + 1) - 1
  let bi := offset * (2 * tid + 2) - 1
  let t := load temp ai
  store (store temp ai (load temp bi)) bi (u32 (load temp bi + t))

/-- Modelled from the spec: the up-sweep of the Blelloch scan.  With `levels`
levels to go, the `2 ^ (levels - 1)` lowest threads are active at stride
`offset`; the stride doubles from level to level.  The threads of one level
touch disjoint slots and are separated from the next level by a barrier, so a
level is the fold of its threads. -/
def up_sweep : Nat → Nat → List Nat → List Nat
  | 0, _, temp => temp
  | levels + 1, offset, temp =>
    up_sweep levels (offset * 2) ((List.range (2 ^ levels)).foldl (up_thread offset) temp)

/-- Modelled from the spec: the down-sweep of the Blelloch scan.  The number
`d` of active threads doubles and the stride halves from level to level. -/
def down_sweep : Nat → Nat → Nat → List Nat → List Nat
  | 0, _, _, temp => temp
  | levels + 1, d, offset, temp =>
    down_sweep levels (d * 2) (offset / 2) ((List.range d).foldl (down_thread (offset / 2)) temp)

/-- Number of levels of a scan over `SEGMENT_SIZE = 2 ^ 10` elements. -/
def LEVELS : Nat := 10

/-- Modelled from the spec: the Blelloch scan of one work group over its
shared array of `SEGMENT_SIZE` elements, two per thread: up-sweep, the last
element (the block total) is taken and cleared, down-sweep.  Returns the
scanned array and the block total. -/
def blelloch (temp : List Nat) : List Nat × Nat :=
  let temp := up_sweep LEVELS 1 temp
  let total := load temp (SEGMENT_SIZE - 1)
  let temp := store temp (SEGMENT_SIZE - 1) 0
  (down_sweep LEVELS 1 SEGMENT_SIZE temp, total)

/-- The two storage buffers bound to the kernels: the cascade's surfel hash
grid and the segments buffer of the pipeline. -/
structure Bound where
  grid : List Nat
  segments : List Nat
deriving DecidableEq

/-- Modelled from the spec: a work group fills its shared array from the
`SEGMENT_SIZE` consecutive slots of `buf` that start at `base`. -/
def load_block (buf : List Nat) (base : Nat) : List Nat :=
  (List.range SEGMENT_SIZE).map (fun k => load buf (base + k))

/-- Modelled from the spec: a work group writes its shared array back to the
`SEGMENT_SIZE` consecutive slots of `buf` that start at `base`. -/
def store_block (buf : List Nat) (base : Nat) (temp : List Nat) : List Nat :=
  (List.range SEGMENT_SIZE).foldl (fun buf k => store buf (base + k) (load temp k)) buf

/-- Modelled from the spec: kernel A, the compute shader `prefix_sum.slang`
that the pipeline loads and that is not among the sources; one work group of
it.  The group does a Blelloch scan over its 1024 consecutive cells, two per
thread, in shared memory, and writes its block total into the segments buffer
at its group id. -/
def prefix_sum (group_id : Nat) (b : Bound) : Bound :=
  let base := group_id * SEGMENT_SIZE
  let scanned := blelloch (load_block b.grid base)
  { grid := store_block b.grid base scanned.1, segments := store b.segments group_id scanned.2 }

/-- Modelled from the spec: kernel B, the compute shader
`prefix_segments.slang`, not among the sources.  A single work group scans the
segments buffer in place, with the scan of kernel A. -/
def prefix_segments (_group_id : Nat) (b : Bound) : Bound :=
  let scanned := blelloch (load_block b.segments 0)
  { b with segments := store_block b.segments 0 scanned.1 }

/-- Modelled from the spec: kernel C, the compute shader `prefix_merge.slang`,
not among the sources; one work group of it.  The group adds
`segments[group_id]` to every element of its block. -/
def prefix_merge (group_id : Nat) (b : Bound) : Bound :=
  let base := group_id * SEGMENT_SIZE
  let sum := load b.segments group_id
  let merged := (List.range SEGMENT_SIZE).foldl
    (fun grid k => store grid (base + k) (u32 (load grid (base + k) + sum))) b.grid
  { b with grid := merged }

/-- The call `cmd.dispatch(groups, 1, 1)`: the kernel runs once per work
group.  The work groups of one dispatch touch disjoint blocks; they are run in
order of their group id. -/
def dispatch (kernel : Nat → Bound → Bound) (groups : Nat) (b : Bound) : Bound :=
  (List.range groups).foldl (fun b group_id => kernel group_id b) b

/-- The state of `SurfelPrefixPipeline` that the pass uses: the segments
buffer. -/
structure SurfelPrefixPipeline where
  segments_buffer : List Nat
deriving DecidableEq

/-- The constructor of `SurfelPrefixPipeline`: the segments buffer is
allocated with `sizeof(uint32_t) * THREAD_GROUP_SIZE` bytes, that is
`THREAD_GROUP_SIZE` entries. -/
def SurfelPrefixPipeline.create : SurfelPrefixPipeline :=
  { segments_buffer := List.replicate THREAD_GROUP_SIZE 0 }

/-- The method `SurfelPrefixPipeline::enqueue`, on the grid buffer
`surfel_grid` of the cascade: `cells` is the number of `uint32_t` entries of the buffer, the
segments buffer is cleared, kernel A runs in `cells / THREAD_GROUP_SIZE`
groups, kernel B in one group, kernel C in `cells / THREAD_GROUP_SIZE`
groups.  The barriers order the three dispatches.  Returns the pipeline and the
grid buffer after the pass. -/
def SurfelPrefixPipeline.enqueue (self : SurfelPrefixPipeline) (surfel_grid : List Nat) :
    SurfelPrefixPipeline × List Nat :=
  let cells := surfel_grid.length
  let segments := List.replicate self.segments_buffer.length 0
  let b : Bound := { grid := surfel_grid, segments := segments }
  let b := dispatch prefix_sum (cells / THREAD_GROUP_SIZE) b
  let b := dispatch prefix_segments 1 b
  let b := dispatch prefix_merge (cells / THREAD_GROUP_SIZE) b
  ({ segments_buffer := b.segments }, b.grid)

/-- The sequential scan with running sum `acc`: every slot receives the sum
of the counts before it, and one more slot at the end receives the total. -/
def scan_from : Nat → List Nat → List Nat
  | acc, [] => [acc]
  | acc, x :: xs => acc :: scan_from (u32 (acc + x)) xs

/-- The sequential reference of the specification: the exclusive prefix sums
of `counts` in `uint32_t` arithmetic, in `counts.length + 1` slots, the last of
which holds the total. -/
def sequential_scan (counts : List Nat) : List Nat := scan_from 0 counts

/-- Counts for `524288 = 512 * 1024` cells: one surfel in cell 0. -/
def overflow_counts : List Nat := 1 :: List.replicate 524287 0

/-- The sum of `f` over the index range `[a, b)`. -/
def span (f : Nat → Nat) (a b : Nat) : Nat := (Finset.Ico a b).sum f

/-- State of the shared array after the up-sweep levels of stride below
`2 ^ l`, over `n` elements whose initial contents are `f`: slot `i` holds, modulo
`2 ^ 32`, the sum of the `2 ^ j` elements that end at `i`, where `2 ^ j` is the
largest power of two that divides `i + 1` with `j ≤ l`. -/
def UpSwept (f : Nat → Nat) (n l : Nat) (temp : List Nat) : Prop :=
  temp.length = n ∧
  ∀ i, i < n → ∀ j, j ≤ l → 2 ^ j ∣ i + 1 → (j = l ∨ ¬ 2 ^ (j + 1) ∣ i + 1) →
    u32 (load temp i) = u32 (span f (i + 1 - 2 ^ j) (i + 1))

/-- State of the shared array before the down-sweep level of stride
`2 ^ l / 2`: a slot that ends a group of `2 ^ l` elements holds the sum of all
elements before the group; the other slots still hold their up-sweep sums. -/
def DownSwept (f : Nat → Nat) (n l : Nat) (temp : List Nat) : Prop :=
  temp.length = n ∧
  (∀ i, i < n → 2 ^ l ∣ i + 1 → load temp i = u32 (span f 0 (i + 1 - 2 ^ l))) ∧
  ∀ i, i < n → ∀ j, j < l → 2 ^ j ∣ i + 1 → ¬ 2 ^ (j + 1) ∣ i + 1 →
    u32 (load temp i) = u32 (span f (i + 1 - 2 ^ j) (i + 1))

/-! ### The surfel cascades: parameters and resources

Source: `platform/vulkan/pipelines/global-illumination/cascade.cpp`,
`surfels.h`, `platform/vulkan/hardware/buffer.cpp`, `image.cpp`. -/

/-- Undefined behaviour of the host code of the renderer, by its cause. -/
inductive Trap where
  /-- A `double` outside the range of `uint32_t` is converted to `uint32_t`. -/
  | float_cast
  /-- A host array is accessed outside its elements. -/
  | host_index
  /-- A buffer copy reaches beyond the end of the destination buffer. -/
  | copy_range
deriving DecidableEq, Repr

/-- Number of surfel cascades, `CASCADE_COUNT`. -/
def CASCADE_COUNT : Nat := 6

/-- Capacity of cascade 0, `MAX_SURFEL_COUNT = 1u << 18u`. -/
def MAX_SURFEL_COUNT : Nat := 2 ^ 18

/-- Spatial branch factor. -/
def SPATIAL_FACTOR : Nat := 4

/-- Angular branch factor. -/
def ANGULAR_FACTOR : Nat := 4

/-- Surfels per grid cell, `SAS_CELL_CAPACITY = 12u - 1u`. -/
def SAS_CELL_CAPACITY : Nat := 12 - 1

/-- The conversion `(uint32_t)x` of a `double` that holds the natural number
`x`: the value itself when it fits, undefined otherwise. -/
def to_u32 (x : Nat) : Except Trap Nat :=
  if x < 4294967296 then .ok x else .error .float_cast

/-- The expression `(uint32_t)pow(b, e)` for unsigned `b`, `e`.  A power of a
small integer is a `double` without rounding as long as it fits `uint32_t`. -/
def pow_u32 (b e : Nat) : Except Trap Nat := to_u32 (b ^ e)

/-- The spatial scaling value of a cascade. -/
def spatial_scale (cascade_index : Nat) : Except Trap Nat := pow_u32 SPATIAL_FACTOR cascade_index

/-- Half the angular scaling value of a cascade; `ANGULAR_FACTOR >> 1u` is
`ANGULAR_FACTOR / 2`. -/
def half_angular_scale (cascade_index : Nat) : Except Trap Nat :=
  pow_u32 (ANGULAR_FACTOR / 2) cascade_index

/-- Settings of the surfel cascades.  The `uint32_t` fields are naturals (below
`2 ^ 32` in the source), the `float` fields rationals. -/
structure SurfelCascadeParameters where
  c0_grid_capacity : Nat := 0
  c0_grid_scale : ℚ := 0
  cell_capacity : Nat := 0
  c0_memory_width : Nat := 0
  c0_probe_capacity : Nat := 0
  c0_probe_radius : ℚ := 0
  max_solid_angle : ℚ := 0
deriving DecidableEq

/-- The constructor of `SurfelCascadeParameters`: the default parameters.  The
`float` literals `0.002f` and `0.005f` are the rationals of their binary32
values. -/
def SurfelCascadeParameters.create : SurfelCascadeParameters where
  c0_grid_capacity := 512 * 512 - 1
  c0_grid_scale := 70
  cell_capacity := SAS_CELL_CAPACITY
  c0_memory_width := 4
  c0_probe_capacity := MAX_SURFEL_COUNT
  c0_probe_radius := 8589935 / 4294967296
  max_solid_angle := 5368709 / 1073741824

/-- Size in bytes of `SurfelCascadeParameters`: seven 4-byte fields. -/
def sizeof_SurfelCascadeParameters : Nat := 28

/-- The method `get_memory_width`: a `uint32_t` product. -/
def SurfelCascadeParameters.get_memory_width (p : SurfelCascadeParameters)
    (cascade_index : Nat) : Except Trap Nat := do
  let s ← half_angular_scale cascade_index
  .ok (u32 (p.c0_memory_width * s))

/-- The method `get_probe_capacity`: a `uint32_t` division. -/
def SurfelCascadeParameters.get_probe_capacity (p : SurfelCascadeParameters)
    (cascade_index : Nat) : Except Trap Nat := do
  let s ← spatial_scale cascade_index
  .ok (p.c0_probe_capacity / s)

/-- The method `get_grid_capacity`. -/
def SurfelCascadeParameters.get_grid_capacity (p : SurfelCascadeParameters)
    (_cascade_index : Nat) : Nat :=
  p.c0_grid_capacity

/-- The answers of the device and its Vulkan memory allocator: whether a
buffer of a given size in bytes is created, and an image of a given width and
height; and, for the three steps of `buf::upload` of a given number of bytes,
whether the staging buffer is created (`buf::alloc`), whether the data is
written to it (`buf::copy_raw`) and whether the copy to the destination is
submitted and completes (`buf::copy`). -/
structure VmaAllocator where
  create_buffer : Nat → Bool
  create_image : Nat → Nat → Bool
  stage_alloc : Nat → Bool
  stage_write : Nat → Bool
  stage_copy : Nat → Bool

/-- A GPU buffer: its size in bytes and its contents as 32-bit words. -/
structure Buffer where
  size : Nat := 0
  words : List Nat := []
deriving DecidableEq

/-- A GPU texture: its extent. -/
structure Texture2D where
  width : Nat := 0
  height : Nat := 0
deriving DecidableEq

/-- The function `buf::alloc` for a buffer with transfer-destination usage:
`none` when the allocator fails, else a buffer of `size` bytes that
`buf::fill` has filled with zeros. -/
def buf_alloc (allocator : VmaAllocator) (size : Nat) : Option Buffer :=
  if allocator.create_buffer size then some { size := size, words := List.replicate (size / 4) 0 }
  else none

/-- All three steps of `buf::upload` of `size` bytes succeed. -/
def VmaAllocator.staged (allocator : VmaAllocator) (size : Nat) : Bool :=
  allocator.stage_alloc size && allocator.stage_write size && allocator.stage_copy size

/-- The function `buf::upload`: `size` bytes of `data` are copied to the start
of `dst` through a staging buffer.  The result is the returned flag and the
destination after the call.  The call returns false when the staging buffer
is not created, when the data is not written to it, and when the copy fails;
the destination is then taken as it was.  A copy region beyond the
destination is invalid; the copy command is recorded whenever the first two
steps have succeeded. -/
def buf_upload (allocator : VmaAllocator) (dst : Buffer) (data : List Nat) (size : Nat) :
    Except Trap (Bool × Buffer) :=
  if allocator.stage_alloc size = false then .ok (false, dst)
  else if allocator.stage_write size = false then .ok (false, dst)
  else if dst.size < size then .error .copy_range
  else if allocator.stage_copy size = false then .ok (false, dst)
  else .ok (true, { dst with words := data.take (size / 4) ++ dst.words.drop (size / 4) })

/-- The function `img::Texture2D::make`: the extent is stored in the texture
before the image is created; the result is whether the creation succeeded. -/
def Texture2D.make (allocator : VmaAllocator) (width height : Nat) : Bool × Texture2D :=
  (allocator.create_image width height, { width := width, height := height })

/-- The GPU resources of one surfel cascade. -/
structure SurfelCascadeResources where
  surfel_param : Buffer := {}
  surfel_stack : Buffer := {}
  surfel_grid : Buffer := {}
  surfel_list : Buffer := {}
  surfel_posr : Buffer := {}
  surfel_norw : Buffer := {}
  surfel_rad : Texture2D := {}
  surfel_merge : Texture2D := {}
  surfel_count : Nat := 0
  cascade_index : Nat := 0
deriving DecidableEq

/-- A write `a[i] = v` to a host array. -/
def host_put (a : List Nat) (i v : Nat) : Except Trap (List Nat) :=
  if i < a.length then .ok (a.set i v) else .error .host_index

/-- The loop `for (i = 0u; i < surfel_cap; ++i) init_stack[1u + i] = i;` with
`k` iterations to go from index `i`. -/
def init_stack_loop : Nat → Nat → List Nat → Except Trap (List Nat)
  | 0, _, init_stack => .ok init_stack
  | k + 1, i, init_stack => do
    let init_stack ← host_put init_stack (u32 (1 + i)) i
    init_stack_loop k (i + 1) init_stack

/-- The method `SurfelCascadeResources::alloc`.  The result is the returned
flag and the resources as the call leaves them.  The flags that the two calls
of `buf::upload` return are discarded, as in the source.  The bytes of the
parameter block are not decoded in this development: its upload is kept, for
the range of the copy, with the words the buffer already has.  The descriptor
attachments that end the method change none of the resources modelled here. -/
def SurfelCascadeResources.alloc (self : SurfelCascadeResources) (allocator : VmaAllocator)
    (params : SurfelCascadeParameters) (cascade_index : Nat) :
    Except Trap (Bool × SurfelCascadeResources) := do
  let self := { self with cascade_index := cascade_index }
  let surfel_cap ← params.get_probe_capacity cascade_index
  let grid_cap := params.get_grid_capacity cascade_index
  let memory_width ← params.get_memory_width cascade_index
  let param_size := sizeof_SurfelCascadeParameters
  match buf_alloc allocator param_size with
  | none => .ok (false, self)
  | some surfel_param =>
  let self := { self with surfel_param := surfel_param }
  let stack_size := u32 (4 * u32 (1 + surfel_cap))
  match buf_alloc allocator stack_size with
  | none => .ok (false, self)
  | some surfel_stack =>
  let self := { self with surfel_stack := surfel_stack }
  let hashgrid_size := u32 (4 * u32 (grid_cap + 1))
  match buf_alloc allocator hashgrid_size with
  | none => .ok (false, self)
  | some surfel_grid =>
  let self := { self with surfel_grid := surfel_grid }
  let hashlist_size := u32 (4 * surfel_cap * 16)
  match buf_alloc allocator hashlist_size with
  | none => .ok (false, self)
  | some surfel_list =>
  let self := { self with surfel_list := surfel_list }
  let posr_size := u32 (4 * 4 * surfel_cap)
  match buf_alloc allocator posr_size with
  | none => .ok (false, self)
  | some surfel_posr =>
  let self := { self with surfel_posr := surfel_posr }
  let norw_size := u32 (4 * 4 * surfel_cap)
  match buf_alloc allocator norw_size with
  | none => .ok (false, self)
  | some surfel_norw =>
  let self := { self with surfel_norw := surfel_norw }
  let cache_width := u32 (memory_width * Nat.sqrt surfel_cap)
  let rad := Texture2D.make allocator cache_width cache_width
  let self := { self with surfel_rad := rad.2 }
  if rad.1 = false then .ok (false, self) else
  let merge := Texture2D.make allocator cache_width cache_width
  let self := { self with surfel_merge := merge.2 }
  if merge.1 = false then .ok (false, self) else
  let init_stack := List.replicate (u32 (1 + surfel_cap)) 0
  let init_stack ← host_put init_stack 0 0
  let init_stack ← init_stack_loop surfel_cap 0 init_stack
  let up ← buf_upload allocator self.surfel_stack init_stack (4 * u32 (1 + surfel_cap))
  let self := { self with surfel_stack := up.2 }
  let up ← buf_upload allocator self.surfel_param self.surfel_param.words param_size
  let self := { self with surfel_param := up.2 }
  .ok (true, self)

/-- The `uint32_t` fields of the parameters hold 32-bit values. -/
def SurfelCascadeParameters.valid (p : SurfelCascadeParameters) : Prop :=
  p.c0_grid_capacity < 4294967296 ∧ p.cell_capacity < 4294967296 ∧
  p.c0_memory_width < 4294967296 ∧ p.c0_probe_capacity < 4294967296

/-- A device that creates every buffer and image and completes every upload. -/
def VmaAllocator.generous : VmaAllocator where
  create_buffer := fun _ => true
  create_image := fun _ _ => true
  stage_alloc := fun _ => true
  stage_write := fun _ => true
  stage_copy := fun _ => true

/-- A device that creates every buffer and image, and no staging buffer. -/
def VmaAllocator.no_stage : VmaAllocator where
  create_buffer := fun _ => true
  create_image := fun _ _ => true
  stage_alloc := fun _ => false
  stage_write := fun _ => true
  stage_copy := fun _ => true

/-- A small parameter set: the defaults with a grid of 7 cells and 64 probes
in cascade 0. -/
def ex_params : SurfelCascadeParameters :=
  { SurfelCascadeParameters.create with c0_grid_capacity := 7, c0_probe_capacity := 64 }

/-- The resources of cascade 1 under `ex_params`: 16 probes of memory width 8. -/
def ex_cascade : SurfelCascadeResources where
  surfel_param := { size := 28, words := List.replicate 7 0 }
  surfel_stack := { size := 68, words := 0 :: List.range 16 }
  surfel_grid := { size := 32, words := List.replicate 8 0 }
  surfel_list := { size := 1024, words := List.replicate 256 0 }
  surfel_posr := { size := 256, words := List.replicate 64 0 }
  surfel_norw := { size := 256, words := List.replicate 64 0 }
  surfel_rad := { width := 32, height := 32 }
  surfel_merge := { width := 32, height := 32 }
  surfel_count := 0
  cascade_index := 1

/-- The defaults with 8 probes in cascade 0. -/
def odd_params : SurfelCascadeParameters :=
  { SurfelCascadeParameters.create with c0_probe_capacity := 8 }

/-! ### The commands of the GI stage

Source: `platform/vulkan/stages/global-illumination.cpp` and the `enqueue`
methods of the pipelines under `platform/vulkan/pipelines/global-illumination`. -/

/-- Pipeline stages named in the barriers of the renderer. -/
inductive PStage where
  | top_of_pipe
  | compute_shader
  | transfer
  | bottom_of_pipe
deriving DecidableEq, Repr

/-- Memory access kinds named in the barriers of the renderer. -/
inductive Access where
  | shader_read
  | shader_write
  | transfer_write
deriving DecidableEq, Repr

/-- Image layouts named in the barriers of the GI stage. -/
inductive Layout where
  | undefined
  | general
  | shader_read_only_optimal
deriving DecidableEq, Repr

/-- The buffers that the commands of the GI stage name: the buffers of cascade
`i` and the segments buffer of the prefix-sum pipeline. -/
inductive Buf where
  | surfel_param (i : Nat)
  | surfel_stack (i : Nat)
  | surfel_grid (i : Nat)
  | surfel_list (i : Nat)
  | surfel_posr (i : Nat)
  | surfel_norw (i : Nat)
  | segments
deriving DecidableEq, Repr

/-- The images that the commands of the GI stage name. -/
inductive Img where
  | albedo
  | normal_depth
  | surfel_rad (i : Nat)
  | surfel_merge (i : Nat)
  | radiance_cache
deriving DecidableEq, Repr

/-- The descriptor sets bound by the dispatches of the GI stage. -/
inductive DescSet where
  /-- The set `desc_set` of cascade `i`: bindings 0 to 7 of `alloc`. -/
  | cascade (i : Nat)
  /-- The set `segments_set` of the prefix-sum pipeline. -/
  | segments_set
  /-- The set `attach_render_desc` of the frame. -/
  | attach_render
  /-- The set `attach_store_desc` of the frame. -/
  | attach_store
  /-- The set of the packed BVH. -/
  | bvh
  /-- The set `cache_set` of the ground-truth pipeline. -/
  | cache_set
deriving DecidableEq, Repr

/-- The buffers attached to a descriptor set. -/
def DescSet.buffers : DescSet → List Buf
  | .cascade i => [.surfel_param i, .surfel_stack i, .surfel_grid i, .surfel_list i,
      .surfel_posr i, .surfel_norw i]
  | .segments_set => [.segments]
  | _ => []

/-- The compute pipelines of the GI stage. -/
inductive Kernel where
  | spawn
  | count
  | prefix_sum
  | prefix_segments
  | prefix_merge
  | accel
  | gather
  | merge
  | composite
  | heatmap
  | draw
  | recycle
  | ground_truth
deriving DecidableEq, Repr

/-- The commands that the GI stage records into the command buffer of the
frame.  A `dispatch` stands for binding the pipeline and its descriptor sets,
pushing the constants and dispatching; the group counts and the debug labels
are left out. -/
inductive Cmd where
  | fillBuffer (b : Buf)
  | buf_barrier (b : Buf) (src : PStage) (src_access : Access) (dst : PStage)
      (dst_access : Access)
  | img_barrier (img : Img) (src : PStage) (src_access : Access) (old : Layout)
      (dst : PStage) (dst_access : Access) (new : Layout)
  | dispatch (k : Kernel) (sets : List DescSet)
deriving DecidableEq, Repr

/-- The barrier every read-after-write dependency of the stage uses: compute
shader write to compute shader read. -/
def Cmd.rw_barrier (b : Buf) : Cmd :=
  .buf_barrier b .compute_shader .shader_write .compute_shader .shader_read

/-- An image barrier from compute shader write to compute shader read. -/
def Cmd.rw_image (img : Img) (old new : Layout) : Cmd :=
  .img_barrier img .compute_shader .shader_write old .compute_shader .shader_read new

/-- The commands of `SurfelSpawnPipeline::enqueue` for cascade `i`. -/
def SurfelSpawnPipeline.enqueue (i : Nat) : List Cmd :=
  [.dispatch .spawn [.cascade i, .attach_render]]

/-- Modelled from the spec: the commands of `SurfelCountPipeline::enqueue`,
whose source file is not among the sources: one compute pass over the surfels
of cascade `i`, bound like the other per-cascade passes. -/
def SurfelCountPipeline.enqueue (i : Nat) : List Cmd :=
  [.dispatch .count [.cascade i, .attach_store]]

/-- The commands of `SurfelPrefixPipeline::enqueue` for cascade `i`: the clear
of the segments buffer, then kernels A, B and C with the barriers between
them. -/
def SurfelPrefixPipeline.enqueue_cmds (i : Nat) : List Cmd :=
  [.fillBuffer .segments,
   Cmd.rw_barrier (.surfel_grid i),
   .dispatch .prefix_sum [.cascade i, .segments_set],
   Cmd.rw_barrier (.surfel_grid i),
   .buf_barrier .segments .compute_shader .shader_write .compute_shader .shader_write,
   .dispatch .prefix_segments [.cascade i, .segments_set],
   Cmd.rw_barrier .segments,
   .dispatch .prefix_merge [.cascade i, .segments_set]]

/-- The commands of `SurfelAccelerationPipeline::enqueue` for cascade `i`. -/
def SurfelAccelerationPipeline.enqueue (i : Nat) : List Cmd :=
  [.dispatch .accel [.cascade i, .attach_store]]

/-- The commands of `SurfelGatherPipeline::enqueue` for cascade `i`. -/
def SurfelGatherPipeline.enqueue (i : Nat) : List Cmd :=
  [.dispatch .gather [.cascade i, .bvh]]

/-- The commands of `SurfelMergePipeline::enqueue`. -/
def SurfelMergePipeline.enqueue (src_cascade dst_cascade : Nat) : List Cmd :=
  [.dispatch .merge [.cascade dst_cascade, .cascade src_cascade, .attach_store]]

/-- The commands of `SurfelCompositePipeline::enqueue` for cascade `i`. -/
def SurfelCompositePipeline.enqueue (i : Nat) : List Cmd :=
  [Cmd.rw_image .albedo .general .general,
   Cmd.rw_image .normal_depth .general .general,
   Cmd.rw_image (.surfel_rad i) .general .general,
   .dispatch .composite [.cascade i, .attach_store]]

/-- The commands of `SurfelHeatmapPipeline::enqueue` for cascade `i`. -/
def SurfelHeatmapPipeline.enqueue (i : Nat) : List Cmd :=
  [Cmd.rw_image .albedo .general .general,
   Cmd.rw_image .normal_depth .general .general,
   Cmd.rw_barrier (.surfel_grid i),
   Cmd.rw_barrier (.surfel_stack i),
   .dispatch .heatmap [.cascade i, .attach_store]]

/-- The commands of `SurfelDrawPipeline::enqueue` for cascade `i`. -/
def SurfelDrawPipeline.enqueue (i : Nat) : List Cmd :=
  [Cmd.rw_image .albedo .general .general,
   Cmd.rw_image .normal_depth .general .general,
   Cmd.rw_barrier (.surfel_grid i),
   Cmd.rw_barrier (.surfel_stack i),
   .dispatch .draw [.cascade i, .attach_store]]

/-- The commands of `SurfelRecyclePipeline::enqueue` for cascade `i`. -/
def SurfelRecyclePipeline.enqueue (i : Nat) : List Cmd :=
  [.dispatch .recycle [.cascade i, .attach_store]]

/-- The commands of `GroundTruthPipeline::enqueue`. -/
def GroundTruthPipeline.enqueue : List Cmd :=
  [Cmd.rw_image .albedo .general .general,
   Cmd.rw_image .normal_depth .general .general,
   Cmd.rw_image .radiance_cache .undefined .general,
   .dispatch .ground_truth [.cache_set, .attach_store, .bvh]]

/-- The passes of the GI stage: one call of the `enqueue` of a pipeline. -/
inductive Pass where
  | spawn (i : Nat)
  | count (i : Nat)
  | prefix_sum (i : Nat)
  | insert (i : Nat)
  | gather (i : Nat)
  | merge (dst src : Nat)
  | composite (i : Nat)
  | heatmap (i : Nat)
  | draw (i : Nat)
  | recycle (i : Nat)
  | ground_truth
deriving DecidableEq, Repr

/-- The commands a pass records. -/
def Pass.cmds : Pass → List Cmd
  | .spawn i => SurfelSpawnPipeline.enqueue i
  | .count i => SurfelCountPipeline.enqueue i
  | .prefix_sum i => SurfelPrefixPipeline.enqueue_cmds i
  | .insert i => SurfelAccelerationPipeline.enqueue i
  | .gather i => SurfelGatherPipeline.enqueue i
  | .merge dst src => SurfelMergePipeline.enqueue src dst
  | .composite i => SurfelCompositePipeline.enqueue i
  | .heatmap i => SurfelHeatmapPipeline.enqueue i
  | .draw i => SurfelDrawPipeline.enqueue i
  | .recycle i => SurfelRecyclePipeline.enqueue i
  | .ground_truth => GroundTruthPipeline.enqueue

/-- A pass is one of the two debug overlays. -/
def Pass.debug : Pass → Bool
  | .heatmap _ => true
  | .draw _ => true
  | _ => false

/-- One step of `GIStage::enqueue`: a command recorded by the stage itself, a
pass, or the host reading back the live surfel count of a cascade. -/
inductive Step where
  | cmd (c : Cmd)
  | pass (p : Pass)
  | update_surfel_count (i : Nat)
deriving DecidableEq, Repr

/-- The commands a step records. -/
def Step.cmds : Step → List Cmd
  | .cmd c => [c]
  | .pass p => p.cmds
  | .update_surfel_count _ => []

/-- The switches of `GIStage` that `enqueue` reads. -/
structure GIStage where
  direct_draw : Bool := false
  heatmap : Bool := false
  debug_cascade_index : Nat := 0
  ground_truth : Bool := false
deriving DecidableEq

/-- The loop `for (uint32_t i = 0u; i < CASCADE_COUNT; ++i)` with body `f`. -/
def for_cascades (f : Nat → List Step) : List Step :=
  (List.range CASCADE_COUNT).flatMap f

/-- The method `GIStage::enqueue`: the steps in the order the method takes
them. -/
def GIStage.enqueue (self : GIStage) : List Step :=
  if self.ground_truth then [.pass .ground_truth] else
  [.cmd (Cmd.rw_image .albedo .general .shader_read_only_optimal),
   .cmd (Cmd.rw_image .normal_depth .general .shader_read_only_optimal)] ++
  for_cascades (fun i => [.cmd (Cmd.rw_barrier (.surfel_grid i))]) ++
  for_cascades (fun i => [.pass (.spawn i)]) ++
  [.cmd (Cmd.rw_image .albedo .shader_read_only_optimal .general),
   .cmd (Cmd.rw_image .normal_depth .shader_read_only_optimal .general)] ++
  for_cascades (fun i => [.cmd (.fillBuffer (.surfel_grid i))]) ++
  for_cascades (fun i => [.cmd (Cmd.rw_barrier (.surfel_grid i)),
    .cmd (Cmd.rw_barrier (.surfel_stack i))]) ++
  for_cascades (fun i => [.pass (.count i)]) ++
  for_cascades (fun i => [.pass (.prefix_sum i)]) ++
  for_cascades (fun i => [.cmd (Cmd.rw_barrier (.surfel_grid i)), .update_surfel_count i]) ++
  for_cascades (fun i => [.pass (.insert i)]) ++
  for_cascades (fun i =>
    [.cmd (.img_barrier (.surfel_rad i) .compute_shader .shader_write .undefined
        .compute_shader .shader_write .general),
     .cmd (.img_barrier (.surfel_merge i) .compute_shader .shader_write .undefined
        .compute_shader .shader_write .general),
     .cmd (Cmd.rw_barrier (.surfel_posr i))]) ++
  for_cascades (fun i => [.pass (.gather i)]) ++
  for_cascades (fun i => [.cmd (Cmd.rw_image (.surfel_rad i) .general .general)]) ++
  (List.range (CASCADE_COUNT - 1)).reverse.flatMap (fun i => [.pass (.merge i (i + 1))]) ++
  [.pass (.composite 0)] ++
  (if self.heatmap then [.pass (.heatmap self.debug_cascade_index)] else []) ++
  (if self.direct_draw then [.pass (.draw self.debug_cascade_index)] else []) ++
  for_cascades (fun i => [.cmd (Cmd.rw_barrier (.surfel_norw i))]) ++
  for_cascades (fun i => [.pass (.recycle i)])

/-- The commands the GI stage records for a frame. -/
def GIStage.record (self : GIStage) : List Cmd :=
  self.enqueue.flatMap Step.cmds

/-- What the order of the passes is about: a pass, or the clear of the grid
of cascade `i`. -/
inductive GIEvent where
  | pass (p : Pass)
  | clear_grid (i : Nat)
deriving DecidableEq, Repr

/-- The event of a step, if it is one. -/
def Step.event : Step → Option GIEvent
  | .pass p => some (.pass p)
  | .cmd (.fillBuffer (.surfel_grid i)) => some (.clear_grid i)
  | _ => none

/-- The passes and grid clears of a frame, in order. -/
def GIStage.events (self : GIStage) : List GIEvent :=
  self.enqueue.filterMap Step.event

/-- An event is one of the two debug overlays. -/
def GIEvent.debug : GIEvent → Bool
  | .pass p => p.debug
  | .clear_grid _ => false

/-- A dispatch that has buffer `b` in one of its descriptor sets. -/
def Cmd.uses (b : Buf) : Cmd → Bool
  | .dispatch _ sets => sets.any (fun s => decide (b ∈ s.buffers))
  | _ => false

/-- A barrier on buffer `b` from the transfer stage with transfer-write access
to the compute-shader stage. -/
def Cmd.transfer_guard (b : Buf) : Cmd → Bool
  | .buf_barrier b' .transfer .transfer_write .compute_shader _ => decide (b' = b)
  | _ => false

/-- A barrier on buffer `b` from compute-shader write to compute-shader
read. -/
def Cmd.compute_guard (b : Buf) : Cmd → Bool
  | .buf_barrier b' .compute_shader .shader_write .compute_shader .shader_read => decide (b' = b)
  | _ => false

/-- A barrier on buffer `b`, whatever its stages and accesses. -/
def Cmd.on_buffer (b : Buf) : Cmd → Bool
  | .buf_barrier b' _ _ _ _ => decide (b' = b)
  | _ => false

/-- In the commands that follow a clear of `b`: a guard comes before the first
dispatch that uses `b`. -/
def guarded_before_use (b : Buf) (guard : Cmd → Bool) : List Cmd → Bool
  | [] => true
  | c :: rest =>
    if c.uses b then false else if guard c then true else guarded_before_use b guard rest

/-- Every clear of a buffer that `check` selects is followed by a guard on
that buffer before the next dispatch that uses the buffer. -/
def clears_guarded (check : Buf → Bool) (guard : Buf → Cmd → Bool) : List Cmd → Bool
  | [] => true
  | .fillBuffer b :: rest =>
    (!check b || guarded_before_use b (guard b) rest) && clears_guarded check guard rest
  | _ :: rest => clears_guarded check guard rest

/-- The buffer is the grid buffer of a cascade. -/
def Buf.is_grid : Buf → Bool
  | .surfel_grid _ => true
  | _ => false

/-- A command is a barrier whose source is the transfer stage. -/
def Cmd.from_transfer : Cmd → Bool
  | .buf_barrier _ .transfer _ _ _ => true
  | .img_barrier _ .transfer _ _ _ _ _ => true
  | _ => false

/-- The order of the passes of a frame as the specification gives it, up to
the composite: spawn, the grid clears, count, prefix sum, insert and gather for
cascades `0..5`, the five merges from coarse to fine, each into destination `i`
from source `i + 1`, and one composite on cascade 0. -/
def gi_order_to_composite : List GIEvent :=
  (List.range 6).map (fun i => .pass (.spawn i)) ++
  (List.range 6).map (fun i => .clear_grid i) ++
  (List.range 6).map (fun i => .pass (.count i)) ++
  (List.range 6).map (fun i => .pass (.prefix_sum i)) ++
  (List.range 6).map (fun i => .pass (.insert i)) ++
  (List.range 6).map (fun i => .pass (.gather i)) ++
  [.pass (.merge 4 5), .pass (.merge 3 4), .pass (.merge 2 3), .pass (.merge 1 2),
   .pass (.merge 0 1)] ++
  [.pass (.composite 0)]

/-- The end of the order of the passes: recycle for cascades `0..5`. -/
def gi_order_recycle : List GIEvent :=
  (List.range 6).map (fun i => .pass (.recycle i))

/-- The debug overlays that are switched on: the heatmap, then the direct
draw, each on the debug cascade. -/
def GIStage.overlays (self : GIStage) : List GIEvent :=
  (if self.heatmap then [.pass (.heatmap self.debug_cascade_index)] else []) ++
  (if self.direct_draw then [.pass (.draw self.debug_cascade_index)] else [])

/-! ### The renderer, the frame loop and the scene BVH maintainer

Source: `platform/vulkan/renderer.cpp`, `platform/vulkan/device.cpp`,
`wyre.cpp`, `core/scene/bvh-maintainer.cpp`. -/

/-- The calls `Renderer::render` makes to its collaborators. -/
inductive RenderCall where
  /-- The three calls that start a new ImGui frame. -/
  | imgui_new_frame
  /-- The upload of the render view of the frame. -/
  | upload_render_view
  /-- The call `bvh_maintainer.maintain(engine.ecs)`. -/
  | maintain
  /-- The call `bvh_packer.package(engine.device, bvh_maintainer.bvh)`. -/
  | package
  /-- The debug overlay. -/
  | overlay
  /-- The call `geometry_stage.enqueue`. -/
  | geometry
  /-- The call `gi_stage.enqueue`. -/
  | gi
  /-- The call `final_stage.enqueue`. -/
  | final
deriving DecidableEq, Repr

/-- The method `Renderer::render`, as the calls it makes in order;
`transform` and `camera` tell whether `try_get_component` finds the
`Transform` and the `Camera` of the active camera entity. -/
def Renderer.render (transform camera : Bool) : List RenderCall :=
  [.imgui_new_frame] ++
  (if !transform || !camera then [] else
    [.upload_render_view, .maintain, .package, .overlay, .geometry, .gi, .final])

/-- The call enqueues a render stage. -/
def RenderCall.is_stage : RenderCall → Bool
  | .geometry => true
  | .gi => true
  | .final => true
  | _ => false

/-- The call maintains the BVH, packs it, or uploads to the GPU. -/
def RenderCall.is_bvh_or_upload : RenderCall → Bool
  | .maintain => true
  | .package => true
  | .upload_render_view => true
  | _ => false

/-- Modelled from the spec: the constant `BUFFERS` of `wyre/defines.h`, a
header that is not among the sources: the number `N = 3` of frame slots. -/
def BUFFERS : Nat := 3

/-- The state of an in-flight fence: signaled; unsignaled with a queue
submission made that signals it; or reset with no submission pending. -/
inductive Fence where
  | signaled
  | pending
  | reset
deriving DecidableEq, Repr

/-- The results of the Vulkan calls of `start_frame`: whether the wait on the
fence, the reset of the fence and the begin of the command buffer succeed, and
the swapchain image that the acquire returns, if it succeeds. -/
structure StartCalls where
  wait_ok : Bool := true
  reset_ok : Bool := true
  acquire : Option Nat := some 0
  begin_ok : Bool := true
deriving DecidableEq

/-- The results of the Vulkan calls of `end_frame`: whether the end of the
command buffer, the queue submit and the present succeed. -/
structure EndCalls where
  end_ok : Bool := true
  submit_ok : Bool := true
  present_ok : Bool := true
deriving DecidableEq

/-- The frame state of `Device`: the frame index `fid`, the frame buffer index
`fbi`, the swapchain image index `sci` and the in-flight fence of each frame
slot, created signaled by `init`. -/
structure Device where
  fid : Nat := 0
  fbi : Nat := 0
  sci : Nat := 0
  flight_fence : List Fence := List.replicate BUFFERS .signaled
deriving DecidableEq

/-- The in-flight fence of the current frame slot. -/
def Device.fence (d : Device) : Fence := d.flight_fence.getD d.fbi .reset

/-- The in-flight fence of the current frame slot changes state. -/
def Device.set_fence (d : Device) (f : Fence) : Device :=
  { d with flight_fence := d.flight_fence.set d.fbi f }

/-- The method `Device::start_frame`.  The result is `none` when the call
never returns: the wait on the fence has no timeout, and a fence that is reset
with no submission pending is never signaled.  A wait on a pending fence
returns when the submission has signaled it. -/
def Device.start_frame (d : Device) (vk : StartCalls) : Option (Bool × Device) :=
  let d := { d with fbi := d.fid % BUFFERS }
  if d.fence = .reset then none else
  if vk.wait_ok = false then some (false, d) else
  let d := d.set_fence .signaled
  if vk.reset_ok = false then some (false, d) else
  let d := d.set_fence .reset
  match vk.acquire with
  | none => some (false, d)
  | some image =>
    let d := { d with sci := image }
    if vk.begin_ok = false then some (false, d) else
    some (true, d)

/-- The method `Device::end_frame`.  A successful submit leaves the fence of
the slot pending; `fid` is a `uint32_t`. -/
def Device.end_frame (d : Device) (vk : EndCalls) : Device :=
  if vk.end_ok = false then d else
  if vk.submit_ok = false then d else
  let d := d.set_fence .pending
  if vk.present_ok = false then d else
  { d with fid := u32 (d.fid + 1) }

/-- The states of the device that the frame loop of `WyreEngine::run` reaches,
with the number of frames completed so far: the loop calls `start_frame` until
it returns true, and then `end_frame`. -/
inductive Device.Run : Nat → Bool → Device → Prop where
  /-- The state after `init`, before the first call of `start_frame`. -/
  | init : Device.Run 0 false {}
  /-- A call of `start_frame` that returns. -/
  | start {n : Nat} {d d' : Device} {vk : StartCalls} {b : Bool} :
      Device.Run n false d → d.start_frame vk = some (b, d') → Device.Run n b d'
  /-- A call of `end_frame` that does not complete the frame. -/
  | drop {n : Nat} {d : Device} {vk : EndCalls} :
      Device.Run n true d → (vk.end_ok && vk.submit_ok && vk.present_ok) = false →
      Device.Run n false (d.end_frame vk)
  /-- A call of `end_frame` that completes the frame. -/
  | complete {n : Nat} {d : Device} {vk : EndCalls} :
      Device.Run n true d → (vk.end_ok && vk.submit_ok && vk.present_ok) = true →
      Device.Run (n + 1) false (d.end_frame vk)

/-- No in-flight fence is reset with no submission pending. -/
def Device.NoReset (d : Device) : Prop :=
  d.flight_fence.length = BUFFERS ∧ ∀ f, f ∈ d.flight_fence → f ≠ .reset

/-- One frame in which every Vulkan call succeeds. -/
def Device.frame (d : Device) : Option Device :=
  match d.start_frame {} with
  | some (true, d') => some (d'.end_frame {})
  | _ => none

/-- The state after `n` frames in which every Vulkan call succeeds. -/
def Device.frames : Nat → Device → Option Device
  | 0, d => some d
  | n + 1, d => (Device.frames n d).bind Device.frame

/-- A drawable of the ECS as `maintain` sees it: the triangles, each with its
normals, that the loop over `tri_count` appends for the mesh, transformed by
the model matrix of its `Transform`. -/
structure Mesh where
  tris : List (Triangle × Normals)
deriving DecidableEq

/-- The meshes of the ECS that have a `Transform`. -/
structure ECS where
  meshes : List Mesh
deriving DecidableEq

/-- The triangles of the scene, in the order `maintain` collects them. -/
def ECS.tris (ecs : ECS) : List (Triangle × Normals) := ecs.meshes.flatMap Mesh.tris

/-- The state of `SceneBvhMaintainer`: the scene BVH. -/
structure SceneBvhMaintainer where
  bvh : Bvh := {}
deriving DecidableEq

/-- The method `SceneBvhMaintainer::maintain`. -/
def SceneBvhMaintainer.maintain (self : SceneBvhMaintainer) (ecs : ECS) :
    Except Fault SceneBvhMaintainer :=
  if self.bvh.prims ≠ none then .ok self else
  let triangles := ecs.tris.map Prod.fst
  let normals := ecs.tris.map Prod.snd
  match self.bvh.build (some triangles) (some normals) triangles.length with
  | .ok bvh => .ok { bvh := bvh }
  | .error e => .error e

/-- A scene of the three triangles `ex_prims` in two meshes. -/
def ex_ecs : ECS :=
  { meshes := [{ tris := [(ex_tri 4, ex_nrm 4), (ex_tri 0, ex_nrm 0)] },
               { tris := [(ex_tri 8, ex_nrm 8)] }] }

/-! ### The BVH packer, the constructor of `Bvh`, the mouse input and the validation layers

Source: `platform/vulkan/scene/bvh-packer.cpp`, `core/scene/bvh.cpp`,
`platform/windows/input.{h,cpp}`, `platform/vulkan/hardware/ext.cpp`. -/

/-- The constant `BUF_SIZE` of bvh-packer.cpp: the number of elements each GPU
buffer of the packer is allocated for. -/
def BUF_SIZE : Nat := 1056818 * 2

/-- The three GPU buffers of the packer. -/
inductive Upload where
  | bvh_nodes
  | bvh_prims
  | bvh_norms
deriving DecidableEq, Repr

/-- The state of `SceneBvhPacker` that `package` reads and writes: what the
uploads have written to the start of its three GPU buffers, and the two static
locals of `package`, which start at 0. -/
structure SceneBvhPacker where
  bvh_nodes : List GPUNode := []
  bvh_prims : List Triangle := []
  bvh_norms : List Normals := []
  pre_nodes_used : Nat := 0
  pre_prim_count : Nat := 0
deriving DecidableEq

/-- The size `sizeof(Bvh::GPUNode)`: four `vec3` and four `uint32_t`. -/
def sizeof_GPUNode : Nat := 64

/-- The size `sizeof(Triangle)`: three `vec3` and three `float`. -/
def sizeof_Triangle : Nat := 48

/-- The size `sizeof(Normals)`: three `vec3` and three `float`. -/
def sizeof_Normals : Nat := 48

/-- The call `buf::upload(device, dst, data, sizeof(T) * count)` on one of the
buffers of the packer: `count` elements of the host array `data` are copied to
the start of the buffer through a staging buffer.  The result is the returned
flag and the buffer after the call.  The call returns false when the staging
buffer is not created, when the data is not written to it, and when the copy
fails; the buffer is then taken as it was.  Reading a null or too short host
array and copying beyond the `BUF_SIZE` elements of the buffer are undefined;
the host array is read whenever the staging buffer exists and the copy command
is recorded whenever the first two steps have succeeded. -/
def pack_upload {α : Type} (allocator : VmaAllocator) (sizeof_T : Nat) (dst : List α)
    (data : Option (List α)) (count : Nat) : Except Trap (Bool × List α) :=
  if allocator.stage_alloc (sizeof_T * count) = false then .ok (false, dst)
  else
    match data with
    | none => .error .host_index
    | some data =>
      if data.length < count then .error .host_index
      else if allocator.stage_write (sizeof_T * count) = false then .ok (false, dst)
      else if BUF_SIZE < count then .error .copy_range
      else if allocator.stage_copy (sizeof_T * count) = false then .ok (false, dst)
      else .ok (true, data.take count ++ dst.drop count)

/-- The method `SceneBvhPacker::package`.  The result is the packer after the
call and the buffers for which the call has called `buf::upload`, in order.
The flags that `buf::upload` returns are discarded, as in the source. -/
def SceneBvhPacker.package (self : SceneBvhPacker) (allocator : VmaAllocator) (bvh : Bvh) :
    Except Trap (SceneBvhPacker × List Upload) := do
  let (self, done) ←
    if bvh.gpu_nodes ≠ none ∧ self.pre_nodes_used ≠ bvh.nodes_used then do
      let up ← pack_upload allocator sizeof_GPUNode self.bvh_nodes bvh.gpu_nodes bvh.nodes_used
      pure ({ self with bvh_nodes := up.2, pre_nodes_used := bvh.nodes_used }, [Upload.bvh_nodes])
    else pure (self, [])
  if bvh.prims ≠ none ∧ self.pre_prim_count ≠ bvh.prim_count then do
    let up ← pack_upload allocator sizeof_Triangle self.bvh_prims bvh.prims bvh.prim_count
    let self := { self with bvh_prims := up.2 }
    let up ← pack_upload allocator sizeof_Normals self.bvh_norms bvh.norms bvh.prim_count
    pure ({ self with bvh_norms := up.2, pre_prim_count := bvh.prim_count },
      done ++ [Upload.bvh_prims, Upload.bvh_norms])
  else pure (self, done)

/-- A BVH as a completed `build` leaves it: the three arrays are allocated,
`gpu_nodes` with `nodes_used` entries, `prims` and `norms` with `prim_count`
entries. -/
def Bvh.built (b : Bvh) : Prop :=
  ∃ gpu prims norms, b.gpu_nodes = some gpu ∧ b.prims = some prims ∧ b.norms = some norms ∧
    gpu.length = b.nodes_used ∧ prims.length = b.prim_count ∧ norms.length = b.prim_count

/-- Three copies of one triangle. -/
def same_prims : List Triangle := [ex_tri 0, ex_tri 0, ex_tri 0]

/-- The normals that go with `same_prims`. -/
def same_norms : List Normals := [ex_nrm 0, ex_nrm 0, ex_nrm 0]

/-- The state `build` reaches on `same_prims`: the root stays a leaf. -/
def same_bvh : Bvh :=
  { nodes := some [⟨⟨0, 0, 0⟩, 0, ⟨1, 1, 0⟩, 3⟩, Node.zero, Node.zero, Node.zero, Node.zero,
                   Node.zero],
    nodes_used := 2
    size := 3
    prims := some same_prims
    norms := some same_norms
    prim_count := 3
    gpu_nodes := some [{ GPUNode.zero with prim_count := 3 }, GPUNode.zero] }

/-- The constructor `Bvh::Bvh(prims, norms, prim_count)`: it calls `build` on a
default-initialised `Bvh` with the member `size` as the count, which holds its
default initialiser, and not with the parameter `prim_count`. -/
def Bvh.create (prims : Option (List Triangle)) (norms : Option (List Normals))
    (_prim_count : Nat) : Except Fault Bvh :=
  ({} : Bvh).build prims norms ({} : Bvh).size

/-- Three copies of a triangle with legs of length `2 ^ 60`. -/
def huge_prims : List Triangle :=
  List.replicate 3 ⟨⟨0, 0, 0⟩, 1, ⟨2 ^ 60, 0, 0⟩, 1, ⟨0, 2 ^ 60, 0⟩, 1⟩

/-- Modelled from the spec: the type `MouseButton` of `keycodes.h`, a header
that is not among the sources.  A mouse button is the integer it converts to
in `button >= 3`, `button - 1` and `(size_t)button`. -/
abbrev MouseButton : Type := Int

/-- The exception `std::out_of_range` that `std::array::at` throws. -/
inductive Thrown where
  | out_of_range
deriving DecidableEq, Repr

/-- The mouse state of `Input`: the three 3-entry arrays, as the constructor
fills them. -/
structure Input where
  mouse_down : List Bool := List.replicate 3 false
  mouse_up : List Bool := List.replicate 3 false
  mouse_held : List Bool := List.replicate 3 false
deriving DecidableEq

/-- The read `a->at((size_t)button)`: a negative button converts to an index
beyond the array. -/
def Input.at (a : List Bool) (button : MouseButton) : Except Thrown Bool :=
  if button < 0 then .error .out_of_range
  else match a[button.toNat]? with
    | some v => .ok v
    | none => .error .out_of_range

/-- The write `a->at((size_t)button) = v`. -/
def Input.put (a : List Bool) (button : MouseButton) (v : Bool) : Except Thrown (List Bool) :=
  if button < 0 then .error .out_of_range
  else if button.toNat < a.length then .ok (a.set button.toNat v)
  else .error .out_of_range

/-- The method `Input::set_mouse_down`. -/
def Input.set_mouse_down (self : Input) (button : MouseButton) : Except Thrown Input := do
  if button ≥ 3 then return self
  let button := button - 1
  let held ← Input.at self.mouse_held button
  if held = true then return self
  let mouse_down ← Input.put self.mouse_down button true
  let mouse_held ← Input.put self.mouse_held button true
  return { self with mouse_down := mouse_down, mouse_held := mouse_held }

/-- The method `Input::set_mouse_up`. -/
def Input.set_mouse_up (self : Input) (button : MouseButton) : Except Thrown Input := do
  if button ≥ 3 then return self
  let button := button - 1
  let mouse_up ← Input.put self.mouse_up button true
  let mouse_held ← Input.put self.mouse_held button false
  return { self with mouse_up := mouse_up, mouse_held := mouse_held }

/-- The mouse part of the method `Input::clear_state`. -/
def Input.clear_state (self : Input) : Input :=
  { self with mouse_down := List.replicate 3 false, mouse_up := List.replicate 3 false }

/-- The method `Input::is_mouse_down`. -/
def Input.is_mouse_down (self : Input) (button : MouseButton) : Except Thrown Bool :=
  Input.at self.mouse_down button

/-- The method `Input::is_mouse_up`. -/
def Input.is_mouse_up (self : Input) (button : MouseButton) : Except Thrown Bool :=
  Input.at self.mouse_up button

/-- The method `Input::is_mouse_held`. -/
def Input.is_mouse_held (self : Input) (button : MouseButton) : Except Thrown Bool :=
  Input.at self.mouse_held button

/-- The function `strcmp` of the C library: 0 when the two strings are equal,
negative or positive as the first is before or after the second in
lexicographic order. -/
def strcmp (a b : String) : Int :=
  if a = b then 0 else if a.data < b.data then -1 else 1

/-- The struct `vk::LayerProperties`, reduced to the member the code reads. -/
structure LayerProperties where
  layerName : String
deriving DecidableEq

/-- The inner loop of `validate_layers`: `found` after the pass over the
available layers. -/
def layer_found (layer : String) (available : List LayerProperties) : Bool :=
  available.foldl (fun found available_layer =>
    if strcmp available_layer.layerName layer ≠ 0 then true else found) false

/-- The function `validate_layers`. -/
def validate_layers : List String → List LayerProperties → Bool
  | [], _ => true
  | layer :: required, available =>
    if layer_found layer available = false then false else validate_layers required available

/-- The local `prio_list` of `get_optimal_validation_layers`. -/
def prio_list : List (List String) :=
  [["VK_LAYER_KHRONOS_validation"],
   ["VK_LAYER_LUNARG_standard_validation"],
   ["VK_LAYER_GOOGLE_threading", "VK_LAYER_LUNARG_parameter_validation",
    "VK_LAYER_LUNARG_object_tracker", "VK_LAYER_LUNARG_core_validation",
    "VK_LAYER_GOOGLE_unique_objects"],
   ["VK_LAYER_LUNARG_core_validation"]]

/-- The loop over the priority list of `get_optimal_validation_layers`. -/
def first_valid : List (List String) → List LayerProperties → List String
  | [], _ => []
  | layers :: rest, supported =>
    if validate_layers layers supported then layers else first_valid rest supported

/-- The function `get_optimal_validation_layers`. -/
def get_optimal_validation_layers (supported_instance_layers : List LayerProperties) :
    List String :=
  first_valid prio_list supported_instance_layers

/-- The group count of the dispatch of kernel A in
`SurfelPrefixPipeline::enqueue`: `cells / THREAD_GROUP_SIZE`, with
`cells = cascade.surfel_grid.size / sizeof(uint32_t)` as a `uint32_t`. -/
def SurfelPrefixPipeline.sum_groups (cascade : SurfelCascadeResources) : Nat :=
  u32 (cascade.surfel_grid.size / 4) / THREAD_GROUP_SIZE

/-- The defaults with a grid of `1024 * 1024 - 1` cells. -/
def wide_params : SurfelCascadeParameters :=
  { SurfelCascadeParameters.create with c0_grid_capacity := 1024 * 1024 - 1 }

/-! ### The split search of the BVH build, as functions of the triangles of a node -/

/-- Component `a` of a vector, for an axis `a` of 0, 1, 2. -/
def Vec3.comp (v : Vec3) (a : Nat) : ℚ :=
  if a = 0 then v.x else if a = 1 then v.y else v.z

/-- The coordinate `prim.get_centroid()[a]` of a triangle, for an axis `a` of
0, 1, 2. -/
def Triangle.centre (p : Triangle) (a : Nat) : ℚ := p.get_centroid.comp a

/-- The value `bmin` that the first loop of `find_best_split` computes on axis
`a` for a node with the triangles `ts`. -/
def centre_min (ts : List Triangle) (a : Nat) : ℚ :=
  ts.foldl (fun bmin p => fminf bmin (p.centre a)) f1e30

/-- The value `bmax` that the first loop of `find_best_split` computes on axis
`a` for a node with the triangles `ts`. -/
def centre_max (ts : List Triangle) (a : Nat) : ℚ :=
  ts.foldl (fun bmax p => fmaxf bmax (p.centre a)) (-f1e30)

/-- The position `t = bmin + scale * (i + 1u)` of plane `i` on axis `a`, with
`scale = (bmax - bmin) / BINS`, every operation rounded. -/
def plane_t (ts : List Triangle) (a i : Nat) : ℚ :=
  fadd (centre_min ts a)
    (fmul (fdiv (fsub (centre_max ts a) (centre_min ts a)) (of_u32 BINS)) (of_u32 (i + 1)))

/-- The bin `bin_idx = (int)fminf(BINS - 1u, (centroid[a] - bmin) * scale)` of a
triangle with centroid coordinate `c`. -/
def bin_index (bmin scale c : ℚ) : Nat :=
  (to_int (fminf (of_u32 (BINS - 1)) (fmul (fsub c bmin) scale))).toNat

/-- The value `scale = (float)BINS / (bmax - bmin)` of the second loop of
`find_best_split` on axis `a`. -/
def bin_scale (ts : List Triangle) (a : Nat) : ℚ :=
  fdiv (of_u32 BINS) (fsub (centre_max ts a) (centre_min ts a))

/-- The bin into which the second loop of `find_best_split` on axis `a` puts
the triangle `p` of a node with the triangles `ts`. -/
def bin_of (ts : List Triangle) (a : Nat) (p : Triangle) : Nat :=
  bin_index (centre_min ts a) (bin_scale ts a) (p.centre a)

/-- Body of the second loop of `find_best_split` for the triangle `p`. -/
def bin_put (a : Nat) (bmin scale : ℚ) (bins : List Bin) (p : Triangle) : List Bin :=
  match bins[bin_index bmin scale (p.centre a)]? with
  | some bin =>
    bins.set (bin_index bmin scale (p.centre a))
      { aabb := (bin.aabb.grow p.get_aabb.min).grow p.get_aabb.max,
        prim_count := bin.prim_count + 1 }
  | none => bins

/-- The bins that the second loop of `find_best_split` fills on axis `a` for a
node with the triangles `ts`. -/
def binned (ts : List Triangle) (a : Nat) : List Bin :=
  ts.foldl (bin_put a (centre_min ts a) (bin_scale ts a)) (List.replicate BINS {})

/-- The entry `l_counts[i]` of the third loop of `find_best_split`. -/
def left_count (bins : List Bin) (i : Nat) : Nat :=
  (bins.take (i + 1)).foldl (fun sum b => sum + b.prim_count) 0

/-- The entry `r_counts[i]` of the third loop of `find_best_split`. -/
def right_count (bins : List Bin) (i : Nat) : Nat :=
  (bins.drop (i + 1)).reverse.foldl (fun sum b => sum + b.prim_count) 0

/-- The box `l_aabb` of which `l_areas[i]` is the area. -/
def left_box (bins : List Bin) (i : Nat) : AABB :=
  (bins.take (i + 1)).foldl (fun box b => box.grow_aabb b.aabb) {}

/-- The box `r_aabb` of which `r_areas[i]` is the area. -/
def right_box (bins : List Bin) (i : Nat) : AABB :=
  (bins.drop (i + 1)).reverse.foldl (fun box b => box.grow_aabb b.aabb) {}

/-- The value `plane_cost` of plane `i` in the fourth loop of
`find_best_split`. -/
def plane_cost (bins : List Bin) (i : Nat) : ℚ :=
  fadd (fmul (of_u32 (left_count bins i)) (left_box bins i).area)
    (fmul (of_u32 (right_count bins i)) (right_box bins i).area)

/-- The box of the triangles `ts`: the union of their boxes, which is the
default box when there is no triangle. -/
def bounds (ts : List Triangle) : AABB := { min := lo ts, max := hi ts }

/-- The product `n * area` of the number of the triangles `ts` and the
`AABB::area` of their box, as `find_best_split` computes it for one side of a
plane. -/
def side_cost (ts : List Triangle) : ℚ := fmul (of_u32 ts.length) (bounds ts).area

/-- The cost `nL * areaL + nR * areaR` of splitting the triangles `ts` at the
plane `t` of axis `a`: `L` are the triangles with centroid below the plane, `R`
the others, and the areas are `AABB::area` of the boxes of `L` and of `R`. -/
def sah_cost (ts : List Triangle) (a : Nat) (t : ℚ) : ℚ :=
  fadd (side_cost (ts.filter (fun p => decide (p.centre a < t))))
    (side_cost (ts.filter (fun p => !decide (p.centre a < t))))

/-- The cost `nL * areaL + nR * areaR` of plane `i` of axis `a` with the sides
that the bins give: `L` are the triangles of the bins `0..i`, `R` those of the
bins `i + 1..7`. -/
def bin_cost (ts : List Triangle) (a i : Nat) : ℚ :=
  fadd (side_cost (ts.filter (fun p => decide (bin_of ts a p ≤ i))))
    (side_cost (ts.filter (fun p => !decide (bin_of ts a p ≤ i))))

/-- The centroids of the triangles `ts` are not all equal on axis `a`. -/
def Spread (ts : List Triangle) (a : Nat) : Prop :=
  ∃ p q, p ∈ ts ∧ q ∈ ts ∧ p.centre a ≠ q.centre a

/-- Every coordinate of the vector is strictly between `-2 ^ 99` and `2 ^ 99`.
The bound is the greatest power of two below `1e30`: it keeps the coordinates,
and the centroids computed from them, off the values `1e30` and `-1e30` that
the source uses for an empty box and for the start of `bmin` and `bmax`. -/
def Vec3.in_range (v : Vec3) : Prop :=
  (-2 ^ 99 < v.x ∧ v.x < 2 ^ 99) ∧ (-2 ^ 99 < v.y ∧ v.y < 2 ^ 99) ∧
    (-2 ^ 99 < v.z ∧ v.z < 2 ^ 99)

/-- Every vertex coordinate of the triangle is strictly between `-2 ^ 99` and
`2 ^ 99`. -/
def Triangle.in_range (p : Triangle) : Prop :=
  p.v0.in_range ∧ p.v1.in_range ∧ p.v2.in_range

/-- The value `scale = (float)BINS / (bmax - bmin)` is a finite binary32 number
on every axis: the division does not overflow. -/
def scale_finite (ts : List Triangle) : Prop := ∀ a, a < 3 → bin_scale ts a < 2 ^ 128

/-- The example triangle `ex_tri a` scaled by `2 ^ 55`. -/
def big_tri (a : ℚ) : Triangle :=
  ⟨⟨a * 2 ^ 55, 0, 0⟩, 1, ⟨(a + 1) * 2 ^ 55, 0, 0⟩, 1, ⟨a * 2 ^ 55, 2 ^ 55, 0⟩, 1⟩

/-- Three large triangles with distinct centroids. -/
def big_prims : List Triangle := [big_tri 4, big_tri 0, big_tri 8]

/-- The example triangle `ex_tri a` turned into the plane `x = 1e30`. -/
def edge_tri (a : ℚ) : Triangle :=
  ⟨⟨f1e30, a, 0⟩, 1, ⟨f1e30, a + 1, 0⟩, 1, ⟨f1e30, a, 1⟩, 1⟩

/-- Three triangles in the plane `x = 1e30`. -/
def edge_prims : List Triangle := [edge_tri 4, edge_tri 0, edge_tri 8]

/-- The degenerate triangle with its three vertices at `v`. -/
def point_tri (v : Vec3) : Triangle := ⟨v, 1, v, 1, v, 1⟩

/-- Three point triangles on the x axis, at `2 ^ 24`, `2 ^ 24` and `2 ^ 24 + 2`,
three binary32 numbers. -/
def near_prims : List Triangle :=
  [point_tri ⟨2 ^ 24, 0, 0⟩, point_tri ⟨2 ^ 24, 0, 0⟩, point_tri ⟨2 ^ 24 + 2, 0, 0⟩]

/-- The thin triangle in the plane `x = a` with the corners `(a, 0, 0)`,
`(a, 8195, 0)` and `(a, 0, 0)`. -/
def thin_tri (a : ℚ) : Triangle := ⟨⟨a, 0, 0⟩, 1, ⟨a, 8195, 0⟩, 1, ⟨a, 0, 0⟩, 1⟩

/-- Five thin triangles, two in the plane `x = 0` and three in the plane
`x = 1`. -/
def thin_prims : List Triangle := [thin_tri 0, thin_tri 0, thin_tri 1, thin_tri 1, thin_tri 1]

/-- Normals for the five triangles of `thin_prims`. -/
def thin_norms : List Normals := List.replicate 5 (ex_nrm 0)

/-! ### A scene on which the hierarchy is a chain of 65 internal nodes -/

/-- The point with coordinate `c` on axis `a` and 0 on the two others. -/
def axis_point (a : Nat) (c : ℚ) : Vec3 :=
  if a = 0 then ⟨c, 0, 0⟩ else if a = 1 then ⟨0, c, 0⟩ else ⟨0, 0, c⟩

/-- Rung `k` of axis `a`: the point triangle at `16 ^ (k + 1) / 2 ^ 44` on the
axis, a power of two. -/
def rung (a k : Nat) : Triangle := point_tri (axis_point a (16 ^ (k + 1) / 2 ^ 44))

/-- The first `n` rungs of axis `a`. -/
def rungs (a n : Nat) : List Triangle := (List.range n).map (rung a)

/-- Two point triangles at the origin and the first `kx`, `ky` and `kz` rungs
of the three axes. -/
def ladder (kx ky kz : Nat) : List Triangle :=
  [point_tri ⟨0, 0, 0⟩, point_tri ⟨0, 0, 0⟩] ++ rungs 0 kx ++ rungs 1 ky ++ rungs 2 kz

/-- The number of rungs of axis `a` in `ladder kx ky kz`. -/
def rung_count (kx ky kz a : Nat) : Nat := if a = 0 then kx else if a = 1 then ky else kz

/-- A scene of 67 triangles, with coordinates between `2 ^ (-40)` and `2 ^ 44`. -/
def ladder_prims : List Triangle := ladder 22 22 21

/-- Normals for the 67 triangles of `ladder_prims`. -/
def ladder_norms : List Normals := List.replicate 67 (ex_nrm 0)

/-- The node `idx` of the pool heads a chain of `d` internal nodes, each the
left child of the one before it, with the two children of each in the pool. -/
def Spine (nodes : List Node) : Nat → Nat → Prop
  | _, 0 => True
  | idx, d + 1 => ∃ nd l r, nodes[idx]? = some nd ∧ nd.prim_count = 0 ∧
      nodes[nd.left_first]? = some l ∧ nodes[nd.left_first + 1]? = some r ∧
      Spine nodes nd.left_first d

/-! ## Rounding to binary32 -/

theorem bit_step_inv (k n : Nat) (p : Nat × Nat)
    (h : 1 ≤ p.1 ∧ p.1 * 2 ^ p.2 ≤ n ∧ n < (p.1 + 1) * 2 ^ p.2) :
    1 ≤ (bit_step k p).1 ∧ (bit_step k p).1 * 2 ^ (bit_step k p).2 ≤ n ∧
      n < ((bit_step k p).1 + 1) * 2 ^ (bit_step k p).2 := by
  obtain ⟨h1, h2, h3⟩ := h
  unfold bit_step
  split_ifs with hk
  · simp only
    have hpos : 0 < 2 ^ k := by positivity
    refine ⟨Nat.div_pos hk hpos, ?_, ?_⟩
    · calc p.1 / 2 ^ k * 2 ^ (p.2 + k) = (p.1 / 2 ^ k * 2 ^ k) * 2 ^ p.2 := by
            rw [pow_add]; ring
        _ ≤ p.1 * 2 ^ p.2 := Nat.mul_le_mul_right _ (Nat.div_mul_le_self _ _)
        _ ≤ n := h2
    · have hlt : p.1 < (p.1 / 2 ^ k + 1) * 2 ^ k := by
        have := Nat.lt_succ_self (p.1 / 2 ^ k)
        have h' := (Nat.div_lt_iff_lt_mul hpos).1 this
        simpa [Nat.succ_eq_add_one] using h'
      calc n < (p.1 + 1) * 2 ^ p.2 := h3
        _ ≤ ((p.1 / 2 ^ k + 1) * 2 ^ k) * 2 ^ p.2 := Nat.mul_le_mul_right _ hlt
        _ = (p.1 / 2 ^ k + 1) * 2 ^ (p.2 + k) := by rw [pow_add]; ring
  · exact ⟨h1, h2, h3⟩

theorem bit_step_lt (k : Nat) (p : Nat × Nat) (h : p.1 < 2 ^ (2 * k)) :
    (bit_step k p).1 < 2 ^ k := by
  unfold bit_step
  split_ifs with hk
  · simp only
    apply Nat.div_lt_of_lt_mul
    rwa [← pow_add, ← two_mul]
  · exact not_le.1 hk

theorem bits64_spec (n : Nat) (h1 : 1 ≤ n) (h : n < 2 ^ 64) :
    2 ^ bits64 n ≤ n ∧ n < 2 ^ (bits64 n + 1) := by
  have i0 : 1 ≤ ((n, 0) : Nat × Nat).1 ∧ ((n, 0) : Nat × Nat).1 * 2 ^ ((n, 0) : Nat × Nat).2 ≤ n ∧
      n < (((n, 0) : Nat × Nat).1 + 1) * 2 ^ ((n, 0) : Nat × Nat).2 := by
    simp only [pow_zero, mul_one]
    exact ⟨h1, le_refl _, Nat.lt_succ_self _⟩
  have i1 := bit_step_inv 32 n _ i0
  have l1 := bit_step_lt 32 (n, 0) h
  have i2 := bit_step_inv 16 n _ i1
  have l2 := bit_step_lt 16 _ l1
  have i3 := bit_step_inv 8 n _ i2
  have l3 := bit_step_lt 8 _ l2
  have i4 := bit_step_inv 4 n _ i3
  have l4 := bit_step_lt 4 _ l3
  have i5 := bit_step_inv 2 n _ i4
  have l5 := bit_step_lt 2 _ l4
  have i6 := bit_step_inv 1 n _ i5
  have l6 := bit_step_lt 1 _ l5
  unfold bits64
  generalize bit_step 1 (bit_step 2 (bit_step 4 (bit_step 8 (bit_step 16
    (bit_step 32 (n, 0)))))) = p at i6 l6
  obtain ⟨a1, a2, a3⟩ := i6
  have e : p.1 = 1 := by omega
  rw [e] at a2 a3
  constructor
  · simpa using a2
  · rw [pow_succ]
    omega

theorem bits_spec : ∀ (f n : Nat), 1 ≤ n → n ≤ f →
    2 ^ bits f n ≤ n ∧ n < 2 ^ (bits f n + 1) := by
  intro f
  induction f with
  | zero => intro n h1 h2; omega
  | succ f ih =>
    intro n h1 hf
    rw [bits]
    split_ifs with h
    · exact bits64_spec n h1 h
    · have h64 : 2 ^ 64 ≤ n := not_lt.1 h
      have hpos : 0 < 2 ^ 64 := by norm_num
      have hd1 : 1 ≤ n / 2 ^ 64 := Nat.div_pos h64 hpos
      have hdf : n / 2 ^ 64 ≤ f := by
        have : n / 2 ^ 64 < n := Nat.div_lt_self (by omega) (by norm_num)
        omega
      obtain ⟨b1, b2⟩ := ih (n / 2 ^ 64) hd1 hdf
      constructor
      · calc 2 ^ (bits f (n / 2 ^ 64) + 64) = 2 ^ bits f (n / 2 ^ 64) * 2 ^ 64 := pow_add _ _ _
          _ ≤ n / 2 ^ 64 * 2 ^ 64 := Nat.mul_le_mul_right _ b1
          _ ≤ n := Nat.div_mul_le_self _ _
      · have hlt : n < (n / 2 ^ 64 + 1) * 2 ^ 64 := by
          have := Nat.lt_succ_self (n / 2 ^ 64)
          have h' := (Nat.div_lt_iff_lt_mul hpos).1 this
          simpa [Nat.succ_eq_add_one] using h'
        calc n < (n / 2 ^ 64 + 1) * 2 ^ 64 := hlt
          _ ≤ 2 ^ (bits f (n / 2 ^ 64) + 1) * 2 ^ 64 := Nat.mul_le_mul_right _ b2
          _ = 2 ^ (bits f (n / 2 ^ 64) + 64 + 1) := by rw [← pow_add]

theorem div_even_rne (a d : Nat) (hd : 0 < d) : Rne ((a : ℚ) / d) (div_even a d : Nat) := by
  have hdq : (0 : ℚ) < d := by exact_mod_cast hd
  have hsplit : (a : ℚ) = d * ((a / d : Nat) : ℚ) + ((a % d : Nat) : ℚ) := by
    exact_mod_cast (Nat.div_add_mod a d).symm
  have hz : (a : ℚ) / d = ((a / d : Nat) : ℚ) + ((a % d : Nat) : ℚ) / d := by
    field_simp
    linarith
  have h0 : (0 : ℚ) ≤ ((a % d : Nat) : ℚ) / d := by positivity
  have hr : a % d < d := Nat.mod_lt _ hd
  unfold div_even Rne
  simp only
  rw [hz]
  generalize a / d = k
  generalize ha : a % d = r at h0 hr
  clear hz hsplit ha
  split_ifs with h1 h2 h3
  · have hlt : (r : ℚ) / d < 1 / 2 := by
      rw [div_lt_iff₀ hdq]
      have : ((2 * r : Nat) : ℚ) < d := by exact_mod_cast h1
      push_cast at this
      linarith
    push_cast
    refine ⟨by linarith, by linarith, ?_⟩
    rintro (h | h) <;> linarith
  · have hgt : 1 / 2 < (r : ℚ) / d := by
      rw [lt_div_iff₀ hdq]
      have : (d : ℚ) < ((2 * r : Nat) : ℚ) := by exact_mod_cast h2
      push_cast at this
      linarith
    have hrq : (r : ℚ) / d < 1 := by
      rw [div_lt_one hdq]
      exact_mod_cast hr
    push_cast
    refine ⟨by linarith, by linarith, ?_⟩
    rintro (h | h) <;> linarith
  · have heq : (r : ℚ) / d = 1 / 2 := by
      have e : 2 * r = d := by omega
      rw [div_eq_iff hdq.ne']
      have : ((2 * r : Nat) : ℚ) = d := by exact_mod_cast e
      push_cast at this
      linarith
    push_cast
    refine ⟨by linarith, by linarith, ?_⟩
    intro _
    omega
  · have heq : (r : ℚ) / d = 1 / 2 := by
      have e : 2 * r = d := by omega
      rw [div_eq_iff hdq.ne']
      have : ((2 * r : Nat) : ℚ) = d := by exact_mod_cast e
      push_cast at this
      linarith
    push_cast
    refine ⟨by linarith, by linarith, ?_⟩
    intro _
    omega

theorem Rne.le_of_le {z z' : ℚ} {m m' : Int} (h : Rne z m) (h' : Rne z' m') (hz : z ≤ z') :
    m ≤ m' := by
  by_contra hlt
  have h1 : m' + 1 ≤ m := by omega
  have h1q : (m' : ℚ) + 1 ≤ m := by exact_mod_cast h1
  obtain ⟨a1, a2, a3⟩ := h
  obtain ⟨b1, b2, b3⟩ := h'
  have e1 : z = (m : ℚ) - 1 / 2 := by linarith
  have e2 : z' = (m' : ℚ) + 1 / 2 := by linarith
  have e3 : (m : ℚ) = m' + 1 := by linarith
  have e3' : m = m' + 1 := by exact_mod_cast e3
  have := a3 (Or.inl e1)
  have := b3 (Or.inr e2)
  omega

theorem Rne.int {k m : Int} (h : Rne (k : ℚ) m) : m = k := by
  obtain ⟨a1, a2, _⟩ := h
  have h1 : (m : ℚ) < k + 1 := by linarith
  have h2 : (k : ℚ) < m + 1 := by linarith
  have h1' : m < k + 1 := by exact_mod_cast h1
  have h2' : k < m + 1 := by exact_mod_cast h2
  omega

theorem Rne.le_of_lt {z : ℚ} {m n : Int} (h : Rne z m) (hz : z < n) : m ≤ n := by
  obtain ⟨a1, _, _⟩ := h
  have : (m : ℚ) < n + 1 := by linarith
  have : m < n + 1 := by exact_mod_cast this
  omega

theorem Rne.ge_of_le {z : ℚ} {m n : Int} (h : Rne z m) (hz : (n : ℚ) ≤ z) : n ≤ m := by
  obtain ⟨_, a2, _⟩ := h
  have : (n : ℚ) < m + 1 := by linarith
  have : n < m + 1 := by exact_mod_cast this
  omega

theorem zpow_split (z : Int) :
    (2 : ℚ) ^ z = ((2 ^ z.toNat : Nat) : ℚ) / ((2 ^ (-z).toNat : Nat) : ℚ) := by
  rcases le_total 0 z with h | h
  · have e1 : (-z).toNat = 0 := Int.toNat_eq_zero.2 (by omega)
    rw [e1]
    simp only [pow_zero, Nat.cast_one, div_one, Nat.cast_pow, Nat.cast_ofNat]
    conv_lhs => rw [← Int.toNat_of_nonneg h]
    rw [zpow_natCast]
  · have e1 : z.toNat = 0 := Int.toNat_eq_zero.2 h
    rw [e1]
    simp only [pow_zero, Nat.cast_one, one_div, Nat.cast_pow, Nat.cast_ofNat]
    have e2 : z = -((-z).toNat : Int) := by
      rw [Int.toNat_of_nonneg (by omega)]
      omega
    conv_lhs => rw [e2]
    rw [zpow_neg, zpow_natCast]

theorem two_zpow_pos (z : Int) : (0 : ℚ) < 2 ^ z := zpow_pos (by norm_num) z

theorem two_zpow_le {a b : Int} (h : a ≤ b) : (2 : ℚ) ^ a ≤ 2 ^ b :=
  zpow_le_zpow_right₀ (by norm_num) h

theorem two_zpow_lt_inv {a b : Int} (h : (2 : ℚ) ^ a < 2 ^ b) : a < b := by
  by_contra hge
  exact absurd (two_zpow_le (not_lt.1 hge)) (not_le.2 h)

/-- The grid of `fl` at a positive value: its exponent `s` is at least `-149`,
the value is below `2 ^ (s + 24)`, and at least `2 ^ (s + 23)` when `s` is
above `-149`. -/
theorem grid_exp_spec (a d : Nat) (ha : 0 < a) (hd : 0 < d) :
    -149 ≤ grid_exp a d ∧ (a : ℚ) / d < 2 ^ (grid_exp a d + 24) ∧
      (-149 < grid_exp a d → (2 : ℚ) ^ (grid_exp a d + 23) ≤ (a : ℚ) / d) := by
  obtain ⟨a1, a2⟩ := bits_spec a a ha (le_refl _)
  obtain ⟨d1, d2⟩ := bits_spec d d hd (le_refl _)
  have hdq : (0 : ℚ) < d := by exact_mod_cast hd
  have a1q : ((2 : ℚ) ^ (bits a a : Int)) ≤ a := by
    rw [zpow_natCast]; exact_mod_cast a1
  have a2q : (a : ℚ) < (2 : ℚ) ^ ((bits a a : Int) + 1) := by
    have : (a : ℚ) < ((2 ^ (bits a a + 1) : Nat) : ℚ) := by exact_mod_cast a2
    rw [show ((bits a a : Int) + 1) = ((bits a a + 1 : Nat) : Int) by push_cast; rfl,
      zpow_natCast]
    exact_mod_cast a2
  have d1q : ((2 : ℚ) ^ (bits d d : Int)) ≤ d := by
    rw [zpow_natCast]; exact_mod_cast d1
  have d2q : (d : ℚ) < (2 : ℚ) ^ ((bits d d : Int) + 1) := by
    rw [show ((bits d d : Int) + 1) = ((bits d d + 1 : Nat) : Int) by push_cast; rfl,
      zpow_natCast]
    exact_mod_cast d2
  -- the quotient lies strictly between 2 ^ (e0 - 1) and 2 ^ (e0 + 1)
  have hup : (a : ℚ) / d < 2 ^ ((bits a a : Int) - (bits d d : Int) + 1) := by
    rw [div_lt_iff₀ hdq]
    calc (a : ℚ) < 2 ^ ((bits a a : Int) + 1) := a2q
      _ = 2 ^ ((bits a a : Int) - (bits d d : Int) + 1) * 2 ^ (bits d d : Int) := by
          rw [← zpow_add₀ (by norm_num)]; congr 1; ring
      _ ≤ 2 ^ ((bits a a : Int) - (bits d d : Int) + 1) * d :=
          mul_le_mul_of_nonneg_left d1q (two_zpow_pos _).le
  have hlow : (2 : ℚ) ^ ((bits a a : Int) - (bits d d : Int) - 1) ≤ (a : ℚ) / d := by
    rw [le_div_iff₀ hdq]
    calc (2 : ℚ) ^ ((bits a a : Int) - (bits d d : Int) - 1) * d
        ≤ 2 ^ ((bits a a : Int) - (bits d d : Int) - 1) * 2 ^ ((bits d d : Int) + 1) :=
          mul_le_mul_of_nonneg_left d2q.le (two_zpow_pos _).le
      _ = 2 ^ (bits a a : Int) := by
          rw [← zpow_add₀ (by norm_num)]; congr 1; ring
      _ ≤ a := a1q
  have hcond : (d * 2 ^ ((bits a a : Int) - (bits d d : Int)).toNat ≤
      a * 2 ^ (-((bits a a : Int) - (bits d d : Int))).toNat) ↔
      (2 : ℚ) ^ ((bits a a : Int) - (bits d d : Int)) ≤ (a : ℚ) / d := by
    rw [zpow_split, le_div_iff₀ hdq, div_mul_eq_mul_div, div_le_iff₀ (by positivity)]
    constructor
    · intro h
      have : ((d * 2 ^ ((bits a a : Int) - (bits d d : Int)).toNat : Nat) : ℚ) ≤
          ((a * 2 ^ (-((bits a a : Int) - (bits d d : Int))).toNat : Nat) : ℚ) := by
        exact_mod_cast h
      push_cast at this ⊢
      linarith
    · intro h
      have : ((d * 2 ^ ((bits a a : Int) - (bits d d : Int)).toNat : Nat) : ℚ) ≤
          ((a * 2 ^ (-((bits a a : Int) - (bits d d : Int))).toNat : Nat) : ℚ) := by
        push_cast at h ⊢
        linarith
      exact_mod_cast this
  -- the exponent of the value
  have hex : ∃ e : Int, grid_exp a d = max e (-126) - 23 ∧ (2 : ℚ) ^ e ≤ (a : ℚ) / d ∧
      (a : ℚ) / d < 2 ^ (e + 1) := by
    unfold grid_exp
    simp only
    by_cases hc : d * 2 ^ ((bits a a : Int) - (bits d d : Int)).toNat ≤
        a * 2 ^ (-((bits a a : Int) - (bits d d : Int))).toNat
    · rw [if_pos hc]
      exact ⟨_, rfl, hcond.1 hc, hup⟩
    · rw [if_neg hc]
      refine ⟨_, rfl, hlow, ?_⟩
      have := not_le.1 (fun h => hc (hcond.2 h))
      simpa using this
  obtain ⟨e, he, e1, e2⟩ := hex
  rw [he]
  refine ⟨by omega, ?_, ?_⟩
  · exact lt_of_lt_of_le e2 (two_zpow_le (by omega))
  · intro h
    have : max e (-126) - 23 + 23 = e := by omega
    rw [this]
    exact e1

theorem natAbs_cast_of_nonneg (z : Int) (h : 0 ≤ z) : ((z.natAbs : Nat) : ℚ) = (z : ℚ) := by
  rw [← Int.cast_natCast, Int.natAbs_of_nonneg h]

theorem natAbs_cast_of_nonpos (z : Int) (h : z ≤ 0) : ((z.natAbs : Nat) : ℚ) = -(z : ℚ) := by
  rw [← Int.cast_natCast, Int.ofNat_natAbs_of_nonpos h, Int.cast_neg]

theorem grid_quot (a d : Nat) (q : ℚ) (hd : 0 < d) (hq : (a : ℚ) / d = q) (s : Int) :
    ((a * 2 ^ (-s).toNat : Nat) : ℚ) / ((d * 2 ^ s.toNat : Nat) : ℚ) = q / 2 ^ s := by
  have hdq : (0 : ℚ) < d := by exact_mod_cast hd
  have hp1 : (0 : ℚ) < ((2 ^ s.toNat : Nat) : ℚ) := by positivity
  have hp2 : (0 : ℚ) < ((2 ^ (-s).toNat : Nat) : ℚ) := by positivity
  rw [zpow_split, ← hq]
  push_cast
  push_cast at hp1 hp2
  field_simp

theorem fl_zero : fl 0 = 0 := by
  unfold fl
  simp

/-- What `fl` gives for a positive value: a multiple `m * 2 ^ s` of the grid at
the value, with `m` the value over `2 ^ s` rounded to nearest-even. -/
theorem fl_pos_spec (q : ℚ) (hq : 0 < q) :
    ∃ (s : Int) (m : Nat), fl q = (m : ℚ) * 2 ^ s ∧ -149 ≤ s ∧ q < 2 ^ (s + 24) ∧
      (-149 < s → (2 : ℚ) ^ (s + 23) ≤ q) ∧ Rne (q / 2 ^ s) (m : Nat) := by
  have hn : 0 < q.num := Rat.num_pos.2 hq
  have hd : 0 < q.den := q.den_pos
  have ha : 0 < q.num.natAbs := Int.natAbs_pos.2 hn.ne'
  have hq' : ((q.num.natAbs : Nat) : ℚ) / q.den = q := by
    rw [natAbs_cast_of_nonneg _ hn.le]
    exact Rat.num_div_den q
  obtain ⟨g1, g2, g3⟩ := grid_exp_spec q.num.natAbs q.den ha hd
  rw [hq'] at g2 g3
  have hp1 : (0 : ℚ) < ((2 ^ (grid_exp q.num.natAbs q.den).toNat : Nat) : ℚ) := by positivity
  have hp2 : (0 : ℚ) < ((2 ^ (-grid_exp q.num.natAbs q.den).toNat : Nat) : ℚ) := by positivity
  refine ⟨grid_exp q.num.natAbs q.den,
    div_even (q.num.natAbs * 2 ^ (-grid_exp q.num.natAbs q.den).toNat)
      (q.den * 2 ^ (grid_exp q.num.natAbs q.den).toNat), ?_, g1, g2, g3, ?_⟩
  · unfold fl
    rw [if_neg hn.ne']
    simp only
    rw [if_neg (not_lt.2 hn.le), Rat.mkRat_eq_div, zpow_split]
    push_cast
    field_simp
  · have h := div_even_rne (q.num.natAbs * 2 ^ (-grid_exp q.num.natAbs q.den).toNat)
      (q.den * 2 ^ (grid_exp q.num.natAbs q.den).toNat) (by positivity)
    rw [grid_quot q.num.natAbs q.den q hd hq'] at h
    exact h

theorem fl_neg (q : ℚ) : fl (-q) = -fl q := by
  unfold fl
  rw [Rat.num_neg_eq_neg_num, Rat.den_neg_eq_den, Int.natAbs_neg]
  by_cases h0 : q.num = 0
  · simp [h0]
  · rw [if_neg h0, if_neg (by simpa using h0)]
    simp only
    by_cases hneg : q.num < 0
    · rw [if_pos hneg, if_neg (by omega), Rat.mkRat_eq_div, Rat.mkRat_eq_div]
      push_cast
      ring
    · rw [if_neg hneg, if_pos (by omega), Rat.mkRat_eq_div, Rat.mkRat_eq_div]
      push_cast
      ring

theorem fl_nonneg {q : ℚ} (h : 0 ≤ q) : 0 ≤ fl q := by
  rcases h.eq_or_lt with e | hq
  · rw [← e, fl_zero]
  · obtain ⟨s, m, e, _⟩ := fl_pos_spec q hq
    rw [e]
    exact mul_nonneg (Nat.cast_nonneg _) (two_zpow_pos s).le

theorem fl_mono_pos {x y : ℚ} (hx : 0 < x) (h : x ≤ y) : fl x ≤ fl y := by
  obtain ⟨s, m, e, s1, s2, s3, s4⟩ := fl_pos_spec x hx
  obtain ⟨t, n, e', t1, t2, t3, t4⟩ := fl_pos_spec y (lt_of_lt_of_le hx h)
  rw [e, e']
  rcases lt_trichotomy s t with hst | hst | hst
  · -- the grid of `y` is coarser: `2 ^ (s + 24)` lies between the two results
    have hm : ((m : Nat) : Int) ≤ 2 ^ 24 := by
      apply Rne.le_of_lt s4
      rw [div_lt_iff₀ (two_zpow_pos s)]
      calc x < 2 ^ (s + 24) := s2
        _ = ((2 ^ 24 : Int) : ℚ) * 2 ^ s := by
            rw [zpow_add₀ (by norm_num)]; push_cast; ring
    have hn : (2 ^ 23 : Int) ≤ ((n : Nat) : Int) := by
      apply Rne.ge_of_le t4
      rw [le_div_iff₀ (two_zpow_pos t)]
      calc ((2 ^ 23 : Int) : ℚ) * 2 ^ t = 2 ^ (t + 23) := by
            rw [zpow_add₀ (by norm_num)]; push_cast; ring
        _ ≤ y := t3 (by omega)
    have hmq : (m : ℚ) ≤ 2 ^ 24 := by exact_mod_cast hm
    have hnq : (2 : ℚ) ^ 23 ≤ n := by exact_mod_cast hn
    calc (m : ℚ) * 2 ^ s ≤ 2 ^ 24 * 2 ^ s := mul_le_mul_of_nonneg_right hmq (two_zpow_pos s).le
      _ = 2 ^ (s + 24) := by rw [zpow_add₀ (by norm_num)]; norm_num; ring
      _ ≤ 2 ^ (t + 23) := two_zpow_le (by omega)
      _ = 2 ^ 23 * 2 ^ t := by rw [zpow_add₀ (by norm_num)]; norm_num; ring
      _ ≤ (n : ℚ) * 2 ^ t := mul_le_mul_of_nonneg_right hnq (two_zpow_pos t).le
  · subst hst
    have hz : x / 2 ^ s ≤ y / 2 ^ s := div_le_div_of_nonneg_right h (two_zpow_pos s).le
    have := Rne.le_of_le s4 t4 hz
    have hq : (m : ℚ) ≤ n := by exact_mod_cast this
    exact mul_le_mul_of_nonneg_right hq (two_zpow_pos s).le
  · exfalso
    have h1 := s3 (by omega)
    have h2 : (2 : ℚ) ^ (s + 23) < 2 ^ (t + 24) := lt_of_le_of_lt (le_trans h1 h) t2
    have := two_zpow_lt_inv h2
    omega

/-- Rounding is monotone. -/
theorem fl_mono {x y : ℚ} (h : x ≤ y) : fl x ≤ fl y := by
  rcases lt_trichotomy 0 x with hx | hx | hx
  · exact fl_mono_pos hx h
  · rw [← hx, fl_zero]
    exact fl_nonneg (hx ▸ h)
  · rcases le_or_lt 0 y with hy | hy
    · have h1 : fl x ≤ 0 := by
        have := fl_nonneg (neg_nonneg.2 hx.le)
        rw [fl_neg] at this
        linarith
      exact le_trans h1 (fl_nonneg hy)
    · have := fl_mono_pos (neg_pos.2 hy) (neg_le_neg h)
      rw [fl_neg, fl_neg] at this
      linarith

theorem fl_exact_pos (M : Nat) (E : Int) (hM : 0 < M) (h24 : M < 2 ^ 24) (hE : -149 ≤ E) :
    fl ((M : ℚ) * 2 ^ E) = (M : ℚ) * 2 ^ E := by
  have hMq : (0 : ℚ) < M := by exact_mod_cast hM
  have hq : (0 : ℚ) < (M : ℚ) * 2 ^ E := mul_pos hMq (two_zpow_pos E)
  obtain ⟨s, m, e, s1, s2, s3, s4⟩ := fl_pos_spec _ hq
  have hs : s ≤ E := by
    by_cases h149 : -149 < s
    · have h1 := s3 h149
      have h2 : (M : ℚ) * 2 ^ E < 2 ^ (E + 24) := by
        rw [zpow_add₀ (by norm_num), mul_comm ((2 : ℚ) ^ E)]
        apply mul_lt_mul_of_pos_right _ (two_zpow_pos E)
        exact_mod_cast h24
      have := two_zpow_lt_inv (lt_of_le_of_lt h1 h2)
      omega
    · omega
  have hz : (M : ℚ) * 2 ^ E / 2 ^ s = (((M * 2 ^ (E - s).toNat : Nat) : Int) : ℚ) := by
    have e1 : (2 : ℚ) ^ E = 2 ^ (E - s) * 2 ^ s := by
      rw [← zpow_add₀ (by norm_num)]; congr 1; ring
    have e2 : (2 : ℚ) ^ (E - s) = ((2 ^ (E - s).toNat : Nat) : ℚ) := by
      conv_lhs => rw [← Int.toNat_of_nonneg (show 0 ≤ E - s by omega)]
      rw [zpow_natCast]
      push_cast
      rfl
    rw [e1, e2]
    push_cast
    field_simp
    ring
  rw [hz] at s4
  have hm := Rne.int s4
  have hmq : (m : ℚ) = ((M * 2 ^ (E - s).toNat : Nat) : ℚ) := by exact_mod_cast hm
  rw [e, hmq]
  have hz' := hz
  rw [div_eq_iff (two_zpow_pos s).ne'] at hz'
  rw [hz']
  push_cast
  ring

/-- A number with a significand below `2 ^ 24` and an exponent of at least
`-149` is a binary32 number: rounding leaves it as it is. -/
theorem fl_exact (m : Int) (E : Int) (h24 : m.natAbs < 2 ^ 24) (hE : -149 ≤ E) :
    fl ((m : ℚ) * 2 ^ E) = (m : ℚ) * 2 ^ E := by
  rcases lt_trichotomy 0 m with h | h | h
  · have := fl_exact_pos m.natAbs E (Int.natAbs_pos.2 h.ne') h24 hE
    rwa [natAbs_cast_of_nonneg _ h.le] at this
  · rw [← h]
    simp [fl_zero]
  · have := fl_exact_pos m.natAbs E (Int.natAbs_pos.2 h.ne) h24 hE
    rw [natAbs_cast_of_nonpos _ h.le] at this
    have h2 := fl_neg (-(m : ℚ) * 2 ^ E)
    rw [this] at h2
    have e3 : -(-(m : ℚ) * 2 ^ E) = (m : ℚ) * 2 ^ E := by ring
    rw [e3] at h2
    rw [h2]

/-- The relative error of rounding a value of at least `2 ^ (-126)`. -/
theorem fl_rel (q : ℚ) (hq : (2 : ℚ) ^ (-126 : Int) ≤ q) :
    q * (1 - 1 / 2 ^ 24) ≤ fl q ∧ fl q ≤ q * (1 + 1 / 2 ^ 24) := by
  have hpos : 0 < q := lt_of_lt_of_le (two_zpow_pos _) hq
  obtain ⟨s, m, e, s1, s2, s3, s4⟩ := fl_pos_spec q hpos
  -- the value is at least `2 ^ (s + 23)`, also on the lowest grid
  have hlow : (2 : ℚ) ^ (s + 23) ≤ q := by
    by_cases h : -149 < s
    · exact s3 h
    · have : s = -149 := by omega
      rw [this]
      exact hq
  obtain ⟨r1, r2, _⟩ := s4
  have hs := two_zpow_pos s
  have h23 : (2 : ℚ) ^ (s + 23) = 2 ^ 23 * 2 ^ s := by
    rw [zpow_add₀ (by norm_num)]; norm_num; ring
  rw [h23] at hlow
  have hz : q = q / 2 ^ s * 2 ^ s := by field_simp
  rw [e]
  simp only [Int.cast_natCast] at r1 r2
  constructor
  · have : q / 2 ^ s - 1 / 2 ≤ m := by linarith
    have h1 : (q / 2 ^ s - 1 / 2) * 2 ^ s ≤ (m : ℚ) * 2 ^ s :=
      mul_le_mul_of_nonneg_right this hs.le
    have h2 : (q / 2 ^ s - 1 / 2) * 2 ^ s = q - 2 ^ s / 2 := by
      field_simp
      ring
    rw [h2] at h1
    have h3 : q * (1 / 2 ^ 24) ≥ (2 : ℚ) ^ s / 2 := by
      have := mul_le_mul_of_nonneg_right hlow (show (0 : ℚ) ≤ 1 / 2 ^ 24 by positivity)
      have e4 : (2 : ℚ) ^ 23 * 2 ^ s * (1 / 2 ^ 24) = 2 ^ s / 2 := by
        field_simp
        ring
      linarith
    linarith
  · have : (m : ℚ) ≤ q / 2 ^ s + 1 / 2 := by linarith
    have h1 : (m : ℚ) * 2 ^ s ≤ (q / 2 ^ s + 1 / 2) * 2 ^ s :=
      mul_le_mul_of_nonneg_right this hs.le
    have h2 : (q / 2 ^ s + 1 / 2) * 2 ^ s = q + 2 ^ s / 2 := by
      field_simp
      ring
    rw [h2] at h1
    have h3 : q * (1 / 2 ^ 24) ≥ (2 : ℚ) ^ s / 2 := by
      have := mul_le_mul_of_nonneg_right hlow (show (0 : ℚ) ≤ 1 / 2 ^ 24 by positivity)
      have e4 : (2 : ℚ) ^ 23 * 2 ^ s * (1 / 2 ^ 24) = 2 ^ s / 2 := by
        field_simp
        ring
      linarith
    linarith

/-- The error of rounding a value that is not negative: relative `2 ^ (-24)`
on the normal numbers, absolute `2 ^ (-150)` below them. -/
theorem fl_abs (q : ℚ) (hq : 0 ≤ q) :
    q * (1 - 1 / 2 ^ 24) - 1 / 2 ^ 150 ≤ fl q ∧ fl q ≤ q * (1 + 1 / 2 ^ 24) + 1 / 2 ^ 150 := by
  by_cases h : (2 : ℚ) ^ (-126 : Int) ≤ q
  · obtain ⟨h1, h2⟩ := fl_rel q h
    constructor <;> linarith [show (0 : ℚ) < 1 / 2 ^ 150 by positivity]
  · rcases hq.eq_or_lt with e | hpos
    · rw [← e, fl_zero]
      constructor <;> norm_num
    · obtain ⟨s, m, e, s1, s2, s3, s4⟩ := fl_pos_spec q hpos
      have hs : s = -149 := by
        by_contra hne
        have h1 := s3 (by omega)
        have h2 : (2 : ℚ) ^ (-126 : Int) ≤ 2 ^ (s + 23) := two_zpow_le (by omega)
        exact h (le_trans h2 h1)
      subst hs
      obtain ⟨r1, r2, _⟩ := s4
      simp only [Int.cast_natCast] at r1 r2
      have hp := two_zpow_pos (-149)
      have hv : (2 : ℚ) ^ (-149 : Int) = 2 / 2 ^ 150 := by
        rw [show (-149 : Int) = -(149 : Nat) by norm_num, zpow_neg, zpow_natCast]
        norm_num
      have hz : q = q / 2 ^ (-149 : Int) * 2 ^ (-149 : Int) := by field_simp
      have k1 := mul_le_mul_of_nonneg_right r1 hp.le
      have k2 := mul_le_mul_of_nonneg_right r2 hp.le
      rw [← hz] at k2
      rw [sub_mul] at k1
      rw [add_mul] at k2
      rw [← hz] at k1
      rw [e]
      have hq24 : 0 ≤ q * (1 / 2 ^ 24) := by positivity
      rw [hv] at k1 k2 ⊢
      constructor <;> linarith

theorem of_u32_rel (k : Nat) :
    (k : ℚ) * (1 - 1 / 2 ^ 24) ≤ of_u32 k ∧ of_u32 k ≤ (k : ℚ) * (1 + 1 / 2 ^ 24) := by
  unfold of_u32
  rcases Nat.eq_zero_or_pos k with e | hk
  · subst e
    simp [fl_zero]
  · apply fl_rel
    have h1 : (1 : ℚ) ≤ k := by exact_mod_cast hk
    have h2 : (2 : ℚ) ^ (-126 : Int) ≤ 2 ^ (0 : Int) := two_zpow_le (by norm_num)
    rw [zpow_zero] at h2
    linarith

theorem fadd_mono {a b c d : ℚ} (h1 : a ≤ b) (h2 : c ≤ d) : fadd a c ≤ fadd b d :=
  fl_mono (add_le_add h1 h2)

theorem fmul_mono {a b c d : ℚ} (h1 : a ≤ b) (h2 : c ≤ d) (ha : 0 ≤ a) (hc : 0 ≤ c) :
    fmul a c ≤ fmul b d :=
  fl_mono (mul_le_mul h1 h2 hc (le_trans ha h1))

theorem fsub_mono {a b c d : ℚ} (h1 : a ≤ b) (h2 : d ≤ c) : fsub a c ≤ fsub b d :=
  fl_mono (sub_le_sub h1 h2)

theorem fl_le_of_le {x b : ℚ} (h : x ≤ b) (hb : fl b = b) : fl x ≤ b := by
  rw [← hb]
  exact fl_mono h

theorem le_fl_of_le {x b : ℚ} (h : b ≤ x) (hb : fl b = b) : b ≤ fl x := by
  rw [← hb]
  exact fl_mono h

theorem of_u32_zero : of_u32 0 = 0 := by
  unfold of_u32
  simp [fl_zero]

theorem fmul_zero_left (x : ℚ) : fmul 0 x = 0 := by
  unfold fmul
  rw [zero_mul, fl_zero]

theorem fmul_zero_right (x : ℚ) : fmul x 0 = 0 := by
  unfold fmul
  rw [mul_zero, fl_zero]

/-- A result of `fl` is a binary32 number: rounding it again leaves it as it
is. -/
theorem fl_idem (q : ℚ) : fl (fl q) = fl q := by
  have pos : ∀ x : ℚ, 0 < x → fl (fl x) = fl x := by
    intro x hx
    obtain ⟨s, m, e, s1, s2, s3, s4⟩ := fl_pos_spec x hx
    have hm : ((m : Nat) : Int) ≤ 2 ^ 24 := by
      apply Rne.le_of_lt s4
      rw [div_lt_iff₀ (two_zpow_pos s)]
      calc x < 2 ^ (s + 24) := s2
        _ = ((2 ^ 24 : Int) : ℚ) * 2 ^ s := by
            rw [zpow_add₀ (by norm_num)]; push_cast; ring
    rw [e]
    rcases Nat.lt_or_ge m (2 ^ 24) with hlt | hge
    · have := fl_exact (m : Int) s (by simpa using hlt) s1
      simpa using this
    · have hmeq : m = 2 ^ 24 := by
        have : m ≤ 2 ^ 24 := by exact_mod_cast hm
        omega
      have := fl_exact 1 (s + 24) (by norm_num) (by omega)
      rw [hmeq]
      have e2 : ((2 ^ 24 : Nat) : ℚ) * 2 ^ s = ((1 : Int) : ℚ) * 2 ^ (s + 24) := by
        rw [zpow_add₀ (by norm_num)]
        push_cast
        ring
      rw [e2]
      exact this
  rcases lt_trichotomy 0 q with h | h | h
  · exact pos q h
  · rw [← h, fl_zero, fl_zero]
  · have := pos (-q) (neg_pos.2 h)
    rw [fl_neg, fl_neg] at this
    linarith

theorem fadd_zero_right (x : ℚ) : fadd (fl x) 0 = fl x := by
  unfold fadd
  rw [add_zero, fl_idem]

theorem of_u32_exact (n : Nat) (h : n < 2 ^ 24) : of_u32 n = (n : ℚ) := by
  have := fl_exact (n : Int) 0 (by simpa using h) (by norm_num)
  simpa [of_u32] using this

theorem of_u32_nonneg (n : Nat) : 0 ≤ of_u32 n := fl_nonneg (Nat.cast_nonneg n)

theorem fadd_nonneg {x y : ℚ} (hx : 0 ≤ x) (hy : 0 ≤ y) : 0 ≤ fadd x y :=
  fl_nonneg (add_nonneg hx hy)

theorem fmul_nonneg {x y : ℚ} (hx : 0 ≤ x) (hy : 0 ≤ y) : 0 ≤ fmul x y :=
  fl_nonneg (mul_nonneg hx hy)

theorem fmul_self_nonneg (x : ℚ) : 0 ≤ fmul x x := fl_nonneg (mul_self_nonneg x)

theorem fdiv_nonneg {x y : ℚ} (hx : 0 ≤ x) (hy : 0 ≤ y) : 0 ≤ fdiv x y :=
  fl_nonneg (div_nonneg hx hy)

theorem fsub_nonneg {x y : ℚ} (h : y ≤ x) : 0 ≤ fsub x y :=
  fl_nonneg (sub_nonneg.2 h)

/-! ## Arrays -/

theorem rd_ok_iff {α : Type} {xs : List α} {i : Nat} {f : Fault} {a : α} :
    rd xs i f = .ok a ↔ xs[i]? = some a := by
  unfold rd
  cases h : xs[i]? <;> simp

theorem rd_error_iff {α : Type} {xs : List α} {i : Nat} {f e : Fault} :
    rd xs i f = .error e ↔ xs.length ≤ i ∧ e = f := by
  unfold rd
  cases h : xs[i]? with
  | none => simp [List.getElem?_eq_none_iff] at h ⊢; exact ⟨fun h' => ⟨h, h'.symm⟩, fun h' => h'.2.symm⟩
  | some a =>
    have := (List.getElem?_eq_some.1 h).1
    simp; omega

theorem rd_of_lt {α : Type} {xs : List α} {i : Nat} (f : Fault) (h : i < xs.length) :
    rd xs i f = .ok xs[i] := by
  rw [rd_ok_iff]; exact List.getElem?_eq_getElem h

theorem length_slice {α : Type} (xs : List α) (first count : Nat)
    (h : first + count ≤ xs.length) : (slice xs first count).length = count := by
  simp [slice]; omega

theorem slice_succ {α : Type} (xs : List α) (first count : Nat) (a : α)
    (h : xs[first + count]? = some a) :
    slice xs first (count + 1) = slice xs first count ++ [a] := by
  unfold slice
  rw [List.take_succ, List.getElem?_drop, h]
  rfl

theorem slice_append {α : Type} (xs : List α) (first a b : Nat) :
    slice xs first (a + b) = slice xs first a ++ slice xs (first + a) b := by
  unfold slice
  rw [List.take_add, List.drop_drop]

theorem slice_congr {α : Type} (xs ys : List α) (first count : Nat)
    (h : ∀ k, first ≤ k → k < first + count → ys[k]? = xs[k]?) :
    slice ys first count = slice xs first count := by
  apply List.ext_getElem?
  intro n
  unfold slice
  simp only [List.getElem?_take, List.getElem?_drop]
  split
  · exact h _ (by omega) (by omega)
  · rfl

/-- A list is the part before a slice, the slice, and the part after it. -/
theorem split_slice {α : Type} (xs : List α) (first count : Nat) :
    xs = xs.take first ++ (slice xs first count ++ xs.drop (first + count)) := by
  unfold slice
  rw [← List.drop_drop, List.take_append_drop, List.take_append_drop]

theorem slice_perm_of_perm {α : Type} (xs ys : List α) (first count : Nat)
    (hp : ys.Perm xs)
    (h : ∀ k, k < first ∨ first + count ≤ k → ys[k]? = xs[k]?) :
    (slice ys first count).Perm (slice xs first count) := by
  have h1 : ys.take first = xs.take first := by
    apply List.ext_getElem?
    intro n
    simp only [List.getElem?_take]
    split
    · exact h _ (Or.inl (by omega))
    · rfl
  have h2 : ys.drop (first + count) = xs.drop (first + count) := by
    apply List.ext_getElem?
    intro n
    simp only [List.getElem?_drop]
    exact h _ (Or.inr (by omega))
  have e1 := split_slice xs first count
  have e2 := split_slice ys first count
  rw [h1, h2] at e2
  rw [e1, e2] at hp
  exact (List.perm_append_right_iff _).1 ((List.perm_append_left_iff _).1 hp)

/-- Exchanging two entries of a list permutes it. -/
theorem swap_perm {α : Type} [DecidableEq α] (xs : List α) (i j : Nat) (a b : α)
    (hi : xs[i]? = some a) (hj : xs[j]? = some b) :
    ((xs.set i b).set j a).Perm xs := by
  obtain ⟨hi', rfl⟩ := List.getElem?_eq_some.1 hi
  obtain ⟨hj', rfl⟩ := List.getElem?_eq_some.1 hj
  rw [List.perm_iff_count]
  intro c
  by_cases hij : i = j
  · subst hij
    rw [List.set_set]
    have : xs.set i xs[i] = xs := by
      apply List.ext_getElem?
      intro n
      rw [List.getElem?_set]
      split
      · subst_vars; simp [hi']
      · rfl
    rw [this]
  · rw [List.count_set _ _ _ _ (by simpa using hj'), List.count_set _ _ _ _ hi']
    simp only [List.getElem_set, hij, if_false]
    have h1 := List.count_pos_iff.2 (List.getElem_mem hi')
    have h2 := List.count_pos_iff.2 (List.getElem_mem hj')
    by_cases e1 : xs[i] = c <;> by_cases e2 : xs[j] = c <;> simp [e1, e2] <;>
      first
      | omega
      | (subst e1; omega)

theorem zip_set {α β : Type} (xs : List α) (ys : List β) (i : Nat) (a : α) (b : β) :
    (xs.set i a).zip (ys.set i b) = (xs.zip ys).set i (a, b) := by
  induction xs generalizing ys i with
  | nil => simp
  | cons x xs ih =>
    cases ys with
    | nil => simp
    | cons y ys =>
      cases i with
      | zero => simp
      | succ i => simp [ih]

/-! ## Boxes -/

theorem glm_min_eq (a b : ℚ) : (if b < a then b else a) = Min.min a b := by
  rcases lt_or_le b a with h | h
  · rw [if_pos h, min_eq_right h.le]
  · rw [if_neg (not_lt.2 h), min_eq_left h]

theorem glm_max_eq (a b : ℚ) : (if a < b then b else a) = Max.max a b := by
  rcases lt_or_le a b with h | h
  · rw [if_pos h, max_eq_right h.le]
  · rw [if_neg (not_lt.2 h), max_eq_left h]

theorem Vec3.eq_iff (a b : Vec3) : a = b ↔ a.x = b.x ∧ a.y = b.y ∧ a.z = b.z := by
  cases a; cases b; simp

theorem Vec3.vmin_def (a b : Vec3) :
    Vec3.min a b = ⟨Min.min a.x b.x, Min.min a.y b.y, Min.min a.z b.z⟩ := by
  simp [Vec3.min, glm_min_eq]

theorem Vec3.vmax_def (a b : Vec3) :
    Vec3.max a b = ⟨Max.max a.x b.x, Max.max a.y b.y, Max.max a.z b.z⟩ := by
  simp [Vec3.max, glm_max_eq]

theorem Vec3.vmin_comm (a b : Vec3) : Vec3.min a b = Vec3.min b a := by
  simp [Vec3.vmin_def, min_comm]

theorem Vec3.vmin_assoc (a b c : Vec3) :
    Vec3.min (Vec3.min a b) c = Vec3.min a (Vec3.min b c) := by
  simp [Vec3.vmin_def, min_assoc]

theorem Vec3.vmin_self (a : Vec3) : Vec3.min a a = a := by
  simp [Vec3.vmin_def]

theorem Vec3.vmax_comm (a b : Vec3) : Vec3.max a b = Vec3.max b a := by
  simp [Vec3.vmax_def, max_comm]

theorem Vec3.vmax_assoc (a b c : Vec3) :
    Vec3.max (Vec3.max a b) c = Vec3.max a (Vec3.max b c) := by
  simp [Vec3.vmax_def, max_assoc]

theorem Vec3.vmax_self (a : Vec3) : Vec3.max a a = a := by
  simp [Vec3.vmax_def]

theorem Vec3.le_of_vmin_eq (a b : Vec3) (h : Vec3.min a b = a) : Vec3.le a b := by
  rw [Vec3.vmin_def, Vec3.eq_iff] at h
  simp only [min_eq_left_iff] at h
  exact h

theorem Vec3.le_of_vmax_eq (a b : Vec3) (h : Vec3.max a b = a) : Vec3.le b a := by
  rw [Vec3.vmax_def, Vec3.eq_iff] at h
  simp only [max_eq_left_iff] at h
  exact h

theorem foldl_op_left (op : Vec3 → Vec3 → Vec3) (hc : ∀ a b, op a b = op b a)
    (ha : ∀ a b c, op (op a b) c = op a (op b c)) (a b : Vec3) (vs : List Vec3) :
    vs.foldl op (op a b) = op (vs.foldl op a) b := by
  induction vs generalizing a with
  | nil => rfl
  | cons v vs ih =>
    simp only [List.foldl_cons]
    rw [← ih, ha, hc b v, ← ha]

theorem foldl_op_append (op : Vec3 → Vec3 → Vec3) (hc : ∀ a b, op a b = op b a)
    (ha : ∀ a b c, op (op a b) c = op a (op b c))
    (hi : ∀ a, op a a = a) (e : Vec3) (xs ys : List Vec3) :
    (xs ++ ys).foldl op e = op (xs.foldl op e) (ys.foldl op e) := by
  have h1 : xs.foldl op e = op e (xs.foldl op e) := by
    conv_lhs => rw [← hi e]
    rw [foldl_op_left op hc ha, hc]
  rw [List.foldl_append]
  conv_lhs => rw [h1]
  rw [foldl_op_left op hc ha, hc]

theorem foldl_op_perm (op : Vec3 → Vec3 → Vec3) (hc : ∀ a b, op a b = op b a)
    (ha : ∀ a b c, op (op a b) c = op a (op b c)) (e : Vec3) (xs ys : List Vec3)
    (h : xs.Perm ys) :
    xs.foldl op e = ys.foldl op e := by
  haveI : RightCommutative op := ⟨fun a b c => by rw [ha, hc b c, ← ha]⟩
  exact h.foldl_eq e

theorem foldl_op_mem (op : Vec3 → Vec3 → Vec3) (hc : ∀ a b, op a b = op b a)
    (ha : ∀ a b c, op (op a b) c = op a (op b c))
    (hi : ∀ a, op a a = a) (e : Vec3) (xs : List Vec3) (v : Vec3) (h : v ∈ xs) :
    op (xs.foldl op e) v = xs.foldl op e := by
  induction xs generalizing e with
  | nil => cases h
  | cons x xs ih =>
    simp only [List.foldl_cons]
    rcases List.mem_cons.1 h with rfl | h
    · rw [← foldl_op_left op hc ha, ha, hi]
    · exact ih _ h

theorem foldl_refit_step (nd : Node) (ts : List Triangle) :
    ts.foldl refit_step nd =
      { nd with min := (verts ts).foldl Vec3.min nd.min,
                max := (verts ts).foldl Vec3.max nd.max } := by
  induction ts generalizing nd with
  | nil => rfl
  | cons t ts ih =>
    rw [List.foldl_cons, ih]
    simp [refit_step, verts]

theorem lo_perm {ts ts' : List Triangle} (h : ts.Perm ts') : lo ts = lo ts' :=
  foldl_op_perm _ Vec3.vmin_comm Vec3.vmin_assoc _ _ _ (List.Perm.flatMap_right _ h)

theorem hi_perm {ts ts' : List Triangle} (h : ts.Perm ts') : hi ts = hi ts' :=
  foldl_op_perm _ Vec3.vmax_comm Vec3.vmax_assoc _ _ _ (List.Perm.flatMap_right _ h)

theorem lo_append (xs ys : List Triangle) : lo (xs ++ ys) = Vec3.min (lo xs) (lo ys) := by
  unfold lo verts
  rw [List.flatMap_append]
  exact foldl_op_append _ Vec3.vmin_comm Vec3.vmin_assoc Vec3.vmin_self _ _ _

theorem hi_append (xs ys : List Triangle) : hi (xs ++ ys) = Vec3.max (hi xs) (hi ys) := by
  unfold hi verts
  rw [List.flatMap_append]
  exact foldl_op_append _ Vec3.vmax_comm Vec3.vmax_assoc Vec3.vmax_self _ _ _

theorem lo_le {ts : List Triangle} {t : Triangle} (h : t ∈ ts) :
    Vec3.le (lo ts) t.v0 ∧ Vec3.le (lo ts) t.v1 ∧ Vec3.le (lo ts) t.v2 := by
  have hm : ∀ v, v ∈ [t.v0, t.v1, t.v2] → v ∈ verts ts := fun v hv =>
    List.mem_flatMap.2 ⟨t, h, hv⟩
  refine ⟨?_, ?_, ?_⟩ <;> apply Vec3.le_of_vmin_eq <;>
    apply foldl_op_mem _ Vec3.vmin_comm Vec3.vmin_assoc Vec3.vmin_self <;>
    apply hm <;> simp

theorem le_hi {ts : List Triangle} {t : Triangle} (h : t ∈ ts) :
    Vec3.le t.v0 (hi ts) ∧ Vec3.le t.v1 (hi ts) ∧ Vec3.le t.v2 (hi ts) := by
  have hm : ∀ v, v ∈ [t.v0, t.v1, t.v2] → v ∈ verts ts := fun v hv =>
    List.mem_flatMap.2 ⟨t, h, hv⟩
  refine ⟨?_, ?_, ?_⟩ <;> apply Vec3.le_of_vmax_eq <;>
    apply foldl_op_mem _ Vec3.vmax_comm Vec3.vmax_assoc Vec3.vmax_self <;>
    apply hm <;> simp

/-! ## refit_node -/

theorem refit_step_left_first (nd : Node) (t : Triangle) :
    (refit_step nd t).left_first = nd.left_first := rfl

theorem refit_loop_ok (prims : List Triangle) :
    ∀ (k i : Nat) (nd : Node), nd.left_first + i + k ≤ prims.length →
      refit_loop prims k i nd =
        .ok ((slice prims (nd.left_first + i) k).foldl refit_step nd) := by
  intro k
  induction k with
  | zero => intro i nd _; simp [refit_loop, slice]
  | succ k ih =>
    intro i nd h
    have hlt : nd.left_first + i < prims.length := by omega
    rw [refit_loop, rd_of_lt _ hlt]
    simp only
    rw [ih (i + 1) (refit_step nd prims[nd.left_first + i]) (by rw [refit_step_left_first]; omega)]
    rw [refit_step_left_first]
    have : slice prims (nd.left_first + i) (k + 1)
        = prims[nd.left_first + i] :: slice prims (nd.left_first + (i + 1)) k := by
      unfold slice
      rw [List.drop_eq_getElem_cons hlt, List.take_succ_cons]
      rfl
    rw [this, List.foldl_cons]

theorem refit_loop_error (prims : List Triangle) :
    ∀ (k i : Nat) (nd : Node) (e : Fault), refit_loop prims k i nd = .error e →
      e = .prim_index ∧ prims.length < nd.left_first + i + k := by
  intro k
  induction k with
  | zero => intro i nd e h; simp [refit_loop] at h
  | succ k ih =>
    intro i nd e h
    rw [refit_loop] at h
    cases hr : rd prims (nd.left_first + i) .prim_index with
    | error f =>
      rw [hr] at h
      simp only [Except.error.injEq] at h
      obtain ⟨h1, h2⟩ := rd_error_iff.1 hr
      subst h
      exact ⟨h2, by omega⟩
    | ok prim =>
      rw [hr] at h
      obtain ⟨h1, h2⟩ := ih _ _ _ h
      rw [refit_step_left_first] at h2
      exact ⟨h1, by omega⟩

/-- The node `refit_node` produces when the node's range lies inside `prims`. -/
theorem refit_node_ok (nd : Node) (prims : List Triangle)
    (h : nd.left_first + nd.prim_count ≤ prims.length) :
    refit_node nd prims =
      .ok { nd with min := lo (slice prims nd.left_first nd.prim_count),
                    max := hi (slice prims nd.left_first nd.prim_count) } := by
  unfold refit_node
  rw [refit_loop_ok prims _ _ _ (by simpa using h), foldl_refit_step]
  rfl

/-! ## The partition loop -/

theorem partition_spec (ax : Int) (t : ℚ) :
    ∀ (fuel i j : Nat) (prims : List Triangle) (norms : List Normals),
      fuel + i = j + 2 → 1 ≤ fuel → j < prims.length → prims.length = norms.length →
      match partition ax t fuel i j prims norms with
      | .ok r => PartitionPost ax t i j prims norms r
      | .error e => e = .vec_index ∨ e = .prim_index ∨
          (e = .fuel ∧ 4294967296 ≤ prims.length) := by
  intro fuel
  induction fuel with
  | zero => intro i j prims norms _ h; omega
  | succ fuel ih =>
    intro i j prims norms hf _ hj hlen
    rw [partition]
    by_cases hij : i ≤ j
    · rw [if_pos hij]
      have hi : i < prims.length := by omega
      rw [rd_of_lt _ hi]
      simp only
      cases hc : (prims[i]).get_centroid.get ax with
      | error f =>
        simp only
        left
        unfold Vec3.get at hc
        split_ifs at hc
        simpa using hc.symm
      | ok c =>
        simp only
        by_cases hct : c < t
        · rw [if_pos hct]
          have := ih (i + 1) j prims norms (by omega) (by omega) hj hlen
          cases hr : partition ax t fuel (i + 1) j prims norms with
          | error e => rw [hr] at this; exact this
          | ok r =>
            rw [hr] at this
            simp only at this ⊢
            obtain ⟨h1, h2, h3, h4, h5, h6, h7, h8, h9⟩ := this
            refine ⟨by omega, h2, h3, h4, h5, fun k hk => h6 k (by omega),
              fun k hk => h7 k (by omega), ?_, h9⟩
            intro k p hk1 hk2 hp
            by_cases hki : k = i
            · subst hki
              rw [h6 k (by omega), List.getElem?_eq_getElem hi] at hp
              simp only [Option.some.injEq] at hp
              subst hp
              exact ⟨c, hc, hct⟩
            · exact h8 k p (by omega) hk2 hp
        · rw [if_neg hct]
          have hj' : j < norms.length := by omega
          have hi' : i < norms.length := by omega
          rw [rd_of_lt _ hj, rd_of_lt _ hi', rd_of_lt _ hj']
          simp only
          have hl1 : ((prims.set i prims[j]).set j prims[i]).length = prims.length := by simp
          have hl2 : ((norms.set i norms[j]).set j norms[i]).length = norms.length := by simp
          have hperm : (((prims.set i prims[j]).set j prims[i]).zip
              ((norms.set i norms[j]).set j norms[i])).Perm (prims.zip norms) := by
            rw [zip_set, zip_set]
            apply swap_perm
            · rw [List.getElem?_zip_eq_some]
              exact ⟨List.getElem?_eq_getElem hi, List.getElem?_eq_getElem hi'⟩
            · rw [List.getElem?_zip_eq_some]
              exact ⟨List.getElem?_eq_getElem hj, List.getElem?_eq_getElem hj'⟩
          have hout1 : ∀ k, k ≠ i → k ≠ j →
              ((prims.set i prims[j]).set j prims[i])[k]? = prims[k]? := by
            intro k h1 h2
            rw [List.getElem?_set_ne (Ne.symm h2), List.getElem?_set_ne (Ne.symm h1)]
          have hout2 : ∀ k, k ≠ i → k ≠ j →
              ((norms.set i norms[j]).set j norms[i])[k]? = norms[k]? := by
            intro k h1 h2
            rw [List.getElem?_set_ne (Ne.symm h2), List.getElem?_set_ne (Ne.symm h1)]
          have hatj : ((prims.set i prims[j]).set j prims[i])[j]? = some prims[i] := by
            rw [List.getElem?_set_self (by simpa using hj)]
          by_cases hj0 : j = 0
          · -- the cursor wraps
            have hi0 : i = 0 := by omega
            subst hj0
            subst hi0
            have hfuel : fuel = 1 := by omega
            subst hfuel
            simp only [u32_dec, if_true]
            have hsame : (prims.set 0 prims[0]).set 0 prims[0] = prims := by
              rw [List.set_set]
              apply List.ext_getElem?
              intro n
              rw [List.getElem?_set]
              split
              · subst_vars; simp [hi]
              · rfl
            rw [hsame]
            rw [partition]
            simp only [Nat.zero_le, if_true]
            rw [rd_of_lt _ hi]
            simp only [hc, if_neg hct]
            cases h1 : rd prims 4294967295 Fault.prim_index with
            | error e => simp
            | ok pj =>
              have hb : 4294967295 < prims.length := by
                have := (List.getElem?_eq_some.1 (rd_ok_iff.1 h1)).1
                exact this
              have hb' : 4294967295 < ((norms.set 0 norms[0]).set 0 norms[0]).length := by
                rw [hl2]; omega
              rw [rd_of_lt _ (by rw [hl2]; omega), rd_of_lt _ hb']
              simp only [partition]
              right; right
              exact ⟨trivial, by omega⟩
          · have hdec : u32_dec j = j - 1 := by simp [u32_dec, hj0]
            rw [hdec]
            have := ih i (j - 1) ((prims.set i prims[j]).set j prims[i])
              ((norms.set i norms[j]).set j norms[i]) (by omega) (by omega)
              (by rw [hl1]; omega) (by rw [hl1, hl2]; exact hlen)
            cases hr : partition ax t fuel i (j - 1) ((prims.set i prims[j]).set j prims[i])
                ((norms.set i norms[j]).set j norms[i]) with
            | error e =>
              rw [hr] at this
              simp only at this ⊢
              rw [hl1] at this
              exact this
            | ok r =>
              rw [hr] at this
              simp only at this ⊢
              obtain ⟨h1, h2, h3, h4, h5, h6, h7, h8, h9⟩ := this
              refine ⟨h1, by omega, by rw [h3, hl1], by rw [h4, hl2], h5.trans hperm, ?_, ?_,
                h8, ?_⟩
              · intro k hk
                rw [h6 k (by omega)]
                exact hout1 k (by omega) (by omega)
              · intro k hk
                rw [h7 k (by omega)]
                exact hout2 k (by omega) (by omega)
              · intro k p hk1 hk2 hp
                by_cases hkj : k = j
                · subst hkj
                  rw [h6 k (by omega), hatj] at hp
                  simp only [Option.some.injEq] at hp
                  subst hp
                  exact ⟨c, hc, hct⟩
                · exact h9 k p hk1 (by omega) hp
    · rw [if_neg hij]
      simp only
      refine ⟨le_refl _, by omega, rfl, rfl, List.Perm.refl _, fun _ _ => rfl, fun _ _ => rfl,
        ?_, ?_⟩
      · intro k p h1 h2; omega
      · intro k p h1 h2; omega

/-! ## find_best_split reads inside its arrays -/

theorem Vec3.get_ok (v : Vec3) (a : Nat) (h : a < 3) : ∃ c, v.get (a : Int) = .ok c := by
  unfold Vec3.get
  rcases (by omega : a = 0 ∨ a = 1 ∨ a = 2) with rfl | rfl | rfl <;> simp

theorem fminf_eq (x y : ℚ) : fminf x y = Min.min x y := glm_min_eq x y

theorem fmaxf_eq (x y : ℚ) : fmaxf x y = Max.max x y := glm_max_eq x y

theorem to_int_bounds (q : ℚ) (h0 : 0 ≤ q) (h7 : q ≤ 7) :
    0 ≤ to_int q ∧ (to_int q).toNat < 8 := by
  have hn : 0 ≤ q.num := Rat.num_nonneg.2 h0
  have hd : (0 : Int) ≤ (q.den : Int) := Int.natCast_nonneg _
  have e : to_int q = ⌊q⌋ := by
    unfold to_int
    rw [Int.tdiv_eq_ediv hn hd, Rat.floor_def]
  rw [e]
  have h1 : 0 ≤ ⌊q⌋ := Int.floor_nonneg.2 h0
  refine ⟨h1, ?_⟩
  rw [Int.toNat_lt h1]
  have h2 : (⌊q⌋ : ℚ) ≤ 7 := le_trans (Int.floor_le q) h7
  have h3 : ⌊q⌋ ≤ 7 := by exact_mod_cast h2
  omega

theorem centroid_range_ok (prims : List Triangle) (node : Node) (a : Nat) (ha : a < 3) :
    ∀ (k i : Nat) (bmin bmax : ℚ), node.left_first + i + k ≤ prims.length →
      ∃ r, centroid_range prims node a k i bmin bmax = .ok r ∧ r.1 ≤ bmin ∧ bmax ≤ r.2 ∧
        ∀ j, j < k → ∀ p c, prims[node.left_first + i + j]? = some p →
          p.get_centroid.get (a : Int) = .ok c → r.1 ≤ c ∧ c ≤ r.2 := by
  intro k
  induction k with
  | zero =>
    intro i bmin bmax _
    exact ⟨(bmin, bmax), rfl, le_refl _, le_refl _, fun j hj => by omega⟩
  | succ k ih =>
    intro i bmin bmax h
    have hlt : node.left_first + i < prims.length := by omega
    rw [centroid_range, rd_of_lt _ hlt]
    obtain ⟨c, hc⟩ := Vec3.get_ok (prims[node.left_first + i]).get_centroid a ha
    simp only [hc]
    obtain ⟨r, hr, h1, h2, h3⟩ := ih (i + 1) (fminf bmin c) (fmaxf bmax c) (by omega)
    refine ⟨r, hr, ?_, ?_, ?_⟩
    · exact le_trans h1 (by rw [fminf_eq]; exact min_le_left _ _)
    · exact le_trans (by rw [fmaxf_eq]; exact le_max_left _ _) h2
    · intro j hj p c' hp hc'
      cases j with
      | zero =>
        rw [Nat.add_zero, List.getElem?_eq_getElem hlt] at hp
        simp only [Option.some.injEq] at hp
        subst hp
        rw [hc] at hc'
        simp only [Except.ok.injEq] at hc'
        subst hc'
        exact ⟨le_trans h1 (by rw [fminf_eq]; exact min_le_right _ _),
          le_trans (by rw [fmaxf_eq]; exact le_max_right _ _) h2⟩
      | succ j =>
        apply h3 j (by omega) p c' _ hc'
        rw [← hp]
        congr 1
        omega

theorem populate_bins_ok (prims : List Triangle) (node : Node) (a : Nat) (ha : a < 3)
    (bmin scale : ℚ) :
    ∀ (k i : Nat) (bins : List Bin), (0 < k → 0 ≤ scale) →
      node.left_first + i + k ≤ prims.length → bins.length = 8 →
      (∀ j, j < k → ∀ p c, prims[node.left_first + i + j]? = some p →
          p.get_centroid.get (a : Int) = .ok c → bmin ≤ c) →
      ∃ bins', populate_bins prims node a bmin scale k i bins = .ok bins' ∧
        bins'.length = 8 := by
  intro k
  induction k with
  | zero => intro i bins _ _ hb _; exact ⟨bins, rfl, hb⟩
  | succ k ih =>
    intro i bins hs' h hb hc
    have hs : 0 ≤ scale := hs' (by omega)
    have hlt : node.left_first + i < prims.length := by omega
    rw [populate_bins, rd_of_lt _ hlt]
    obtain ⟨c, hcc⟩ := Vec3.get_ok (prims[node.left_first + i]).get_centroid a ha
    simp only [hcc]
    have hbc : bmin ≤ c := hc 0 (by omega) _ c (by simp [hlt]) hcc
    have h7 : of_u32 (BINS - 1) = 7 := by
      rw [of_u32_exact _ (by simp [BINS])]
      simp [BINS]
    have hq0 : 0 ≤ fminf (of_u32 (BINS - 1)) (fmul (fsub c bmin) scale) := by
      rw [fminf_eq, h7]
      apply le_min
      · norm_num
      · exact fmul_nonneg (fsub_nonneg hbc) hs
    have hq7 : fminf (of_u32 (BINS - 1)) (fmul (fsub c bmin) scale) ≤ 7 := by
      rw [fminf_eq, h7]
      exact min_le_left _ _
    obtain ⟨h0, h8⟩ := to_int_bounds _ hq0 hq7
    rw [if_neg (not_lt.2 h0)]
    rw [rd_of_lt _ (by rw [hb]; exact h8)]
    simp only
    apply ih (i + 1) _ (fun _ => hs) (by omega) (by simp [hb])
    intro j hj p c' hp hc'
    apply hc (j + 1) (by omega) p c' _ hc'
    rw [← hp]
    congr 1
    omega

theorem wr_ok {α : Type} (xs : List α) (i : Nat) (a : α) (f : Fault) (h : i < xs.length) :
    wr xs i a f = .ok (xs.set i a) := by
  simp [wr, h]

theorem gather_planes_ok (bins : List Bin) (hb : bins.length = 8) :
    ∀ (k i : Nat) (p : Planes), i + k ≤ 7 → p.l_areas.length = 7 → p.r_areas.length = 7 →
      p.l_counts.length = 7 → p.r_counts.length = 7 →
      ∃ p', gather_planes bins k i p = .ok p' ∧ p'.l_areas.length = 7 ∧
        p'.r_areas.length = 7 ∧ p'.l_counts.length = 7 ∧ p'.r_counts.length = 7 := by
  intro k
  induction k with
  | zero => intro i p _ h1 h2 h3 h4; exact ⟨p, rfl, h1, h2, h3, h4⟩
  | succ k ih =>
    intro i p hi h1 h2 h3 h4
    rw [gather_planes]
    rw [rd_of_lt _ (by omega : i < bins.length)]
    simp only
    rw [wr_ok _ _ _ _ (by omega : i < p.l_counts.length)]
    simp only
    rw [wr_ok _ _ _ _ (by omega : i < p.l_areas.length)]
    simp only
    rw [rd_of_lt _ (by simp only [BINS]; omega : BINS - 1 - i < bins.length)]
    simp only
    rw [wr_ok _ _ _ _ (by simp only [BINS]; omega : BINS - 2 - i < p.r_counts.length)]
    simp only
    rw [wr_ok _ _ _ _ (by simp only [BINS]; omega : BINS - 2 - i < p.r_areas.length)]
    simp only
    apply ih (i + 1) _ (by omega) <;> simp [h1, h2, h3, h4]

theorem best_plane_ok (p : Planes) (a : Nat) (bmin scale : ℚ) (h1 : p.l_areas.length = 7)
    (h2 : p.r_areas.length = 7) (h3 : p.l_counts.length = 7) (h4 : p.r_counts.length = 7) :
    ∀ (k i : Nat) (best : Split), i + k ≤ 7 →
      ∃ s, best_plane p a bmin scale k i best = .ok s := by
  intro k
  induction k with
  | zero => intro i best _; exact ⟨best, rfl⟩
  | succ k ih =>
    intro i best hi
    rw [best_plane]
    rw [rd_of_lt _ (by omega : i < p.l_counts.length),
      rd_of_lt _ (by omega : i < p.l_areas.length),
      rd_of_lt _ (by omega : i < p.r_counts.length),
      rd_of_lt _ (by omega : i < p.r_areas.length)]
    simp only
    split_ifs
    · exact ih (i + 1) _ (by omega)
    · exact ih (i + 1) _ (by omega)

theorem split_on_axis_ok (prims : List Triangle) (node : Node) (a : Nat) (ha : a < 3)
    (best : Split) (h : node.left_first + node.prim_count ≤ prims.length) :
    ∃ s, split_on_axis prims node a best = .ok s := by
  unfold split_on_axis
  obtain ⟨r, hr, h1, h2, h3⟩ :=
    centroid_range_ok prims node a ha node.prim_count 0 f1e30 (-f1e30) (by simpa using h)
  obtain ⟨bmin, bmax⟩ := r
  simp only [hr]
  by_cases hb : bmin = bmax
  · rw [if_pos hb]; exact ⟨best, rfl⟩
  · rw [if_neg hb]
    have hs : 0 < node.prim_count → (0 : ℚ) ≤ fdiv (of_u32 BINS) (fsub bmax bmin) := by
      intro hk
      have hlt : node.left_first + 0 + 0 < prims.length := by omega
      obtain ⟨c, hc⟩ := Vec3.get_ok (prims[node.left_first + 0 + 0]).get_centroid a ha
      have := h3 0 hk _ c (List.getElem?_eq_getElem hlt) hc
      have hle : bmin ≤ bmax := le_trans this.1 this.2
      exact fdiv_nonneg (of_u32_nonneg _) (fsub_nonneg hle)
    obtain ⟨bins, hbins, hlen⟩ := populate_bins_ok prims node a ha bmin _ node.prim_count 0
      (List.replicate BINS {}) hs (by simpa using h) (by simp [BINS])
      (fun j hj p c hp hc => (h3 j hj p c hp hc).1)
    simp only [hbins]
    obtain ⟨p, hp, l1, l2, l3, l4⟩ := gather_planes_ok bins hlen (BINS - 1) 0
      { l_areas := List.replicate (BINS - 1) 0, r_areas := List.replicate (BINS - 1) 0,
        l_counts := List.replicate (BINS - 1) 0, r_counts := List.replicate (BINS - 1) 0 }
      (by simp [BINS]) (by simp [BINS]) (by simp [BINS]) (by simp [BINS]) (by simp [BINS])
    simp only [hp]
    exact best_plane_ok p a bmin _ l1 l2 l3 l4 (BINS - 1) 0 best (by simp [BINS])

theorem axes_loop_ok (prims : List Triangle) (node : Node)
    (h : node.left_first + node.prim_count ≤ prims.length) :
    ∀ (k a : Nat) (best : Split), a + k ≤ 3 → ∃ s, axes_loop prims node k a best = .ok s := by
  intro k
  induction k with
  | zero => intro a best _; exact ⟨best, rfl⟩
  | succ k ih =>
    intro a best hk
    rw [axes_loop]
    obtain ⟨s, hs⟩ := split_on_axis_ok prims node a (by omega) best h
    simp only [hs]
    exact ih (a + 1) s (by omega)

/-- The method `find_best_split` stays inside its arrays on every node whose
primitive range lies inside `prims`. -/
theorem find_best_split_ok (prims : List Triangle) (node : Node) (axis : Int) (t : ℚ)
    (h : node.left_first + node.prim_count ≤ prims.length) :
    ∃ s, find_best_split prims node axis t = .ok s :=
  axes_loop_ok prims node h 3 0 _ (by omega)

/-! ## The hierarchy as a tree -/

theorem Built.le {nodes : List Node} {prims : List Triangle} :
    ∀ {T : Tree} {u u' : Nat}, Built nodes prims T u u' → u ≤ u' ∧ u' % 2 = 0 := by
  intro T
  induction T with
  | leaf idx first count =>
    intro u u' h
    obtain ⟨h1, _, h3, _⟩ := h
    subst h1
    exact ⟨le_refl _, h3⟩
  | node idx l r ihl ihr =>
    intro u u' h
    obtain ⟨_, _, _, _, _, _, m, hl, hr⟩ := h
    have := ihl hl
    have := ihr hr
    omega

theorem Built.idx_lt {nodes : List Node} {prims : List Triangle} {T : Tree} {u u' : Nat}
    (h : Built nodes prims T u u') : T.idx < u := by
  cases T with
  | leaf idx first count => exact h.2.1
  | node idx l r => exact h.1

theorem Built.range {nodes : List Node} {prims : List Triangle} :
    ∀ {T : Tree} {u u' : Nat}, Built nodes prims T u u' →
      0 < T.count ∧ T.first + T.count ≤ prims.length := by
  intro T
  induction T with
  | leaf idx first count =>
    intro u u' h
    exact ⟨h.2.2.2.1, h.2.2.2.2.1⟩
  | node idx l r ihl ihr =>
    intro u u' h
    obtain ⟨_, _, _, _, h5, _, m, hl, hr⟩ := h
    have := ihl hl
    have := ihr hr
    simp only [Tree.count, Tree.first]
    omega

/-- The node of the root of a built tree. -/
theorem Built.root {nodes : List Node} {prims : List Triangle} {T : Tree} {u u' : Nat}
    (h : Built nodes prims T u u') :
    ∃ nd, nodes[T.idx]? = some nd ∧ nd.min = lo (slice prims T.first T.count) ∧
      nd.max = hi (slice prims T.first T.count) := by
  cases T with
  | leaf idx first count => exact ⟨_, h.2.2.2.2.2, rfl, rfl⟩
  | node idx l r => exact ⟨_, h.2.2.2.2.2.1, rfl, rfl⟩

/-- A built tree depends only on its own nodes and its own primitive range. -/
theorem Built.frame {nodes nodes' : List Node} {prims prims' : List Triangle}
    (hlen : prims'.length = prims.length) :
    ∀ {T : Tree} {u u' : Nat}, Built nodes prims T u u' →
      (∀ k, k = T.idx ∨ (u ≤ k ∧ k < u') → nodes'[k]? = nodes[k]?) →
      (∀ k, T.first ≤ k → k < T.first + T.count → prims'[k]? = prims[k]?) →
      Built nodes' prims' T u u' := by
  intro T
  induction T with
  | leaf idx first count =>
    intro u u' h hn hp
    obtain ⟨h1, h2, h3, h4, h5, h6⟩ := h
    refine ⟨h1, h2, h3, h4, by rw [hlen]; exact h5, ?_⟩
    rw [hn idx (Or.inl rfl), h6, slice_congr prims prims' first count hp]
  | node idx l r ihl ihr =>
    intro u u' h hn hp
    obtain ⟨h1, h2, h3, h4, h5, h6, m, hl, hr⟩ := h
    have hl' := Built.le hl
    have hr' := Built.le hr
    have hrl := Built.range hl
    have hrr := Built.range hr
    simp only [Tree.first, Tree.count] at hp
    refine ⟨h1, h2, h3, h4, h5, ?_, m, ?_, ?_⟩
    · rw [hn idx (Or.inl rfl), h6, slice_congr prims prims' _ _ hp]
    · apply ihl hl
      · intro k hk
        apply hn
        right
        omega
      · intro k hk1 hk2
        exact hp k hk1 (by omega)
    · apply ihr hr
      · intro k hk
        apply hn
        right
        omega
      · intro k hk1 hk2
        exact hp k (by omega) (by omega)

/-! ## subdivide -/

theorem upd_ok (nodes : List Node) (i : Nat) (g : Node → Node) (nd : Node)
    (h : nodes[i]? = some nd) : upd nodes i g = .ok (nodes.set i (g nd)) := by
  simp [upd, h]

theorem refit_at_ok (nodes : List Node) (i : Nat) (prims : List Triangle) (nd : Node)
    (h : nodes[i]? = some nd) (hr : nd.left_first + nd.prim_count ≤ prims.length) :
    refit_at nodes i prims =
      .ok (nodes.set i { nd with min := lo (slice prims nd.left_first nd.prim_count),
                                 max := hi (slice prims nd.left_first nd.prim_count) }) := by
  unfold refit_at
  rw [rd_ok_iff.2 h]
  simp only
  rw [refit_node_ok nd prims hr]

theorem make_children_ok (m : BvhMem) (idx : Nat) (nd : Node) (i : Nat)
    (prims : List Triangle) (norms : List Normals) (h : m.nodes[idx]? = some nd)
    (hidx : idx < m.nodes_used) (hu : m.nodes_used + 1 < m.nodes.length)
    (h1 : nd.left_first ≤ i) (h2 : i ≤ nd.left_first + nd.prim_count)
    (h3 : nd.left_first + nd.prim_count ≤ prims.length) :
    ∃ m1, make_children m idx nd i prims norms = .ok (m1, m.nodes_used, m.nodes_used + 1) ∧
      m1.nodes_used = m.nodes_used + 2 ∧ m1.prims = prims ∧ m1.norms = norms ∧
      m1.nodes.length = m.nodes.length ∧
      m1.nodes[idx]? = some ⟨nd.min, m.nodes_used, nd.max, 0⟩ ∧
      m1.nodes[m.nodes_used]? =
        some ⟨lo (slice prims nd.left_first (i - nd.left_first)), nd.left_first,
              hi (slice prims nd.left_first (i - nd.left_first)), i - nd.left_first⟩ ∧
      m1.nodes[m.nodes_used + 1]? =
        some ⟨lo (slice prims i (nd.prim_count - (i - nd.left_first))), i,
              hi (slice prims i (nd.prim_count - (i - nd.left_first))),
              nd.prim_count - (i - nd.left_first)⟩ ∧
      ∀ k, k ≠ idx → k ≠ m.nodes_used → k ≠ m.nodes_used + 1 → m1.nodes[k]? = m.nodes[k]? := by
  have hu0 : m.nodes_used < m.nodes.length := by omega
  have hne1 : m.nodes_used ≠ idx := by omega
  have hne2 : m.nodes_used + 1 ≠ idx := by omega
  have hne3 : m.nodes_used ≠ m.nodes_used + 1 := by omega
  unfold make_children
  simp only
  rw [upd_ok _ _ _ _ (List.getElem?_eq_getElem hu0)]
  simp only
  rw [upd_ok _ _ _ (m.nodes[m.nodes_used + 1]) (by
    rw [List.getElem?_set_ne hne3]; exact List.getElem?_eq_getElem hu)]
  simp only
  rw [upd_ok _ _ _ nd (by
    rw [List.getElem?_set_ne hne2, List.getElem?_set_ne hne1]; exact h)]
  simp only
  rw [refit_at_ok _ _ prims
    ⟨(m.nodes[m.nodes_used]).min, nd.left_first, (m.nodes[m.nodes_used]).max, i - nd.left_first⟩
    (by
      rw [List.getElem?_set_ne (Ne.symm hne1), List.getElem?_set_ne (Ne.symm hne3),
        List.getElem?_set_self hu0])
    (by simp only; omega)]
  simp only
  rw [refit_at_ok _ _ prims
    ⟨(m.nodes[m.nodes_used + 1]).min, i, (m.nodes[m.nodes_used + 1]).max,
      nd.prim_count - (i - nd.left_first)⟩
    (by
      rw [List.getElem?_set_ne hne3, List.getElem?_set_ne (Ne.symm hne2),
        List.getElem?_set_self (by simpa using hu)])
    (by simp only; omega)]
  simp only
  refine ⟨_, rfl, rfl, rfl, rfl, by simp, ?_, ?_, ?_, ?_⟩
  · simp only
    rw [List.getElem?_set_ne hne2, List.getElem?_set_ne hne1, List.getElem?_set_self (by
      simp; omega)]
  · simp only
    rw [List.getElem?_set_ne (Ne.symm hne3), List.getElem?_set_self (by simpa using hu0)]
  · simp only
    rw [List.getElem?_set_self (by simpa using hu)]
  · intro k k1 k2 k3
    simp only
    rw [List.getElem?_set_ne (Ne.symm k3), List.getElem?_set_ne (Ne.symm k2),
      List.getElem?_set_ne (Ne.symm k1), List.getElem?_set_ne (Ne.symm k3),
      List.getElem?_set_ne (Ne.symm k2)]

theorem perm_of_zip_perm {α β : Type} {xs xs' : List α} {ys ys' : List β}
    (h : (xs'.zip ys').Perm (xs.zip ys)) (h1 : xs.length = ys.length)
    (h2 : xs'.length = ys'.length) : xs'.Perm xs := by
  have := h.map Prod.fst
  rwa [List.map_fst_zip _ _ (le_of_eq h1), List.map_fst_zip _ _ (le_of_eq h2)] at this

/-- The node stays a leaf: the primitives of its range were at most permuted. -/
theorem subdivide_post_leaf (m : BvhMem) (idx first count : Nat) (prims : List Triangle)
    (norms : List Normals)
    (hb : Built m.nodes m.prims (.leaf idx first count) m.nodes_used m.nodes_used)
    (hlen : m.prims.length = m.norms.length)
    (h1 : prims.length = m.prims.length) (h2 : norms.length = m.norms.length)
    (hperm : (prims.zip norms).Perm (m.prims.zip m.norms))
    (hp : ∀ k, k < first ∨ first + count ≤ k → prims[k]? = m.prims[k]?)
    (hn : ∀ k, k < first ∨ first + count ≤ k → norms[k]? = m.norms[k]?) :
    SubdividePost m idx first count { m with prims := prims, norms := norms } := by
  obtain ⟨_, hidx, heven, hcount, hrange, hnode⟩ := hb
  have hsl : (slice prims first count).Perm (slice m.prims first count) :=
    slice_perm_of_perm _ _ _ _ (perm_of_zip_perm hperm hlen (by omega)) hp
  refine ⟨⟨.leaf idx first count, rfl, rfl, rfl, ?_⟩, by simp only; omega, rfl,
    fun _ _ _ => rfl, h1, h2, hperm, hp, hn⟩
  exact ⟨rfl, hidx, heven, hcount, by simp only; omega, by
    simp only; rw [hnode, lo_perm hsl, hi_perm hsl]⟩

theorem subdivide_spec :
    ∀ (fuel : Nat) (m : BvhMem) (idx first count : Nat),
      Built m.nodes m.prims (.leaf idx first count) m.nodes_used m.nodes_used →
      m.prims.length = m.norms.length → count ≤ fuel →
      m.nodes_used + 2 * count ≤ m.nodes.length + 2 →
      match subdivide fuel m idx with
      | .ok m' => SubdividePost m idx first count m'
      | .error e => e = .vec_index ∨ e = .prim_index ∨
          (e = .fuel ∧ 4294967296 ≤ m.prims.length) := by
  intro fuel
  induction fuel with
  | zero =>
    intro m idx first count hb _ hc _
    have := hb.2.2.2.1
    omega
  | succ fuel ih =>
    intro m idx first count hb hlen hfuel hbudget
    have hstay : SubdividePost m idx first count m :=
      subdivide_post_leaf m idx first count m.prims m.norms hb hlen rfl rfl (List.Perm.refl _)
        (fun _ _ => rfl) (fun _ _ => rfl)
    obtain ⟨_, hidx, heven, hcount, hrange, hnode⟩ := id hb
    rw [subdivide, rd_ok_iff.2 hnode]
    simp only
    by_cases h2 : count ≤ 2
    · rw [if_pos h2]
      exact hstay
    · rw [if_neg h2]
      obtain ⟨s, hs⟩ := find_best_split_ok m.prims
        ⟨lo (slice m.prims first count), first, hi (slice m.prims first count), count⟩ (-1) 0 hrange
      rw [hs]
      simp only
      split_ifs with hcost
      · exact hstay
      · have hp := partition_spec s.axis s.t (count + 1) first (first + count - 1) m.prims
          m.norms (by omega) (by omega) (by omega) hlen
        cases hr : partition s.axis s.t (count + 1) first (first + count - 1) m.prims
            m.norms with
        | error e =>
          rw [hr] at hp
          simp only at hp ⊢
          exact hp
        | ok r =>
          obtain ⟨i, prims', norms'⟩ := r
          rw [hr] at hp
          simp only at hp ⊢
          obtain ⟨p1, p2, p3, p4, p5, p6, p7, _, _⟩ := hp
          simp only at p1 p2 p3 p4 p5 p6 p7
          have hleaf := subdivide_post_leaf m idx first count prims' norms' hb hlen p3 p4 p5
            (fun k hk => p6 k (by omega)) (fun k hk => p7 k (by omega))
          split_ifs with hsplit
          · exact hleaf
          · have hlc : 0 < i - first ∧ i - first < count := by omega
            obtain ⟨m1, hm1, u1, q1, q2, q3, n1, n2, n3, n4⟩ := make_children_ok m idx
              ⟨lo (slice m.prims first count), first, hi (slice m.prims first count), count⟩ i
              prims' norms' hnode hidx (by omega) p1 (by simp only; omega)
              (by simp only; omega)
            simp only at n1 n2 n3
            rw [hm1]
            simp only
            -- the left child
            have hbl : Built m1.nodes m1.prims (.leaf m.nodes_used first (i - first))
                m1.nodes_used m1.nodes_used := by
              rw [u1, q1]
              exact ⟨rfl, by omega, by omega, hlc.1, by omega, n2⟩
            have ihl := ih m1 m.nodes_used first (i - first) hbl (by rw [q1, q2]; omega)
              (by omega) (by rw [u1, q3]; omega)
            cases hl : subdivide fuel m1 m.nodes_used with
            | error e =>
              rw [hl] at ihl
              simp only at ihl ⊢
              rw [q1, p3] at ihl
              exact ihl
            | ok m2 =>
              rw [hl] at ihl
              simp only at ihl ⊢
              obtain ⟨⟨TL, tl1, tl2, tl3, tl4⟩, l2, l3, l4, l5, l6, l7, l8, l9⟩ := ihl
              rw [u1] at tl4 l2 l4
              rw [q1] at l5 l7 l8
              rw [q2] at l6 l7 l9
              have hle2 := Built.le tl4
              -- the right child
              have hcnt : i - first + (count - (i - first)) = count := by omega
              have hbr : Built m2.nodes m2.prims
                  (.leaf (m.nodes_used + 1) i (count - (i - first))) m2.nodes_used
                  m2.nodes_used := by
                refine ⟨rfl, by omega, hle2.2, by omega, by rw [l5, p3]; omega, ?_⟩
                rw [l4 (m.nodes_used + 1) (by omega) (Or.inl (by omega)), n3,
                  slice_congr prims' m2.prims i _ (fun k hk1 hk2 => l8 k (Or.inr (by omega)))]
              have ihr := ih m2 (m.nodes_used + 1) i (count - (i - first)) hbr
                (by rw [l5, l6, p3, p4]; exact hlen) (by omega) (by rw [l3, q3]; omega)
              cases hrr : subdivide fuel m2 (m.nodes_used + 1) with
              | error e =>
                rw [hrr] at ihr
                simp only at ihr ⊢
                rw [l5, p3] at ihr
                exact ihr
              | ok m3 =>
                rw [hrr] at ihr
                simp only at ihr ⊢
                obtain ⟨⟨TR, tr1, tr2, tr3, tr4⟩, r2, r3, r4, r5, r6, r7, r8, r9⟩ := ihr
                have hle3 := Built.le tr4
                have hout : ∀ k, k < first ∨ first + count ≤ k →
                    m3.prims[k]? = m.prims[k]? := by
                  intro k hk
                  rw [r8 k (by omega), l8 k (by omega), p6 k (by omega)]
                have hzip : (m3.prims.zip m3.norms).Perm (m.prims.zip m.norms) :=
                  r7.trans (l7.trans p5)
                have hsl : (slice m3.prims first count).Perm (slice m.prims first count) :=
                  slice_perm_of_perm _ _ _ _ (perm_of_zip_perm hzip hlen (by omega)) hout
                refine ⟨⟨.node idx TL TR, rfl, tl2, by simp only [Tree.count]; omega, ?_⟩,
                  by omega, r3.trans (l3.trans q3), ?_, by omega, by omega, hzip, hout, ?_⟩
                · refine ⟨hidx, heven, tl1, tr1, by omega, ?_, m2.nodes_used, ?_, tr4⟩
                  · rw [r4 idx (by omega) (Or.inl (by omega)),
                      l4 idx (by omega) (Or.inl (by omega)), n1, tl2, tl3, tr3, hcnt,
                      lo_perm hsl, hi_perm hsl]
                  · apply Built.frame r5 tl4
                    · intro k hk
                      exact r4 k (by omega) (Or.inl (by omega))
                    · intro k hk1 hk2
                      exact r8 k (Or.inl (by omega))
                · intro k hk1 hk2
                  rw [r4 k (by omega) (by omega), l4 k (by omega) (by omega),
                    n4 k hk1 (by omega) (by omega)]
                · intro k hk
                  rw [r9 k (by omega), l9 k (by omega), p7 k (by omega)]

/-! ## Nodes of a built tree -/

theorem Tree.self_mem_subtrees (T : Tree) : T ∈ T.subtrees := by
  cases T <;> simp [Tree.subtrees]

theorem Tree.length_subtrees (T : Tree) : T.subtrees.length = T.size := by
  induction T with
  | leaf idx first count => rfl
  | node idx l r ihl ihr => simp [Tree.subtrees, Tree.size, ihl, ihr]; omega

theorem Built.size {nodes : List Node} {prims : List Triangle} :
    ∀ {T : Tree} {u u' : Nat}, Built nodes prims T u u' → T.size + u = u' + 1 := by
  intro T
  induction T with
  | leaf idx first count =>
    intro u u' h
    have := h.1
    simp only [Tree.size]
    omega
  | node idx l r ihl ihr =>
    intro u u' h
    obtain ⟨_, _, _, _, _, _, m, hl, hr⟩ := h
    have := ihl hl
    have := ihr hr
    simp only [Tree.size]
    omega

/-- Every subtree of a built tree is built, inside the node interval and the
primitive range of the tree. -/
theorem Built.sub {nodes : List Node} {prims : List Triangle} :
    ∀ {T : Tree} {u u' : Nat}, Built nodes prims T u u' → ∀ S ∈ T.subtrees,
      ∃ v v', Built nodes prims S v v' ∧ u ≤ v ∧ v' ≤ u' ∧ T.first ≤ S.first ∧
        S.first + S.count ≤ T.first + T.count ∧ (S = T ∨ (u ≤ S.idx ∧ S.idx < u')) := by
  intro T
  induction T with
  | leaf idx first count =>
    intro u u' h S hS
    simp only [Tree.subtrees, List.mem_singleton] at hS
    subst hS
    exact ⟨u, u', h, le_refl _, le_refl _, le_refl _, le_refl _, Or.inl rfl⟩
  | node idx l r ihl ihr =>
    intro u u' h S hS
    simp only [Tree.subtrees, List.mem_cons, List.mem_append] at hS
    have hle := Built.le h
    obtain ⟨h1, h2, h3, h4, h5, h6, m, hl, hr⟩ := id h
    have hlel := Built.le hl
    have hler := Built.le hr
    have hrl := Built.range hl
    have hrr := Built.range hr
    rcases hS with rfl | hS | hS
    · exact ⟨u, u', h, le_refl _, le_refl _, le_refl _, le_refl _, Or.inl rfl⟩
    · obtain ⟨v, v', b, c1, c2, c3, c4, c5⟩ := ihl hl S hS
      refine ⟨v, v', b, by omega, by omega, c3, by simp only [Tree.first, Tree.count]; omega,
        Or.inr ?_⟩
      rcases c5 with rfl | c5
      · omega
      · omega
    · obtain ⟨v, v', b, c1, c2, c3, c4, c5⟩ := ihr hr S hS
      refine ⟨v, v', b, by omega, by omega, by simp only [Tree.first]; omega,
        by simp only [Tree.first, Tree.count]; omega, Or.inr ?_⟩
      rcases c5 with rfl | c5
      · omega
      · omega

/-- Every index of the node interval of a built tree is the root of a subtree. -/
theorem Built.index {nodes : List Node} {prims : List Triangle} :
    ∀ {T : Tree} {u u' : Nat}, Built nodes prims T u u' →
      ∀ k, k = T.idx ∨ (u ≤ k ∧ k < u') → ∃ S ∈ T.subtrees, S.idx = k := by
  intro T
  induction T with
  | leaf idx first count =>
    intro u u' h k hk
    have := h.1
    rcases hk with rfl | hk
    · exact ⟨_, Tree.self_mem_subtrees _, rfl⟩
    · omega
  | node idx l r ihl ihr =>
    intro u u' h k hk
    obtain ⟨h1, h2, h3, h4, h5, h6, m, hl, hr⟩ := id h
    have hlel := Built.le hl
    rcases hk with rfl | hk
    · exact ⟨_, Tree.self_mem_subtrees _, rfl⟩
    · by_cases hkl : k = u ∨ (u + 2 ≤ k ∧ k < m)
      · obtain ⟨S, hS, e⟩ := ihl hl k (by omega)
        exact ⟨S, by simp [Tree.subtrees, hS], e⟩
      · obtain ⟨S, hS, e⟩ := ihr hr k (by omega)
        exact ⟨S, by simp [Tree.subtrees, hS], e⟩

/-- Distinct subtrees of a built tree have distinct node indices. -/
theorem Built.idx_inj {nodes : List Node} {prims : List Triangle} :
    ∀ {T : Tree} {u u' : Nat}, Built nodes prims T u u' →
      ∀ S₁ ∈ T.subtrees, ∀ S₂ ∈ T.subtrees, S₁.idx = S₂.idx → S₁ = S₂ := by
  intro T
  induction T with
  | leaf idx first count =>
    intro u u' h S₁ h₁ S₂ h₂ _
    simp only [Tree.subtrees, List.mem_singleton] at h₁ h₂
    rw [h₁, h₂]
  | node idx l r ihl ihr =>
    intro u u' h S₁ h₁ S₂ h₂ e
    obtain ⟨c1, c2, c3, c4, c5, c6, m, hl, hr⟩ := id h
    have hlel := Built.le hl
    have hler := Built.le hr
    have inl : ∀ S ∈ l.subtrees, S.idx = u ∨ (u + 2 ≤ S.idx ∧ S.idx < m) := by
      intro S hS
      obtain ⟨v, v', b, d1, d2, d3, d4, d5⟩ := Built.sub hl S hS
      rcases d5 with rfl | d5
      · exact Or.inl c3
      · exact Or.inr d5
    have inr : ∀ S ∈ r.subtrees, S.idx = u + 1 ∨ (m ≤ S.idx ∧ S.idx < u') := by
      intro S hS
      obtain ⟨v, v', b, d1, d2, d3, d4, d5⟩ := Built.sub hr S hS
      rcases d5 with rfl | d5
      · exact Or.inl c4
      · exact Or.inr d5
    simp only [Tree.subtrees, List.mem_cons, List.mem_append] at h₁ h₂
    rcases h₁ with rfl | h₁ | h₁ <;> rcases h₂ with rfl | h₂ | h₂
    · rfl
    · have := inl _ h₂; change idx = S₂.idx at e; omega
    · have := inr _ h₂; change idx = S₂.idx at e; omega
    · have := inl _ h₁; change S₁.idx = idx at e; omega
    · exact ihl hl _ h₁ _ h₂ e
    · have := inl _ h₁; have := inr _ h₂; omega
    · have := inr _ h₁; change S₁.idx = idx at e; omega
    · have := inl _ h₂; have := inr _ h₁; omega
    · exact ihr hr _ h₁ _ h₂ e

/-- The node stored for the root of a built tree: a leaf stores its range, an
internal node the index of its left child. -/
theorem Built.view {nodes : List Node} {prims : List Triangle} {T : Tree} {u u' : Nat}
    (h : Built nodes prims T u u') :
    (∃ first count, T = .leaf T.idx first count ∧ 0 < count ∧
        first + count ≤ prims.length ∧ u' = u ∧
        nodes[T.idx]? = some ⟨lo (slice prims first count), first,
          hi (slice prims first count), count⟩) ∨
    (∃ l r m, T = .node T.idx l r ∧ l.idx = u ∧ r.idx = u + 1 ∧ u % 2 = 0 ∧
        r.first = l.first + l.count ∧ Built nodes prims l (u + 2) m ∧
        Built nodes prims r m u' ∧
        nodes[T.idx]? = some ⟨lo (slice prims T.first T.count), u,
          hi (slice prims T.first T.count), 0⟩) := by
  cases T with
  | leaf idx first count =>
    left
    exact ⟨first, count, rfl, h.2.2.2.1, h.2.2.2.2.1, h.1, h.2.2.2.2.2⟩
  | node idx l r =>
    right
    obtain ⟨c1, c2, c3, c4, c5, c6, m, hl, hr⟩ := h
    exact ⟨l, r, m, rfl, c3, c4, c2, c5, hl, hr, c6⟩

/-- Each primitive of the range of a built tree lies in the range of a leaf. -/
theorem Built.leaf_cover {nodes : List Node} {prims : List Triangle} :
    ∀ {T : Tree} {u u' : Nat}, Built nodes prims T u u' →
      ∀ p, T.first ≤ p → p < T.first + T.count →
        ∃ idx first count, .leaf idx first count ∈ T.subtrees ∧ first ≤ p ∧ p < first + count := by
  intro T
  induction T with
  | leaf idx first count =>
    intro u u' _ p h1 h2
    exact ⟨idx, first, count, by simp [Tree.subtrees], h1, h2⟩
  | node idx l r ihl ihr =>
    intro u u' h p h1 h2
    obtain ⟨c1, c2, c3, c4, c5, c6, m, hl, hr⟩ := h
    simp only [Tree.first, Tree.count] at h1 h2
    by_cases hp : p < l.first + l.count
    · obtain ⟨i, f, c, hm, e1, e2⟩ := ihl hl p h1 hp
      exact ⟨i, f, c, by simp [Tree.subtrees, hm], e1, e2⟩
    · obtain ⟨i, f, c, hm, e1, e2⟩ := ihr hr p (by omega) (by omega)
      exact ⟨i, f, c, by simp [Tree.subtrees, hm], e1, e2⟩

/-- The ranges of two different leaves of a built tree are disjoint. -/
theorem Built.leaf_disjoint {nodes : List Node} {prims : List Triangle} :
    ∀ {T : Tree} {u u' : Nat}, Built nodes prims T u u' →
      ∀ i₁ f₁ c₁ i₂ f₂ c₂ p, .leaf i₁ f₁ c₁ ∈ T.subtrees → .leaf i₂ f₂ c₂ ∈ T.subtrees →
        f₁ ≤ p → p < f₁ + c₁ → f₂ ≤ p → p < f₂ + c₂ → i₁ = i₂ := by
  intro T
  induction T with
  | leaf idx first count =>
    intro u u' _ i₁ f₁ c₁ i₂ f₂ c₂ p h₁ h₂ _ _ _ _
    simp only [Tree.subtrees, List.mem_singleton, Tree.leaf.injEq] at h₁ h₂
    omega
  | node idx l r ihl ihr =>
    intro u u' h i₁ f₁ c₁ i₂ f₂ c₂ p h₁ h₂ a1 a2 a3 a4
    obtain ⟨c1, c2, c3, c4, c5, c6, m, hl, hr⟩ := h
    have inl : ∀ i f c, .leaf i f c ∈ l.subtrees → l.first ≤ f ∧ f + c ≤ l.first + l.count := by
      intro i f c hS
      obtain ⟨v, v', b, d1, d2, d3, d4, d5⟩ := Built.sub hl _ hS
      exact ⟨d3, d4⟩
    have inr : ∀ i f c, .leaf i f c ∈ r.subtrees → r.first ≤ f ∧ f + c ≤ r.first + r.count := by
      intro i f c hS
      obtain ⟨v, v', b, d1, d2, d3, d4, d5⟩ := Built.sub hr _ hS
      exact ⟨d3, d4⟩
    simp only [Tree.subtrees, List.mem_cons, List.mem_append, reduceCtorEq, false_or] at h₁ h₂
    rcases h₁ with h₁ | h₁ <;> rcases h₂ with h₂ | h₂
    · exact ihl hl _ _ _ _ _ _ p h₁ h₂ a1 a2 a3 a4
    · have := inl _ _ _ h₁; have := inr _ _ _ h₂; omega
    · have := inl _ _ _ h₂; have := inr _ _ _ h₁; omega
    · exact ihr hr _ _ _ _ _ _ p h₁ h₂ a1 a2 a3 a4

/-! ## The flattening loop -/

theorem upd_gpu_ok (g : List GPUNode) (i : Nat) (f : GPUNode → GPUNode) (h : i < g.length) :
    upd_gpu g i f = .ok (gmod g i f) := by
  simp [upd_gpu, gmod, List.getElem?_eq_getElem h]

theorem length_gmod (g : List GPUNode) (i : Nat) (f : GPUNode → GPUNode) :
    (gmod g i f).length = g.length := by
  unfold gmod
  split <;> simp

theorem getElem?_gmod_ne (g : List GPUNode) (i k : Nat) (f : GPUNode → GPUNode) (h : k ≠ i) :
    (gmod g i f)[k]? = g[k]? := by
  unfold gmod
  split
  · rw [List.getElem?_set_ne (Ne.symm h)]
  · rfl

theorem getElem?_gmod_self (g : List GPUNode) (i : Nat) (f : GPUNode → GPUNode) (x : GPUNode)
    (h : g[i]? = some x) : (gmod g i f)[i]? = some (f x) := by
  unfold gmod
  rw [h]
  simp only
  rw [List.getElem?_set_self (List.getElem?_eq_some.1 h).1]

theorem resume_cons (nodes : List Node) (fuel alt node_ptr newNodeParent : Nat)
    (stack : List Nat) (gpu : List GPUNode) :
    resume nodes fuel alt (node_ptr :: newNodeParent :: stack) gpu =
      match upd_gpu gpu newNodeParent (fun g => { g with right := alt }) with
      | .error f => .error f
      | .ok gpu =>
        flatten nodes fuel
          { alt_node := alt, node_ptr := node_ptr, stack := stack, gpu_nodes := gpu } := rfl

theorem Tree.size_pos (T : Tree) : 0 < T.size := by
  cases T <;> simp [Tree.size]

theorem Tree.length_emit (nodes : List Node) :
    ∀ (T : Tree) (a : Nat) (g : List GPUNode), (T.emit nodes a g).length = g.length := by
  intro T
  induction T with
  | leaf idx first count => intro a g; simp [Tree.emit, length_gmod]
  | node idx l r ihl ihr => intro a g; simp [Tree.emit, length_gmod, ihl, ihr]

theorem Tree.emit_out (nodes : List Node) :
    ∀ (T : Tree) (a : Nat) (g : List GPUNode) (k : Nat), k < a ∨ a + T.size ≤ k →
      (T.emit nodes a g)[k]? = g[k]? := by
  intro T
  induction T with
  | leaf idx first count =>
    intro a g k hk
    simp only [Tree.size] at hk
    simp only [Tree.emit]
    exact getElem?_gmod_ne _ _ _ _ (by omega)
  | node idx l r ihl ihr =>
    intro a g k hk
    simp only [Tree.size] at hk
    simp only [Tree.emit]
    rw [ihr _ _ k (by omega), getElem?_gmod_ne _ _ _ _ (by omega), ihl _ _ k (by omega),
      getElem?_gmod_ne _ _ _ _ (by omega)]

/-- The loop converts a built tree and goes on after its last leaf, unless the
stack overflows. -/
theorem flatten_tree {nodes : List Node} {prims : List Triangle} :
    ∀ {T : Tree} {u u' : Nat}, Built nodes prims T u u' →
      ∀ (fuel a : Nat) (stack : List Nat) (g : List GPUNode), T.size ≤ fuel →
        a + T.size ≤ g.length →
        flatten nodes fuel { alt_node := a, node_ptr := T.idx, stack := stack, gpu_nodes := g } =
            resume nodes (fuel - T.size) (a + T.size) stack (T.emit nodes a g) ∨
          flatten nodes fuel { alt_node := a, node_ptr := T.idx, stack := stack, gpu_nodes := g } =
            .error .stack_index := by
  intro T
  induction T with
  | leaf idx first count =>
    intro u u' h fuel a stack g hf hg
    simp only [Tree.size] at hf hg
    obtain ⟨_, _, _, hc, _, hn⟩ := h
    left
    obtain ⟨fuel, rfl⟩ : ∃ f, fuel = f + 1 := ⟨fuel - 1, by omega⟩
    rw [flatten]
    simp only [Tree.idx]
    rw [rd_ok_iff.2 hn]
    have hleaf : Node.is_leaf ⟨lo (slice prims first count), first,
        hi (slice prims first count), count⟩ = true := by
      simp [Node.is_leaf]; omega
    simp only [hleaf, if_true]
    rw [upd_gpu_ok _ _ _ (by omega)]
    simp only [Tree.size, Nat.add_sub_cancel, Tree.emit]
    unfold resume
    rcases stack with _ | ⟨x, _ | ⟨y, st⟩⟩ <;> rfl
  | node idx l r ihl ihr =>
    intro u u' h fuel a stack g hf hg
    simp only [Tree.size] at hf hg
    obtain ⟨c1, c2, c3, c4, c5, c6, m, hl, hr⟩ := h
    obtain ⟨fuel, rfl⟩ : ∃ f, fuel = f + 1 := ⟨fuel - 1, by omega⟩
    obtain ⟨nl, hnl, _, _⟩ := Built.root hl
    obtain ⟨nr, hnr, _, _⟩ := Built.root hr
    rw [flatten]
    simp only [Tree.idx]
    rw [rd_ok_iff.2 c6]
    have hleaf : Node.is_leaf ⟨lo (slice prims l.first (l.count + r.count)), u,
        hi (slice prims l.first (l.count + r.count)), 0⟩ = false := by
      simp [Node.is_leaf]
    simp only [hleaf]
    rw [c3] at hnl
    rw [c4] at hnr
    rw [rd_ok_iff.2 hnl, rd_ok_iff.2 hnr]
    simp only [Bool.false_eq_true, if_false]
    rw [upd_gpu_ok _ _ _ (by omega)]
    simp only
    by_cases hs1 : stack.length < 128
    · simp only [push, hs1, if_true]
      by_cases hs2 : (a :: stack).length < 128
      · simp only [hs2, if_true]
        have il := ihl hl fuel (a + 1) ((u + 1) :: a :: stack)
          (gmod g a (fun x =>
            { x with lmin := nl.min, rmin := nr.min, lmax := nl.max, rmax := nr.max,
                     left := a + 1 })) (by omega) (by rw [length_gmod]; omega)
        rw [c3] at il
        rcases il with il | il
        · rw [il, resume_cons]
          rw [upd_gpu_ok _ _ _ (by rw [Tree.length_emit, length_gmod]; omega)]
          simp only
          have ir := ihr hr (fuel - l.size) (a + 1 + l.size) stack
            (gmod (l.emit nodes (a + 1) (gmod g a (fun x =>
              { x with lmin := nl.min, rmin := nr.min, lmax := nl.max, rmax := nr.max,
                       left := a + 1 }))) a
              (fun x => { x with right := a + 1 + l.size })) (by omega)
            (by rw [length_gmod, Tree.length_emit, length_gmod]; omega)
          rw [c4] at ir
          have e1 : fuel - l.size - r.size = fuel + 1 - (1 + l.size + r.size) := by omega
          have e2 : a + 1 + l.size + r.size = a + (1 + l.size + r.size) := by omega
          have e3 : (Tree.node idx l r).emit nodes a g =
              r.emit nodes (a + 1 + l.size)
                (gmod (l.emit nodes (a + 1) (gmod g a (fun x =>
                  { x with lmin := nl.min, rmin := nr.min, lmax := nl.max, rmax := nr.max,
                           left := a + 1 }))) a
                  (fun x => { x with right := a + 1 + l.size })) := by
            simp only [Tree.emit, c3, c4, hnl, hnr, Option.getD_some]
          rw [e1, e2, ← e3] at ir
          rcases ir with ir | ir
          · left
            exact ir
          · right
            exact ir
        · right
          exact il
      · right
        simp only [hs2, if_false]
    · right
      simp only [push, hs1, if_false]

theorem Tree.subtrees_zero (T : Tree) : T.subtrees[0]? = some T := by
  cases T <;> simp [Tree.subtrees]

/-- The children of the subtree at position `k` of the pre-order are at the
positions `k + 1` and `k + 1 + l.size`. -/
theorem Tree.children_pos :
    ∀ (T : Tree) (k i : Nat) (l r : Tree), T.subtrees[k]? = some (.node i l r) →
      T.subtrees[k + 1]? = some l ∧ T.subtrees[k + 1 + l.size]? = some r := by
  intro T
  induction T with
  | leaf idx first count =>
    intro k i l r h
    cases k with
    | zero => simp [Tree.subtrees] at h
    | succ k => simp [Tree.subtrees] at h
  | node idx L R ihL ihR =>
    intro k i l r h
    cases k with
    | zero =>
      simp only [Tree.subtrees, List.getElem?_cons_zero, Option.some.injEq,
        Tree.node.injEq] at h
      obtain ⟨_, rfl, rfl⟩ := h
      simp only [Tree.subtrees]
      constructor
      · simp only [List.getElem?_cons_succ]
        rw [List.getElem?_append_left (by rw [Tree.length_subtrees]; exact Tree.size_pos _)]
        exact Tree.subtrees_zero _
      · rw [show 0 + 1 + L.size = L.size + 1 by omega]
        simp only [List.getElem?_cons_succ]
        rw [List.getElem?_append_right (by rw [Tree.length_subtrees]),
          Tree.length_subtrees, Nat.sub_self]
        exact Tree.subtrees_zero _
    | succ k =>
      simp only [Tree.subtrees, List.getElem?_cons_succ] at h ⊢
      by_cases hk : k < L.subtrees.length
      · rw [List.getElem?_append_left hk] at h
        obtain ⟨h1, h2⟩ := ihL k i l r h
        have b1 := (List.getElem?_eq_some.1 h1).1
        have b2 := (List.getElem?_eq_some.1 h2).1
        rw [show k + 1 + 1 + l.size = (k + 1 + l.size) + 1 by omega]
        simp only [List.getElem?_cons_succ]
        rw [List.getElem?_append_left b1, List.getElem?_append_left b2]
        exact ⟨h1, h2⟩
      · rw [List.getElem?_append_right (by omega)] at h
        obtain ⟨h1, h2⟩ := ihR _ i l r h
        rw [show k + 1 + 1 + l.size = (k + 1 + l.size) + 1 by omega]
        simp only [List.getElem?_cons_succ]
        rw [List.getElem?_append_right (by omega), List.getElem?_append_right (by omega)]
        rw [show k + 1 - L.subtrees.length = k - L.subtrees.length + 1 by omega,
          show k + 1 + l.size - L.subtrees.length = k - L.subtrees.length + 1 + l.size by omega]
        exact ⟨h1, h2⟩

/-- On an array that is value-initialised where the tree is written, the loop
leaves the GPU node of each subtree at its pre-order position. -/
theorem Tree.emit_in (nodes : List Node) :
    ∀ (T : Tree) (a : Nat) (g : List GPUNode),
      (∀ k, a ≤ k → k < a + T.size → g[k]? = some GPUNode.zero) →
      ∀ (k : Nat) (S : Tree), T.subtrees[k]? = some S →
        (T.emit nodes a g)[a + k]? = some (gpu_of nodes S (a + k)) := by
  intro T
  induction T with
  | leaf idx first count =>
    intro a g hz k S h
    cases k with
    | zero =>
      simp only [Tree.subtrees, List.getElem?_cons_zero, Option.some.injEq] at h
      subst h
      simp only [Tree.emit, Nat.add_zero]
      rw [getElem?_gmod_self _ _ _ _ (hz a (le_refl _) (by simp [Tree.size]))]
      rfl
    | succ k => simp [Tree.subtrees] at h
  | node idx l r ihl ihr =>
    intro a g hz k S h
    simp only [Tree.size] at hz
    simp only [Tree.emit]
    cases k with
    | zero =>
      simp only [Tree.subtrees, List.getElem?_cons_zero, Option.some.injEq] at h
      subst h
      simp only [Nat.add_zero]
      rw [Tree.emit_out _ _ _ _ _ (Or.inl (by omega))]
      rw [getElem?_gmod_self _ _ _ _ (by
        rw [Tree.emit_out _ _ _ _ _ (Or.inl (by omega))]
        exact getElem?_gmod_self _ _ _ _ (hz a (le_refl _) (by omega)))]
      rfl
    | succ k =>
      simp only [Tree.subtrees, List.getElem?_cons_succ] at h
      by_cases hk : k < l.subtrees.length
      · rw [List.getElem?_append_left hk] at h
        have hk' := hk
        rw [Tree.length_subtrees] at hk'
        rw [Tree.emit_out _ _ _ _ _ (Or.inl (by omega)), getElem?_gmod_ne _ _ _ _ (by omega)]
        rw [show a + (k + 1) = a + 1 + k by omega]
        apply ihl (a + 1) _ _ k S h
        intro j hj1 hj2
        rw [getElem?_gmod_ne _ _ _ _ (by omega)]
        exact hz j (by omega) (by omega)
      · rw [List.getElem?_append_right (by omega)] at h
        have hb := (List.getElem?_eq_some.1 h).1
        rw [Tree.length_subtrees] at hk hb h
        rw [show a + (k + 1) = a + 1 + l.size + (k - l.size) by omega]
        apply ihr (a + 1 + l.size) _ _ (k - l.size) S h
        intro j hj1 hj2
        rw [getElem?_gmod_ne _ _ _ _ (by omega), Tree.emit_out _ _ _ _ _ (Or.inr (by omega)),
          getElem?_gmod_ne _ _ _ _ (by omega)]
        exact hz j (by omega) (by omega)

/-! ## build -/

theorem slice_zero_length {α : Type} (xs : List α) : slice xs 0 xs.length = xs := by
  simp [slice]

/-- Every run of `build` on at least one primitive either completes, with the
hierarchy laid out as a tree over a permutation of the input, or runs into
undefined behaviour of one of three kinds: a centroid indexed with the unset
axis, a primitive accessed outside the arrays, or the traversal stack
overflowing.  The step budgets of the embedding are never exhausted on a
primitive count that fits `uint32_t`. -/
theorem build_spec (self : Bvh) (new_prims : List Triangle) (new_norms : List Normals)
    (n : Nat) (hn : 0 < n) :
    match self.build (some new_prims) (some new_norms) n with
    | .ok b => ∃ nodes prims norms gpu T,
        BuildPost new_prims new_norms n b nodes prims norms gpu T
    | .error e => e = .vec_index ∨ e = .prim_index ∨ e = .stack_index ∨
        (e = .fuel ∧ 4294967296 ≤ n) := by
  unfold Bvh.build
  simp only
  rw [if_neg (by omega)]
  by_cases hlen : new_prims.length < n ∨ new_norms.length < n
  · rw [if_pos hlen]
    simp
  · rw [if_neg hlen]
    have hl1 : (new_prims.take n).length = n := by simp; omega
    have hl2 : (new_norms.take n).length = n := by simp; omega
    have h0 : (List.replicate (n * 2) Node.zero)[root_idx]? = some Node.zero := by
      rw [List.getElem?_replicate, if_pos (by unfold root_idx; omega)]
    rw [upd_ok _ _ _ _ h0]
    simp only
    rw [refit_at_ok _ _ (new_prims.take n) ⟨Node.zero.min, 0, Node.zero.max, n⟩
      (by rw [List.getElem?_set_self (by simp [root_idx]; omega)])
      (by simp only; omega)]
    simp only [List.set_set]
    have hb : Built ((List.replicate (n * 2) Node.zero).set root_idx
          ⟨lo (slice (new_prims.take n) 0 n), 0, hi (slice (new_prims.take n) 0 n), n⟩)
        (new_prims.take n) (.leaf root_idx 0 n) 2 2 := by
      refine ⟨rfl, by simp [root_idx], rfl, hn, by omega, ?_⟩
      rw [List.getElem?_set_self (by simp [root_idx]; omega)]
    have hs := subdivide_spec n
      { nodes := (List.replicate (n * 2) Node.zero).set root_idx
          ⟨lo (slice (new_prims.take n) 0 n), 0, hi (slice (new_prims.take n) 0 n), n⟩,
        nodes_used := 2, prims := new_prims.take n, norms := new_norms.take n }
      root_idx 0 n hb (by simp only; omega) (le_refl _)
      (by simp only [List.length_set, List.length_replicate]; omega)
    cases hsub : subdivide n
      { nodes := (List.replicate (n * 2) Node.zero).set root_idx
          ⟨lo (slice (new_prims.take n) 0 n), 0, hi (slice (new_prims.take n) 0 n), n⟩,
        nodes_used := 2, prims := new_prims.take n, norms := new_norms.take n }
      root_idx with
    | error e =>
      rw [hsub] at hs
      simp only at hs ⊢
      rw [hl1] at hs
      rcases hs with hs | hs | hs
      · exact Or.inl hs
      · exact Or.inr (Or.inl hs)
      · exact Or.inr (Or.inr (Or.inr hs))
    | ok m =>
      rw [hsub] at hs
      simp only at hs ⊢
      obtain ⟨⟨T, t1, t2, t3, t4⟩, s2, s3, s4, s5, s6, s7, s8, s9⟩ := hs
      simp only at s2 s3 s4 s5 s6 s7 t4
      have hsz := Built.size t4
      have hfl := flatten_tree t4 (m.nodes_used + 1) 0 []
        (List.replicate m.nodes_used GPUNode.zero) (by omega) (by simp; omega)
      rw [t1] at hfl
      simp only [show root_idx = 0 from rfl] at hfl
      rcases hfl with hfl | hfl
      · rw [hfl]
        simp only [resume]
        refine ⟨m.nodes, m.prims, m.norms, _, T, rfl, rfl, rfl, rfl, rfl, rfl, ?_, ?_, ?_, s7,
          t1, t2, t3, t4, ?_, rfl⟩
        · rw [s3]; simp; omega
        · rw [s5, hl1]
        · rw [s6, hl2]
        · simp only; omega
      · rw [hfl]
        simp

/-! ## Parents and children -/

/-- The children of a subtree are subtrees. -/
theorem Tree.children_mem :
    ∀ (T : Tree) (i : Nat) (l r : Tree), .node i l r ∈ T.subtrees →
      l ∈ T.subtrees ∧ r ∈ T.subtrees := by
  intro T
  induction T with
  | leaf idx first count =>
    intro i l r h
    simp [Tree.subtrees] at h
  | node idx L R ihL ihR =>
    intro i l r h
    simp only [Tree.subtrees, List.mem_cons, List.mem_append, Tree.node.injEq] at h ⊢
    rcases h with ⟨_, rfl, rfl⟩ | h | h
    · exact ⟨Or.inr (Or.inl (Tree.self_mem_subtrees _)),
        Or.inr (Or.inr (Tree.self_mem_subtrees _))⟩
    · obtain ⟨h1, h2⟩ := ihL i l r h
      exact ⟨Or.inr (Or.inl h1), Or.inr (Or.inl h2)⟩
    · obtain ⟨h1, h2⟩ := ihR i l r h
      exact ⟨Or.inr (Or.inr h1), Or.inr (Or.inr h2)⟩

/-- Every subtree but the whole tree is a child of a subtree. -/
theorem Tree.parent_mem :
    ∀ (T S : Tree), S ∈ T.subtrees → S ≠ T →
      ∃ i l r, .node i l r ∈ T.subtrees ∧ (l = S ∨ r = S) := by
  intro T
  induction T with
  | leaf idx first count =>
    intro S h hne
    simp only [Tree.subtrees, List.mem_singleton] at h
    exact absurd h hne
  | node idx L R ihL ihR =>
    intro S h hne
    simp only [Tree.subtrees, List.mem_cons, List.mem_append] at h
    rcases h with h | h | h
    · exact absurd h hne
    · by_cases e : S = L
      · exact ⟨idx, L, R, by simp [Tree.subtrees], Or.inl e.symm⟩
      · obtain ⟨i, l, r, hm, hc⟩ := ihL S h e
        exact ⟨i, l, r, by simp [Tree.subtrees, hm], hc⟩
    · by_cases e : S = R
      · exact ⟨idx, L, R, by simp [Tree.subtrees], Or.inr e.symm⟩
      · obtain ⟨i, l, r, hm, hc⟩ := ihR S h e
        exact ⟨i, l, r, by simp [Tree.subtrees, hm], hc⟩

/-- An internal subtree of a built tree has its pair of children inside the
node interval of the tree. -/
theorem Built.child_range {nodes : List Node} {prims : List Triangle} {T : Tree} {u u' : Nat}
    (h : Built nodes prims T u u') (i : Nat) (l r : Tree) (hm : .node i l r ∈ T.subtrees) :
    u ≤ l.idx ∧ l.idx + 2 ≤ u' ∧ l.idx % 2 = 0 ∧ r.idx = l.idx + 1 ∧ i < l.idx ∧
      nodes[i]? = some ⟨lo (slice prims l.first (l.count + r.count)), l.idx,
        hi (slice prims l.first (l.count + r.count)), 0⟩ := by
  obtain ⟨v, v', b, d1, d2, _, _, _⟩ := Built.sub h _ hm
  obtain ⟨c1, c2, c3, c4, c5, c6, m, hl, hr⟩ := b
  have := Built.le hl
  have := Built.le hr
  rw [c3]
  exact ⟨d1, by omega, c2, c4, c1, c6⟩

/-- Two internal subtrees of a built tree with the same left child index are
the same node. -/
theorem Built.parent_inj {nodes : List Node} {prims : List Triangle} :
    ∀ {T : Tree} {u u' : Nat}, Built nodes prims T u u' →
      ∀ i₁ l₁ r₁ i₂ l₂ r₂, .node i₁ l₁ r₁ ∈ T.subtrees → .node i₂ l₂ r₂ ∈ T.subtrees →
        l₁.idx = l₂.idx → i₁ = i₂ := by
  intro T
  induction T with
  | leaf idx first count =>
    intro u u' h i₁ l₁ r₁ i₂ l₂ r₂ h₁
    simp [Tree.subtrees] at h₁
  | node idx L R ihL ihR =>
    intro u u' h i₁ l₁ r₁ i₂ l₂ r₂ h₁ h₂ e
    obtain ⟨c1, c2, c3, c4, c5, c6, m, hl, hr⟩ := id h
    have hlel := Built.le hl
    have hler := Built.le hr
    simp only [Tree.subtrees, List.mem_cons, List.mem_append, Tree.node.injEq] at h₁ h₂
    rcases h₁ with ⟨rfl, rfl, rfl⟩ | h₁ | h₁ <;> rcases h₂ with ⟨rfl, rfl, rfl⟩ | h₂ | h₂
    · rfl
    · have := Built.child_range hl _ _ _ h₂; omega
    · have := Built.child_range hr _ _ _ h₂; omega
    · have := Built.child_range hl _ _ _ h₁; omega
    · exact ihL hl _ _ _ _ _ _ h₁ h₂ e
    · have := Built.child_range hl _ _ _ h₁
      have := Built.child_range hr _ _ _ h₂
      omega
    · have := Built.child_range hr _ _ _ h₁; omega
    · have := Built.child_range hl _ _ _ h₂
      have := Built.child_range hr _ _ _ h₁
      omega
    · exact ihR hr _ _ _ _ _ _ h₁ h₂ e

/-- The node stored at an index of a built tree, by its kind. -/
theorem Built.node_at {nodes : List Node} {prims : List Triangle} {T : Tree} {u u' : Nat}
    (h : Built nodes prims T u u') (k : Nat) (hk : k = T.idx ∨ (u ≤ k ∧ k < u')) (nd : Node)
    (hnd : nodes[k]? = some nd) :
    (nd.prim_count ≠ 0 ∧ .leaf k nd.left_first nd.prim_count ∈ T.subtrees ∧
      T.first ≤ nd.left_first ∧ nd.left_first + nd.prim_count ≤ T.first + T.count ∧
      nd.min = lo (slice prims nd.left_first nd.prim_count) ∧
      nd.max = hi (slice prims nd.left_first nd.prim_count)) ∨
    (nd.prim_count = 0 ∧ ∃ l r, .node k l r ∈ T.subtrees ∧ l.idx = nd.left_first ∧
      nd.min = lo (slice prims l.first (l.count + r.count)) ∧
      nd.max = hi (slice prims l.first (l.count + r.count))) := by
  obtain ⟨S, hS, rfl⟩ := Built.index h k hk
  obtain ⟨v, v', b, d1, d2, d3, d4, _⟩ := Built.sub h S hS
  rcases Built.view b with ⟨first, count, e, c1, c2, c3, c4⟩ | ⟨l, r, m, e, c1, c2, c3, c4, c5, c6, c7⟩
  · left
    rw [c4] at hnd
    simp only [Option.some.injEq] at hnd
    subst hnd
    rw [e] at hS d3 d4
    exact ⟨by simp only; omega, hS, d3, d4, rfl, rfl⟩
  · right
    rw [c7] at hnd
    simp only [Option.some.injEq] at hnd
    subst hnd
    rw [e] at hS
    refine ⟨rfl, l, r, hS, c1, ?_, ?_⟩
    · simp only; rw [e]; rfl
    · simp only; rw [e]; rfl

/-! ## The claims on build -/

theorem ex_build : ({} : Bvh).build (some ex_prims) (some ex_norms) 3 = .ok ex_bvh := by
  decide!

theorem build_ok_post {self b : Bvh} {new_prims : List Triangle} {new_norms : List Normals}
    {n : Nat} (hn : 0 < n) (h : self.build (some new_prims) (some new_norms) n = .ok b) :
    ∃ nodes prims norms gpu T, BuildPost new_prims new_norms n b nodes prims norms gpu T := by
  have := build_spec self new_prims new_norms n hn
  rw [h] at this
  exact this

theorem BuildPost.node_iff {new_prims : List Triangle} {new_norms : List Normals} {n : Nat}
    {b : Bvh} {nodes : List Node} {prims : List Triangle} {norms : List Normals}
    {gpu : List GPUNode} {T : Tree} (P : BuildPost new_prims new_norms n b nodes prims norms gpu T)
    (k : Nat) (nd : Node) :
    b.node k nd ↔ (k = T.idx ∨ (2 ≤ k ∧ k < b.nodes_used)) ∧ nodes[k]? = some nd := by
  have hr := P.root
  have hle := Built.le P.built
  unfold root_idx at hr
  unfold Bvh.node
  rw [P.nodes_eq]
  constructor
  · rintro ⟨h1, h2, ns, e, h3⟩
    simp only [Option.some.injEq] at e
    subst e
    exact ⟨by omega, h3⟩
  · rintro ⟨h1, h2⟩
    exact ⟨by omega, by omega, nodes, rfl, h2⟩

/-- **C1.** After a completed `build` of `n ≥ 1` triangles with their normals,
the pairs `(prims[k], norms[k])`, `k < n`, are a permutation of the input
pairs; in particular the triangles are a permutation of the input triangles. -/
theorem build_permutes_pairs (self b : Bvh) (new_prims : List Triangle)
    (new_norms : List Normals) (n : Nat) (hn : 0 < n)
    (h : self.build (some new_prims) (some new_norms) n = .ok b) :
    ∃ prims norms, b.prims = some prims ∧ b.norms = some norms ∧ prims.length = n ∧
      norms.length = n ∧ b.prim_count = n ∧
      (prims.zip norms).Perm ((new_prims.take n).zip (new_norms.take n)) ∧
      prims.Perm (new_prims.take n) ∧ norms.Perm (new_norms.take n) := by
  obtain ⟨nodes, prims, norms, gpu, T, P⟩ := build_ok_post hn h
  have hl : n ≤ new_prims.length ∧ n ≤ new_norms.length := by
    have h1 := P.perm.length_eq
    have h2 := P.len_prims
    have h3 := P.len_norms
    simp only [List.length_zip, List.length_take] at h1
    omega
  have hl1 : (new_prims.take n).length = n := by simp; omega
  have hl2 : (new_norms.take n).length = n := by simp; omega
  refine ⟨prims, norms, P.prims_eq, P.norms_eq, P.len_prims, P.len_norms, P.count_eq, P.perm, ?_, ?_⟩
  · exact perm_of_zip_perm P.perm (by omega) (by rw [P.len_prims, P.len_norms])
  · have := P.perm.map Prod.snd
    rwa [List.map_snd_zip _ _ (by rw [P.len_prims, P.len_norms]),
      List.map_snd_zip _ _ (by omega)] at this

theorem build_permutes_pairs_witness :
    ∃ prims norms, ex_bvh.prims = some prims ∧ ex_bvh.norms = some norms ∧ prims.length = 3 ∧
      norms.length = 3 ∧ ex_bvh.prim_count = 3 ∧
      (prims.zip norms).Perm ((ex_prims.take 3).zip (ex_norms.take 3)) ∧
      prims.Perm (ex_prims.take 3) ∧ norms.Perm (ex_norms.take 3) :=
  build_permutes_pairs {} ex_bvh ex_prims ex_norms 3 (by decide) ex_build

theorem mem_slice {α : Type} (xs : List α) (first count p : Nat) (a : α)
    (h : xs[p]? = some a) (h1 : first ≤ p) (h2 : p < first + count) :
    a ∈ slice xs first count := by
  rw [List.mem_iff_getElem?]
  refine ⟨p - first, ?_⟩
  unfold slice
  rw [List.getElem?_take, if_pos (by omega), List.getElem?_drop, ← h]
  congr 1
  omega

/-- The boxes of the two children of an internal subtree of a built tree. -/
theorem Built.children_boxes {nodes : List Node} {prims : List Triangle} {T : Tree}
    {u u' : Nat} (h : Built nodes prims T u u') (i : Nat) (l r : Tree)
    (hm : .node i l r ∈ T.subtrees) :
    ∃ nl nr, nodes[l.idx]? = some nl ∧ nodes[l.idx + 1]? = some nr ∧
      lo (slice prims l.first (l.count + r.count)) = Vec3.min nl.min nr.min ∧
      hi (slice prims l.first (l.count + r.count)) = Vec3.max nl.max nr.max := by
  obtain ⟨v, v', b, _, _, _, _, _⟩ := Built.sub h _ hm
  obtain ⟨c1, c2, c3, c4, c5, c6, m, hl, hr⟩ := b
  obtain ⟨nl, e1, e2, e3⟩ := Built.root hl
  obtain ⟨nr, f1, f2, f3⟩ := Built.root hr
  rw [c4, ← c3] at f1
  refine ⟨nl, nr, e1, f1, ?_, ?_⟩
  · rw [slice_append, lo_append, e2, f2, c5]
  · rw [slice_append, hi_append, e3, f3, c5]

/-- **C2.** After a completed `build` of `n ≥ 1` primitives, the box of every
leaf contains the three vertices of every triangle in the leaf's range
`[left_first, left_first + prim_count)`. -/
theorem build_leaves_contain (self b : Bvh) (new_prims : List Triangle)
    (new_norms : List Normals) (n : Nat) (hn : 0 < n)
    (h : self.build (some new_prims) (some new_norms) n = .ok b) : b.leaves_contain := by
  obtain ⟨nodes, prims, norms, gpu, T, P⟩ := build_ok_post hn h
  intro k nd hk hleaf p hp1 hp2
  obtain ⟨hk', hnd⟩ := (P.node_iff k nd).1 hk
  rcases Built.node_at P.built k hk' nd hnd with ⟨c1, c2, c3, c4, c5, c6⟩ | ⟨c1, _⟩
  · have hlt : p < prims.length := by
      have := P.first
      have := P.count
      have := P.len_prims
      omega
    have hp : prims[p]? = some prims[p] := List.getElem?_eq_getElem hlt
    have hm := mem_slice prims nd.left_first nd.prim_count p _ hp hp1 hp2
    have h1 := lo_le hm
    have h2 := le_hi hm
    refine ⟨prims[p], ⟨prims, P.prims_eq, hp⟩, ?_, ?_, ?_⟩
    · exact ⟨by rw [c5]; exact h1.1, by rw [c6]; exact h2.1⟩
    · exact ⟨by rw [c5]; exact h1.2.1, by rw [c6]; exact h2.2.1⟩
    · exact ⟨by rw [c5]; exact h1.2.2, by rw [c6]; exact h2.2.2⟩
  · simp [Node.is_leaf, c1] at hleaf

theorem build_leaves_contain_witness : ex_bvh.leaves_contain :=
  build_leaves_contain {} ex_bvh ex_prims ex_norms 3 (by decide) ex_build

/-- **C3.** After a completed `build` of `n ≥ 1` primitives, the box of every
internal node is the union of the boxes of its two children: its `min` is the
componentwise minimum of their `min` corners and its `max` the componentwise
maximum of their `max` corners. -/
theorem build_inner_tight (self b : Bvh) (new_prims : List Triangle)
    (new_norms : List Normals) (n : Nat) (hn : 0 < n)
    (h : self.build (some new_prims) (some new_norms) n = .ok b) : b.inner_tight := by
  obtain ⟨nodes, prims, norms, gpu, T, P⟩ := build_ok_post hn h
  intro k nd hk hleaf
  obtain ⟨hk', hnd⟩ := (P.node_iff k nd).1 hk
  rcases Built.node_at P.built k hk' nd hnd with ⟨c1, _⟩ | ⟨c1, l, r, c2, c3, c4, c5⟩
  · simp [Node.is_leaf, c1] at hleaf
  · obtain ⟨d1, d2, d3, d4, d5, d6⟩ := Built.child_range P.built _ _ _ c2
    obtain ⟨nl, nr, e1, e2, e3, e4⟩ := Built.children_boxes P.built _ _ _ c2
    rw [c3] at e1 e2 d1 d2
    refine ⟨nl, nr, (P.node_iff _ _).2 ⟨Or.inr ⟨d1, by omega⟩, e1⟩,
      (P.node_iff _ _).2 ⟨Or.inr ⟨by omega, by omega⟩, e2⟩, ?_, ?_⟩
    · rw [c4, e3, Vec3.vmin_def]
    · rw [c5, e4, Vec3.vmax_def]

theorem build_inner_tight_witness : ex_bvh.inner_tight :=
  build_inner_tight {} ex_bvh ex_prims ex_norms 3 (by decide) ex_build

/-- **C4.** On every input of `n ≥ 1` primitives `build` never accesses a node
outside the pool of `2 * n` entries it allocates, and when it completes,
`nodes_used ≤ 2 * n`. -/
theorem build_nodes_used_le (self : Bvh) (new_prims : List Triangle)
    (new_norms : List Normals) (n : Nat) (hn : 0 < n) :
    match self.build (some new_prims) (some new_norms) n with
    | .ok b => b.nodes_used ≤ 2 * n ∧ ∃ nodes, b.nodes = some nodes ∧ nodes.length = 2 * n
    | .error e => e ≠ .node_index := by
  have := build_spec self new_prims new_norms n hn
  cases hb : self.build (some new_prims) (some new_norms) n with
  | ok b =>
    rw [hb] at this
    obtain ⟨nodes, prims, norms, gpu, T, P⟩ := this
    exact ⟨P.used, nodes, P.nodes_eq, P.len_nodes⟩
  | error e =>
    rw [hb] at this
    simp only at this ⊢
    rcases this with rfl | rfl | rfl | ⟨rfl, _⟩ <;> simp

theorem build_nodes_used_le_witness :
    ex_bvh.nodes_used ≤ 2 * 3 ∧ ∃ nodes, ex_bvh.nodes = some nodes ∧ nodes.length = 2 * 3 := by
  have := build_nodes_used_le {} ex_prims ex_norms 3 (by decide)
  rw [ex_build] at this
  exact this

/-- **C5.** After a completed `build` of `n ≥ 1` primitives the root is node 0,
the children of every internal node are the pair `left_first`,
`left_first + 1` with `left_first` even, at least 2 and both below
`nodes_used`; node 1 is nobody's child, no node is the child of two nodes, and
every node from index 2 on is the child of a node. -/
theorem build_layout (self b : Bvh) (new_prims : List Triangle)
    (new_norms : List Normals) (n : Nat) (hn : 0 < n)
    (h : self.build (some new_prims) (some new_norms) n = .ok b) : b.layout := by
  obtain ⟨nodes, prims, norms, gpu, T, P⟩ := build_ok_post hn h
  have hroot := P.root
  have inner : ∀ k nd, b.node k nd → nd.is_leaf = false →
      ∃ l r, .node k l r ∈ T.subtrees ∧ l.idx = nd.left_first := by
    intro k nd hk hleaf
    obtain ⟨hk', hnd⟩ := (P.node_iff k nd).1 hk
    rcases Built.node_at P.built k hk' nd hnd with ⟨c1, _⟩ | ⟨c1, l, r, c2, c3, _, _⟩
    · simp [Node.is_leaf, c1] at hleaf
    · exact ⟨l, r, c2, c3⟩
  have props : ∀ k nd, b.node k nd → nd.is_leaf = false →
      nd.left_first % 2 = 0 ∧ 2 ≤ nd.left_first ∧ nd.left_first < b.nodes_used ∧
        nd.left_first + 1 < b.nodes_used ∧ k < nd.left_first := by
    intro k nd hk hleaf
    obtain ⟨l, r, c2, c3⟩ := inner k nd hk hleaf
    obtain ⟨d1, d2, d3, d4, d5, d6⟩ := Built.child_range P.built _ _ _ c2
    rw [c3] at d1 d2 d3 d5
    exact ⟨d3, d1, by omega, by omega, d5⟩
  refine ⟨rfl, ?_, props, ?_, ?_, ?_⟩
  · obtain ⟨nd, e, _, _⟩ := Built.root P.built
    exact ⟨nd, (P.node_iff _ _).2 ⟨Or.inl hroot.symm, by rw [← hroot]; exact e⟩⟩
  · intro k nd c hk hc
    have := props k nd hk hc.1
    unfold root_idx
    rcases hc.2 with rfl | rfl <;> omega
  · intro k₁ nd₁ k₂ nd₂ c h₁ h₂ hc₁ hc₂
    obtain ⟨l₁, r₁, a1, a2⟩ := inner k₁ nd₁ h₁ hc₁.1
    obtain ⟨l₂, r₂, b1, b2⟩ := inner k₂ nd₂ h₂ hc₂.1
    have p1 := props k₁ nd₁ h₁ hc₁.1
    have p2 := props k₂ nd₂ h₂ hc₂.1
    apply Built.parent_inj P.built _ _ _ _ _ _ a1 b1
    rw [a2, b2]
    rcases hc₁.2 with e₁ | e₁ <;> rcases hc₂.2 with e₂ | e₂ <;> omega
  · intro c hc1 hc2
    obtain ⟨S, hS, rfl⟩ := Built.index P.built c (Or.inr ⟨hc1, hc2⟩)
    have hne : S ≠ T := by
      intro e
      rw [e, hroot] at hc1
      unfold root_idx at hc1
      omega
    obtain ⟨i, l, r, hm, hc⟩ := Tree.parent_mem T S hS hne
    obtain ⟨d1, d2, d3, d4, d5, d6⟩ := Built.child_range P.built _ _ _ hm
    obtain ⟨v, v', _, _, _, _, _, hi⟩ := Built.sub P.built _ hm
    refine ⟨i, _, (P.node_iff _ _).2 ⟨?_, d6⟩, by simp [Node.is_leaf], ?_⟩
    · rcases hi with hi | hi
      · left; rw [← hi]; rfl
      · right; exact hi
    · simp only
      rcases hc with rfl | rfl
      · left; rfl
      · right; exact d4

theorem build_layout_witness : ex_bvh.layout :=
  build_layout {} ex_bvh ex_prims ex_norms 3 (by decide) ex_build

/-- **C6.** After a completed `build` of `n ≥ 1` primitives every leaf owns a
non-empty range `[left_first, left_first + prim_count)` inside `[0, n)`, and
every primitive index below `n` lies in the range of exactly one leaf. -/
theorem build_leaves_partition (self b : Bvh) (new_prims : List Triangle)
    (new_norms : List Normals) (n : Nat) (hn : 0 < n)
    (h : self.build (some new_prims) (some new_norms) n = .ok b) :
    b.prim_count = n ∧ b.leaves_partition := by
  obtain ⟨nodes, prims, norms, gpu, T, P⟩ := build_ok_post hn h
  have hfirst := P.first
  have hcount := P.count
  have leaf : ∀ k nd, b.node k nd → nd.is_leaf = true →
      .leaf k nd.left_first nd.prim_count ∈ T.subtrees ∧ 0 < nd.prim_count ∧
        nd.left_first + nd.prim_count ≤ n := by
    intro k nd hk hleaf
    obtain ⟨hk', hnd⟩ := (P.node_iff k nd).1 hk
    rcases Built.node_at P.built k hk' nd hnd with ⟨c1, c2, c3, c4, _, _⟩ | ⟨c1, _⟩
    · exact ⟨c2, by omega, by omega⟩
    · simp [Node.is_leaf, c1] at hleaf
  refine ⟨P.count_eq, ?_, ?_, ?_⟩
  · intro k nd hk hleaf
    rw [P.count_eq]
    exact (leaf k nd hk hleaf).2
  · intro p hp
    rw [P.count_eq] at hp
    obtain ⟨i, f, c, hm, e1, e2⟩ := Built.leaf_cover P.built p (by omega) (by omega)
    obtain ⟨v, v', bl, _, _, _, _, hi⟩ := Built.sub P.built _ hm
    obtain ⟨_, _, _, hc, _, hnd⟩ := bl
    refine ⟨i, _, (P.node_iff _ _).2 ⟨?_, hnd⟩, by simp [Node.is_leaf]; omega, e1, e2⟩
    rcases hi with hi | hi
    · left; rw [← hi]; rfl
    · right; exact hi
  · intro k₁ nd₁ k₂ nd₂ p h₁ h₂ o₁ o₂
    exact Built.leaf_disjoint P.built _ _ _ _ _ _ p (leaf k₁ nd₁ h₁ o₁.1).1
      (leaf k₂ nd₂ h₂ o₂.1).1 o₁.2.1 o₁.2.2 o₂.2.1 o₂.2.2

theorem build_leaves_partition_witness : ex_bvh.prim_count = 3 ∧ ex_bvh.leaves_partition :=
  build_leaves_partition {} ex_bvh ex_prims ex_norms 3 (by decide) ex_build

/-- **C7.** After a completed `build` of `n ≥ 1` primitives (in particular the
traversal fitted the 128-entry stack) `gpu_nodes[0 .. nodes_used - 2]` holds
the nodes of the hierarchy in depth-first pre-order, left subtree before right:
the GPU node of an internal node has the boxes of its two children, `left`
is its own index plus one and is the GPU index of the left child, `right` is
the GPU index of the right child, and `prim_count` is 0; the GPU node of a
leaf has the leaf's `prim_count > 0` and `prim_index = left_first`. -/
theorem build_flattened (self b : Bvh) (new_prims : List Triangle)
    (new_norms : List Normals) (n : Nat) (hn : 0 < n)
    (h : self.build (some new_prims) (some new_norms) n = .ok b) : b.flattened := by
  obtain ⟨nodes, prims, norms, gpu, T, P⟩ := build_ok_post hn h
  have hsz := Built.size P.built
  have hlen : gpu.length = b.nodes_used := by
    rw [P.flat, Tree.length_emit, List.length_replicate]
  refine ⟨nodes, prims, gpu, T, P.nodes_eq, P.prims_eq, P.gpu_eq, P.built, P.root, hlen,
    by rw [Tree.length_subtrees]; omega, ?_, ?_⟩
  · intro c nd hc
    obtain ⟨hc', _⟩ := (P.node_iff c nd).1 hc
    obtain ⟨S, hS, e⟩ := Built.index P.built c hc'
    exact List.mem_map.2 ⟨S, hS, e⟩
  · intro k c hk
    rw [List.getElem?_map] at hk
    cases hS : T.subtrees[k]? with
    | none => rw [hS] at hk; simp at hk
    | some S =>
      rw [hS] at hk
      simp only [Option.map_some', Option.some.injEq] at hk
      subst hk
      have hmem : S ∈ T.subtrees := List.mem_iff_getElem?.2 ⟨k, hS⟩
      have hg := Tree.emit_in nodes T 0 (List.replicate b.nodes_used GPUNode.zero)
        (by
          intro j _ hj
          rw [List.getElem?_replicate, if_pos (by omega)]) k S hS
      rw [← P.flat, Nat.zero_add] at hg
      obtain ⟨v, v', bS, _, _, _, _, _⟩ := Built.sub P.built S hmem
      cases S with
      | leaf i first count =>
        obtain ⟨_, _, _, hc, _, hnd⟩ := bS
        refine ⟨_, _, hnd, hg, ?_, ?_⟩
        · intro _
          exact ⟨rfl, hc, rfl⟩
        · intro hl
          simp [Node.is_leaf] at hl
          omega
      | node i l r =>
        obtain ⟨d1, d2, d3, d4, d5, d6⟩ := Built.child_range P.built _ _ _ hmem
        obtain ⟨nl, nr, e1, e2, _, _⟩ := Built.children_boxes P.built _ _ _ hmem
        obtain ⟨p1, p2⟩ := Tree.children_pos T k i l r hS
        refine ⟨_, _, d6, hg, ?_, ?_⟩
        · intro hl
          simp [Node.is_leaf] at hl
        · intro _
          refine ⟨rfl, rfl, ?_, ?_, nl, nr, e1, e2, ?_, ?_, ?_, ?_⟩
          · simp only [gpu_of, List.getElem?_map, p1, Option.map_some']
          · simp only [gpu_of, List.getElem?_map, p2, Option.map_some', d4]
          · simp only [gpu_of, e1, Option.getD_some]
          · simp only [gpu_of, e1, Option.getD_some]
          · simp only [gpu_of, d4, e2, Option.getD_some]
          · simp only [gpu_of, d4, e2, Option.getD_some]

theorem build_flattened_witness : ex_bvh.flattened :=
  build_flattened {} ex_bvh ex_prims ex_norms 3 (by decide) ex_build

/-- The step budgets of the embedding are never exhausted by `build` on a
primitive count that fits `uint32_t`. -/
theorem build_fuel (self : Bvh) (new_prims : Option (List Triangle))
    (new_norms : Option (List Normals)) (n : Nat) (hn : n < 4294967296) :
    self.build new_prims new_norms n ≠ .error .fuel := by
  cases new_prims with
  | none => simp [Bvh.build]
  | some np =>
    cases new_norms with
    | none => simp [Bvh.build]
    | some nn =>
      by_cases h0 : n = 0
      · simp [Bvh.build, h0]
      · have := build_spec self np nn n (by omega)
        intro e
        rw [e] at this
        simp only at this
        rcases this with h | h | h | ⟨_, h⟩
        · cases h
        · cases h
        · cases h
        · omega

theorem subdivide_small (fuel : Nat) (m : BvhMem) (idx : Nat) (nd : Node) (hf : 0 < fuel)
    (h : m.nodes[idx]? = some nd) (h2 : nd.prim_count ≤ 2) :
    subdivide fuel m idx = .ok m := by
  obtain ⟨fuel, rfl⟩ : ∃ f, fuel = f + 1 := ⟨fuel - 1, by omega⟩
  rw [subdivide, rd_ok_iff.2 h]
  simp only
  rw [if_pos h2]

theorem flatten_single (nodes : List Node) (fuel : Nat) (nd : Node)
    (h : nodes[root_idx]? = some nd) (hl : nd.prim_count ≠ 0) :
    flatten nodes (fuel + 1)
        { alt_node := 0, node_ptr := 0, stack := [],
          gpu_nodes := List.replicate 2 GPUNode.zero } =
      .ok [{ GPUNode.zero with prim_count := nd.prim_count, prim_index := nd.left_first },
           GPUNode.zero] := by
  have h' : nodes[0]? = some nd := h
  rw [flatten]
  simp only
  rw [rd_ok_iff.2 h']
  have hleaf : nd.is_leaf = true := by simp [Node.is_leaf, hl]
  simp only [hleaf, if_true]
  rfl

/-- **C8.** On every input of one or two triangles `build` completes with a
single leaf and no subdivision: the root keeps `left_first = 0` and
`prim_count = n`, `nodes_used` stays 2, the primitives and normals keep their
order, and `gpu_nodes[0]` is a leaf with `prim_index = 0` and `prim_count = n`. -/
theorem build_small (self : Bvh) (new_prims : List Triangle) (new_norms : List Normals)
    (n : Nat) (hn : n = 1 ∨ n = 2) (h1 : n ≤ new_prims.length) (h2 : n ≤ new_norms.length) :
    ∃ b nodes gpu root g0, self.build (some new_prims) (some new_norms) n = .ok b ∧
      b.nodes = some nodes ∧ nodes[root_idx]? = some root ∧ root.is_leaf = true ∧
      root.left_first = 0 ∧ root.prim_count = n ∧ b.nodes_used = 2 ∧ b.prim_count = n ∧
      b.prims = some (new_prims.take n) ∧ b.norms = some (new_norms.take n) ∧
      b.gpu_nodes = some gpu ∧ gpu[0]? = some g0 ∧ g0.prim_index = 0 ∧ g0.prim_count = n := by
  have hpos : 0 < n := by omega
  have hl1 : (new_prims.take n).length = n := by simp; omega
  have h0 : (List.replicate (n * 2) Node.zero)[root_idx]? = some Node.zero := by
    rw [List.getElem?_replicate, if_pos (by unfold root_idx; omega)]
  have hset : ∀ (nd : Node),
      ((List.replicate (n * 2) Node.zero).set root_idx nd)[root_idx]? = some nd := by
    intro nd
    rw [List.getElem?_set_self (by simp [root_idx]; omega)]
  unfold Bvh.build
  simp only
  rw [if_neg (by omega), if_neg (by omega), upd_ok _ _ _ _ h0]
  simp only
  rw [refit_at_ok _ _ (new_prims.take n) ⟨Node.zero.min, 0, Node.zero.max, n⟩ (hset _)
    (by simp only; omega)]
  simp only [List.set_set]
  rw [subdivide_small _ _ _ _ hpos (hset _) (by simp only; omega)]
  simp only
  rw [flatten_single _ _ _ (hset _) (by simp only; omega)]
  refine ⟨_, _, _, _, _, rfl, rfl, hset _, ?_, rfl, rfl, rfl, rfl, rfl, rfl, rfl, rfl, rfl, rfl⟩
  simp [Node.is_leaf]; omega

theorem build_small_witness :
    ∃ b nodes gpu root g0, ({} : Bvh).build (some ex_prims) (some ex_norms) 2 = .ok b ∧
      b.nodes = some nodes ∧ nodes[root_idx]? = some root ∧ root.is_leaf = true ∧
      root.left_first = 0 ∧ root.prim_count = 2 ∧ b.nodes_used = 2 ∧ b.prim_count = 2 ∧
      b.prims = some (ex_prims.take 2) ∧ b.norms = some (ex_norms.take 2) ∧
      b.gpu_nodes = some gpu ∧ gpu[0]? = some g0 ∧ g0.prim_index = 0 ∧ g0.prim_count = 2 :=
  build_small {} ex_prims ex_norms 2 (Or.inr rfl) (by decide) (by decide)

/-- **C9.** Called with zero primitives, or with a null primitive or normal
array, `build` returns without changing a field of the `Bvh`; on a fresh `Bvh`
the four arrays stay null, `prim_count` stays 0 and `nodes_used` stays 2. -/
theorem build_empty (self : Bvh) (new_prims : Option (List Triangle))
    (new_norms : Option (List Normals)) (n : Nat)
    (h : new_prims = none ∨ new_norms = none ∨ n = 0) :
    self.build new_prims new_norms n = .ok self ∧
    ∃ b, ({} : Bvh).build new_prims new_norms n = .ok b ∧ b.prims = none ∧ b.norms = none ∧
      b.nodes = none ∧ b.gpu_nodes = none ∧ b.prim_count = 0 ∧ b.nodes_used = 2 := by
  have key : ∀ s : Bvh, s.build new_prims new_norms n = .ok s := by
    intro s
    cases new_prims with
    | none => simp [Bvh.build]
    | some np =>
      cases new_norms with
      | none => simp [Bvh.build]
      | some nn =>
        have : n = 0 := by simpa using h
        simp [Bvh.build, this]
  exact ⟨key self, {}, key {}, rfl, rfl, rfl, rfl, rfl, rfl⟩

theorem build_empty_witness :
    ex_bvh.build (some ex_prims) (some ex_norms) 0 = .ok ex_bvh ∧
    ∃ b, ({} : Bvh).build (some ex_prims) (some ex_norms) 0 = .ok b ∧ b.prims = none ∧
      b.norms = none ∧ b.nodes = none ∧ b.gpu_nodes = none ∧ b.prim_count = 0 ∧
      b.nodes_used = 2 :=
  build_empty ex_bvh (some ex_prims) (some ex_norms) 0 (Or.inr (Or.inr rfl))

/-! ## The prefix-sum pass: buffers -/

theorem load_store (buf : List Nat) (i v j : Nat) :
    load (store buf i v) j = if i = j ∧ i < buf.length then v else load buf j := by
  unfold load store
  rw [List.getD_eq_getElem?_getD, List.getD_eq_getElem?_getD, List.getElem?_set]
  by_cases e : i = j
  · subst e
    by_cases h : i < buf.length
    · simp [h]
    · simp [h, List.getElem?_eq_none (Nat.le_of_not_lt h)]
  · simp [e]

theorem length_store (buf : List Nat) (i v : Nat) : (store buf i v).length = buf.length := by
  unfold store
  exact List.length_set _ _ _

theorem load_outside (buf : List Nat) (i : Nat) (h : buf.length ≤ i) : load buf i = 0 := by
  unfold load
  rw [List.getD_eq_getElem?_getD, List.getElem?_eq_none h]
  rfl

theorem ext_load (a b : List Nat) (hl : a.length = b.length)
    (h : ∀ i, i < a.length → load a i = load b i) : a = b := by
  apply List.ext_getElem?
  intro i
  by_cases hi : i < a.length
  · have h1 := h i hi
    unfold load at h1
    rw [List.getD_eq_getElem?_getD, List.getD_eq_getElem?_getD] at h1
    rw [List.getElem?_eq_getElem hi, List.getElem?_eq_getElem (hl ▸ hi)] at h1 ⊢
    simpa using h1
  · rw [List.getElem?_eq_none (Nat.le_of_not_lt hi), List.getElem?_eq_none (hl ▸ Nat.le_of_not_lt hi)]

/-! ## Sums over an index range -/

theorem span_self (f : Nat → Nat) (a : Nat) : span f a a = 0 := by
  unfold span
  simp

theorem span_add (f : Nat → Nat) (a b c : Nat) (h1 : a ≤ b) (h2 : b ≤ c) :
    span f a b + span f b c = span f a c := by
  unfold span
  exact Finset.sum_Ico_consecutive f h1 h2

theorem span_succ (f : Nat → Nat) (a b : Nat) (h : a ≤ b) :
    span f a (b + 1) = span f a b + f b := by
  unfold span
  exact Finset.sum_Ico_succ_top h f

theorem span_congr (f g : Nat → Nat) (a b : Nat) (h : ∀ k, a ≤ k → k < b → f k = g k) :
    span f a b = span g a b := by
  unfold span
  apply Finset.sum_congr rfl
  intro k hk
  rw [Finset.mem_Ico] at hk
  exact h k hk.1 hk.2

theorem span_shift (f : Nat → Nat) (a b c : Nat) :
    span (fun k => f (c + k)) a b = span f (c + a) (c + b) := by
  unfold span
  have := Finset.sum_Ico_add' f a b c
  rw [Nat.add_comm c a, Nat.add_comm c b, ← this]
  apply Finset.sum_congr rfl
  intro k _
  rw [Nat.add_comm]

theorem u32_u32 (x : Nat) : u32 (u32 x) = u32 x := by
  unfold u32
  exact Nat.mod_mod _ _

theorem u32_add (x y : Nat) : u32 (u32 x + u32 y) = u32 (x + y) := by
  unfold u32
  exact (Nat.add_mod x y _).symm

theorem u32_add_left (x y : Nat) : u32 (u32 x + y) = u32 (x + y) := by
  unfold u32
  exact Nat.mod_add_mod x _ y

theorem u32_add_right (x y : Nat) : u32 (x + u32 y) = u32 (x + y) := by
  unfold u32
  exact Nat.add_mod_mod x y _

theorem u32_congr_add (a b c d : Nat) (h1 : u32 a = u32 c) (h2 : u32 b = u32 d) :
    u32 (a + b) = u32 (c + d) := by
  rw [← u32_add a b, h1, h2, u32_add]

/-! ## One level of the Blelloch sweeps -/

theorem two_mul_dvd_step (o d x : Nat) (ho : 0 < o) (hx : 2 * o ∣ x) (hle : x ≤ 2 * o * (d + 1))
    (hne : x ≠ 2 * o * (d + 1)) : x ≤ 2 * o * d := by
  obtain ⟨q, rfl⟩ := hx
  have hq : q ≤ d + 1 := Nat.le_of_mul_le_mul_left hle (by omega)
  have hq2 : q ≠ d + 1 := fun e => hne (by rw [e])
  exact Nat.mul_le_mul_left _ (by omega)

theorem not_two_mul_dvd_odd (o d : Nat) (ho : 0 < o) : ¬ 2 * o ∣ 2 * o * d + o := by
  intro h
  have h2 : 2 * o ∣ o := (Nat.dvd_add_right (Dvd.intro _ rfl)).1 h
  have := Nat.le_of_dvd ho h2
  omega

theorem length_up_level (o d : Nat) (temp : List Nat) :
    ((List.range d).foldl (up_thread o) temp).length = temp.length := by
  induction d with
  | zero => rfl
  | succ d ih =>
    rw [List.range_succ, List.foldl_append]
    simp only [List.foldl_cons, List.foldl_nil, up_thread, length_store]
    exact ih

theorem length_down_level (o d : Nat) (temp : List Nat) :
    ((List.range d).foldl (down_thread o) temp).length = temp.length := by
  induction d with
  | zero => rfl
  | succ d ih =>
    rw [List.range_succ, List.foldl_append]
    simp only [List.foldl_cons, List.foldl_nil, down_thread, length_store]
    exact ih

theorem load_up_level (o d : Nat) (ho : 0 < o) (temp : List Nat) (hlen : 2 * o * d ≤ temp.length)
    (i : Nat) :
    load ((List.range d).foldl (up_thread o) temp) i =
      if 2 * o ∣ i + 1 ∧ i + 1 ≤ 2 * o * d then u32 (load temp i + load temp (i - o))
      else load temp i := by
  induction d generalizing i with
  | zero =>
    have : ¬ (2 * o ∣ i + 1 ∧ i + 1 ≤ 2 * o * 0) := by
      intro h
      omega
    rw [if_neg this]
    rfl
  | succ d ih =>
    have hlen2 : 2 * o * d ≤ temp.length := Nat.le_trans (Nat.mul_le_mul_left _ (Nat.le_succ d)) hlen
    have e1 : 2 * o * (d + 1) = 2 * o * d + 2 * o := by ring
    have e2 : o * (2 * d + 2) = 2 * o * d + 2 * o := by ring
    have e3 : o * (2 * d + 1) = 2 * o * d + o := by ring
    have hdv : 2 * o ∣ 2 * o * d + 2 * o := ⟨d + 1, by ring⟩
    rw [List.range_succ, List.foldl_append]
    simp only [List.foldl_cons, List.foldl_nil, up_thread]
    rw [load_store, length_up_level, e2, e3, ih hlen2 (2 * o * d + 2 * o - 1),
      ih hlen2 (2 * o * d + o - 1)]
    have hb : ¬ (2 * o ∣ 2 * o * d + 2 * o - 1 + 1 ∧ 2 * o * d + 2 * o - 1 + 1 ≤ 2 * o * d) := by
      intro h
      omega
    have ha : ¬ (2 * o ∣ 2 * o * d + o - 1 + 1 ∧ 2 * o * d + o - 1 + 1 ≤ 2 * o * d) := by
      intro h
      omega
    rw [if_neg hb, if_neg ha]
    by_cases hi : 2 * o * d + 2 * o - 1 = i
    · have c1 : 2 * o * d + 2 * o - 1 = i ∧ 2 * o * d + 2 * o - 1 < temp.length := ⟨hi, by omega⟩
      have c2 : 2 * o ∣ i + 1 ∧ i + 1 ≤ 2 * o * (d + 1) := by
        have : i + 1 = 2 * o * d + 2 * o := by omega
        rw [this]
        exact ⟨hdv, by omega⟩
      rw [if_pos c1, if_pos c2]
      have : 2 * o * d + o - 1 = i - o := by omega
      rw [this, hi]
    · have c1 : ¬ (2 * o * d + 2 * o - 1 = i ∧ 2 * o * d + 2 * o - 1 < temp.length) := fun h => hi h.1
      rw [if_neg c1]
      have : (2 * o ∣ i + 1 ∧ i + 1 ≤ 2 * o * (d + 1)) ↔ (2 * o ∣ i + 1 ∧ i + 1 ≤ 2 * o * d) := by
        constructor
        · intro h
          exact ⟨h.1, two_mul_dvd_step o d _ ho h.1 h.2 (by omega)⟩
        · intro h
          exact ⟨h.1, by omega⟩
      simp only [this]
      exact ih hlen2 i

theorem load_down_level (o d : Nat) (ho : 0 < o) (temp : List Nat)
    (hlen : 2 * o * d ≤ temp.length) (i : Nat) :
    load ((List.range d).foldl (down_thread o) temp) i =
      if 2 * o ∣ i + 1 ∧ i + 1 ≤ 2 * o * d then u32 (load temp i + load temp (i - o))
      else if 2 * o ∣ i + 1 + o ∧ i + 1 + o ≤ 2 * o * d then load temp (i + o)
      else load temp i := by
  induction d generalizing i with
  | zero =>
    have h1 : ¬ (2 * o ∣ i + 1 ∧ i + 1 ≤ 2 * o * 0) := by
      intro h
      omega
    have h2 : ¬ (2 * o ∣ i + 1 + o ∧ i + 1 + o ≤ 2 * o * 0) := by
      intro h
      omega
    rw [if_neg h1, if_neg h2]
    rfl
  | succ d ih =>
    have hlen2 : 2 * o * d ≤ temp.length := Nat.le_trans (Nat.mul_le_mul_left _ (Nat.le_succ d)) hlen
    have e1 : 2 * o * (d + 1) = 2 * o * d + 2 * o := by ring
    have e2 : o * (2 * d + 2) = 2 * o * d + 2 * o := by ring
    have e3 : o * (2 * d + 1) = 2 * o * d + o := by ring
    have hdv : 2 * o ∣ 2 * o * d + 2 * o := ⟨d + 1, by ring⟩
    have hodd := not_two_mul_dvd_odd o d ho
    rw [List.range_succ, List.foldl_append]
    simp only [List.foldl_cons, List.foldl_nil, down_thread]
    rw [load_store, load_store, length_store, length_down_level, e2, e3,
      ih hlen2 (2 * o * d + 2 * o - 1), ih hlen2 (2 * o * d + o - 1)]
    have hb1 : ¬ (2 * o ∣ 2 * o * d + 2 * o - 1 + 1 ∧ 2 * o * d + 2 * o - 1 + 1 ≤ 2 * o * d) := by
      intro h
      omega
    have hb2 : ¬ (2 * o ∣ 2 * o * d + 2 * o - 1 + 1 + o ∧
        2 * o * d + 2 * o - 1 + 1 + o ≤ 2 * o * d) := by
      intro h
      omega
    have ha1 : ¬ (2 * o ∣ 2 * o * d + o - 1 + 1 ∧ 2 * o * d + o - 1 + 1 ≤ 2 * o * d) := by
      intro h
      omega
    have ha2 : ¬ (2 * o ∣ 2 * o * d + o - 1 + 1 + o ∧ 2 * o * d + o - 1 + 1 + o ≤ 2 * o * d) := by
      intro h
      omega
    rw [if_neg hb1, if_neg hb2, if_neg ha1, if_neg ha2]
    by_cases hi : 2 * o * d + 2 * o - 1 = i
    · have c1 : 2 * o * d + 2 * o - 1 = i ∧ 2 * o * d + 2 * o - 1 < temp.length := ⟨hi, by omega⟩
      have c2 : 2 * o ∣ i + 1 ∧ i + 1 ≤ 2 * o * (d + 1) := by
        have : i + 1 = 2 * o * d + 2 * o := by omega
        rw [this]
        exact ⟨hdv, by omega⟩
      rw [if_pos c1, if_pos c2]
      have : 2 * o * d + o - 1 = i - o := by omega
      rw [this, hi]
    · have c1 : ¬ (2 * o * d + 2 * o - 1 = i ∧ 2 * o * d + 2 * o - 1 < temp.length) := fun h => hi h.1
      rw [if_neg c1]
      have k1 : (2 * o ∣ i + 1 ∧ i + 1 ≤ 2 * o * (d + 1)) ↔ (2 * o ∣ i + 1 ∧ i + 1 ≤ 2 * o * d) := by
        constructor
        · intro h
          exact ⟨h.1, two_mul_dvd_step o d _ ho h.1 h.2 (by omega)⟩
        · intro h
          exact ⟨h.1, by omega⟩
      simp only [k1]
      by_cases ha : 2 * o * d + o - 1 = i
      · have c3 : 2 * o * d + o - 1 = i ∧ 2 * o * d + o - 1 < temp.length := ⟨ha, by omega⟩
        have c4 : ¬ (2 * o ∣ i + 1 ∧ i + 1 ≤ 2 * o * d) := by
          intro h
          omega
        have c5 : 2 * o ∣ i + 1 + o ∧ i + 1 + o ≤ 2 * o * (d + 1) := by
          have : i + 1 + o = 2 * o * d + 2 * o := by omega
          rw [this]
          exact ⟨hdv, by omega⟩
        rw [if_pos c3, if_neg c4, if_pos c5]
        have : 2 * o * d + 2 * o - 1 = i + o := by omega
        rw [this]
      · have c3 : ¬ (2 * o * d + o - 1 = i ∧ 2 * o * d + o - 1 < temp.length) := fun h => ha h.1
        rw [if_neg c3]
        have k2 : (2 * o ∣ i + 1 + o ∧ i + 1 + o ≤ 2 * o * (d + 1)) ↔
            (2 * o ∣ i + 1 + o ∧ i + 1 + o ≤ 2 * o * d) := by
          constructor
          · intro h
            exact ⟨h.1, two_mul_dvd_step o d _ ho h.1 h.2 (by omega)⟩
          · intro h
            exact ⟨h.1, by omega⟩
        simp only [k2]
        exact ih hlen2 i

/-! ## The sweeps -/

theorem pow_succ_dvd_of_le (j l x : Nat) (h : j ≤ l) (hx : 2 ^ (l + 1) ∣ x) : 2 ^ (j + 1) ∣ x :=
  Nat.dvd_trans (Nat.pow_dvd_pow 2 (Nat.succ_le_succ h)) hx

theorem up_level_swept (f : Nat → Nat) (l k : Nat) (temp : List Nat)
    (h : UpSwept f (2 ^ (l + (k + 1))) l temp) :
    UpSwept f (2 ^ (l + (k + 1))) (l + 1) ((List.range (2 ^ k)).foldl (up_thread (2 ^ l)) temp) := by
  obtain ⟨hlen, hinv⟩ := h
  have hn : 2 * 2 ^ l * 2 ^ k = 2 ^ (l + (k + 1)) := by
    rw [pow_add, pow_succ]
    ring
  have ho : 0 < 2 ^ l := Nat.pow_pos (by decide)
  have e2 : 2 ^ (l + 1) = 2 * 2 ^ l := by
    rw [pow_succ]
    ring
  refine ⟨by rw [length_up_level, hlen], ?_⟩
  intro i hi j hj hd hm
  rw [load_up_level _ _ ho temp (by rw [hn, hlen]) i, hn]
  by_cases hj2 : j = l + 1
  · subst hj2
    have c : 2 * 2 ^ l ∣ i + 1 ∧ i + 1 ≤ 2 ^ (l + (k + 1)) := ⟨e2 ▸ hd, hi⟩
    rw [if_pos c, u32_u32]
    have hdl : 2 ^ l ∣ i + 1 := Nat.dvd_trans (Nat.pow_dvd_pow 2 (Nat.le_succ l)) hd
    have hge : 2 * 2 ^ l ≤ i + 1 := Nat.le_of_dvd (Nat.succ_pos i) c.1
    have h1 := hinv i hi l (Nat.le_refl l) hdl (Or.inl rfl)
    have h2 := hinv (i - 2 ^ l) (by omega) l (Nat.le_refl l)
      (by
        have : i - 2 ^ l + 1 = i + 1 - 2 ^ l := by omega
        rw [this]
        exact Nat.dvd_sub' hdl (Nat.dvd_refl _)) (Or.inl rfl)
    rw [u32_congr_add _ _ _ _ h1 h2, Nat.add_comm]
    have e3 : i - 2 ^ l + 1 - 2 ^ l = i + 1 - 2 ^ (l + 1) := by omega
    have e4 : i - 2 ^ l + 1 = i + 1 - 2 ^ l := by omega
    rw [e3, e4, span_add f _ _ _ (by omega) (by omega)]
  · have hjl : j ≤ l := by omega
    have hm2 : ¬ 2 ^ (j + 1) ∣ i + 1 := by
      rcases hm with hm | hm
      · exact absurd hm hj2
      · exact hm
    have c : ¬ (2 * 2 ^ l ∣ i + 1 ∧ i + 1 ≤ 2 ^ (l + (k + 1))) := by
      intro hc
      exact hm2 (pow_succ_dvd_of_le j l _ hjl (e2 ▸ hc.1))
    rw [if_neg c]
    exact hinv i hi j hjl hd (Or.inr hm2)

theorem up_sweep_swept (f : Nat → Nat) (k : Nat) : ∀ (l : Nat) (temp : List Nat),
    UpSwept f (2 ^ (l + k)) l temp → UpSwept f (2 ^ (l + k)) (l + k) (up_sweep k (2 ^ l) temp) := by
  induction k with
  | zero =>
    intro l temp h
    exact h
  | succ k ih =>
    intro l temp h
    have h1 := up_level_swept f l k temp h
    have e : l + (k + 1) = l + 1 + k := by omega
    have e2 : 2 ^ l * 2 = 2 ^ (l + 1) := by rw [pow_succ]
    unfold up_sweep
    rw [e2]
    rw [e] at h1 ⊢
    exact ih (l + 1) _ h1

theorem up_swept_init (temp : List Nat) : UpSwept (load temp) temp.length 0 temp := by
  refine ⟨rfl, ?_⟩
  intro i _ j hj _ _
  have : j = 0 := by omega
  subst this
  have e : i + 1 - 2 ^ 0 = i := by simp
  rw [e, span_succ _ _ _ (Nat.le_refl i), span_self, Nat.zero_add]

theorem pow_succ_dvd_add_half (l x : Nat) (h1 : 2 ^ l ∣ x) (h2 : ¬ 2 ^ (l + 1) ∣ x) :
    2 ^ (l + 1) ∣ x + 2 ^ l := by
  obtain ⟨m, rfl⟩ := h1
  rcases Nat.even_or_odd m with ⟨q, hq⟩ | ⟨q, hq⟩
  · exfalso
    apply h2
    refine ⟨q, ?_⟩
    rw [hq, pow_succ]
    ring
  · refine ⟨q + 1, ?_⟩
    rw [hq, pow_succ]
    ring

theorem multiple_le_of_lt_add (a y n : Nat) (h1 : a ∣ y) (h2 : a ∣ n) (h : y < n + a) : y ≤ n := by
  obtain ⟨p, rfl⟩ := h1
  obtain ⟨q, rfl⟩ := h2
  rcases Nat.eq_zero_or_pos a with h0 | h0
  · subst h0
    simp
  · have : a * p < a * (q + 1) := by
      rw [Nat.mul_add, Nat.mul_one]
      exact h
    have : p < q + 1 := Nat.lt_of_mul_lt_mul_left this
    exact Nat.mul_le_mul_left _ (by omega)

theorem down_level_swept (f : Nat → Nat) (l d : Nat) (temp : List Nat)
    (h : DownSwept f (d * 2 ^ (l + 1)) (l + 1) temp) :
    DownSwept f (d * 2 ^ (l + 1)) l ((List.range d).foldl (down_thread (2 ^ l)) temp) := by
  obtain ⟨hlen, ha, hb⟩ := h
  have hn : 2 * 2 ^ l * d = d * 2 ^ (l + 1) := by
    rw [pow_succ]
    ring
  have ho : 0 < 2 ^ l := Nat.pow_pos (by decide)
  have e2 : 2 ^ (l + 1) = 2 * 2 ^ l := by
    rw [pow_succ]
    ring
  have hdn : 2 ^ (l + 1) ∣ d * 2 ^ (l + 1) := Dvd.intro_left _ rfl
  refine ⟨by rw [length_down_level, hlen], ?_, ?_⟩
  · intro i hi hd
    rw [load_down_level _ _ ho temp (by rw [hn, hlen]) i, hn]
    by_cases h2 : 2 ^ (l + 1) ∣ i + 1
    · have c : 2 * 2 ^ l ∣ i + 1 ∧ i + 1 ≤ d * 2 ^ (l + 1) := ⟨e2 ▸ h2, hi⟩
      rw [if_pos c]
      have hge : 2 * 2 ^ l ≤ i + 1 := Nat.le_of_dvd (Nat.succ_pos i) c.1
      have e4 : i - 2 ^ l + 1 = i + 1 - 2 ^ l := by omega
      have h1 := ha i hi h2
      have h3 := hb (i - 2 ^ l) (by omega) l (Nat.lt_succ_self l)
        (by
          rw [e4]
          exact Nat.dvd_sub' hd (Nat.dvd_refl _))
        (by
          rw [e4]
          intro hc
          have h5 := Nat.dvd_sub' h2 hc
          have e5 : i + 1 - (i + 1 - 2 ^ l) = 2 ^ l := by omega
          rw [e5] at h5
          have := Nat.le_of_dvd ho h5
          omega)
      have h1b : u32 (load temp i) = u32 (span f 0 (i + 1 - 2 ^ (l + 1))) := by
        rw [h1, u32_u32]
      rw [u32_congr_add _ _ _ _ h1b h3]
      have e3 : i - 2 ^ l + 1 - 2 ^ l = i + 1 - 2 ^ (l + 1) := by omega
      rw [e3, e4, span_add f _ _ _ (Nat.zero_le _) (by omega)]
    · have c : ¬ (2 * 2 ^ l ∣ i + 1 ∧ i + 1 ≤ d * 2 ^ (l + 1)) := fun hc => h2 (e2 ▸ hc.1)
      have h5 := pow_succ_dvd_add_half l (i + 1) hd h2
      have hlt : i + 1 < d * 2 ^ (l + 1) := by
        rcases Nat.lt_or_ge (i + 1) (d * 2 ^ (l + 1)) with h6 | h6
        · exact h6
        · exfalso
          have : i + 1 = d * 2 ^ (l + 1) := by omega
          exact h2 (this ▸ hdn)
      have h7 : i + 1 + 2 ^ l ≤ d * 2 ^ (l + 1) :=
        multiple_le_of_lt_add _ _ _ h5 hdn (by omega)
      have c2 : 2 * 2 ^ l ∣ i + 1 + 2 ^ l ∧ i + 1 + 2 ^ l ≤ d * 2 ^ (l + 1) := ⟨e2 ▸ h5, h7⟩
      rw [if_neg c, if_pos c2]
      have e6 : i + 2 ^ l + 1 = i + 1 + 2 ^ l := by omega
      rw [ha (i + 2 ^ l) (by omega) (e6 ▸ h5)]
      have e7 : i + 2 ^ l + 1 - 2 ^ (l + 1) = i + 1 - 2 ^ l := by omega
      rw [e7]
  · intro i hi j hj hd hm
    rw [load_down_level _ _ ho temp (by rw [hn, hlen]) i, hn]
    have c : ¬ (2 * 2 ^ l ∣ i + 1 ∧ i + 1 ≤ d * 2 ^ (l + 1)) := by
      intro hc
      exact hm (pow_succ_dvd_of_le j l _ (Nat.le_of_lt hj) (e2 ▸ hc.1))
    have c2 : ¬ (2 * 2 ^ l ∣ i + 1 + 2 ^ l ∧ i + 1 + 2 ^ l ≤ d * 2 ^ (l + 1)) := by
      intro hc
      have h8 : 2 ^ (j + 1) ∣ i + 1 + 2 ^ l := pow_succ_dvd_of_le j l _ (Nat.le_of_lt hj) (e2 ▸ hc.1)
      have h9 : 2 ^ (j + 1) ∣ 2 ^ l := Nat.pow_dvd_pow 2 hj
      exact hm ((Nat.dvd_add_left h9).1 h8)
    rw [if_neg c, if_neg c2]
    exact hb i hi j (Nat.lt_succ_of_lt hj) hd hm

theorem down_sweep_swept (f : Nat → Nat) (l : Nat) : ∀ (d : Nat) (temp : List Nat),
    DownSwept f (d * 2 ^ l) l temp → DownSwept f (d * 2 ^ l) 0 (down_sweep l d (2 ^ l) temp) := by
  induction l with
  | zero =>
    intro d temp h
    exact h
  | succ l ih =>
    intro d temp h
    have h1 := down_level_swept f l d temp h
    have e : d * 2 ^ (l + 1) = d * 2 * 2 ^ l := by
      rw [pow_succ]
      ring
    have e2 : 2 ^ (l + 1) / 2 = 2 ^ l := by
      rw [pow_succ]
      exact Nat.mul_div_cancel _ (by decide)
    unfold down_sweep
    rw [e2]
    rw [e] at h1 ⊢
    exact ih (d * 2) _ h1

/-! ## The scan of one block -/

theorem blelloch_spec (temp : List Nat) (h : temp.length = SEGMENT_SIZE) :
    (blelloch temp).1.length = SEGMENT_SIZE ∧
    (∀ i, i < SEGMENT_SIZE → load (blelloch temp).1 i = u32 (span (load temp) 0 i)) ∧
    u32 (blelloch temp).2 = u32 (span (load temp) 0 SEGMENT_SIZE) := by
  have hS : SEGMENT_SIZE = 2 ^ (0 + 10) := by decide
  have hS1 : SEGMENT_SIZE = 1 * 2 ^ 10 := by decide
  have hS2 : SEGMENT_SIZE - 1 = 1023 := by decide
  have hS3 : SEGMENT_SIZE = 1024 := by decide
  have hL : LEVELS = 10 := rfl
  have e0 : (1 : Nat) = 2 ^ 0 := rfl
  have h0 := up_swept_init temp
  rw [h, hS] at h0
  have hup := up_sweep_swept (load temp) 10 0 temp h0
  obtain ⟨ulen, uinv⟩ := hup
  have htot := uinv 1023 (by norm_num) 10 (by norm_num) (by norm_num) (Or.inl (by norm_num))
  have hdown : DownSwept (load temp) (1 * 2 ^ 10) 10 (store (up_sweep 10 (2 ^ 0) temp) 1023 0) := by
    refine ⟨by rw [length_store, ulen]; norm_num, ?_, ?_⟩
    · intro i hi hd
      have : i = 1023 := by
        have := Nat.le_of_dvd (Nat.succ_pos i) hd
        omega
      subst this
      rw [load_store, if_pos ⟨rfl, by rw [ulen]; norm_num⟩]
      simp [span_self, u32]
    · intro i hi j hj hd hm
      have hne : ¬ (1023 = i ∧ 1023 < (up_sweep 10 (2 ^ 0) temp).length) := by
        intro hc
        apply hm
        rw [← hc.1]
        exact Nat.pow_dvd_pow 2 (by omega : j + 1 ≤ 10)
      rw [load_store, if_neg hne]
      exact uinv i (by omega) j (by omega) hd (Or.inr hm)
  have hfin := down_sweep_swept (load temp) 10 1 _ hdown
  obtain ⟨dlen, da, _⟩ := hfin
  have e00 : (2 : Nat) ^ 0 = 1 := rfl
  have e10 : (2 : Nat) ^ 10 = 1024 := by norm_num
  simp only [e00, e10, Nat.one_mul] at dlen da htot
  unfold blelloch
  simp only [hL, hS2, hS3]
  refine ⟨dlen, ?_, ?_⟩
  · intro i hi
    have h9 := da i hi (Nat.one_dvd _)
    rw [h9, Nat.add_sub_cancel]
  · rw [htot]

/-! ## Loading and storing a block -/

theorem segment_size_eq : SEGMENT_SIZE = 1024 := by decide

theorem load_def (buf : List Nat) (i : Nat) : load buf i = buf[i]?.getD 0 := by
  unfold load
  exact List.getD_eq_getElem?_getD _ _ _

theorem length_load_block (buf : List Nat) (base : Nat) :
    (load_block buf base).length = SEGMENT_SIZE := by
  unfold load_block
  rw [List.length_map, List.length_range]

theorem load_load_block (buf : List Nat) (base k : Nat) (hk : k < SEGMENT_SIZE) :
    load (load_block buf base) k = load buf (base + k) := by
  unfold load_block
  rw [load_def (List.map _ _) k, List.getElem?_map, List.getElem?_range hk]
  rfl

theorem span_load_block (buf : List Nat) (base m : Nat) (hm : m ≤ SEGMENT_SIZE) :
    span (load (load_block buf base)) 0 m = span (load buf) base (base + m) := by
  have h := span_shift (load buf) 0 m base
  rw [Nat.add_zero] at h
  rw [← h]
  apply span_congr
  intro k _ hk
  exact load_load_block buf base k (by omega)

theorem length_store_fold (val : Nat → Nat) (base n : Nat) (buf : List Nat) :
    ((List.range n).foldl (fun buf k => store buf (base + k) (val k)) buf).length = buf.length := by
  induction n with
  | zero => rfl
  | succ n ih =>
    rw [List.range_succ, List.foldl_append]
    simp only [List.foldl_cons, List.foldl_nil, length_store]
    exact ih

theorem load_store_fold (val : Nat → Nat) (base n : Nat) (buf : List Nat) (i : Nat) :
    load ((List.range n).foldl (fun buf k => store buf (base + k) (val k)) buf) i =
      if base ≤ i ∧ i < base + n ∧ i < buf.length then val (i - base) else load buf i := by
  induction n with
  | zero =>
    have : ¬ (base ≤ i ∧ i < base + 0 ∧ i < buf.length) := by omega
    rw [if_neg this]
    rfl
  | succ n ih =>
    rw [List.range_succ, List.foldl_append]
    simp only [List.foldl_cons, List.foldl_nil]
    rw [load_store, length_store_fold, ih]
    by_cases e : base + n = i
    · by_cases hl : i < buf.length
      · have c1 : base + n = i ∧ base + n < buf.length := ⟨e, by omega⟩
        have c2 : base ≤ i ∧ i < base + (n + 1) ∧ i < buf.length := by omega
        have e2 : i - base = n := by omega
        rw [if_pos c1, if_pos c2, e2]
      · have c1 : ¬ (base + n = i ∧ base + n < buf.length) := by omega
        have c2 : ¬ (base ≤ i ∧ i < base + (n + 1) ∧ i < buf.length) := by omega
        have c3 : ¬ (base ≤ i ∧ i < base + n ∧ i < buf.length) := by omega
        rw [if_neg c1, if_neg c2, if_neg c3]
    · have c1 : ¬ (base + n = i ∧ base + n < buf.length) := by omega
      rw [if_neg c1]
      by_cases c3 : base ≤ i ∧ i < base + n ∧ i < buf.length
      · have c2 : base ≤ i ∧ i < base + (n + 1) ∧ i < buf.length := by omega
        rw [if_pos c2, if_pos c3]
      · have c2 : ¬ (base ≤ i ∧ i < base + (n + 1) ∧ i < buf.length) := by omega
        rw [if_neg c2, if_neg c3]

theorem length_store_block (buf : List Nat) (base : Nat) (temp : List Nat) :
    (store_block buf base temp).length = buf.length := by
  unfold store_block
  exact length_store_fold (load temp) base SEGMENT_SIZE buf

theorem load_store_block (buf : List Nat) (base : Nat) (temp : List Nat) (i : Nat) :
    load (store_block buf base temp) i =
      if base ≤ i ∧ i < base + SEGMENT_SIZE ∧ i < buf.length then load temp (i - base)
      else load buf i := by
  unfold store_block
  exact load_store_fold (load temp) base SEGMENT_SIZE buf i

theorem length_merge_fold (sum base n : Nat) (buf : List Nat) :
    ((List.range n).foldl
      (fun grid k => store grid (base + k) (u32 (load grid (base + k) + sum))) buf).length =
      buf.length := by
  induction n with
  | zero => rfl
  | succ n ih =>
    rw [List.range_succ, List.foldl_append]
    simp only [List.foldl_cons, List.foldl_nil, length_store]
    exact ih

theorem load_merge_fold (sum base n : Nat) (buf : List Nat) (i : Nat) :
    load ((List.range n).foldl
      (fun grid k => store grid (base + k) (u32 (load grid (base + k) + sum))) buf) i =
      if base ≤ i ∧ i < base + n ∧ i < buf.length then u32 (load buf i + sum) else load buf i := by
  induction n generalizing i with
  | zero =>
    have : ¬ (base ≤ i ∧ i < base + 0 ∧ i < buf.length) := by omega
    rw [if_neg this]
    rfl
  | succ n ih =>
    rw [List.range_succ, List.foldl_append]
    simp only [List.foldl_cons, List.foldl_nil]
    rw [load_store, length_merge_fold, ih (base + n), ih i]
    have c0 : ¬ (base ≤ base + n ∧ base + n < base + n ∧ base + n < buf.length) := by omega
    rw [if_neg c0]
    by_cases e : base + n = i
    · by_cases hl : i < buf.length
      · have c1 : base + n = i ∧ base + n < buf.length := ⟨e, by omega⟩
        have c2 : base ≤ i ∧ i < base + (n + 1) ∧ i < buf.length := by omega
        rw [if_pos c1, if_pos c2, e]
      · have c1 : ¬ (base + n = i ∧ base + n < buf.length) := by omega
        have c2 : ¬ (base ≤ i ∧ i < base + (n + 1) ∧ i < buf.length) := by omega
        have c3 : ¬ (base ≤ i ∧ i < base + n ∧ i < buf.length) := by omega
        rw [if_neg c1, if_neg c2, if_neg c3]
    · have c1 : ¬ (base + n = i ∧ base + n < buf.length) := by omega
      rw [if_neg c1]
      by_cases c3 : base ≤ i ∧ i < base + n ∧ i < buf.length
      · have c2 : base ≤ i ∧ i < base + (n + 1) ∧ i < buf.length := by omega
        rw [if_pos c2, if_pos c3]
      · have c2 : ¬ (base ≤ i ∧ i < base + (n + 1) ∧ i < buf.length) := by omega
        rw [if_neg c2, if_neg c3]

/-! ## One work group of each kernel -/

theorem prefix_sum_lengths (g : Nat) (b : Bound) :
    (prefix_sum g b).grid.length = b.grid.length ∧
    (prefix_sum g b).segments.length = b.segments.length := by
  unfold prefix_sum
  simp only
  exact ⟨length_store_block _ _ _, length_store _ _ _⟩

theorem prefix_sum_grid (g : Nat) (b : Bound) (i : Nat) :
    load (prefix_sum g b).grid i =
      if g * 1024 ≤ i ∧ i < g * 1024 + 1024 ∧ i < b.grid.length
      then u32 (span (load b.grid) (g * 1024) i) else load b.grid i := by
  unfold prefix_sum
  simp only
  rw [load_store_block, segment_size_eq]
  by_cases c : g * 1024 ≤ i ∧ i < g * 1024 + 1024 ∧ i < b.grid.length
  · rw [if_pos c, if_pos c]
    have hs := blelloch_spec (load_block b.grid (g * 1024)) (length_load_block _ _)
    rw [hs.2.1 (i - g * 1024) (by rw [segment_size_eq]; omega),
      span_load_block _ _ _ (by rw [segment_size_eq]; omega)]
    have : g * 1024 + (i - g * 1024) = i := by omega
    rw [this]
  · rw [if_neg c, if_neg c]

theorem prefix_sum_segments (g : Nat) (b : Bound) (h : Nat) :
    (g = h → g < b.segments.length → u32 (load (prefix_sum g b).segments h) =
      u32 (span (load b.grid) (g * 1024) (g * 1024 + 1024))) ∧
    (¬ (g = h ∧ g < b.segments.length) → load (prefix_sum g b).segments h = load b.segments h) := by
  unfold prefix_sum
  simp only
  rw [load_store, segment_size_eq]
  constructor
  · intro e hl
    rw [if_pos ⟨e, hl⟩]
    have hs := blelloch_spec (load_block b.grid (g * 1024)) (length_load_block _ _)
    rw [hs.2.2, span_load_block _ _ _ (Nat.le_refl _), segment_size_eq]
  · intro c
    rw [if_neg c]

theorem prefix_segments_grid (g : Nat) (b : Bound) : (prefix_segments g b).grid = b.grid := by
  unfold prefix_segments
  simp only

theorem prefix_segments_length (g : Nat) (b : Bound) :
    (prefix_segments g b).segments.length = b.segments.length := by
  unfold prefix_segments
  simp only
  exact length_store_block _ _ _

theorem prefix_segments_segments (g : Nat) (b : Bound) (h : Nat) :
    load (prefix_segments g b).segments h =
      if h < 1024 ∧ h < b.segments.length then u32 (span (load b.segments) 0 h) else load b.segments h := by
  unfold prefix_segments
  simp only
  rw [load_store_block, segment_size_eq]
  by_cases c : h < 1024 ∧ h < b.segments.length
  · have c2 : 0 ≤ h ∧ h < 0 + 1024 ∧ h < b.segments.length := by omega
    rw [if_pos c, if_pos c2]
    have hs := blelloch_spec (load_block b.segments 0) (length_load_block _ _)
    rw [hs.2.1 (h - 0) (by rw [segment_size_eq]; omega),
      span_load_block _ _ _ (by rw [segment_size_eq]; omega)]
    simp
  · have c2 : ¬ (0 ≤ h ∧ h < 0 + 1024 ∧ h < b.segments.length) := by omega
    rw [if_neg c, if_neg c2]

theorem prefix_merge_segments (g : Nat) (b : Bound) : (prefix_merge g b).segments = b.segments := by
  unfold prefix_merge
  simp only

theorem prefix_merge_length (g : Nat) (b : Bound) :
    (prefix_merge g b).grid.length = b.grid.length := by
  unfold prefix_merge
  simp only
  exact length_merge_fold _ _ _ _

theorem prefix_merge_grid (g : Nat) (b : Bound) (i : Nat) :
    load (prefix_merge g b).grid i =
      if g * 1024 ≤ i ∧ i < g * 1024 + 1024 ∧ i < b.grid.length
      then u32 (load b.grid i + load b.segments g) else load b.grid i := by
  unfold prefix_merge
  simp only
  rw [load_merge_fold, segment_size_eq]

/-! ## The dispatches -/

theorem dispatch_succ (kernel : Nat → Bound → Bound) (G : Nat) (b : Bound) :
    dispatch kernel (G + 1) b = kernel G (dispatch kernel G b) := by
  unfold dispatch
  rw [List.range_succ, List.foldl_append]
  rfl

theorem dispatch_zero (kernel : Nat → Bound → Bound) (b : Bound) : dispatch kernel 0 b = b := rfl

theorem dispatch_prefix_sum (b : Bound) (G : Nat) :
    (dispatch prefix_sum G b).grid.length = b.grid.length ∧
    (dispatch prefix_sum G b).segments.length = b.segments.length ∧
    (∀ i, load (dispatch prefix_sum G b).grid i =
      if i < G * 1024 ∧ i < b.grid.length then u32 (span (load b.grid) (i / 1024 * 1024) i)
      else load b.grid i) ∧
    (∀ h, h < G → h < b.segments.length → u32 (load (dispatch prefix_sum G b).segments h) =
      u32 (span (load b.grid) (h * 1024) (h * 1024 + 1024))) ∧
    (∀ h, ¬ (h < G ∧ h < b.segments.length) →
      load (dispatch prefix_sum G b).segments h = load b.segments h) := by
  induction G with
  | zero =>
    rw [dispatch_zero]
    refine ⟨rfl, rfl, ?_, ?_, ?_⟩
    · intro i
      have : ¬ (i < 0 * 1024 ∧ i < b.grid.length) := by omega
      rw [if_neg this]
    · intro h hh
      omega
    · intro h _
      rfl
  | succ G ih =>
    obtain ⟨l1, l2, hg, hs, hu⟩ := ih
    have hblock : ∀ k, G * 1024 ≤ k → load (dispatch prefix_sum G b).grid k = load b.grid k := by
      intro k hk
      have : ¬ (k < G * 1024 ∧ k < b.grid.length) := by omega
      rw [hg k, if_neg this]
    rw [dispatch_succ]
    have hl := prefix_sum_lengths G (dispatch prefix_sum G b)
    refine ⟨by rw [hl.1, l1], by rw [hl.2, l2], ?_, ?_, ?_⟩
    · intro i
      rw [prefix_sum_grid, l1]
      by_cases c : G * 1024 ≤ i ∧ i < G * 1024 + 1024 ∧ i < b.grid.length
      · have c2 : i < (G + 1) * 1024 ∧ i < b.grid.length := by omega
        have e : i / 1024 * 1024 = G * 1024 := by omega
        rw [if_pos c, if_pos c2, e]
        rw [span_congr _ (load b.grid) _ _ (fun k hk _ => hblock k hk)]
      · rw [if_neg c, hg i]
        by_cases c3 : i < G * 1024 ∧ i < b.grid.length
        · have c2 : i < (G + 1) * 1024 ∧ i < b.grid.length := by omega
          rw [if_pos c2, if_pos c3]
        · have c2 : ¬ (i < (G + 1) * 1024 ∧ i < b.grid.length) := by omega
          rw [if_neg c2, if_neg c3]
    · intro h hh hlen
      have hp := prefix_sum_segments G (dispatch prefix_sum G b) h
      by_cases e : G = h
      · rw [hp.1 e (by rw [l2]; omega), ← e]
        rw [span_congr _ (load b.grid) _ _ (fun k hk _ => hblock k hk)]
      · rw [hp.2 (fun hc => e hc.1)]
        exact hs h (by omega) hlen
    · intro h hn
      have hp := prefix_sum_segments G (dispatch prefix_sum G b) h
      rw [hp.2 (by rw [l2]; omega)]
      exact hu h (by omega)

theorem dispatch_prefix_merge (b : Bound) (G : Nat) :
    (dispatch prefix_merge G b).grid.length = b.grid.length ∧
    (dispatch prefix_merge G b).segments = b.segments ∧
    ∀ i, load (dispatch prefix_merge G b).grid i =
      if i < G * 1024 ∧ i < b.grid.length then u32 (load b.grid i + load b.segments (i / 1024))
      else load b.grid i := by
  induction G with
  | zero =>
    rw [dispatch_zero]
    refine ⟨rfl, rfl, ?_⟩
    intro i
    have : ¬ (i < 0 * 1024 ∧ i < b.grid.length) := by omega
    rw [if_neg this]
  | succ G ih =>
    obtain ⟨l1, l2, hg⟩ := ih
    rw [dispatch_succ]
    refine ⟨by rw [prefix_merge_length, l1], by rw [prefix_merge_segments, l2], ?_⟩
    intro i
    rw [prefix_merge_grid, l1, l2, hg i]
    by_cases c : G * 1024 ≤ i ∧ i < G * 1024 + 1024 ∧ i < b.grid.length
    · have c2 : i < (G + 1) * 1024 ∧ i < b.grid.length := by omega
      have c3 : ¬ (i < G * 1024 ∧ i < b.grid.length) := by omega
      have e : i / 1024 = G := by omega
      rw [if_pos c, if_pos c2, if_neg c3, e]
    · rw [if_neg c]
      by_cases c3 : i < G * 1024 ∧ i < b.grid.length
      · have c2 : i < (G + 1) * 1024 ∧ i < b.grid.length := by omega
        rw [if_pos c2, if_pos c3]
      · have c2 : ¬ (i < (G + 1) * 1024 ∧ i < b.grid.length) := by omega
        rw [if_neg c2, if_neg c3]

theorem dispatch_prefix_segments (b : Bound) :
    dispatch prefix_segments 1 b = prefix_segments 0 b := by
  rw [dispatch_succ, dispatch_zero]

theorem load_replicate_zero (n i : Nat) : load (List.replicate n 0) i = 0 := by
  rw [load_def]
  by_cases h : i < n
  · rw [List.getElem?_replicate, if_pos h]
    rfl
  · rw [List.getElem?_eq_none (by rw [List.length_replicate]; omega)]
    rfl

/-- Block totals accumulate to the sum of everything before the block. -/
theorem span_segments (f s : Nat → Nat) (q : Nat)
    (hs : ∀ h, h < q → u32 (s h) = u32 (span f (h * 1024) (h * 1024 + 1024))) :
    u32 (span s 0 q) = u32 (span f 0 (q * 1024)) := by
  induction q with
  | zero =>
    rw [span_self, Nat.zero_mul, span_self]
  | succ q ih =>
    have h1 := ih (fun h hh => hs h (Nat.lt_succ_of_lt hh))
    rw [span_succ _ _ _ (Nat.zero_le _), u32_congr_add _ _ _ _ h1 (hs q (Nat.lt_succ_self q)),
      span_add _ _ _ _ (Nat.zero_le _) (by omega)]
    have : q * 1024 + 1024 = (q + 1) * 1024 := by omega
    rw [this]

/-! ## The whole pass -/

theorem thread_group_size_eq : THREAD_GROUP_SIZE = 512 := rfl

theorem enqueue_load (self : SurfelPrefixPipeline) (surfel_grid : List Nat)
    (hS : self.segments_buffer.length = THREAD_GROUP_SIZE) (i : Nat) :
    (self.enqueue surfel_grid).2.length = surfel_grid.length ∧
    load (self.enqueue surfel_grid).2 i =
      if i < surfel_grid.length / 512 * 1024 ∧ i < surfel_grid.length then
        (if i / 1024 < 512 then u32 (span (load surfel_grid) 0 i)
         else u32 (span (load surfel_grid) (i / 1024 * 1024) i))
      else load surfel_grid i := by
  unfold SurfelPrefixPipeline.enqueue
  simp only [thread_group_size_eq, hS]
  generalize hb0 : ({ grid := surfel_grid, segments := List.replicate 512 0 } : Bound) = b0
  have hg0 : b0.grid = surfel_grid := by rw [← hb0]
  have hs0 : b0.segments = List.replicate 512 0 := by rw [← hb0]
  obtain ⟨a1, a2, a3, a4, a5⟩ := dispatch_prefix_sum b0 (surfel_grid.length / 512)
  generalize dispatch prefix_sum (surfel_grid.length / 512) b0 = bA at a1 a2 a3 a4 a5
  rw [dispatch_prefix_segments]
  obtain ⟨c1, c2, c3⟩ := dispatch_prefix_merge (prefix_segments 0 bA) (surfel_grid.length / 512)
  rw [prefix_segments_grid] at c1 c3
  rw [hg0] at a1 a3 a4
  rw [hs0, List.length_replicate] at a2 a4 a5
  refine ⟨by rw [c1, a1], ?_⟩
  rw [c3 i, a1, prefix_segments_segments, a2, a3 i]
  by_cases c : i < surfel_grid.length / 512 * 1024 ∧ i < surfel_grid.length
  · simp only [if_pos c]
    by_cases q : i / 1024 < 512
    · have q2 : i / 1024 < 1024 ∧ i / 1024 < 512 := by omega
      rw [if_pos q, if_pos q2, u32_add]
      have hseg := span_segments (load surfel_grid) (load bA.segments) (i / 1024)
        (fun h hh => a4 h (by omega) (by omega))
      rw [Nat.add_comm, u32_congr_add _ _ _ _ hseg rfl,
        span_add _ _ _ _ (Nat.zero_le _) (by omega)]
    · have q2 : ¬ (i / 1024 < 1024 ∧ i / 1024 < 512) := by omega
      rw [if_neg q, if_neg q2, a5 _ (by omega), load_replicate_zero, Nat.add_zero, u32_u32]
  · simp only [if_neg c]

/-! ## The sequential reference -/

theorem load_cons_succ (x : Nat) (xs : List Nat) (i : Nat) : load (x :: xs) (i + 1) = load xs i := rfl

theorem load_cons_zero (x : Nat) (xs : List Nat) : load (x :: xs) 0 = x := rfl

theorem span_cons (x : Nat) (xs : List Nat) (i : Nat) :
    span (load (x :: xs)) 0 (i + 1) = x + span (load xs) 0 i := by
  induction i with
  | zero =>
    rw [span_succ _ _ _ (Nat.le_refl 0), span_self, span_self, load_cons_zero]
    omega
  | succ i ih =>
    rw [span_succ _ _ _ (Nat.zero_le _), ih, load_cons_succ, span_succ _ _ _ (Nat.zero_le _)]
    omega

theorem length_scan_from (xs : List Nat) : ∀ acc, (scan_from acc xs).length = xs.length + 1 := by
  induction xs with
  | nil =>
    intro acc
    rfl
  | cons x xs ih =>
    intro acc
    unfold scan_from
    rw [List.length_cons, ih, List.length_cons]

theorem load_scan_from (xs : List Nat) : ∀ acc i, i ≤ xs.length →
    load (scan_from acc xs) i = if i = 0 then acc else u32 (acc + span (load xs) 0 i) := by
  induction xs with
  | nil =>
    intro acc i hi
    have : i = 0 := by simpa using hi
    subst this
    rfl
  | cons x xs ih =>
    intro acc i hi
    unfold scan_from
    cases i with
    | zero => rfl
    | succ i =>
      rw [load_cons_succ, ih _ i (by simpa using hi), if_neg (Nat.succ_ne_zero i), span_cons]
      by_cases h0 : i = 0
      · subst h0
        rw [if_pos rfl, span_self, Nat.add_zero]
      · rw [if_neg h0, u32_add_left, Nat.add_assoc]

theorem load_sequential_scan (counts : List Nat) (i : Nat) (hi : i ≤ counts.length) :
    load (sequential_scan counts) i = u32 (span (load counts) 0 i) := by
  unfold sequential_scan
  rw [load_scan_from counts 0 i hi]
  by_cases h0 : i = 0
  · subst h0
    rw [if_pos rfl, span_self]
    rfl
  · rw [if_neg h0, Nat.zero_add]

theorem load_append_left (a b : List Nat) (k : Nat) (hk : k < a.length) :
    load (a ++ b) k = load a k := by
  rw [load_def, load_def, List.getElem?_append_left hk]

theorem enqueue_eq_sequential_scan (self : SurfelPrefixPipeline) (counts : List Nat)
    (hS : self.segments_buffer.length = THREAD_GROUP_SIZE)
    (hlo : counts = [] ∨ 512 ≤ counts.length + 1) (hhi : counts.length + 1 ≤ 524288) :
    (self.enqueue (counts ++ [0])).2 = sequential_scan counts := by
  have hL : (counts ++ [0]).length = counts.length + 1 := by simp
  apply ext_load
  · rw [(enqueue_load self _ hS 0).1, hL]
    unfold sequential_scan
    rw [length_scan_from]
  · intro i hi
    rw [(enqueue_load self _ hS 0).1, hL] at hi
    rw [(enqueue_load self _ hS i).2, hL, load_sequential_scan counts i (by omega)]
    have hcongr : span (load (counts ++ [0])) 0 i = span (load counts) 0 i :=
      span_congr _ _ _ _ (fun k _ hk => load_append_left counts [0] k (by omega))
    rcases hlo with h0 | h512
    · subst h0
      have : i = 0 := by simpa using hi
      subst this
      simp [span_self, u32, load]
    · have c : i < (counts.length + 1) / 512 * 1024 ∧ i < counts.length + 1 := by omega
      have q : i / 1024 < 512 := by omega
      rw [if_pos c, if_pos q, hcongr]

theorem length_create : SurfelPrefixPipeline.create.segments_buffer.length = THREAD_GROUP_SIZE :=
  List.length_replicate _ _

theorem length_enqueue_segments (self : SurfelPrefixPipeline) (surfel_grid : List Nat) :
    (self.enqueue surfel_grid).1.segments_buffer.length = self.segments_buffer.length := by
  unfold SurfelPrefixPipeline.enqueue
  simp only
  rw [(dispatch_prefix_merge _ _).2.1, dispatch_prefix_segments, prefix_segments_length,
    (dispatch_prefix_sum _ _).2.1, List.length_replicate]

/-! ## The claim on the prefix-sum pass -/

theorem sequential_scan_iota :
    sequential_scan (List.range' 1 1024) = (List.range 1025).map (fun i => i * (i + 1) / 2) := by
  decide!

theorem length_overflow_counts : overflow_counts.length = 524288 := by
  unfold overflow_counts
  rw [List.length_cons, List.length_replicate]

theorem span_cons_zeros (x n : Nat) : span (load (x :: List.replicate n 0)) 0 (n + 1) = x := by
  rw [span_cons, span_congr _ (fun _ => 0) 0 n (fun k _ _ => load_replicate_zero n k)]
  unfold span
  simp

theorem span_overflow_counts : span (load overflow_counts) 0 524288 = 1 :=
  span_cons_zeros 1 524287

/-- **C10** as stated fails on the code.  With `524288 = 512 * 1024` cells, a
multiple of 1024, and one surfel in cell 0, the pass leaves 0 in slot 524288,
where the sequential scan has the total 1: that slot lies in block 512, and the
segments buffer of `THREAD_GROUP_SIZE = 512` entries has no entry for it, so the
result of the pass is not the sequential scan. -/
theorem enqueue_scan_overflow :
    1024 ∣ overflow_counts.length ∧
    load (SurfelPrefixPipeline.create.enqueue (overflow_counts ++ [0])).2 524288 = 0 ∧
    load (sequential_scan overflow_counts) 524288 = 1 ∧
    (SurfelPrefixPipeline.create.enqueue (overflow_counts ++ [0])).2 ≠
      sequential_scan overflow_counts := by
  have hL : (overflow_counts ++ [0]).length = 524289 := by
    rw [List.length_append, length_overflow_counts]
    rfl
  have h1 : load (SurfelPrefixPipeline.create.enqueue (overflow_counts ++ [0])).2 524288 = 0 := by
    rw [(enqueue_load _ _ length_create 524288).2, hL]
    have c : 524288 < 524289 / 512 * 1024 ∧ 524288 < 524289 := by omega
    have q : ¬ 524288 / 1024 < 512 := by omega
    have e : 524288 / 1024 * 1024 = 524288 := by omega
    rw [if_pos c, if_neg q, e, span_self]
    rfl
  have h2 : load (sequential_scan overflow_counts) 524288 = 1 := by
    rw [load_sequential_scan _ _ (by rw [length_overflow_counts]), span_overflow_counts]
    rfl
  refine ⟨?_, h1, h2, ?_⟩
  · rw [length_overflow_counts]
    exact ⟨512, by norm_num⟩
  · intro h
    rw [h, h2] at h1
    exact absurd h1 (by decide)

/-- **C10** (amended).  For every pipeline whose segments buffer has the
`THREAD_GROUP_SIZE` entries the constructor allocates, and every input of
`cells` per-cell counts with `cells` a multiple of 1024 below `524288`, in a
grid buffer of `cells + 1` slots whose last slot is empty, the pass of kernels
A, B, C as dispatched by `enqueue` leaves in the grid buffer the exclusive
prefix sums (in `uint32_t` arithmetic) that the sequential scan produces, with
the total in slot `cells`.  For the counts `1, 2, ..., 1024` the result is
`0, 1, 3, 6, ...`, slot `i` holding `i * (i + 1) / 2`: `523776` in slot 1023 and
the total `524800` in slot 1024. -/
theorem enqueue_exclusive_scan (self : SurfelPrefixPipeline) (counts : List Nat)
    (hS : self.segments_buffer.length = THREAD_GROUP_SIZE)
    (hm : 1024 ∣ counts.length) (hb : counts.length < 524288) :
    (self.enqueue (counts ++ [0])).2 = sequential_scan counts ∧
    (self.enqueue (List.range' 1 1024 ++ [0])).2 =
      (List.range 1025).map (fun i => i * (i + 1) / 2) ∧
    load (self.enqueue (List.range' 1 1024 ++ [0])).2 1023 = 523776 ∧
    load (self.enqueue (List.range' 1 1024 ++ [0])).2 1024 = 524800 := by
  have hgen : (self.enqueue (counts ++ [0])).2 = sequential_scan counts := by
    apply enqueue_eq_sequential_scan self counts hS _ (by omega)
    rcases Nat.eq_zero_or_pos counts.length with h0 | h0
    · exact Or.inl (List.length_eq_zero.1 h0)
    · have := Nat.le_of_dvd h0 hm
      exact Or.inr (by omega)
  have hex : (self.enqueue (List.range' 1 1024 ++ [0])).2 =
      (List.range 1025).map (fun i => i * (i + 1) / 2) := by
    rw [enqueue_eq_sequential_scan self (List.range' 1 1024) hS
      (Or.inr (by rw [List.length_range']; norm_num)) (by rw [List.length_range']; norm_num)]
    exact sequential_scan_iota
  refine ⟨hgen, hex, ?_, ?_⟩
  · rw [hex]
    decide!
  · rw [hex]
    decide!

theorem enqueue_exclusive_scan_witness :
    (SurfelPrefixPipeline.create.segments_buffer.length = THREAD_GROUP_SIZE ∧
      1024 ∣ (List.range' 1 1024).length ∧ (List.range' 1 1024).length < 524288) ∧
    ((SurfelPrefixPipeline.create.enqueue (List.range' 1 1024 ++ [0])).2 =
        sequential_scan (List.range' 1 1024) ∧
      (SurfelPrefixPipeline.create.enqueue (List.range' 1 1024 ++ [0])).2 =
        (List.range 1025).map (fun i => i * (i + 1) / 2) ∧
      load (SurfelPrefixPipeline.create.enqueue (List.range' 1 1024 ++ [0])).2 1023 = 523776 ∧
      load (SurfelPrefixPipeline.create.enqueue (List.range' 1 1024 ++ [0])).2 1024 = 524800) :=
  ⟨⟨length_create, by simp, by simp⟩,
    enqueue_exclusive_scan SurfelPrefixPipeline.create (List.range' 1 1024) length_create
      (by simp) (by simp)⟩

/-! ## Cascade parameters -/

theorem to_u32_ok {x : Nat} (h : x < 4294967296) : to_u32 x = .ok x := by
  unfold to_u32
  rw [if_pos h]

theorem to_u32_eq_ok {x y : Nat} (h : to_u32 x = .ok y) : y = x ∧ x < 4294967296 := by
  unfold to_u32 at h
  split_ifs at h with c
  · exact ⟨(Except.ok.inj h).symm, c⟩

theorem u32_of_lt {x : Nat} (h : x < 4294967296) : u32 x = x := by
  unfold u32
  exact Nat.mod_eq_of_lt h

theorem u32_lt (x : Nat) : u32 x < 4294967296 := by
  unfold u32
  exact Nat.mod_lt _ (by decide)

theorem spatial_scale_ok {i : Nat} (hi : i < 16) : spatial_scale i = .ok (4 ^ i) := by
  unfold spatial_scale pow_u32 SPATIAL_FACTOR
  apply to_u32_ok
  calc 4 ^ i ≤ 4 ^ 15 := Nat.pow_le_pow_right (by decide) (by omega)
    _ < 4294967296 := by norm_num

theorem half_angular_scale_ok {i : Nat} (hi : i < 32) : half_angular_scale i = .ok (2 ^ i) := by
  unfold half_angular_scale pow_u32 ANGULAR_FACTOR
  apply to_u32_ok
  calc (4 / 2) ^ i ≤ 2 ^ 31 := Nat.pow_le_pow_right (by decide) (by omega)
    _ < 4294967296 := by norm_num

theorem get_probe_capacity_ok (p : SurfelCascadeParameters) {i : Nat} (hi : i < 16) :
    p.get_probe_capacity i = .ok (p.c0_probe_capacity / 4 ^ i) := by
  unfold SurfelCascadeParameters.get_probe_capacity
  rw [spatial_scale_ok hi]
  rfl

theorem get_memory_width_ok (p : SurfelCascadeParameters) {i : Nat} (hi : i < 32) :
    p.get_memory_width i = .ok (u32 (p.c0_memory_width * 2 ^ i)) := by
  unfold SurfelCascadeParameters.get_memory_width
  rw [half_angular_scale_ok hi]
  rfl

theorem get_probe_capacity_le (p : SurfelCascadeParameters) {i N : Nat}
    (h : p.get_probe_capacity i = .ok N) : N ≤ p.c0_probe_capacity := by
  unfold SurfelCascadeParameters.get_probe_capacity at h
  cases hs : spatial_scale i with
  | error e =>
    rw [hs] at h
    cases h
  | ok s =>
    rw [hs] at h
    have : N = p.c0_probe_capacity / s := (Except.ok.inj h).symm
    rw [this]
    exact Nat.div_le_self _ _

theorem get_memory_width_lt (p : SurfelCascadeParameters) {i mw : Nat}
    (h : p.get_memory_width i = .ok mw) : mw < 4294967296 := by
  unfold SurfelCascadeParameters.get_memory_width at h
  cases hs : half_angular_scale i with
  | error e =>
    rw [hs] at h
    cases h
  | ok s =>
    rw [hs] at h
    have : mw = u32 (p.c0_memory_width * s) := (Except.ok.inj h).symm
    rw [this]
    exact u32_lt _

/-! ## The initial surfel stack -/

theorem init_stack_loop_ok (k : Nat) : ∀ (i : Nat) (pre : List Nat), pre.length = 1 + i →
    i + k < 4294967296 →
    init_stack_loop k i (pre ++ List.replicate k 0) = .ok (pre ++ List.range' i k) := by
  induction k with
  | zero =>
    intro i pre _ _
    rfl
  | succ k ih =>
    intro i pre hp hb
    unfold init_stack_loop
    have hu : u32 (1 + i) = pre.length := by
      rw [hp]
      exact u32_of_lt (by omega)
    have hput : host_put (pre ++ List.replicate (k + 1) 0) (u32 (1 + i)) i =
        .ok ((pre ++ [i]) ++ List.replicate k 0) := by
      unfold host_put
      rw [if_pos (by rw [hu, List.length_append, List.length_replicate]; omega), hu,
        List.replicate_succ, List.set_append_right _ _ (Nat.le_refl _), Nat.sub_self]
      simp
    rw [hput]
    have := ih (i + 1) (pre ++ [i]) (by rw [List.length_append, hp]; simp; omega) (by omega)
    simp only [bind, Except.bind]
    rw [this]
    simp [List.range'_succ]

/-! ## alloc -/

theorem buf_alloc_some {allocator : VmaAllocator} {size : Nat} {b : Buffer}
    (h : buf_alloc allocator size = some b) :
    b = { size := size, words := List.replicate (size / 4) 0 } := by
  unfold buf_alloc at h
  split_ifs at h
  exact (Option.some.inj h).symm

/-- What a call of `buf::upload` that returns has done. -/
theorem buf_upload_ok {allocator : VmaAllocator} {dst : Buffer} {data : List Nat} {size : Nat}
    {up : Bool × Buffer} (h : buf_upload allocator dst data size = .ok up) :
    (allocator.staged size = true → size ≤ dst.size) ∧
    up = (allocator.staged size,
      if allocator.staged size = true then
        { dst with words := data.take (size / 4) ++ dst.words.drop (size / 4) }
      else dst) := by
  unfold buf_upload at h
  unfold VmaAllocator.staged
  cases h1 : allocator.stage_alloc size <;> cases h2 : allocator.stage_write size <;>
    cases h3 : allocator.stage_copy size <;> simp only [h1, h2, h3] at h ⊢ <;>
    first
    | (simp only [if_true] at h
       exact ⟨by simp, by simpa using (Except.ok.inj h).symm⟩)
    | (by_cases hlt : dst.size < size
       · simp [hlt] at h
       · simp only [hlt, if_false, Bool.true_eq_false, Bool.false_eq_true] at h
         refine ⟨fun _ => by omega, ?_⟩
         simpa using (Except.ok.inj h).symm)

/-- What `alloc` has done when it returns true: the sizes of the buffers and
textures, and the surfel stack, which holds the free list when its upload has
succeeded and the zeros of its allocation when it has not. -/
theorem alloc_true (self r : SurfelCascadeResources) (allocator : VmaAllocator)
    (params : SurfelCascadeParameters) (i : Nat) (hv : params.valid)
    (h : self.alloc allocator params i = .ok (true, r)) :
    ∃ N mw, params.get_probe_capacity i = .ok N ∧ params.get_memory_width i = .ok mw ∧
      (allocator.staged (4 * (N + 1)) = true → 4 * (N + 1) < 4294967296) ∧
      r.cascade_index = i ∧
      r.surfel_stack = (if allocator.staged (4 * (N + 1)) = true then
          { size := 4 * (N + 1), words := 0 :: List.range N }
        else { size := u32 (4 * (N + 1)), words := List.replicate (u32 (4 * (N + 1)) / 4) 0 }) ∧
      r.surfel_grid.size = u32 (4 * u32 (params.c0_grid_capacity + 1)) ∧
      r.surfel_list = { size := u32 (4 * N * 16),
                        words := List.replicate (u32 (4 * N * 16) / 4) 0 } ∧
      r.surfel_rad = { width := u32 (mw * Nat.sqrt N), height := u32 (mw * Nat.sqrt N) } ∧
      r.surfel_merge = { width := u32 (mw * Nat.sqrt N), height := u32 (mw * Nat.sqrt N) } := by
  unfold SurfelCascadeResources.alloc at h
  cases hN : params.get_probe_capacity i with
  | error e =>
    rw [hN] at h
    cases h
  | ok N =>
  cases hmw : params.get_memory_width i with
  | error e =>
    rw [hN, hmw] at h
    cases h
  | ok mw =>
  rw [hN, hmw] at h
  simp only [bind, Except.bind] at h
  have hNle := get_probe_capacity_le params hN
  have hNlt : N < 4294967296 := Nat.lt_of_le_of_lt hNle hv.2.2.2
  refine ⟨N, mw, rfl, rfl, ?_⟩
  cases h1 : buf_alloc allocator sizeof_SurfelCascadeParameters with
  | none =>
    rw [h1] at h
    simp at h
  | some b1 =>
  rw [h1] at h
  simp only at h
  cases h2 : buf_alloc allocator (u32 (4 * u32 (1 + N))) with
  | none =>
    rw [h2] at h
    simp at h
  | some b2 =>
  rw [h2] at h
  simp only at h
  cases h3 : buf_alloc allocator (u32 (4 * u32 (params.get_grid_capacity i + 1))) with
  | none =>
    rw [h3] at h
    simp at h
  | some b3 =>
  rw [h3] at h
  simp only at h
  cases h4 : buf_alloc allocator (u32 (4 * N * 16)) with
  | none =>
    rw [h4] at h
    simp at h
  | some b4 =>
  rw [h4] at h
  simp only at h
  cases h5 : buf_alloc allocator (u32 (4 * 4 * N)) with
  | none =>
    rw [h5] at h
    simp at h
  | some b5 =>
  rw [h5] at h
  simp only at h
  have e2 := buf_alloc_some h2
  have e4 := buf_alloc_some h4
  have e3 := buf_alloc_some h3
  have hmake : (Texture2D.make allocator (u32 (mw * N.sqrt)) (u32 (mw * N.sqrt))).2 =
      { width := u32 (mw * N.sqrt), height := u32 (mw * N.sqrt) } := rfl
  by_cases ht : (Texture2D.make allocator (u32 (mw * N.sqrt)) (u32 (mw * N.sqrt))).1 = false
  · rw [if_pos ht] at h
    simp at h
  rw [if_neg ht, if_neg ht] at h
  have hN1 : 1 + N < 4294967296 := by
    rcases Nat.lt_or_ge (1 + N) 4294967296 with c | c
    · exact c
    · exfalso
      have : 1 + N = 4294967296 := by omega
      have hz : u32 (1 + N) = 0 := by
        rw [this]
        rfl
      rw [hz] at h
      simp [host_put] at h
  have hu : u32 (1 + N) = N + 1 := by
    rw [u32_of_lt hN1]
    omega
  have hput : host_put (List.replicate (u32 (1 + N)) 0) 0 0 = .ok ([0] ++ List.replicate N 0) := by
    rw [hu]
    unfold host_put
    rw [if_pos (by simp)]
    simp [List.replicate_succ]
  rw [hput] at h
  simp only at h
  rw [init_stack_loop_ok N 0 [0] rfl (by omega)] at h
  simp only at h
  cases hst : buf_upload allocator b2 ([0] ++ List.range' 0 N) (4 * u32 (1 + N)) with
  | error e =>
    rw [hst] at h
    cases h
  | ok up =>
  rw [hst] at h
  simp only at h
  cases hpar : buf_upload allocator b1 b1.words sizeof_SurfelCascadeParameters with
  | error e =>
    rw [hpar] at h
    cases h
  | ok up1 =>
  rw [hpar] at h
  simp only at h
  have hr := (Prod.mk.inj (Except.ok.inj h)).2
  obtain ⟨k1, k2⟩ := buf_upload_ok hst
  rw [hu] at k1 k2
  have hb2 : b2.size = u32 (4 * (N + 1)) := by rw [e2, hu]
  have hsz : allocator.staged (4 * (N + 1)) = true → 4 * (N + 1) < 4294967296 := by
    intro hs
    have := k1 hs
    rw [hb2] at this
    exact Nat.lt_of_le_of_lt this (u32_lt _)
  rw [← hr]
  refine ⟨hsz, rfl, ?_, ?_, ?_, hmake, hmake⟩
  · simp only [k2]
    by_cases hs : allocator.staged (4 * (N + 1)) = true
    · rw [if_pos hs, if_pos hs]
      have hlt := hsz hs
      have hd : 4 * (N + 1) / 4 = N + 1 := by omega
      rw [hd, e2]
      simp only [hu]
      rw [u32_of_lt hlt, hd]
      simp [List.range_eq_range']
    · rw [if_neg hs, if_neg hs, e2, hu]
  · simp only [e3]
    rfl
  · simp only [e4]

theorem alloc_generous (self : SurfelCascadeResources) (params : SurfelCascadeParameters)
    (i : Nat) (hi : i < 16) (hsz : 4 * (params.c0_probe_capacity / 4 ^ i + 1) < 4294967296) :
    ∃ r, self.alloc VmaAllocator.generous params i = .ok (true, r) := by
  unfold SurfelCascadeResources.alloc
  rw [get_probe_capacity_ok params hi, get_memory_width_ok params (by omega : i < 32)]
  generalize params.c0_probe_capacity / 4 ^ i = N at hsz
  have hu : u32 (1 + N) = N + 1 := by
    rw [u32_of_lt (by omega)]
    omega
  have hput : host_put (List.replicate (N + 1) 0) 0 0 = .ok ([0] ++ List.replicate N 0) := by
    unfold host_put
    rw [if_pos (by simp)]
    simp [List.replicate_succ]
  have hd : 4 * (N + 1) / 4 = N + 1 := by omega
  simp only [bind, Except.bind, buf_alloc, VmaAllocator.generous, if_true, Texture2D.make,
    buf_upload, hu, u32_of_lt hsz, Nat.lt_irrefl, if_false, sizeof_SurfelCascadeParameters,
    Bool.true_eq_false]
  simp only [hput, init_stack_loop_ok N 0 [0] rfl (by omega : 0 + N < 4294967296)]
  simp

theorem ex_alloc :
    ({} : SurfelCascadeResources).alloc VmaAllocator.generous ex_params 1 = .ok (true, ex_cascade) := by
  decide!

theorem ex_params_valid : ex_params.valid := by
  unfold SurfelCascadeParameters.valid
  decide

/-! ## The claims on the cascade resources -/

/-- **C12.** For every parameter set and every cascade index `i < 6`,
`get_probe_capacity(i)` is `c0_probe_capacity / 4 ^ i` rounded down,
`get_memory_width(i)` is `c0_memory_width * 2 ^ i` as a 32-bit unsigned value,
and `get_grid_capacity(i)` is `c0_grid_capacity`. -/
theorem get_cascade_values (p : SurfelCascadeParameters) (i : Nat) (hi : i < 6) :
    p.get_probe_capacity i = .ok (p.c0_probe_capacity / 4 ^ i) ∧
    p.get_memory_width i = .ok (u32 (p.c0_memory_width * 2 ^ i)) ∧
    p.get_grid_capacity i = p.c0_grid_capacity :=
  ⟨get_probe_capacity_ok p (by omega), get_memory_width_ok p (by omega), rfl⟩

theorem get_cascade_values_witness :
    3 < 6 ∧
    SurfelCascadeParameters.create.get_probe_capacity 3 = .ok (MAX_SURFEL_COUNT / 4 ^ 3) ∧
    SurfelCascadeParameters.create.get_memory_width 3 = .ok (u32 (4 * 2 ^ 3)) ∧
    SurfelCascadeParameters.create.get_grid_capacity 3 = 512 * 512 - 1 :=
  ⟨by decide, get_cascade_values SurfelCascadeParameters.create 3 (by decide)⟩

theorem odd_params_valid : odd_params.valid := by
  unfold SurfelCascadeParameters.valid
  decide

theorem create_valid : SurfelCascadeParameters.create.valid := by
  unfold SurfelCascadeParameters.valid
  decide

theorem sqrt_eight : Nat.sqrt 8 = 2 :=
  (Nat.eq_sqrt.2 ⟨by norm_num, by norm_num⟩).symm

/-- **C13** as stated fails on the code.  With 8 probes of memory width 4 the
textures have side `4 * 2 = 8`, the square root being rounded down; the side
holds `(8 / 4) ^ 2 = 4` tiles, fewer than the 8 probes. -/
theorem alloc_tiles_short :
    ∃ r, ({} : SurfelCascadeResources).alloc VmaAllocator.generous odd_params 0 = .ok (true, r) ∧
      odd_params.get_probe_capacity 0 = .ok 8 ∧ odd_params.get_memory_width 0 = .ok 4 ∧
      r.surfel_rad.width = 8 ∧ r.surfel_merge.width = 8 ∧
      ¬ ((r.surfel_rad.width / 4) ^ 2 ≥ 8) := by
  obtain ⟨r, hr⟩ := alloc_generous {} odd_params 0 (by decide) (by decide)
  obtain ⟨N, mw, hN, hmw, _, _, _, _, _, hrad, hmerge⟩ :=
    alloc_true {} r VmaAllocator.generous odd_params 0 odd_params_valid hr
  have e1 : odd_params.get_probe_capacity 0 = .ok 8 := by decide
  have e2 : odd_params.get_memory_width 0 = .ok 4 := by decide
  have hN8 : N = 8 := (Except.ok.inj (hN.symm.trans e1))
  have hmw4 : mw = 4 := (Except.ok.inj (hmw.symm.trans e2))
  subst hN8
  subst hmw4
  rw [sqrt_eight] at hrad hmerge
  refine ⟨r, hr, e1, e2, ?_, ?_, ?_⟩
  · rw [hrad]
    rfl
  · rw [hmerge]
    rfl
  · rw [hrad]
    decide

theorem default_cascade (i : Nat) (hi : i < 6) :
    ∃ N mw, SurfelCascadeParameters.create.get_probe_capacity i = .ok N ∧
      SurfelCascadeParameters.create.get_memory_width i = .ok mw ∧
      0 < mw ∧ u32 (mw * Nat.sqrt N) = 2048 ∧ (2048 / mw) ^ 2 = N := by
  have sq : ∀ k, Nat.sqrt (k * k) = k := Nat.sqrt_eq
  interval_cases i
  · exact ⟨512 * 512, 4, by decide, by decide, by decide, by rw [sq]; decide, by decide⟩
  · exact ⟨256 * 256, 8, by decide, by decide, by decide, by rw [sq]; decide, by decide⟩
  · exact ⟨128 * 128, 16, by decide, by decide, by decide, by rw [sq]; decide, by decide⟩
  · exact ⟨64 * 64, 32, by decide, by decide, by decide, by rw [sq]; decide, by decide⟩
  · exact ⟨32 * 32, 64, by decide, by decide, by decide, by rw [sq]; decide, by decide⟩
  · exact ⟨16 * 16, 128, by decide, by decide, by decide, by rw [sq]; decide, by decide⟩

/-- **C13** (amended).  Whenever `alloc` returns true, the `rad` and `merge`
textures have the same square size, of side `get_memory_width(i)` times the
square root of `get_probe_capacity(i)` rounded down, as a 32-bit product.  When
the memory width is positive and the product fits 32 bits, the side holds
`(side / memory_width) ^ 2` tiles, which is at most the probe capacity and
reaches it exactly when the capacity is a perfect square.  Under the default
parameters the side is 2048 for every cascade `0..5` and the tile count equals
the probe capacity. -/
theorem alloc_textures (self r : SurfelCascadeResources) (allocator : VmaAllocator)
    (params : SurfelCascadeParameters) (i : Nat) (hv : params.valid)
    (h : self.alloc allocator params i = .ok (true, r)) :
    ∃ N mw, params.get_probe_capacity i = .ok N ∧ params.get_memory_width i = .ok mw ∧
      r.surfel_rad.width = u32 (mw * Nat.sqrt N) ∧ r.surfel_rad.height = r.surfel_rad.width ∧
      r.surfel_merge.width = r.surfel_rad.width ∧ r.surfel_merge.height = r.surfel_rad.width ∧
      (0 < mw → mw * Nat.sqrt N < 4294967296 →
        (r.surfel_rad.width / mw) ^ 2 ≤ N ∧
        ((r.surfel_rad.width / mw) ^ 2 ≥ N ↔ ∃ k, N = k * k)) ∧
      (params = SurfelCascadeParameters.create → i < 6 →
        r.surfel_rad.width = 2048 ∧ (r.surfel_rad.width / mw) ^ 2 = N) := by
  obtain ⟨N, mw, hN, hmw, _, _, _, _, _, hrad, hmerge⟩ :=
    alloc_true self r allocator params i hv h
  refine ⟨N, mw, hN, hmw, by rw [hrad], by rw [hrad], by rw [hmerge, hrad],
    by rw [hmerge, hrad], ?_, ?_⟩
  · intro hpos hfit
    have hw : r.surfel_rad.width / mw = Nat.sqrt N := by
      rw [hrad]
      simp only
      rw [u32_of_lt hfit, Nat.mul_div_cancel_left _ hpos]
    rw [hw]
    refine ⟨Nat.sqrt_le' N, ?_⟩
    constructor
    · intro hge
      exact ⟨Nat.sqrt N, by
        have := Nat.sqrt_le' N
        rw [← Nat.pow_two]
        omega⟩
    · rintro ⟨k, rfl⟩
      rw [Nat.sqrt_eq, Nat.pow_two]
  · intro hp hi
    subst hp
    obtain ⟨N', mw', hN', hmw', _, h2048, htiles⟩ := default_cascade i hi
    have eN : N = N' := Except.ok.inj (hN.symm.trans hN')
    have em : mw = mw' := Except.ok.inj (hmw.symm.trans hmw')
    subst eN
    subst em
    have hw : r.surfel_rad.width = 2048 := by
      rw [hrad]
      exact h2048
    exact ⟨hw, by rw [hw]; exact htiles⟩

theorem alloc_textures_witness :
    (ex_params.valid ∧
      ({} : SurfelCascadeResources).alloc VmaAllocator.generous ex_params 1 =
        .ok (true, ex_cascade)) ∧
    ∃ N mw, ex_params.get_probe_capacity 1 = .ok N ∧ ex_params.get_memory_width 1 = .ok mw ∧
      ex_cascade.surfel_rad.width = u32 (mw * Nat.sqrt N) ∧
      ex_cascade.surfel_rad.height = ex_cascade.surfel_rad.width ∧
      ex_cascade.surfel_merge.width = ex_cascade.surfel_rad.width ∧
      ex_cascade.surfel_merge.height = ex_cascade.surfel_rad.width ∧
      (0 < mw → mw * Nat.sqrt N < 4294967296 →
        (ex_cascade.surfel_rad.width / mw) ^ 2 ≤ N ∧
        ((ex_cascade.surfel_rad.width / mw) ^ 2 ≥ N ↔ ∃ k, N = k * k)) ∧
      (ex_params = SurfelCascadeParameters.create → 1 < 6 →
        ex_cascade.surfel_rad.width = 2048 ∧ (ex_cascade.surfel_rad.width / mw) ^ 2 = N) :=
  ⟨⟨ex_params_valid, ex_alloc⟩,
    alloc_textures {} ex_cascade VmaAllocator.generous ex_params 1 ex_params_valid ex_alloc⟩

/-- **C14** as stated fails on the code.  Under the default parameters cascade
0 has 262144 probes and a cell capacity of 11; its `list` buffer holds
`262144 * 16 = 4194304` entries, not `262144 * 11`. -/
theorem alloc_list_default :
    ∃ r, ({} : SurfelCascadeResources).alloc VmaAllocator.generous
        SurfelCascadeParameters.create 0 = .ok (true, r) ∧
      SurfelCascadeParameters.create.get_probe_capacity 0 = .ok 262144 ∧
      SurfelCascadeParameters.create.cell_capacity = 11 ∧
      r.surfel_list.size = 4 * 4194304 ∧ r.surfel_list.words.length = 4194304 ∧
      r.surfel_list.words.length ≠ 262144 * 11 := by
  obtain ⟨r, hr⟩ := alloc_generous {} SurfelCascadeParameters.create 0 (by decide) (by decide)
  obtain ⟨N, mw, hN, _, _, _, _, _, hlist, _⟩ :=
    alloc_true {} r VmaAllocator.generous SurfelCascadeParameters.create 0 create_valid hr
  have e1 : SurfelCascadeParameters.create.get_probe_capacity 0 = .ok 262144 := by decide
  have hN8 : N = 262144 := (Except.ok.inj (hN.symm.trans e1))
  subst hN8
  have hsz : u32 (4 * 262144 * 16) = 16777216 := by decide
  rw [hsz] at hlist
  refine ⟨r, hr, e1, rfl, ?_, ?_, ?_⟩
  · rw [hlist]
  · rw [hlist]
    simp only [List.length_replicate]
  · rw [hlist]
    simp only [List.length_replicate]
    decide

/-- **C14** (amended).  Whenever `alloc` returns true, with
`N = get_probe_capacity(i)`, the `list` buffer has `64 * N` bytes as a 32-bit
value; whenever `N < 2 ^ 26` it holds exactly `N * 16` 32-bit entries, whatever
`cell_capacity` is. -/
theorem alloc_surfel_list (self r : SurfelCascadeResources) (allocator : VmaAllocator)
    (params : SurfelCascadeParameters) (i : Nat) (hv : params.valid)
    (h : self.alloc allocator params i = .ok (true, r)) :
    ∃ N, params.get_probe_capacity i = .ok N ∧
      r.surfel_list.size = u32 (64 * N) ∧
      r.surfel_list.words.length = u32 (64 * N) / 4 ∧
      (N < 67108864 → r.surfel_list.words.length = N * 16) := by
  obtain ⟨N, mw, hN, _, _, _, _, _, hlist, _⟩ := alloc_true self r allocator params i hv h
  have e : 4 * N * 16 = 64 * N := by omega
  rw [e] at hlist
  refine ⟨N, hN, by rw [hlist], by rw [hlist]; simp only [List.length_replicate], ?_⟩
  intro hlt
  rw [hlist]
  simp only [List.length_replicate]
  rw [u32_of_lt (by omega)]
  omega

theorem alloc_surfel_list_witness :
    (ex_params.valid ∧
      ({} : SurfelCascadeResources).alloc VmaAllocator.generous ex_params 1 =
        .ok (true, ex_cascade)) ∧
    ∃ N, ex_params.get_probe_capacity 1 = .ok N ∧
      ex_cascade.surfel_list.size = u32 (64 * N) ∧
      ex_cascade.surfel_list.words.length = u32 (64 * N) / 4 ∧
      (N < 67108864 → ex_cascade.surfel_list.words.length = N * 16) :=
  ⟨⟨ex_params_valid, ex_alloc⟩,
    alloc_surfel_list {} ex_cascade VmaAllocator.generous ex_params 1 ex_params_valid ex_alloc⟩

/-! ## The claims on the GI stage -/

/-- **C15.** With ground-truth mode off, the passes that `GIStage::enqueue`
records are, in this order: spawn for cascades `0..5`, the grid clears, count,
prefix sum, insert and gather for cascades `0..5`, the merges into destination
`i = 4` down to `0` from source `i + 1`, one composite on cascade 0, and last
recycle for cascades `0..5`.  The only other passes are the debug overlays that
are switched on, which come between the composite and the recycle passes.  With
ground-truth mode on the only pass is the ground-truth pass. -/
theorem gi_stage_order (s : GIStage) :
    (s.ground_truth = false →
      s.events = gi_order_to_composite ++ s.overlays ++ gi_order_recycle ∧
      s.events.filter (fun e => !e.debug) = gi_order_to_composite ++ gi_order_recycle ∧
      (∀ e, e ∈ s.overlays → e.debug = true) ∧
      (s.heatmap = false → s.direct_draw = false → s.overlays = [])) ∧
    (s.ground_truth = true → s.events = [.pass .ground_truth]) := by
  obtain ⟨dd, hm, idx, gt⟩ := s
  constructor
  · intro h
    simp only at h
    subst h
    refine ⟨?_, ?_, ?_, ?_⟩
    · cases dd <;> cases hm <;> rfl
    · cases dd <;> cases hm <;> rfl
    · intro e he
      simp only [GIStage.overlays, List.mem_append] at he
      rcases he with he | he
      · cases hm
        · simp at he
        · simp at he
          subst he
          rfl
      · cases dd
        · simp at he
        · simp at he
          subst he
          rfl
    · intro h1 h2
      simp only at h1 h2
      subst h1
      subst h2
      rfl
  · intro h
    simp only at h
    subst h
    rfl

theorem gi_stage_order_witness :
    ({} : GIStage).ground_truth = false ∧
    ({} : GIStage).events = gi_order_to_composite ++ ({} : GIStage).overlays ++ gi_order_recycle ∧
    ({} : GIStage).events.filter (fun e => !e.debug) =
      gi_order_to_composite ++ gi_order_recycle ∧
    (∀ e, e ∈ ({} : GIStage).overlays → e.debug = true) ∧
    (({} : GIStage).heatmap = false → ({} : GIStage).direct_draw = false →
      ({} : GIStage).overlays = []) :=
  ⟨rfl, (gi_stage_order {}).1 rfl⟩

/-- **C19** as stated fails on the code.  In the commands recorded for a frame
with ground-truth mode off, whatever the overlay switches are, the clear of the
segments buffer is followed by no barrier on the segments buffer before the
next dispatch that has it bound: in the prefix-sum pass of every cascade the
clear is followed by a barrier on the grid buffer of the cascade and then by
the dispatch of kernel A, which has the segments buffer bound.  Every clear of
the grid buffer of a cascade, in contrast, is followed by a barrier on that
same buffer before the next dispatch that has it bound, from compute-shader
write to compute-shader read.  No barrier of the frame has the transfer stage
as its source, so no clear is followed by the barrier of the claim. -/
theorem segments_clear_unguarded (direct_draw heatmap : Bool) (idx : Nat) :
    clears_guarded (fun b => decide (b = Buf.segments)) Cmd.on_buffer
      ({ direct_draw := direct_draw, heatmap := heatmap, debug_cascade_index := idx,
         ground_truth := false } : GIStage).record = false ∧
    (∀ i, (SurfelPrefixPipeline.enqueue_cmds i).take 3 =
        [.fillBuffer .segments, Cmd.rw_barrier (.surfel_grid i),
         .dispatch .prefix_sum [.cascade i, .segments_set]] ∧
      Cmd.on_buffer .segments (Cmd.rw_barrier (.surfel_grid i)) = false ∧
      Cmd.uses .segments (.dispatch .prefix_sum [.cascade i, .segments_set]) = true) ∧
    clears_guarded Buf.is_grid Cmd.compute_guard
      ({ direct_draw := direct_draw, heatmap := heatmap, debug_cascade_index := idx,
         ground_truth := false } : GIStage).record = true ∧
    ({ direct_draw := direct_draw, heatmap := heatmap, debug_cascade_index := idx,
       ground_truth := false } : GIStage).record.any Cmd.from_transfer = false ∧
    clears_guarded (fun _ => true) Cmd.transfer_guard
      ({ direct_draw := direct_draw, heatmap := heatmap, debug_cascade_index := idx,
         ground_truth := false } : GIStage).record = false := by
  refine ⟨?_, fun i => ⟨rfl, rfl, ?_⟩, ?_, ?_, ?_⟩
  · cases direct_draw <;> cases heatmap <;> rfl
  · simp [Cmd.uses, DescSet.buffers]
  · cases direct_draw <;> cases heatmap <;> rfl
  · cases direct_draw <;> cases heatmap <;> rfl
  · cases direct_draw <;> cases heatmap <;> rfl

/-! ## The claim on the renderer -/

/-- **C16.** When the active camera entity has both a `Transform` and a
`Camera`, `Renderer::render` runs the BVH maintenance, then the BVH packing,
then enqueues the geometry stage, the GI stage and the final stage, each once
and in that order; when either component is missing it enqueues no stage and
does no BVH maintenance and no upload. -/
theorem render_order (transform camera : Bool) :
    (transform = true → camera = true →
      Renderer.render transform camera =
        [.imgui_new_frame, .upload_render_view, .maintain, .package, .overlay, .geometry,
         .gi, .final] ∧
      (Renderer.render transform camera).filter
          (fun c => c.is_stage || c = .maintain || c = .package) =
        [.maintain, .package, .geometry, .gi, .final]) ∧
    ((transform = false ∨ camera = false) →
      (Renderer.render transform camera).any RenderCall.is_stage = false ∧
      (Renderer.render transform camera).any RenderCall.is_bvh_or_upload = false) := by
  cases transform <;> cases camera <;> decide

theorem render_order_witness :
    (true = true ∧ true = true) ∧
    Renderer.render true true =
      [.imgui_new_frame, .upload_render_view, .maintain, .package, .overlay, .geometry,
       .gi, .final] ∧
    (Renderer.render true true).filter
        (fun c => c.is_stage || c = .maintain || c = .package) =
      [.maintain, .package, .geometry, .gi, .final] :=
  ⟨⟨rfl, rfl⟩, (render_order true true).1 rfl rfl⟩

/-! ## The frame loop -/

theorem start_frame_slot {d d' : Device} {vk : StartCalls} {b : Bool}
    (h : d.start_frame vk = some (b, d')) :
    d'.fbi = d.fid % BUFFERS ∧ d'.fbi < BUFFERS ∧ d'.fid = d.fid ∧
    d'.flight_fence.length = d.flight_fence.length := by
  have hlt : d.fid % BUFFERS < BUFFERS := Nat.mod_lt _ (by decide)
  unfold Device.start_frame at h
  simp only at h
  by_cases h1 : ({ d with fbi := d.fid % BUFFERS } : Device).fence = .reset
  · rw [if_pos h1] at h
    cases h
  · rw [if_neg h1] at h
    obtain ⟨w, r, a, bg⟩ := vk
    cases w <;> cases r <;> cases a <;> cases bg <;>
      simp only [Bool.true_eq_false, Bool.false_eq_true, if_true, if_false, Option.some.injEq,
        Prod.mk.injEq, Device.set_fence] at h <;>
      (obtain ⟨_, rfl⟩ := h; exact ⟨rfl, hlt, rfl, by simp⟩)

theorem end_frame_fid (d : Device) (vk : EndCalls) :
    (d.end_frame vk).fid =
      (if (vk.end_ok && vk.submit_ok && vk.present_ok) = true then u32 (d.fid + 1) else d.fid) ∧
    (d.end_frame vk).fbi = d.fbi ∧
    (d.end_frame vk).flight_fence.length = d.flight_fence.length := by
  obtain ⟨e, s, p⟩ := vk
  cases e <;> cases s <;> cases p <;> simp [Device.end_frame, Device.set_fence]

theorem run_invariant {n : Nat} {b : Bool} {d : Device} (h : Device.Run n b d) :
    d.fbi < BUFFERS ∧ d.fid = u32 n ∧ d.flight_fence.length = BUFFERS := by
  induction h with
  | init => exact ⟨by decide, rfl, rfl⟩
  | start _ hs ih =>
    obtain ⟨_, h2, h3, h4⟩ := start_frame_slot hs
    exact ⟨h2, by rw [h3, ih.2.1], by rw [h4, ih.2.2]⟩
  | @drop n d vk _ hv ih =>
    obtain ⟨h1, h2, h3⟩ := end_frame_fid d vk
    rw [hv] at h1
    exact ⟨by rw [h2]; exact ih.1, by rw [h1]; exact ih.2.1, by rw [h3, ih.2.2]⟩
  | @complete n d vk _ hv ih =>
    obtain ⟨h1, h2, h3⟩ := end_frame_fid d vk
    rw [hv] at h1
    refine ⟨by rw [h2]; exact ih.1, ?_, by rw [h3, ih.2.2]⟩
    rw [h1, ih.2.1]
    simp only [if_true]
    unfold u32
    omega

theorem frame_ok {d : Device} (h : d.NoReset) :
    ∃ s, d.start_frame {} = some (true, s) ∧ s.fbi = d.fid % BUFFERS ∧
      d.frame = some (s.end_frame {}) ∧ (s.end_frame {}).NoReset ∧
      (s.end_frame {}).fid = u32 (d.fid + 1) ∧
      (s.end_frame {}).flight_fence.getD s.fbi .reset = .pending := by
  obtain ⟨hl, hn⟩ := h
  have hlt : d.fid % BUFFERS < d.flight_fence.length := by
    rw [hl]
    exact Nat.mod_lt _ (by decide)
  have hf : ({ d with fbi := d.fid % BUFFERS } : Device).fence ≠ .reset := by
    unfold Device.fence
    simp only
    rw [List.getD_eq_getElem _ _ hlt]
    exact hn _ (List.getElem_mem _)
  have hs : d.start_frame {} = some (true,
      { d with fbi := d.fid % BUFFERS, sci := 0,
               flight_fence := d.flight_fence.set (d.fid % BUFFERS) .reset }) := by
    unfold Device.start_frame
    simp only [if_neg hf]
    simp [Device.set_fence]
  refine ⟨_, hs, rfl, ?_, ?_, ?_, ?_⟩
  · unfold Device.frame
    rw [hs]
  · constructor
    · simp [Device.end_frame, Device.set_fence, hl]
    · intro f hf2
      simp only [Device.end_frame, Device.set_fence] at hf2
      simp only [Bool.true_eq_false, if_false, List.set_set] at hf2
      rcases List.mem_or_eq_of_mem_set hf2 with h1 | h1
      · exact hn f h1
      · rw [h1]
        decide
  · simp [Device.end_frame, Device.set_fence]
  · simp only [Device.end_frame, Device.set_fence, Bool.true_eq_false, if_false, List.set_set]
    rw [List.getD_eq_getElem _ _ (by rw [List.length_set]; exact hlt)]
    simp

theorem frames_run (n : Nat) :
    ∃ d, Device.frames n {} = some d ∧ Device.Run n false d ∧ d.NoReset := by
  induction n with
  | zero =>
    refine ⟨{}, rfl, Device.Run.init, rfl, ?_⟩
    intro f hf
    have : f = .signaled := by
      simp only [BUFFERS] at hf
      exact List.eq_of_mem_replicate hf
    rw [this]
    decide
  | succ n ih =>
    obtain ⟨d, hd, hr, hn⟩ := ih
    obtain ⟨s, hs, _, hfr, hn', _, _⟩ := frame_ok hn
    refine ⟨s.end_frame {}, ?_, ?_, hn'⟩
    · unfold Device.frames
      rw [hd]
      exact hfr
    · exact Device.Run.complete (Device.Run.start hr hs) rfl

/-! ## The claims on the frame loop -/

/-- **C17** as stated fails on the code.  The frame index is a `uint32_t`:
after `2 ^ 32 - 1` completed frames it is `4294967295`, the next frame uses
slot 0 and its `end_frame` takes the frame index to 0, not to `4294967296`; the
frame after it uses slot 0 again. -/
theorem frame_slot_repeats :
    ∃ d s1 s2, Device.Run 4294967295 false d ∧
      d.start_frame {} = some (true, s1) ∧ s1.fid = 4294967295 ∧ s1.fbi = 0 ∧
      (s1.end_frame {}).fid = 0 ∧ Device.Run 4294967296 false (s1.end_frame {}) ∧
      (s1.end_frame {}).start_frame {} = some (true, s2) ∧ s2.fbi = 0 := by
  obtain ⟨d, _, hr, hn⟩ := frames_run 4294967295
  obtain ⟨s1, hs1, hb1, _, hn1, hf1, _⟩ := frame_ok hn
  obtain ⟨s2, hs2, hb2, _⟩ := frame_ok hn1
  have hfid : d.fid = 4294967295 := (run_invariant hr).2.1
  rw [hfid] at hb1 hf1
  have h0 : (s1.end_frame {}).fid = 0 := hf1
  rw [h0] at hb2
  exact ⟨d, s1, s2, hr, hs1, by rw [(start_frame_slot hs1).2.2.1, hfid], hb1, h0,
    Device.Run.complete (Device.Run.start hr hs1) rfl, hs2, hb2⟩

/-- **C17** (amended).  `start_frame` selects the frame slot
`fbi = fid mod 3`, and `fbi < 3` in every state the frame loop reaches.
`end_frame` increases `fid` by 1 modulo `2 ^ 32` when the end of the command
buffer, the submit and the present succeed, and leaves it unchanged otherwise.
So after `n` completed frames the next frame uses slot `(n mod 2 ^ 32) mod 3`:
the slots are `0, 1, 2, 0, 1, 2, ...` for the first `2 ^ 32` completed frames. -/
theorem frame_slots (n : Nat) (b : Bool) (d : Device) (h : Device.Run n b d) :
    d.fbi < BUFFERS ∧ d.fid = n % 4294967296 ∧
    (∀ vk b' d', d.start_frame vk = some (b', d') →
      d'.fbi = d.fid % BUFFERS ∧ d'.fid = d.fid ∧
      d'.fbi = (n % 4294967296) % 3 ∧ (n < 4294967296 → d'.fbi = n % 3)) ∧
    (∀ vk, (d.end_frame vk).fid =
      (if (vk.end_ok && vk.submit_ok && vk.present_ok) = true then (d.fid + 1) % 4294967296
       else d.fid)) := by
  obtain ⟨h1, h2, _⟩ := run_invariant h
  refine ⟨h1, h2, ?_, ?_⟩
  · intro vk b' d' hs
    obtain ⟨e1, _, e3, _⟩ := start_frame_slot hs
    have e4 : d'.fbi = (n % 4294967296) % 3 := by
      rw [e1, h2]
      rfl
    refine ⟨e1, e3, e4, ?_⟩
    intro hn
    rw [e4, Nat.mod_eq_of_lt hn]
  · intro vk
    exact (end_frame_fid d vk).1

theorem frame_slots_witness :
    Device.Run 0 false {} ∧
    (({} : Device).fbi < BUFFERS ∧ ({} : Device).fid = 0 % 4294967296 ∧
    (∀ vk b' d', ({} : Device).start_frame vk = some (b', d') →
      d'.fbi = ({} : Device).fid % BUFFERS ∧ d'.fid = ({} : Device).fid ∧
      d'.fbi = (0 % 4294967296) % 3 ∧ (0 < 4294967296 → d'.fbi = 0 % 3)) ∧
    (∀ vk, (({} : Device).end_frame vk).fid =
      (if (vk.end_ok && vk.submit_ok && vk.present_ok) = true
       then (({} : Device).fid + 1) % 4294967296 else ({} : Device).fid))) :=
  ⟨Device.Run.init, frame_slots 0 false {} Device.Run.init⟩

/-- **C18** fails on the code.  In the first frame a failed swapchain acquire
makes `start_frame` return false after it has reset the fence of slot 0; the
loop calls `start_frame` again, which waits on that fence, reset with no
submission pending, and never returns.  The same happens after a failed queue
submit in `end_frame`. -/
theorem start_frame_waits_on_reset_fence :
    (∃ d, ({} : Device).start_frame { acquire := none } = some (false, d) ∧
      Device.Run 0 false d ∧ d.fid = 0 ∧ d.flight_fence = [.reset, .signaled, .signaled] ∧
      ∀ vk, d.start_frame vk = none) ∧
    (∃ s, ({} : Device).start_frame {} = some (true, s) ∧
      Device.Run 0 false (s.end_frame { submit_ok := false }) ∧
      (s.end_frame { submit_ok := false }).fid = 0 ∧
      (s.end_frame { submit_ok := false }).flight_fence = [.reset, .signaled, .signaled] ∧
      ∀ vk, (s.end_frame { submit_ok := false }).start_frame vk = none) := by
  constructor
  · refine ⟨{ flight_fence := [.reset, .signaled, .signaled] }, rfl, ?_, rfl, rfl, ?_⟩
    · exact Device.Run.start Device.Run.init
        (rfl : ({} : Device).start_frame { acquire := none } = some (false, _))
    · intro vk
      rfl
  · refine ⟨{ flight_fence := [.reset, .signaled, .signaled] }, rfl, ?_, rfl, rfl, ?_⟩
    · exact Device.Run.drop
        (Device.Run.start Device.Run.init (rfl : ({} : Device).start_frame {} = some (true, _)))
        (rfl : (({ submit_ok := false } : EndCalls).end_ok &&
          ({ submit_ok := false } : EndCalls).submit_ok &&
          ({ submit_ok := false } : EndCalls).present_ok) = false)
    · intro vk
      rfl

/-! ## The scene BVH maintainer -/

theorem ex_maintain : ({} : SceneBvhMaintainer).maintain ex_ecs = .ok { bvh := ex_bvh } := by
  decide!

/-! ## The claim on the scene BVH maintainer -/

/-- A call of `buf::upload` of the packer on a host array that is long enough
and fits the buffer returns: with the data at the start of the buffer when the
three steps succeed, with the buffer as it was when one fails. -/
theorem pack_upload_ok {α : Type} (allocator : VmaAllocator) (sz : Nat) (dst data : List α)
    (count : Nat) (h1 : count ≤ data.length) (h2 : count ≤ BUF_SIZE) :
    pack_upload allocator sz dst (some data) count =
      .ok (allocator.staged (sz * count),
        if allocator.staged (sz * count) = true then data.take count ++ dst.drop count
        else dst) := by
  unfold pack_upload VmaAllocator.staged
  cases h3 : allocator.stage_alloc (sz * count) <;>
    cases h4 : allocator.stage_write (sz * count) <;>
    cases h5 : allocator.stage_copy (sz * count) <;>
    simp [Nat.not_lt.2 h1, Nat.not_lt.2 h2]

theorem same_build : ({} : Bvh).build (some same_prims) (some same_norms) 3 = .ok same_bvh := by
  decide!

theorem build_built {self b : Bvh} {new_prims : List Triangle} {new_norms : List Normals}
    {n : Nat} (hn : 0 < n) (h : self.build (some new_prims) (some new_norms) n = .ok b) :
    b.built := by
  obtain ⟨nodes, prims, norms, gpu, T, P⟩ := build_ok_post hn h
  refine ⟨gpu, prims, norms, P.gpu_eq, P.prims_eq, P.norms_eq, ?_, ?_, ?_⟩
  · rw [P.flat, Tree.length_emit, List.length_replicate]
  · rw [P.len_prims, P.count_eq]
  · rw [P.len_norms, P.count_eq]

theorem take_append_drop_self {α : Type} (data dst : List α) (count : Nat)
    (h : data.length = count) : (data.take count ++ dst.drop count).take count = data := by
  rw [List.take_append_of_le_length (by simp; omega), List.take_take, Nat.min_self,
    List.take_of_length_le (by omega)]

/-! ## The claims on the packer, the input and the validation layers -/

/-- **C21** as stated fails on the code.  After the BVH of the example input
has been uploaded (4 nodes, 3 primitives), `package` is called with the BVH
that `build` gives for three copies of one triangle (2 nodes, 3 primitives),
on a device on which every upload succeeds: `nodes_used` differs from the
recorded value, but only the nodes buffer is uploaded; the primitives buffer
keeps the triangles of the first BVH. -/
theorem package_keeps_prims :
    ({} : Bvh).build (some ex_prims) (some ex_norms) 3 = .ok ex_bvh ∧
    ({} : Bvh).build (some same_prims) (some same_norms) 3 = .ok same_bvh ∧
    ∃ p1 p2, ({} : SceneBvhPacker).package VmaAllocator.generous ex_bvh =
        .ok (p1, [.bvh_nodes, .bvh_prims, .bvh_norms]) ∧
      p1.pre_nodes_used = 4 ∧ p1.pre_prim_count = 3 ∧ same_bvh.nodes_used = 2 ∧
      same_bvh.prim_count = 3 ∧
      p1.package VmaAllocator.generous same_bvh = .ok (p2, [.bvh_nodes]) ∧
      p2.bvh_prims = [ex_tri 0, ex_tri 8, ex_tri 4] ∧ some p2.bvh_prims ≠ same_bvh.prims := by
  refine ⟨ex_build, same_build, ?_⟩
  refine ⟨{ bvh_nodes := (ex_bvh.gpu_nodes.getD []), bvh_prims := [ex_tri 0, ex_tri 8, ex_tri 4],
            bvh_norms := [ex_nrm 0, ex_nrm 8, ex_nrm 4], pre_nodes_used := 4,
            pre_prim_count := 3 },
          { bvh_nodes := (same_bvh.gpu_nodes.getD []) ++ (ex_bvh.gpu_nodes.getD []).drop 2,
            bvh_prims := [ex_tri 0, ex_tri 8, ex_tri 4],
            bvh_norms := [ex_nrm 0, ex_nrm 8, ex_nrm 4], pre_nodes_used := 2,
            pre_prim_count := 3 }, ?_, rfl, rfl, rfl, rfl, ?_, rfl, ?_⟩
  · decide!
  · decide!
  · decide!

/-- **C21** (amended).  On a built BVH whose `nodes_used` and `prim_count` are
at most `BUF_SIZE`, `package` calls `buf::upload` for the nodes buffer exactly
when `nodes_used` differs from the recorded value, and for the primitives and
the normals buffer exactly when `prim_count` differs from the recorded value,
each independently of the other.  A buffer of which the upload succeeds then
starts with the array of the BVH; a buffer of which the upload fails, and a
buffer for which there is no upload, is unchanged.  After the call both
recorded values are those of the BVH, also when an upload has failed.  When
both values equal the recorded ones the call uploads nothing and changes
nothing. -/
theorem package_uploads (self : SceneBvhPacker) (allocator : VmaAllocator) (bvh : Bvh)
    (hb : bvh.built) (hn : bvh.nodes_used ≤ BUF_SIZE) (hp : bvh.prim_count ≤ BUF_SIZE) :
    ∃ r done, self.package allocator bvh = .ok (r, done) ∧
      done = (if self.pre_nodes_used ≠ bvh.nodes_used then [Upload.bvh_nodes] else []) ++
        (if self.pre_prim_count ≠ bvh.prim_count then [Upload.bvh_prims, Upload.bvh_norms]
         else []) ∧
      r.pre_nodes_used = bvh.nodes_used ∧ r.pre_prim_count = bvh.prim_count ∧
      (self.pre_nodes_used ≠ bvh.nodes_used →
        (allocator.staged (sizeof_GPUNode * bvh.nodes_used) = true →
          some (r.bvh_nodes.take bvh.nodes_used) = bvh.gpu_nodes) ∧
        (allocator.staged (sizeof_GPUNode * bvh.nodes_used) = false →
          r.bvh_nodes = self.bvh_nodes)) ∧
      (self.pre_nodes_used = bvh.nodes_used → r.bvh_nodes = self.bvh_nodes) ∧
      (self.pre_prim_count ≠ bvh.prim_count →
        (allocator.staged (sizeof_Triangle * bvh.prim_count) = true →
          some (r.bvh_prims.take bvh.prim_count) = bvh.prims) ∧
        (allocator.staged (sizeof_Triangle * bvh.prim_count) = false →
          r.bvh_prims = self.bvh_prims) ∧
        (allocator.staged (sizeof_Normals * bvh.prim_count) = true →
          some (r.bvh_norms.take bvh.prim_count) = bvh.norms) ∧
        (allocator.staged (sizeof_Normals * bvh.prim_count) = false →
          r.bvh_norms = self.bvh_norms)) ∧
      (self.pre_prim_count = bvh.prim_count →
        r.bvh_prims = self.bvh_prims ∧ r.bvh_norms = self.bvh_norms) ∧
      (self.pre_nodes_used = bvh.nodes_used → self.pre_prim_count = bvh.prim_count →
        done = [] ∧ r = self) := by
  obtain ⟨gpu, prims, norms, hg, hpr, hno, lg, lp, ln⟩ := hb
  unfold SceneBvhPacker.package
  rw [hg, hpr, hno]
  have tg := take_append_drop_self gpu self.bvh_nodes _ lg
  have tp := take_append_drop_self prims self.bvh_prims _ lp
  have tn := take_append_drop_self norms self.bvh_norms _ ln
  have ug := pack_upload_ok allocator sizeof_GPUNode self.bvh_nodes gpu _ (le_of_eq lg.symm) hn
  have up := pack_upload_ok allocator sizeof_Triangle self.bvh_prims prims _ (le_of_eq lp.symm) hp
  have un := pack_upload_ok allocator sizeof_Normals self.bvh_norms norms _ (le_of_eq ln.symm) hp
  by_cases c1 : self.pre_nodes_used = bvh.nodes_used
  · by_cases c2 : self.pre_prim_count = bvh.prim_count
    · simp only [c1, c2, bind, Except.bind, pure, Except.pure, ne_eq, not_true_eq_false,
        and_false, if_false, not_false_eq_true, and_true, if_true]
      refine ⟨_, _, rfl, ?_⟩
      simp [c1, c2]
    · simp only [c1, c2, bind, Except.bind, pure, Except.pure, ne_eq, not_true_eq_false,
        and_false, if_false, not_false_eq_true, and_true, if_true, up, un, reduceCtorEq]
      refine ⟨_, _, rfl, ?_⟩
      cases allocator.staged (sizeof_Triangle * bvh.prim_count) <;>
        cases allocator.staged (sizeof_Normals * bvh.prim_count) <;>
        simp [c1, c2, tp, tn]
  · by_cases c2 : self.pre_prim_count = bvh.prim_count
    · simp only [c1, c2, bind, Except.bind, pure, Except.pure, ne_eq, not_true_eq_false,
        and_false, if_false, not_false_eq_true, and_true, if_true, ug, reduceCtorEq]
      refine ⟨_, _, rfl, ?_⟩
      cases allocator.staged (sizeof_GPUNode * bvh.nodes_used) <;> simp [c1, c2, tg]
    · simp only [c1, c2, bind, Except.bind, pure, Except.pure, ne_eq, not_true_eq_false,
        and_false, if_false, not_false_eq_true, and_true, if_true, ug, up, un, reduceCtorEq]
      refine ⟨_, _, rfl, ?_⟩
      cases allocator.staged (sizeof_GPUNode * bvh.nodes_used) <;>
        cases allocator.staged (sizeof_Triangle * bvh.prim_count) <;>
        cases allocator.staged (sizeof_Normals * bvh.prim_count) <;>
        simp [c1, c2, tg, tp, tn]

theorem package_uploads_witness :
    (ex_bvh.built ∧ ex_bvh.nodes_used ≤ BUF_SIZE ∧ ex_bvh.prim_count ≤ BUF_SIZE) ∧
    ∃ r done, ({} : SceneBvhPacker).package VmaAllocator.no_stage ex_bvh = .ok (r, done) ∧
      done = (if ({} : SceneBvhPacker).pre_nodes_used ≠ ex_bvh.nodes_used then [Upload.bvh_nodes]
          else []) ++
        (if ({} : SceneBvhPacker).pre_prim_count ≠ ex_bvh.prim_count then
          [Upload.bvh_prims, Upload.bvh_norms] else []) ∧
      r.pre_nodes_used = ex_bvh.nodes_used ∧ r.pre_prim_count = ex_bvh.prim_count ∧
      (({} : SceneBvhPacker).pre_nodes_used ≠ ex_bvh.nodes_used →
        (VmaAllocator.no_stage.staged (sizeof_GPUNode * ex_bvh.nodes_used) = true →
          some (r.bvh_nodes.take ex_bvh.nodes_used) = ex_bvh.gpu_nodes) ∧
        (VmaAllocator.no_stage.staged (sizeof_GPUNode * ex_bvh.nodes_used) = false →
          r.bvh_nodes = ({} : SceneBvhPacker).bvh_nodes)) ∧
      (({} : SceneBvhPacker).pre_nodes_used = ex_bvh.nodes_used →
        r.bvh_nodes = ({} : SceneBvhPacker).bvh_nodes) ∧
      (({} : SceneBvhPacker).pre_prim_count ≠ ex_bvh.prim_count →
        (VmaAllocator.no_stage.staged (sizeof_Triangle * ex_bvh.prim_count) = true →
          some (r.bvh_prims.take ex_bvh.prim_count) = ex_bvh.prims) ∧
        (VmaAllocator.no_stage.staged (sizeof_Triangle * ex_bvh.prim_count) = false →
          r.bvh_prims = ({} : SceneBvhPacker).bvh_prims) ∧
        (VmaAllocator.no_stage.staged (sizeof_Normals * ex_bvh.prim_count) = true →
          some (r.bvh_norms.take ex_bvh.prim_count) = ex_bvh.norms) ∧
        (VmaAllocator.no_stage.staged (sizeof_Normals * ex_bvh.prim_count) = false →
          r.bvh_norms = ({} : SceneBvhPacker).bvh_norms)) ∧
      (({} : SceneBvhPacker).pre_prim_count = ex_bvh.prim_count →
        r.bvh_prims = ({} : SceneBvhPacker).bvh_prims ∧
        r.bvh_norms = ({} : SceneBvhPacker).bvh_norms) ∧
      (({} : SceneBvhPacker).pre_nodes_used = ex_bvh.nodes_used →
        ({} : SceneBvhPacker).pre_prim_count = ex_bvh.prim_count → done = [] ∧ r = {}) :=
  have hb : ex_bvh.built := build_built (by decide) ex_build
  have hn : ex_bvh.nodes_used ≤ BUF_SIZE := by decide
  have hp : ex_bvh.prim_count ≤ BUF_SIZE := by decide
  ⟨⟨hb, hn, hp⟩, package_uploads {} VmaAllocator.no_stage ex_bvh hb hn hp⟩

/-- **C22** fails on the code.  On a fresh `Input`, `set_mouse_down(1)` is not
ignored and writes slot 0 of the state arrays, while `is_mouse_down(1)` and
`is_mouse_held(1)` read slot 1 and return false; after `set_mouse_up(1)` the
query `is_mouse_up(1)` returns false as well.  Button 0 is not ignored either
and indexes the arrays at `(size_t)-1`, where `at` throws.  Button 3 is
ignored, so slot 2 is never written. -/
theorem mouse_setters_miss_queries :
    (∃ s, ({} : Input).set_mouse_down 1 = .ok s ∧ s ≠ {} ∧
      s.mouse_down = [true, false, false] ∧ s.mouse_held = [true, false, false] ∧
      s.is_mouse_down 1 = .ok false ∧ s.is_mouse_held 1 = .ok false ∧
      s.is_mouse_down 0 = .ok true ∧ s.is_mouse_held 0 = .ok true ∧
      ∃ u, s.set_mouse_up 1 = .ok u ∧ u.mouse_up = [true, false, false] ∧
        u.is_mouse_up 1 = .ok false ∧ u.is_mouse_up 0 = .ok true) ∧
    ({} : Input).set_mouse_down 0 = .error .out_of_range ∧
    ({} : Input).set_mouse_up 0 = .error .out_of_range ∧
    (∀ s : Input, s.set_mouse_down 3 = .ok s ∧ s.set_mouse_up 3 = .ok s) := by
  refine ⟨⟨{ mouse_down := [true, false, false], mouse_held := [true, false, false] },
    by decide, by decide, rfl, rfl, by decide, by decide, by decide, by decide,
    { mouse_down := [true, false, false], mouse_up := [true, false, false] },
    by decide, rfl, by decide, by decide⟩, by decide, by decide, ?_⟩
  intro s
  exact ⟨rfl, rfl⟩

/-! ## The validation layers -/

theorem strcmp_ne_zero (a b : String) : strcmp a b ≠ 0 ↔ a ≠ b := by
  unfold strcmp
  split_ifs <;> simp_all

theorem layer_found_fold (layer : String) (available : List LayerProperties) (found : Bool) :
    available.foldl (fun found available_layer =>
        if strcmp available_layer.layerName layer ≠ 0 then true else found) found = true ↔
      found = true ∨ ∃ a, a ∈ available ∧ a.layerName ≠ layer := by
  induction available generalizing found with
  | nil => simp
  | cons x xs ih =>
    rw [List.foldl_cons, ih]
    by_cases hx : x.layerName = layer
    · have : ¬ strcmp x.layerName layer ≠ 0 := by rw [strcmp_ne_zero]; simpa using hx
      rw [if_neg this]
      simp [hx]
    · have : strcmp x.layerName layer ≠ 0 := (strcmp_ne_zero _ _).2 hx
      rw [if_pos this]
      simp [hx]

theorem layer_found_iff (layer : String) (available : List LayerProperties) :
    layer_found layer available = true ↔ ∃ a, a ∈ available ∧ a.layerName ≠ layer := by
  unfold layer_found
  rw [layer_found_fold]
  simp

theorem validate_layers_iff (required : List String) (available : List LayerProperties) :
    validate_layers required available = true ↔
      ∀ layer, layer ∈ required → ∃ a, a ∈ available ∧ a.layerName ≠ layer := by
  induction required with
  | nil => simp [validate_layers]
  | cons l rest ih =>
    rw [validate_layers]
    by_cases h : layer_found l available = true
    · rw [if_neg (by simp [h]), ih]
      rw [layer_found_iff] at h
      simp [h]
    · have h' : layer_found l available = false := by simpa using h
      rw [if_pos h']
      rw [layer_found_iff] at h
      simp only [Bool.false_eq_true, false_iff]
      intro hall
      exact h (hall l (List.mem_cons_self _ _))

/-- **C25** fails on the code.  `validate_layers` tests `strcmp(...)`, which is
non-zero when the names differ: it is true exactly when every required name
differs from the name of some available layer.  With only
`VK_LAYER_KHRONOS_validation` supported the first group is rejected and the
second group, which is not supported, is returned; with one unrelated layer
supported the first group is returned although it is not supported. -/
theorem validate_layers_inverted :
    (∀ required available, validate_layers required available = true ↔
      ∀ layer, layer ∈ required → ∃ a, a ∈ available ∧ a.layerName ≠ layer) ∧
    validate_layers ["VK_LAYER_KHRONOS_validation"] [⟨"VK_LAYER_KHRONOS_validation"⟩] = false ∧
    get_optimal_validation_layers [⟨"VK_LAYER_KHRONOS_validation"⟩] =
      ["VK_LAYER_LUNARG_standard_validation"] ∧
    validate_layers ["VK_LAYER_KHRONOS_validation"] [⟨"VK_LAYER_unrelated"⟩] = true ∧
    get_optimal_validation_layers [⟨"VK_LAYER_unrelated"⟩] = ["VK_LAYER_KHRONOS_validation"] ∧
    get_optimal_validation_layers [] = [] := by
  refine ⟨validate_layers_iff, by decide, by decide, by decide, by decide, by decide⟩

/-! ## The claims on the constructor of Bvh and on the split axis -/

/-- **C30** fails on the code.  The constructor passes the member `size`,
which holds 2, to `build` and ignores its parameter `prim_count`: whatever the
count, it gives what `build` gives for the count 2.  On the three triangles of
the example it builds over the first two only and leaves `prim_count = 2`,
where `build` with the count 3 leaves `prim_count = 3`; on one triangle it
reads beyond the arrays. -/
theorem create_ignores_prim_count :
    (∀ prims norms n, Bvh.create prims norms n = ({} : Bvh).build prims norms 2) ∧
    (∃ b, Bvh.create (some ex_prims) (some ex_norms) 3 = .ok b ∧ b.prim_count = 2 ∧
      b.prims = some [ex_tri 4, ex_tri 0] ∧
      ({} : Bvh).build (some ex_prims) (some ex_norms) 3 = .ok ex_bvh ∧
      ex_bvh.prim_count = 3 ∧ b ≠ ex_bvh) ∧
    Bvh.create (some [ex_tri 0]) (some [ex_nrm 0]) 1 = .error .prim_index := by
  refine ⟨fun _ _ _ => rfl, ?_, by decide!⟩
  refine ⟨{ nodes := some [⟨⟨0, 0, 0⟩, 0, ⟨5, 1, 0⟩, 2⟩, Node.zero, Node.zero, Node.zero],
            nodes_used := 2, size := 2, prims := some [ex_tri 4, ex_tri 0],
            norms := some [ex_nrm 4, ex_nrm 0], prim_count := 2,
            gpu_nodes := some [{ GPUNode.zero with prim_count := 2 }, GPUNode.zero] },
    by decide!, rfl, rfl, ex_build, rfl, by decide!⟩

/-- **C28** fails on the code.  On three copies of a triangle with legs of
length `2 ^ 60` no axis has distinct centroids: `find_best_split` returns the
sentinel `1e30` and leaves the axis at -1.  The parent cost `3 * 2 ^ 121` is
above `1e30`, so `subdivide` goes past the cost test, and the partition loop
indexes the centroid with -1: `build` runs into undefined behaviour. -/
theorem split_axis_unset :
    (∃ root, refit_node ⟨Vec3.splat 0, 0, Vec3.splat 0, 3⟩ huge_prims = .ok root ∧
      root.prim_count = 3 ∧
      find_best_split huge_prims root (-1) 0 = .ok ⟨f1e30, -1, 0⟩ ∧
      (root.prim_count : ℚ) * ({ min := root.min, max := root.max } : AABB).area = 3 * 2 ^ 121 ∧
      ¬ f1e30 ≥ (root.prim_count : ℚ) * ({ min := root.min, max := root.max } : AABB).area ∧
      fmul (of_u32 root.prim_count) ({ min := root.min, max := root.max } : AABB).area =
        3 * 2 ^ 121 ∧
      partition (-1) 0 4 0 2 huge_prims same_norms = .error .vec_index) ∧
    ({} : Bvh).build (some huge_prims) (some same_norms) 3 = .error .vec_index := by
  refine ⟨⟨⟨⟨0, 0, 0⟩, 0, ⟨2 ^ 60, 2 ^ 60, 0⟩, 3⟩, by decide!, rfl, by decide!, by decide!,
    by decide!, by decide!, by decide!⟩, by decide!⟩

/-! ## The claim on the size of the segments buffer -/

theorem sum_groups_eq (r : SurfelCascadeResources) (cap : Nat)
    (h : r.surfel_grid.size = u32 (4 * u32 (cap + 1))) (hc : cap + 1 < 1073741824) :
    r.surfel_grid.size / 4 = cap + 1 ∧ SurfelPrefixPipeline.sum_groups r = (cap + 1) / 512 := by
  have e1 : u32 (cap + 1) = cap + 1 := u32_of_lt (by omega)
  have e2 : r.surfel_grid.size = 4 * (cap + 1) := by
    rw [h, e1, u32_of_lt (by omega)]
  have e3 : r.surfel_grid.size / 4 = cap + 1 := by omega
  refine ⟨e3, ?_⟩
  unfold SurfelPrefixPipeline.sum_groups
  rw [e3, u32_of_lt (by omega)]
  rfl

theorem wide_params_valid : wide_params.valid := by
  unfold SurfelCascadeParameters.valid
  decide

/-- **C24** as stated fails on the code.  With a grid capacity of
`1024 * 1024 - 1` the grid buffer of cascade 0 has `1048576` entries and kernel
A is dispatched in `2048` work groups, while the segments buffer has the 512
entries the constructor of the pipeline always gives it. -/
theorem segments_fewer_than_groups :
    ∃ r, ({} : SurfelCascadeResources).alloc VmaAllocator.generous wide_params 0 = .ok (true, r) ∧
      r.surfel_grid.size / 4 = wide_params.c0_grid_capacity + 1 ∧
      SurfelPrefixPipeline.sum_groups r = 2048 ∧
      SurfelPrefixPipeline.create.segments_buffer.length = 512 := by
  obtain ⟨r, hr⟩ := alloc_generous {} wide_params 0 (by decide) (by decide)
  obtain ⟨N, mw, _, _, _, _, _, hg, _⟩ :=
    alloc_true {} r VmaAllocator.generous wide_params 0 wide_params_valid hr
  obtain ⟨e1, e2⟩ := sum_groups_eq r _ hg (by decide)
  exact ⟨r, hr, e1, by rw [e2]; decide, length_create⟩

/-- **C24** (amended).  The segments buffer has 512 32-bit entries whatever
the cascade parameters are.  Whenever `alloc` returns true and
`c0_grid_capacity + 1` is below `2 ^ 30`, the grid buffer has
`cells = c0_grid_capacity + 1` entries and kernel A is dispatched in
`cells / 512` work groups; the segments buffer has one entry per work group
exactly when `262144 <= cells < 262656`.  The default parameters give
`cells = 262144` and 512 work groups. -/
theorem segments_entries (self r : SurfelCascadeResources) (allocator : VmaAllocator)
    (params : SurfelCascadeParameters) (i : Nat) (hv : params.valid)
    (h : self.alloc allocator params i = .ok (true, r)) :
    SurfelPrefixPipeline.create.segments_buffer.length = 512 ∧
    (params.c0_grid_capacity + 1 < 1073741824 →
      r.surfel_grid.size / 4 = params.c0_grid_capacity + 1 ∧
      SurfelPrefixPipeline.sum_groups r = (params.c0_grid_capacity + 1) / 512 ∧
      (SurfelPrefixPipeline.create.segments_buffer.length = SurfelPrefixPipeline.sum_groups r ↔
        262144 ≤ params.c0_grid_capacity + 1 ∧ params.c0_grid_capacity + 1 < 262656)) ∧
    (params = SurfelCascadeParameters.create →
      r.surfel_grid.size / 4 = 262144 ∧ SurfelPrefixPipeline.sum_groups r = 512) := by
  obtain ⟨N, mw, _, _, _, _, _, hg, _⟩ := alloc_true self r allocator params i hv h
  refine ⟨length_create, ?_, ?_⟩
  · intro hc
    obtain ⟨e1, e2⟩ := sum_groups_eq r _ hg hc
    refine ⟨e1, e2, ?_⟩
    rw [e2, length_create]
    unfold THREAD_GROUP_SIZE
    omega
  · intro hp
    subst hp
    obtain ⟨e1, e2⟩ := sum_groups_eq r _ hg (by decide)
    exact ⟨e1, by rw [e2]; decide⟩

theorem segments_entries_witness :
    (ex_params.valid ∧
      ({} : SurfelCascadeResources).alloc VmaAllocator.generous ex_params 1 =
        .ok (true, ex_cascade)) ∧
    (SurfelPrefixPipeline.create.segments_buffer.length = 512 ∧
    (ex_params.c0_grid_capacity + 1 < 1073741824 →
      ex_cascade.surfel_grid.size / 4 = ex_params.c0_grid_capacity + 1 ∧
      SurfelPrefixPipeline.sum_groups ex_cascade = (ex_params.c0_grid_capacity + 1) / 512 ∧
      (SurfelPrefixPipeline.create.segments_buffer.length =
          SurfelPrefixPipeline.sum_groups ex_cascade ↔
        262144 ≤ ex_params.c0_grid_capacity + 1 ∧ ex_params.c0_grid_capacity + 1 < 262656)) ∧
    (ex_params = SurfelCascadeParameters.create →
      ex_cascade.surfel_grid.size / 4 = 262144 ∧
      SurfelPrefixPipeline.sum_groups ex_cascade = 512)) :=
  ⟨⟨ex_params_valid, ex_alloc⟩,
    segments_entries {} ex_cascade VmaAllocator.generous ex_params 1 ex_params_valid ex_alloc⟩

/-! ## The loops of find_best_split as functions of the node's triangles -/

theorem Vec3.get_comp (v : Vec3) (a : Nat) (h : a < 3) : v.get (a : Int) = .ok (v.comp a) := by
  unfold Vec3.get Vec3.comp
  rcases (by omega : a = 0 ∨ a = 1 ∨ a = 2) with rfl | rfl | rfl <;> simp

theorem slice_cons {α : Type} (xs : List α) (first k : Nat) (h : first < xs.length) :
    slice xs first (k + 1) = xs[first] :: slice xs (first + 1) k := by
  unfold slice
  rw [List.drop_eq_getElem_cons h, List.take_succ_cons]

theorem mem_slice_get {α : Type} {xs : List α} {first count : Nat} {x : α}
    (h : x ∈ slice xs first count) : ∃ k, first ≤ k ∧ k < first + count ∧ xs[k]? = some x := by
  unfold slice at h
  obtain ⟨j, hj, rfl⟩ := List.getElem_of_mem h
  simp only [List.length_take, List.length_drop] at hj
  refine ⟨first + j, by omega, by omega, ?_⟩
  rw [List.getElem_take, List.getElem_drop]
  exact List.getElem?_eq_getElem _

theorem centroid_range_eq (prims : List Triangle) (node : Node) (a : Nat) (ha : a < 3) :
    ∀ (k i : Nat) (bmin bmax : ℚ), node.left_first + i + k ≤ prims.length →
      centroid_range prims node a k i bmin bmax =
        .ok ((slice prims (node.left_first + i) k).foldl
              (fun b p => fminf b (p.centre a)) bmin,
             (slice prims (node.left_first + i) k).foldl
              (fun b p => fmaxf b (p.centre a)) bmax) := by
  intro k
  induction k with
  | zero =>
    intro i bmin bmax _
    simp [centroid_range, slice]
  | succ k ih =>
    intro i bmin bmax h
    have hlt : node.left_first + i < prims.length := by omega
    rw [centroid_range, rd_of_lt _ hlt]
    simp only [Vec3.get_comp _ a ha]
    rw [ih (i + 1) _ _ (by omega), slice_cons _ _ _ hlt]
    simp only [List.foldl_cons, Triangle.centre]
    rfl

theorem fold_fminf_le (ts : List Triangle) (a : Nat) (b : ℚ) :
    ts.foldl (fun b p => fminf b (p.centre a)) b ≤ b ∧
    ∀ p, p ∈ ts → ts.foldl (fun b p => fminf b (p.centre a)) b ≤ p.centre a := by
  induction ts generalizing b with
  | nil => exact ⟨le_refl _, fun p hp => by cases hp⟩
  | cons x xs ih =>
    simp only [List.foldl_cons]
    obtain ⟨h1, h2⟩ := ih (fminf b (x.centre a))
    rw [fminf_eq] at h1 h2 ⊢
    refine ⟨le_trans h1 (min_le_left _ _), ?_⟩
    intro p hp
    rcases List.mem_cons.1 hp with rfl | hp
    · exact le_trans h1 (min_le_right _ _)
    · exact h2 p hp

theorem le_fold_fmaxf (ts : List Triangle) (a : Nat) (b : ℚ) :
    b ≤ ts.foldl (fun b p => fmaxf b (p.centre a)) b ∧
    ∀ p, p ∈ ts → p.centre a ≤ ts.foldl (fun b p => fmaxf b (p.centre a)) b := by
  induction ts generalizing b with
  | nil => exact ⟨le_refl _, fun p hp => by cases hp⟩
  | cons x xs ih =>
    simp only [List.foldl_cons]
    obtain ⟨h1, h2⟩ := ih (fmaxf b (x.centre a))
    rw [fmaxf_eq] at h1 h2 ⊢
    refine ⟨le_trans (le_max_left _ _) h1, ?_⟩
    intro p hp
    rcases List.mem_cons.1 hp with rfl | hp
    · exact le_trans (le_max_right _ _) h1
    · exact h2 p hp

/-- The fold of `fminf` ends on its start value or on a centroid. -/
theorem fold_fminf_mem (ts : List Triangle) (a : Nat) (b : ℚ) :
    ts.foldl (fun b p => fminf b (p.centre a)) b = b ∨
    ∃ p, p ∈ ts ∧ ts.foldl (fun b p => fminf b (p.centre a)) b = p.centre a := by
  induction ts generalizing b with
  | nil => exact Or.inl rfl
  | cons x xs ih =>
    simp only [List.foldl_cons]
    rcases ih (fminf b (x.centre a)) with h | ⟨p, hp, h⟩
    · rw [h, fminf_eq]
      rcases min_choice b (x.centre a) with e | e
      · exact Or.inl e
      · exact Or.inr ⟨x, List.mem_cons_self _ _, e⟩
    · exact Or.inr ⟨p, List.mem_cons_of_mem _ hp, h⟩

theorem fold_fmaxf_mem (ts : List Triangle) (a : Nat) (b : ℚ) :
    ts.foldl (fun b p => fmaxf b (p.centre a)) b = b ∨
    ∃ p, p ∈ ts ∧ ts.foldl (fun b p => fmaxf b (p.centre a)) b = p.centre a := by
  induction ts generalizing b with
  | nil => exact Or.inl rfl
  | cons x xs ih =>
    simp only [List.foldl_cons]
    rcases ih (fmaxf b (x.centre a)) with h | ⟨p, hp, h⟩
    · rw [h, fmaxf_eq]
      rcases max_choice b (x.centre a) with e | e
      · exact Or.inl e
      · exact Or.inr ⟨x, List.mem_cons_self _ _, e⟩
    · exact Or.inr ⟨p, List.mem_cons_of_mem _ hp, h⟩

theorem centre_min_le {ts : List Triangle} {p : Triangle} (a : Nat) (h : p ∈ ts) :
    centre_min ts a ≤ p.centre a := (fold_fminf_le ts a _).2 p h

theorem le_centre_max {ts : List Triangle} {p : Triangle} (a : Nat) (h : p ∈ ts) :
    p.centre a ≤ centre_max ts a := (le_fold_fmaxf ts a _).2 p h

/-- The least centroid coordinate is attained when some centroid is at most
`1e30`. -/
theorem centre_min_mem {ts : List Triangle} {q : Triangle} (a : Nat) (hq : q ∈ ts)
    (h : q.centre a ≤ f1e30) : ∃ p, p ∈ ts ∧ centre_min ts a = p.centre a := by
  rcases fold_fminf_mem ts a f1e30 with e | e
  · refine ⟨q, hq, le_antisymm (centre_min_le a hq) ?_⟩
    unfold centre_min
    rw [e]
    exact h
  · exact e

theorem centre_max_mem {ts : List Triangle} {q : Triangle} (a : Nat) (hq : q ∈ ts)
    (h : -f1e30 ≤ q.centre a) : ∃ p, p ∈ ts ∧ centre_max ts a = p.centre a := by
  rcases fold_fmaxf_mem ts a (-f1e30) with e | e
  · refine ⟨q, hq, le_antisymm ?_ (le_centre_max a hq)⟩
    unfold centre_max
    rw [e]
    exact h
  · exact e

theorem of_u32_bins : of_u32 BINS = 8 ∧ of_u32 (BINS - 1) = 7 := by
  rw [of_u32_exact _ (by simp [BINS]), of_u32_exact _ (by simp [BINS])]
  simp [BINS]

theorem bin_index_lt (bmin scale c : ℚ) (hc : bmin ≤ c) (hs : 0 ≤ scale) :
    0 ≤ to_int (fminf (of_u32 (BINS - 1)) (fmul (fsub c bmin) scale)) ∧
    bin_index bmin scale c < 8 := by
  have hq0 : 0 ≤ fminf (of_u32 (BINS - 1)) (fmul (fsub c bmin) scale) := by
    rw [fminf_eq, of_u32_bins.2]
    apply le_min
    · norm_num
    · exact fmul_nonneg (fsub_nonneg hc) hs
  have hq7 : fminf (of_u32 (BINS - 1)) (fmul (fsub c bmin) scale) ≤ 7 := by
    rw [fminf_eq, of_u32_bins.2]
    exact min_le_left _ _
  exact to_int_bounds _ hq0 hq7

theorem length_bin_put (a : Nat) (bmin scale : ℚ) (bins : List Bin) (p : Triangle) :
    (bin_put a bmin scale bins p).length = bins.length := by
  unfold bin_put
  split <;> simp

theorem length_fold_bin_put (a : Nat) (bmin scale : ℚ) (ts : List Triangle) (bins : List Bin) :
    (ts.foldl (bin_put a bmin scale) bins).length = bins.length := by
  induction ts generalizing bins with
  | nil => rfl
  | cons x xs ih => rw [List.foldl_cons, ih, length_bin_put]

theorem populate_bins_eq (prims : List Triangle) (node : Node) (a : Nat) (ha : a < 3)
    (bmin scale : ℚ) (hs : 0 ≤ scale) :
    ∀ (k i : Nat) (bins : List Bin), node.left_first + i + k ≤ prims.length →
      bins.length = 8 →
      (∀ p, p ∈ slice prims (node.left_first + i) k → bmin ≤ p.centre a) →
      populate_bins prims node a bmin scale k i bins =
        .ok ((slice prims (node.left_first + i) k).foldl (bin_put a bmin scale) bins) := by
  intro k
  induction k with
  | zero => intro i bins _ _ _; simp [populate_bins, slice]
  | succ k ih =>
    intro i bins h hb hc
    have hlt : node.left_first + i < prims.length := by omega
    rw [slice_cons _ _ _ hlt] at hc ⊢
    rw [populate_bins, rd_of_lt _ hlt]
    simp only [Vec3.get_comp _ a ha]
    have hbc : bmin ≤ (prims[node.left_first + i]).centre a := hc _ (List.mem_cons_self _ _)
    obtain ⟨h0, h8⟩ := bin_index_lt bmin scale _ hbc hs
    unfold Triangle.centre at h0 h8
    rw [if_neg (not_lt.2 h0)]
    have h8' : (to_int (fminf (of_u32 (BINS - 1))
        (fmul (fsub ((prims[node.left_first + i]).get_centroid.comp a) bmin) scale))).toNat <
        bins.length := by
      rw [hb]
      exact h8
    rw [rd_of_lt _ h8']
    simp only
    rw [ih (i + 1) _ (by omega) (by simp [hb]) (fun p hp => hc p (List.mem_cons_of_mem _ hp))]
    simp only [List.foldl_cons]
    congr 2
    unfold bin_put bin_index Triangle.centre
    rw [List.getElem?_eq_getElem h8']

/-- The third loop of `find_best_split` on 8 bins. -/
theorem gather_planes_eq (bins : List Bin) (hb : bins.length = 8) :
    ∃ p, gather_planes bins (BINS - 1) 0
        { l_areas := List.replicate (BINS - 1) 0, r_areas := List.replicate (BINS - 1) 0,
          l_counts := List.replicate (BINS - 1) 0, r_counts := List.replicate (BINS - 1) 0 } =
        .ok p ∧
      p.l_counts = (List.range 7).map (left_count bins) ∧
      p.r_counts = (List.range 7).map (right_count bins) ∧
      p.l_areas = (List.range 7).map (fun i => (left_box bins i).area) ∧
      p.r_areas = (List.range 7).map (fun i => (right_box bins i).area) := by
  match bins, hb with
  | [b0, b1, b2, b3, b4, b5, b6, b7], _ =>
    exact ⟨_, rfl, rfl, rfl, rfl, rfl⟩

/-- The fourth loop of `find_best_split`: the best split after the loop is the
one before it or a plane of the loop that is cheaper than all before it, and
costs at most as much as every plane of the loop. -/
theorem best_plane_spec (p : Planes) (a : Nat) (bmin scale : ℚ) (cost : Nat → ℚ)
    (hcost : ∀ j, j < 7 → rd p.l_counts j .plane_index = .ok (p.l_counts.getD j 0) ∧
      rd p.l_areas j .plane_index = .ok (p.l_areas.getD j 0) ∧
      rd p.r_counts j .plane_index = .ok (p.r_counts.getD j 0) ∧
      rd p.r_areas j .plane_index = .ok (p.r_areas.getD j 0) ∧
      cost j = fadd (fmul (of_u32 (p.l_counts.getD j 0)) (p.l_areas.getD j 0))
        (fmul (of_u32 (p.r_counts.getD j 0)) (p.r_areas.getD j 0))) :
    ∀ (k i : Nat) (best : Split), i + k ≤ 7 →
      ∃ s, best_plane p a bmin scale k i best = .ok s ∧ s.cost ≤ best.cost ∧
        (∀ j, i ≤ j → j < i + k → s.cost ≤ cost j) ∧
        (s = best ∨ ∃ j, i ≤ j ∧ j < i + k ∧ cost j < best.cost ∧
          s = { cost := cost j, axis := (a : Int),
                t := fadd bmin (fmul scale (of_u32 (j + 1))) }) := by
  intro k
  induction k with
  | zero =>
    intro i best _
    exact ⟨best, rfl, le_refl _, fun j h1 h2 => by omega, Or.inl rfl⟩
  | succ k ih =>
    intro i best hi
    obtain ⟨e1, e2, e3, e4, e5⟩ := hcost i (by omega)
    rw [best_plane, e1, e2, e3, e4]
    simp only
    rw [← e5]
    by_cases hc : cost i < best.cost
    · rw [if_pos hc]
      obtain ⟨s, hs, h1, h2, h3⟩ := ih (i + 1)
        { cost := cost i, axis := (a : Int), t := fadd bmin (fmul scale (of_u32 (i + 1))) }
        (by omega)
      simp only at h1
      refine ⟨s, hs, le_trans h1 hc.le, ?_, ?_⟩
      · intro j hj1 hj2
        by_cases hji : j = i
        · subst hji
          exact h1
        · exact h2 j (by omega) (by omega)
      · right
        rcases h3 with h3 | ⟨j, hj1, hj2, hj3, hj4⟩
        · exact ⟨i, le_refl _, by omega, hc, h3⟩
        · exact ⟨j, by omega, by omega, lt_trans hj3 hc, hj4⟩
    · rw [if_neg hc]
      obtain ⟨s, hs, h1, h2, h3⟩ := ih (i + 1) best (by omega)
      refine ⟨s, hs, h1, ?_, ?_⟩
      · intro j hj1 hj2
        by_cases hji : j = i
        · subst hji
          exact le_trans h1 (not_lt.1 hc)
        · exact h2 j (by omega) (by omega)
      · rcases h3 with h3 | ⟨j, hj1, hj2, hj3, hj4⟩
        · exact Or.inl h3
        · exact Or.inr ⟨j, by omega, by omega, hj3, hj4⟩

theorem rd_range_map {α : Type} (f : Nat → α) (d : α) (j : Nat) (h : j < 7) (e : Fault) :
    rd ((List.range 7).map f) j e = .ok (((List.range 7).map f).getD j d) ∧
    ((List.range 7).map f).getD j d = f j := by
  have hl : j < ((List.range 7).map f).length := by simpa using h
  have e1 : ((List.range 7).map f)[j]? = some (f j) := by
    rw [List.getElem?_map, List.getElem?_range h]
    rfl
  have e2 : ((List.range 7).map f).getD j d = f j := by
    rw [List.getD_eq_getElem?_getD, e1]
    rfl
  exact ⟨by rw [e2]; exact rd_ok_iff.2 e1, e2⟩

/-- The body of the loop over the axes, on a node with at least one primitive
whose range lies inside `prims`: an axis without spread leaves the best split
as it is; on an axis with spread the best split becomes the cheapest of the
best split before and the seven planes of the axis, the first of the cheapest
planes winning. -/
theorem split_on_axis_spec (prims : List Triangle) (node : Node) (a : Nat) (ha : a < 3)
    (best : Split) (h : node.left_first + node.prim_count ≤ prims.length)
    (hn : 0 < node.prim_count) :
    ∃ s, split_on_axis prims node a best = .ok s ∧
      (centre_min (slice prims node.left_first node.prim_count) a =
        centre_max (slice prims node.left_first node.prim_count) a → s = best) ∧
      (centre_min (slice prims node.left_first node.prim_count) a ≠
        centre_max (slice prims node.left_first node.prim_count) a →
        s.cost ≤ best.cost ∧
        (∀ j, j < 7 →
          s.cost ≤ plane_cost (binned (slice prims node.left_first node.prim_count) a) j) ∧
        (s = best ∨ ∃ j, j < 7 ∧
          plane_cost (binned (slice prims node.left_first node.prim_count) a) j < best.cost ∧
          s = { cost := plane_cost (binned (slice prims node.left_first node.prim_count) a) j,
                axis := (a : Int),
                t := plane_t (slice prims node.left_first node.prim_count) a j })) := by
  unfold split_on_axis
  rw [centroid_range_eq prims node a ha _ _ _ _ (by simpa using h)]
  simp only [Nat.add_zero]
  generalize hS : slice prims node.left_first node.prim_count = S
  have hmin : S.foldl (fun b p => fminf b (p.centre a)) f1e30 = centre_min S a := rfl
  have hmax : S.foldl (fun b p => fmaxf b (p.centre a)) (-f1e30) = centre_max S a := rfl
  rw [hmin, hmax]
  by_cases hb : centre_min S a = centre_max S a
  · rw [if_pos hb]
    exact ⟨best, rfl, fun _ => rfl, fun hne => absurd hb hne⟩
  · rw [if_neg hb]
    have hlen : S.length = node.prim_count := by
      rw [← hS]
      exact length_slice _ _ _ h
    obtain ⟨q, hq⟩ : ∃ q, q ∈ S := by
      cases S with
      | nil => simp at hlen; omega
      | cons x xs => exact ⟨x, List.mem_cons_self _ _⟩
    have hle : centre_min S a ≤ centre_max S a :=
      le_trans (centre_min_le a hq) (le_centre_max a hq)
    have hs : (0 : ℚ) ≤ bin_scale S a :=
      fdiv_nonneg (of_u32_nonneg _) (fsub_nonneg hle)
    have hscale : fdiv (of_u32 BINS) (fsub (centre_max S a) (centre_min S a)) =
        bin_scale S a := rfl
    rw [hscale]
    have hpop := populate_bins_eq prims node a ha (centre_min S a) _ hs node.prim_count 0
      (List.replicate BINS {}) (by simpa using h) (by simp [BINS])
      (by
        intro p hp
        rw [Nat.add_zero, hS] at hp
        exact centre_min_le a hp)
    rw [Nat.add_zero, hS] at hpop
    rw [hpop]
    simp only
    have hbins : binned S a = S.foldl (bin_put a (centre_min S a) (bin_scale S a))
        (List.replicate BINS {}) := rfl
    rw [← hbins]
    have hb8 : (binned S a).length = 8 := by
      rw [hbins, length_fold_bin_put]
      simp [BINS]
    obtain ⟨p, hp, p1, p2, p3, p4⟩ := gather_planes_eq (binned S a) hb8
    rw [hp]
    simp only
    have hcost : ∀ j, j < 7 → rd p.l_counts j .plane_index = .ok (p.l_counts.getD j 0) ∧
        rd p.l_areas j .plane_index = .ok (p.l_areas.getD j 0) ∧
        rd p.r_counts j .plane_index = .ok (p.r_counts.getD j 0) ∧
        rd p.r_areas j .plane_index = .ok (p.r_areas.getD j 0) ∧
        plane_cost (binned S a) j =
          fadd (fmul (of_u32 (p.l_counts.getD j 0)) (p.l_areas.getD j 0))
            (fmul (of_u32 (p.r_counts.getD j 0)) (p.r_areas.getD j 0)) := by
      intro j hj
      rw [p1, p2, p3, p4]
      obtain ⟨a1, a2⟩ := rd_range_map (left_count (binned S a)) 0 j hj .plane_index
      obtain ⟨b1, b2⟩ := rd_range_map (fun i => (left_box (binned S a) i).area) 0 j hj
        .plane_index
      obtain ⟨c1, c2⟩ := rd_range_map (right_count (binned S a)) 0 j hj .plane_index
      obtain ⟨d1, d2⟩ := rd_range_map (fun i => (right_box (binned S a) i).area) 0 j hj
        .plane_index
      refine ⟨a1, b1, c1, d1, ?_⟩
      rw [a2, b2, c2, d2]
      rfl
    obtain ⟨s, hs', s1, s2, s3⟩ := best_plane_spec p a (centre_min S a)
      (fdiv (fsub (centre_max S a) (centre_min S a)) (of_u32 BINS)) (plane_cost (binned S a))
      hcost
      (BINS - 1) 0 best (by simp [BINS])
    refine ⟨s, hs', fun he => absurd he hb, fun _ => ⟨s1, ?_, ?_⟩⟩
    · intro j hj
      exact s2 j (Nat.zero_le _) (by simpa [BINS] using hj)
    · rcases s3 with s3 | ⟨j, _, hj2, hj3, hj4⟩
      · exact Or.inl s3
      · exact Or.inr ⟨j, by simpa [BINS] using hj2, hj3, hj4⟩

theorem axes_loop_spec (prims : List Triangle) (node : Node) (init : Split)
    (h : node.left_first + node.prim_count ≤ prims.length) (hn : 0 < node.prim_count) :
    ∀ (k a : Nat) (best : Split), a + k ≤ 3 →
      (best.cost ≤ init.cost ∧
        (∀ b, b < a → centre_min (slice prims node.left_first node.prim_count) b ≠
            centre_max (slice prims node.left_first node.prim_count) b →
          ∀ j, j < 7 →
            best.cost ≤ plane_cost (binned (slice prims node.left_first node.prim_count) b) j) ∧
        (best = init ∨ ∃ b j, b < a ∧ j < 7 ∧
          centre_min (slice prims node.left_first node.prim_count) b ≠
            centre_max (slice prims node.left_first node.prim_count) b ∧
          plane_cost (binned (slice prims node.left_first node.prim_count) b) j < init.cost ∧
          best = { cost := plane_cost (binned (slice prims node.left_first node.prim_count) b) j,
                   axis := (b : Int),
                   t := plane_t (slice prims node.left_first node.prim_count) b j })) →
      ∃ s, axes_loop prims node k a best = .ok s ∧
        s.cost ≤ init.cost ∧
        (∀ b, b < a + k → centre_min (slice prims node.left_first node.prim_count) b ≠
            centre_max (slice prims node.left_first node.prim_count) b →
          ∀ j, j < 7 →
            s.cost ≤ plane_cost (binned (slice prims node.left_first node.prim_count) b) j) ∧
        (s = init ∨ ∃ b j, b < a + k ∧ j < 7 ∧
          centre_min (slice prims node.left_first node.prim_count) b ≠
            centre_max (slice prims node.left_first node.prim_count) b ∧
          plane_cost (binned (slice prims node.left_first node.prim_count) b) j < init.cost ∧
          s = { cost := plane_cost (binned (slice prims node.left_first node.prim_count) b) j,
                axis := (b : Int),
                t := plane_t (slice prims node.left_first node.prim_count) b j }) := by
  generalize hS : slice prims node.left_first node.prim_count = S
  intro k
  induction k with
  | zero =>
    intro a best _ hinv
    exact ⟨best, rfl, hinv⟩
  | succ k ih =>
    intro a best hk ⟨i1, i2, i3⟩
    rw [axes_loop]
    obtain ⟨s, hs, s1, s2⟩ := split_on_axis_spec prims node a (by omega) best h hn
    rw [hS] at s1 s2
    rw [hs]
    simp only
    have key := ih (a + 1) s (by omega)
    rw [show a + 1 + k = a + (k + 1) by omega] at key
    apply key
    by_cases hb : centre_min S a = centre_max S a
    · have e := s1 hb
      subst e
      refine ⟨i1, ?_, ?_⟩
      · intro b hb1 hb2 j hj
        have : b ≠ a := fun e => hb2 (e ▸ hb)
        exact i2 b (by omega) hb2 j hj
      · rcases i3 with i3 | ⟨b, j, h1, h2, h3, h4, h5⟩
        · exact Or.inl i3
        · exact Or.inr ⟨b, j, by omega, h2, h3, h4, h5⟩
    · obtain ⟨t1, t2, t3⟩ := s2 hb
      refine ⟨le_trans t1 i1, ?_, ?_⟩
      · intro b hb1 hb2 j hj
        by_cases e : b = a
        · subst e
          exact t2 j hj
        · exact le_trans t1 (i2 b (by omega) hb2 j hj)
      · rcases t3 with t3 | ⟨j, hj, hc, he⟩
        · subst t3
          rcases i3 with i3 | ⟨b, j, h1, h2, h3, h4, h5⟩
          · exact Or.inl i3
          · exact Or.inr ⟨b, j, by omega, h2, h3, h4, h5⟩
        · exact Or.inr ⟨a, j, by omega, hj, hb, lt_of_lt_of_le hc i1, he⟩

/-- What `find_best_split` returns on a node with at least one primitive whose
range lies inside `prims`, in terms of the bins of the source: the cost is at
most `1e30` and at most the cost of every plane of every axis with spread;
the result is either the sentinel with `axis` and `t` untouched, or a plane of
an axis with spread whose cost is below `1e30`. -/
theorem find_best_split_spec (prims : List Triangle) (node : Node) (axis : Int) (t : ℚ)
    (h : node.left_first + node.prim_count ≤ prims.length) (hn : 0 < node.prim_count) :
    ∃ s, find_best_split prims node axis t = .ok s ∧
      s.cost ≤ f1e30 ∧
      (∀ b, b < 3 → centre_min (slice prims node.left_first node.prim_count) b ≠
          centre_max (slice prims node.left_first node.prim_count) b →
        ∀ j, j < 7 →
          s.cost ≤ plane_cost (binned (slice prims node.left_first node.prim_count) b) j) ∧
      (s = { cost := f1e30, axis := axis, t := t } ∨ ∃ b j, b < 3 ∧ j < 7 ∧
        centre_min (slice prims node.left_first node.prim_count) b ≠
          centre_max (slice prims node.left_first node.prim_count) b ∧
        plane_cost (binned (slice prims node.left_first node.prim_count) b) j < f1e30 ∧
        s = { cost := plane_cost (binned (slice prims node.left_first node.prim_count) b) j,
              axis := (b : Int),
              t := plane_t (slice prims node.left_first node.prim_count) b j }) := by
  unfold find_best_split
  exact axes_loop_spec prims node { cost := f1e30, axis := axis, t := t } h hn 3 0 _
    (by omega) ⟨le_refl _, fun b hb => by omega, Or.inl rfl⟩

/-! ## The partition on a plane of find_best_split -/

theorem below_iff (p : Triangle) (a : Nat) (ha : a < 3) (t : ℚ) :
    p.below (a : Int) t ↔ p.centre a < t := by
  unfold Triangle.below
  rw [Vec3.get_comp _ a ha]
  constructor
  · rintro ⟨c, hc, hlt⟩
    simp only [Except.ok.injEq] at hc
    rw [Triangle.centre, hc]
    exact hlt
  · intro h
    exact ⟨_, rfl, h⟩

theorem not_below_iff (p : Triangle) (a : Nat) (ha : a < 3) (t : ℚ) :
    p.not_below (a : Int) t ↔ ¬ p.centre a < t := by
  unfold Triangle.not_below
  rw [Vec3.get_comp _ a ha]
  constructor
  · rintro ⟨c, hc, hlt⟩
    simp only [Except.ok.injEq] at hc
    rw [Triangle.centre, hc]
    exact hlt
  · intro h
    exact ⟨_, rfl, h⟩

/-- The partition loop ends, with the cursor `j` never decremented at 0, when
the range does not start at 0 or holds a primitive below the plane. -/
theorem partition_ok (a : Nat) (ha : a < 3) (t : ℚ) :
    ∀ (fuel i j : Nat) (prims : List Triangle) (norms : List Normals),
      fuel + i = j + 2 → 1 ≤ fuel → j < prims.length → prims.length = norms.length →
      (0 < i ∨ ∃ k p, i ≤ k ∧ k ≤ j ∧ prims[k]? = some p ∧ p.centre a < t) →
      ∃ r, partition (a : Int) t fuel i j prims norms = .ok r := by
  intro fuel
  induction fuel with
  | zero =>
    intro i j prims norms hf h1 hj hlen hinv
    omega
  | succ fuel ih =>
    intro i j prims norms hf _ hj hlen hinv
    rw [partition]
    by_cases hij : i ≤ j
    · rw [if_pos hij]
      have hi : i < prims.length := by omega
      rw [rd_of_lt _ hi]
      simp only [Vec3.get_comp _ a ha]
      by_cases hct : (prims[i]).get_centroid.comp a < t
      · rw [if_pos hct]
        by_cases hlast : i = j
        · subst hlast
          have hf0 : fuel = 1 := by omega
          subst hf0
          rw [partition, if_neg (by omega)]
          exact ⟨_, rfl⟩
        · exact ih (i + 1) j prims norms (by omega) (by omega) hj hlen (Or.inl (by omega))
      · rw [if_neg hct]
        have hj' : j < norms.length := by omega
        have hi' : i < norms.length := by omega
        rw [rd_of_lt _ hj, rd_of_lt _ hi', rd_of_lt _ hj']
        simp only
        have hj0 : j ≠ 0 := by
          rcases hinv with h | ⟨k, p, h1, h2, h3, h4⟩
          · omega
          · have hki : k ≠ i := by
              intro e
              subst e
              rw [List.getElem?_eq_getElem hi] at h3
              simp only [Option.some.injEq] at h3
              subst h3
              exact hct h4
            omega
        have hdec : u32_dec j = j - 1 := by simp [u32_dec, hj0]
        rw [hdec]
        by_cases hlast : i = j
        · subst hlast
          have hf0 : fuel = 1 := by omega
          subst hf0
          rw [partition, if_neg (by omega)]
          exact ⟨_, rfl⟩
        · apply ih i (j - 1) _ _ (by omega) (by omega) (by simp; omega) (by simp [hlen])
          rcases hinv with h | ⟨k, p, h1, h2, h3, h4⟩
          · exact Or.inl h
          · right
            have hki : k ≠ i := by
              intro e
              subst e
              rw [List.getElem?_eq_getElem hi] at h3
              simp only [Option.some.injEq] at h3
              subst h3
              exact hct h4
            by_cases hkj : k = j
            · subst hkj
              refine ⟨i, p, le_refl _, by omega, ?_, h4⟩
              rw [List.getElem?_set_ne (by omega), List.getElem?_set_self hi,
                ← List.getElem?_eq_getElem hj, h3]
            · refine ⟨k, p, h1, by omega, ?_, h4⟩
              rw [List.getElem?_set_ne (Ne.symm hkj), List.getElem?_set_ne (Ne.symm hki), h3]
    · rw [if_neg hij]
      exact ⟨_, rfl⟩

theorem ex_split : find_best_split ex_prims ⟨⟨0, 0, 0⟩, 0, ⟨9, 1, 0⟩, 3⟩ (-1) 0 =
    .ok ⟨54, 0, 5592405 / 4194304⟩ := by
  decide!

/-! ## The claim on the partition of a split node -/

/-- **C26** as stated fails on the code.  The three point triangles of
`near_prims` have the centroids `2 ^ 24`, `2 ^ 24` and `2 ^ 24 + 2` on axis 0.
The first plane of that axis is at `bmin + 0.25`, which rounds to `bmin`, and
costs 0 since each side is one point: `find_best_split` returns the cost 0,
below `1e30` and below the parent cost 12, with `t = 2 ^ 24`.  No primitive of
the node has its centroid below `t`, and the partition loop of `subdivide`
decrements `j` at 0 and reads `prims[4294967295]`. -/
theorem split_underflows :
    refit_node ⟨Vec3.splat 0, 0, Vec3.splat 0, 3⟩ near_prims =
      .ok ⟨⟨2 ^ 24, 0, 0⟩, 0, ⟨2 ^ 24 + 2, 0, 0⟩, 3⟩ ∧
    find_best_split near_prims ⟨⟨2 ^ 24, 0, 0⟩, 0, ⟨2 ^ 24 + 2, 0, 0⟩, 3⟩ (-1) 0 =
      .ok ⟨0, 0, 2 ^ 24⟩ ∧
    (0 : ℚ) < f1e30 ∧
    fmul (of_u32 3) ({ min := ⟨2 ^ 24, 0, 0⟩, max := ⟨2 ^ 24 + 2, 0, 0⟩ } : AABB).area = 12 ∧
    (∀ p, p ∈ near_prims → ¬ p.centre 0 < 2 ^ 24) ∧
    partition 0 (2 ^ 24) (3 + 1) 0 (0 + 3 - 1) near_prims ex_norms = .error .prim_index ∧
    ({} : Bvh).build (some near_prims) (some ex_norms) 3 = .error .prim_index := by
  refine ⟨by decide!, by decide!, by decide!, by decide!, by decide!, by decide!, by decide!⟩

/-! ## The bins as boxes of sets of triangles -/

theorem min_box (m s a b c : ℚ) (h : m ≤ s) :
    Min.min (Min.min m (Min.min (Min.min (Min.min s a) b) c))
      (Max.max (Max.max (Max.max (-s) a) b) c) = Min.min (Min.min (Min.min m a) b) c := by
  have h1 : Min.min (Min.min (Min.min s a) b) c ≤ a :=
    le_trans (min_le_left _ _) (le_trans (min_le_left _ _) (min_le_right _ _))
  have h2 : a ≤ Max.max (Max.max (Max.max (-s) a) b) c :=
    le_trans (le_max_right _ _) (le_trans (le_max_left _ _) (le_max_left _ _))
  rw [min_eq_left (le_trans (min_le_right _ _) (le_trans h1 h2))]
  rw [← min_assoc, ← min_assoc, ← min_assoc, min_eq_left h]

theorem max_box (m s a b c : ℚ) (h : -s ≤ m) :
    Max.max (Max.max m (Min.min (Min.min (Min.min s a) b) c))
      (Max.max (Max.max (Max.max (-s) a) b) c) = Max.max (Max.max (Max.max m a) b) c := by
  have h1 : Min.min (Min.min (Min.min s a) b) c ≤ a :=
    le_trans (min_le_left _ _) (le_trans (min_le_left _ _) (min_le_right _ _))
  have h2 : a ≤ Max.max (Max.max (Max.max (-s) a) b) c :=
    le_trans (le_max_right _ _) (le_trans (le_max_left _ _) (le_max_left _ _))
  have h3 : Max.max m (Min.min (Min.min (Min.min s a) b) c) ≤
      Max.max m (Max.max (Max.max (Max.max (-s) a) b) c) :=
    max_le_max (le_refl _) (le_trans h1 h2)
  rw [max_assoc, max_eq_right (le_trans h1 h2)]
  rw [← max_assoc, ← max_assoc, ← max_assoc, max_eq_left h]

/-- Growing a box by the box of a triangle, as the second loop of
`find_best_split` does. -/
theorem grow_prim (box : AABB) (p : Triangle) (h1 : Vec3.le box.min (Vec3.splat f1e30))
    (h2 : Vec3.le (Vec3.splat (-f1e30)) box.max) :
    (box.grow p.get_aabb.min).grow p.get_aabb.max =
      { min := Vec3.min (Vec3.min (Vec3.min box.min p.v0) p.v1) p.v2,
        max := Vec3.max (Vec3.max (Vec3.max box.max p.v0) p.v1) p.v2 } := by
  obtain ⟨a1, a2, a3⟩ := h1
  obtain ⟨b1, b2, b3⟩ := h2
  simp only [Vec3.splat] at a1 a2 a3 b1 b2 b3
  simp only [AABB.grow, Triangle.get_aabb, Vec3.vmin_def, Vec3.vmax_def, Vec3.splat]
  rw [min_box _ _ _ _ _ a1, min_box _ _ _ _ _ a2, min_box _ _ _ _ _ a3,
    max_box _ _ _ _ _ b1, max_box _ _ _ _ _ b2, max_box _ _ _ _ _ b3]

theorem grow_fold (ts : List Triangle) :
    ∀ (box : AABB), Vec3.le box.min (Vec3.splat f1e30) →
      Vec3.le (Vec3.splat (-f1e30)) box.max →
      ts.foldl (fun box p => (box.grow p.get_aabb.min).grow p.get_aabb.max) box =
        { min := (verts ts).foldl Vec3.min box.min, max := (verts ts).foldl Vec3.max box.max } := by
  induction ts with
  | nil => intro box _ _; rfl
  | cons x xs ih =>
    intro box h1 h2
    rw [List.foldl_cons, grow_prim box x h1 h2, ih]
    · simp [verts]
    · obtain ⟨a1, a2, a3⟩ := h1
      simp only [Vec3.vmin_def, Vec3.le]
      exact ⟨le_trans (min_le_left _ _) (le_trans (min_le_left _ _) (le_trans (min_le_left _ _) a1)),
        le_trans (min_le_left _ _) (le_trans (min_le_left _ _) (le_trans (min_le_left _ _) a2)),
        le_trans (min_le_left _ _) (le_trans (min_le_left _ _) (le_trans (min_le_left _ _) a3))⟩
    · obtain ⟨b1, b2, b3⟩ := h2
      simp only [Vec3.vmax_def, Vec3.le]
      exact ⟨le_trans b1 (le_trans (le_max_left _ _) (le_trans (le_max_left _ _) (le_max_left _ _))),
        le_trans b2 (le_trans (le_max_left _ _) (le_trans (le_max_left _ _) (le_max_left _ _))),
        le_trans b3 (le_trans (le_max_left _ _) (le_trans (le_max_left _ _) (le_max_left _ _)))⟩

/-- The box a bin accumulates from the default box is the box of its
triangles. -/
theorem grow_fold_bounds (ts : List Triangle) :
    ts.foldl (fun box p => (box.grow p.get_aabb.min).grow p.get_aabb.max) {} = bounds ts :=
  grow_fold ts {} ⟨le_refl _, le_refl _, le_refl _⟩ ⟨le_refl _, le_refl _, le_refl _⟩

theorem fold_bin_put (a : Nat) (bmin scale : ℚ) (ts : List Triangle) :
    ∀ (bins : List Bin), bins.length = 8 →
      (∀ p, p ∈ ts → bin_index bmin scale (p.centre a) < 8) →
      ∀ b, b < 8 → (ts.foldl (bin_put a bmin scale) bins)[b]? = some
        { aabb := (ts.filter (fun p => decide (bin_index bmin scale (p.centre a) = b))).foldl
            (fun box p => (box.grow p.get_aabb.min).grow p.get_aabb.max) (bins.getD b {}).aabb,
          prim_count := (bins.getD b {}).prim_count +
            (ts.filter (fun p => decide (bin_index bmin scale (p.centre a) = b))).length } := by
  induction ts with
  | nil =>
    intro bins hb _ b hlt
    simp only [List.foldl_nil, List.filter_nil, List.length_nil, Nat.add_zero]
    rw [List.getD_eq_getElem?_getD, List.getElem?_eq_getElem (by omega)]
    rfl
  | cons x xs ih =>
    intro bins hb hidx b hlt
    rw [List.foldl_cons]
    have hx : bin_index bmin scale (x.centre a) < bins.length := by
      rw [hb]
      exact hidx x (List.mem_cons_self _ _)
    rw [ih _ (by rw [length_bin_put]; exact hb)
      (fun p hp => hidx p (List.mem_cons_of_mem _ hp)) b hlt]
    have hput : bin_put a bmin scale bins x = bins.set (bin_index bmin scale (x.centre a))
        { aabb := ((bins[bin_index bmin scale (x.centre a)]).aabb.grow x.get_aabb.min).grow
            x.get_aabb.max,
          prim_count := (bins[bin_index bmin scale (x.centre a)]).prim_count + 1 } := by
      unfold bin_put
      rw [List.getElem?_eq_getElem hx]
    rw [hput]
    by_cases e : bin_index bmin scale (x.centre a) = b
    · subst e
      rw [List.filter_cons_of_pos (by simp), List.foldl_cons, List.length_cons]
      rw [List.getD_eq_getElem?_getD, List.getElem?_set_self hx]
      rw [List.getD_eq_getElem?_getD, List.getElem?_eq_getElem hx]
      simp only [Option.getD_some, Option.some.injEq, Bin.mk.injEq, true_and]
      omega
    · rw [List.filter_cons_of_neg (by simpa using e)]
      rw [List.getD_eq_getElem?_getD, List.getElem?_set_ne e, ← List.getD_eq_getElem?_getD]

theorem to_int_floor (q : ℚ) (h0 : 0 ≤ q) : to_int q = ⌊q⌋ := by
  have hn : 0 ≤ q.num := Rat.num_nonneg.2 h0
  have hd : (0 : Int) ≤ (q.den : Int) := Int.natCast_nonneg _
  unfold to_int
  rw [Int.tdiv_eq_ediv hn hd, Rat.floor_def]

theorem filter_or_perm {α : Type} (l : List α) (p q : α → Bool)
    (h : ∀ x, x ∈ l → ¬ (p x = true ∧ q x = true)) :
    (l.filter (fun x => p x || q x)).Perm (l.filter p ++ l.filter q) := by
  induction l with
  | nil => simp
  | cons x xs ih =>
    have ih' := ih (fun y hy => h y (List.mem_cons_of_mem _ hy))
    have hx := h x (List.mem_cons_self _ _)
    cases hp : p x <;> cases hq : q x
    · simpa [List.filter_cons, hp, hq] using ih'
    · simp only [List.filter_cons, hp, hq, Bool.or_true, if_true, Bool.false_eq_true, if_false]
      exact (List.Perm.cons x ih').trans List.perm_middle.symm
    · simp only [List.filter_cons, hp, hq, Bool.or_false, if_true, Bool.false_eq_true, if_false,
        List.cons_append]
      exact List.Perm.cons x ih'
    · exact absurd ⟨hp, hq⟩ hx

theorem lo_le_hi {ts : List Triangle} (h : ts ≠ []) : Vec3.le (lo ts) (hi ts) := by
  obtain ⟨t, ht⟩ := List.exists_mem_of_ne_nil ts h
  obtain ⟨a1, _, _⟩ := lo_le ht
  obtain ⟨b1, _, _⟩ := le_hi ht
  exact ⟨le_trans a1.1 b1.1, le_trans a1.2.1 b1.2.1, le_trans a1.2.2 b1.2.2⟩

theorem pow99_lt : (2 : ℚ) ^ 99 < f1e30 := by
  unfold f1e30
  norm_num

theorem lo_x_lt {ts : List Triangle} (h : ts ≠ []) (hr : ∀ p, p ∈ ts → p.in_range) :
    (lo ts).x < f1e30 := by
  obtain ⟨t, ht⟩ := List.exists_mem_of_ne_nil ts h
  obtain ⟨a1, _, _⟩ := lo_le ht
  exact lt_trans (lt_of_le_of_lt a1.1 (hr t ht).1.1.2) pow99_lt

/-- The union `AABB::grow(const AABB&)` of the boxes of two sets of triangles
is the box of the two sets together, when the triangles of the second set are
in range. -/
theorem grow_aabb_bounds (A B : List Triangle) (hr : ∀ p, p ∈ B → p.in_range) :
    (bounds A).grow_aabb (bounds B) = bounds (A ++ B) := by
  unfold AABB.grow_aabb
  by_cases hB : B = []
  · subst hB
    rw [if_neg (by simp [bounds, lo, verts, Vec3.splat])]
    simp
  · rw [if_pos (show (bounds B).min.x ≠ f1e30 from ne_of_lt (lo_x_lt hB hr))]
    obtain ⟨c1, c2, c3⟩ := lo_le_hi hB
    simp only [bounds, AABB.grow, lo_append, hi_append, Vec3.vmin_def, Vec3.vmax_def]
    congr 1
    · rw [Vec3.eq_iff]
      simp only
      refine ⟨?_, ?_, ?_⟩
      · exact min_eq_left (le_trans (min_le_right _ _) c1)
      · exact min_eq_left (le_trans (min_le_right _ _) c2)
      · exact min_eq_left (le_trans (min_le_right _ _) c3)
    · rw [Vec3.eq_iff]
      simp only
      refine ⟨?_, ?_, ?_⟩
      · rw [max_assoc, max_eq_right c1]
      · rw [max_assoc, max_eq_right c2]
      · rw [max_assoc, max_eq_right c3]

theorem bounds_perm {A B : List Triangle} (h : A.Perm B) : bounds A = bounds B := by
  unfold bounds
  rw [lo_perm h, hi_perm h]

/-- Folding the boxes and counts of the bins `bs` over the triangles of the
bins `L`. -/
theorem fold_bins (S : List Triangle) (idx : Triangle → Nat) (hr : ∀ p, p ∈ S → p.in_range) :
    ∀ (bs L : List Nat), (L ++ bs).Nodup →
      bs.foldl (fun box b => box.grow_aabb
          (bounds (S.filter (fun p => decide (idx p = b)))))
        (bounds (S.filter (fun p => decide (idx p ∈ L)))) =
        bounds (S.filter (fun p => decide (idx p ∈ L ++ bs))) ∧
      bs.foldl (fun sum b => sum + (S.filter (fun p => decide (idx p = b))).length)
        (S.filter (fun p => decide (idx p ∈ L))).length =
        (S.filter (fun p => decide (idx p ∈ L ++ bs))).length := by
  intro bs
  induction bs with
  | nil => intro L _; simp
  | cons b bs ih =>
    intro L hnd
    have hb : b ∉ L := by
      intro hmem
      have := List.nodup_append.1 hnd
      exact this.2.2 hmem (List.mem_cons_self _ _) 
    have hperm : (S.filter (fun p => decide (idx p ∈ L ++ [b]))).Perm
        (S.filter (fun p => decide (idx p ∈ L)) ++ S.filter (fun p => decide (idx p = b))) := by
      have e : (fun p => decide (idx p ∈ L ++ [b])) =
          (fun p => decide (idx p ∈ L) || decide (idx p = b)) := by
        funext p
        simp
      rw [e]
      apply filter_or_perm
      intro x _ ⟨h1, h2⟩
      simp only [decide_eq_true_eq] at h1 h2
      exact hb (h2 ▸ h1)
    have hnd' : ((L ++ [b]) ++ bs).Nodup := by simpa using hnd
    obtain ⟨i1, i2⟩ := ih (L ++ [b]) hnd'
    simp only [List.foldl_cons]
    have e1 : (bounds (S.filter (fun p => decide (idx p ∈ L)))).grow_aabb
        (bounds (S.filter (fun p => decide (idx p = b)))) =
        bounds (S.filter (fun p => decide (idx p ∈ L ++ [b]))) := by
      rw [grow_aabb_bounds _ _ (fun p hp => hr p (List.mem_filter.1 hp).1)]
      exact (bounds_perm hperm).symm
    have e2 : (S.filter (fun p => decide (idx p ∈ L))).length +
        (S.filter (fun p => decide (idx p = b))).length =
        (S.filter (fun p => decide (idx p ∈ L ++ [b]))).length := by
      rw [hperm.length_eq, List.length_append]
    rw [e1, e2, i1, i2]
    simp

theorem binned_eq (S : List Triangle) (a : Nat)
    (hlt : centre_min S a < centre_max S a) :
    binned S a = (List.range 8).map (fun b =>
      ({ aabb := bounds (S.filter (fun p => decide (bin_of S a p = b))),
         prim_count := (S.filter (fun p => decide (bin_of S a p = b))).length } : Bin)) := by
  have hs : (0 : ℚ) ≤ bin_scale S a := fdiv_nonneg (of_u32_nonneg _) (fsub_nonneg hlt.le)
  have hidx : ∀ p, p ∈ S → bin_index (centre_min S a) (bin_scale S a) (p.centre a) < 8 :=
    fun p hp => (bin_index_lt _ _ _ (centre_min_le a hp) hs).2
  apply List.ext_getElem?
  intro b
  by_cases hb : b < 8
  · unfold binned
    rw [fold_bin_put a _ _ S _ (by simp [BINS]) hidx b hb]
    rw [List.getElem?_map, List.getElem?_range hb]
    have e : (List.replicate BINS ({} : Bin)).getD b {} = {} := by
      rw [List.getD_eq_getElem?_getD, List.getElem?_replicate]
      split <;> rfl
    rw [e, grow_fold_bounds]
    simp [bin_of]
  · have h1 : (binned S a).length = 8 := by
      unfold binned
      rw [length_fold_bin_put]
      simp [BINS]
    rw [List.getElem?_eq_none (by omega), List.getElem?_eq_none (by simp; omega)]

/-- The cost the source computes for plane `i` of an axis with spread is the
cost of the two sides that the bins give, when the triangles are in range. -/
theorem plane_cost_eq (S : List Triangle) (a i : Nat) (hi7 : i < 7)
    (hlt : centre_min S a < centre_max S a) (hr : ∀ p, p ∈ S → p.in_range) :
    plane_cost (binned S a) i = bin_cost S a i := by
  have hs : (0 : ℚ) ≤ bin_scale S a := fdiv_nonneg (of_u32_nonneg _) (fsub_nonneg hlt.le)
  have hidx : ∀ p, p ∈ S → bin_of S a p < 8 :=
    fun p hp => (bin_index_lt _ _ _ (centre_min_le a hp) hs).2
  have hB := binned_eq S a hlt
  unfold bin_cost
  generalize bin_of S a = idx at hidx hB ⊢
  have hL : (S.filter (fun p => decide (idx p ∈ [] ++ List.range (i + 1)))) =
      S.filter (fun p => decide (idx p ≤ i)) := by
    apply List.filter_congr
    intro p hp
    simp only [List.nil_append, List.mem_range, decide_eq_decide]
    omega
  have hR : (S.filter (fun p => decide (idx p ∈ [] ++ (List.range' (i + 1) (8 - (i + 1))).reverse)))
      = S.filter (fun p => !decide (idx p ≤ i)) := by
    apply List.filter_congr
    intro p hp
    have h8 := hidx p hp
    simp only [List.nil_append, List.mem_reverse, List.mem_range'_1]
    by_cases hc : idx p ≤ i
    · simp only [hc, decide_True, Bool.not_true, decide_eq_false_iff_not, not_and, not_lt]
      omega
    · simp only [hc, decide_False, Bool.not_false, decide_eq_true_eq]
      omega
  obtain ⟨l1, l2⟩ := fold_bins S idx hr (List.range (i + 1)) [] (by simpa using List.nodup_range _)
  obtain ⟨r1, r2⟩ := fold_bins S idx hr (List.range' (i + 1) (8 - (i + 1))).reverse []
    (by simpa using List.nodup_range' _ _)
  rw [hL] at l1 l2
  rw [hR] at r1 r2
  have e0 : bounds (S.filter (fun p => decide (idx p ∈ ([] : List Nat)))) = {} := by
    simp [bounds, lo, hi, verts]
  have e0' : (S.filter (fun p => decide (idx p ∈ ([] : List Nat)))).length = 0 := by simp
  rw [e0] at l1 r1
  rw [e0'] at l2 r2
  have tk : (binned S a).take (i + 1) = (List.range (i + 1)).map (fun b =>
      ({ aabb := bounds (S.filter (fun p => decide (idx p = b))),
         prim_count := (S.filter (fun p => decide (idx p = b))).length } : Bin)) := by
    rw [hB, ← List.map_take, List.take_range, Nat.min_eq_left (by omega)]
  have dr : ((binned S a).drop (i + 1)).reverse =
      (List.range' (i + 1) (8 - (i + 1))).reverse.map (fun b =>
      ({ aabb := bounds (S.filter (fun p => decide (idx p = b))),
         prim_count := (S.filter (fun p => decide (idx p = b))).length } : Bin)) := by
    rw [hB, ← List.map_drop, List.map_reverse]
    congr 2
    clear tk l1 l2 r1 r2 hL hR
    interval_cases i <;> rfl
  have c1 : left_count (binned S a) i = (S.filter (fun p => decide (idx p ≤ i))).length := by
    unfold left_count
    rw [tk, List.foldl_map]
    exact l2
  have c2 : right_count (binned S a) i = (S.filter (fun p => !decide (idx p ≤ i))).length := by
    unfold right_count
    rw [dr, List.foldl_map]
    exact r2
  have b1 : left_box (binned S a) i = bounds (S.filter (fun p => decide (idx p ≤ i))) := by
    unfold left_box
    rw [tk, List.foldl_map]
    exact l1
  have b2 : right_box (binned S a) i = bounds (S.filter (fun p => !decide (idx p ≤ i))) := by
    unfold right_box
    rw [dr, List.foldl_map]
    exact r1
  unfold plane_cost side_cost
  rw [c1, c2, b1, b2]

/-! ## The cost of a split against the cost of the node -/

theorem fl_pow99 : fl (2 ^ 99) = 2 ^ 99 ∧ fl (2 ^ 100) = 2 ^ 100 ∧
    fl (3 * 2 ^ 99) = 3 * 2 ^ 99 := by
  refine ⟨by decide!, by decide!, by decide!⟩

/-- The centroid coordinate `(x + y + z) / 3.0f` of three coordinates in
range lies between `-2 ^ 99` and `2 ^ 99`. -/
theorem centroid_bound (x y z : ℚ) (hx : -2 ^ 99 < x ∧ x < 2 ^ 99)
    (hy : -2 ^ 99 < y ∧ y < 2 ^ 99) (hz : -2 ^ 99 < z ∧ z < 2 ^ 99) :
    -(2 : ℚ) ^ 99 ≤ fdiv (fadd (fadd x y) z) 3 ∧ fdiv (fadd (fadd x y) z) 3 ≤ 2 ^ 99 := by
  obtain ⟨p1, p2, p3⟩ := fl_pow99
  have n1 : fl (-(2 : ℚ) ^ 99) = -2 ^ 99 := by rw [fl_neg, p1]
  have n2 : fl (-(2 : ℚ) ^ 100) = -2 ^ 100 := by rw [fl_neg, p2]
  have n3 : fl (-(3 * (2 : ℚ) ^ 99)) = -(3 * 2 ^ 99) := by rw [fl_neg, p3]
  have u1 : fadd x y ≤ 2 ^ 100 := fl_le_of_le (by linarith) p2
  have l1 : -(2 : ℚ) ^ 100 ≤ fadd x y := le_fl_of_le (by linarith) n2
  have u2 : fadd (fadd x y) z ≤ 3 * 2 ^ 99 := fl_le_of_le (by linarith) p3
  have l2 : -(3 * (2 : ℚ) ^ 99) ≤ fadd (fadd x y) z := le_fl_of_le (by linarith) n3
  constructor
  · exact le_fl_of_le (by linarith) n1
  · exact fl_le_of_le (by linarith) p1

theorem centre_in_range (p : Triangle) (h : p.in_range) (a : Nat) :
    -f1e30 ≤ p.centre a ∧ p.centre a ≤ f1e30 := by
  obtain ⟨⟨a1, a2, a3⟩, ⟨b1, b2, b3⟩, ⟨c1, c2, c3⟩⟩ := h
  have e : p.get_centroid = ⟨fdiv (fadd (fadd p.v0.x p.v1.x) p.v2.x) 3,
      fdiv (fadd (fadd p.v0.y p.v1.y) p.v2.y) 3, fdiv (fadd (fadd p.v0.z p.v1.z) p.v2.z) 3⟩ := rfl
  have hs := pow99_lt
  unfold Triangle.centre Vec3.comp
  rw [e]
  split_ifs
  · obtain ⟨k1, k2⟩ := centroid_bound _ _ _ a1 b1 c1
    constructor <;> simp only <;> linarith
  · obtain ⟨k1, k2⟩ := centroid_bound _ _ _ a2 b2 c2
    constructor <;> simp only <;> linarith
  · obtain ⟨k1, k2⟩ := centroid_bound _ _ _ a3 b3 c3
    constructor <;> simp only <;> linarith

/-- On triangles in range the test `bmin == bmax` of `find_best_split` fails
exactly on the axes on which the centroids are not all equal. -/
theorem spread_iff (S : List Triangle) (a : Nat) (hS : S ≠ [])
    (hr : ∀ p, p ∈ S → p.in_range) :
    centre_min S a ≠ centre_max S a ↔ Spread S a := by
  constructor
  · intro hne
    cases S with
    | nil => exact absurd rfl hS
    | cons x xs =>
      have hx : x ∈ x :: xs := List.mem_cons_self _ _
      obtain ⟨p, hp, hpmin⟩ := centre_min_mem a hx (centre_in_range x (hr x hx) a).2
      obtain ⟨q, hq, hqmax⟩ := centre_max_mem a hx (centre_in_range x (hr x hx) a).1
      exact ⟨p, q, hp, hq, by rw [← hpmin, ← hqmax]; exact hne⟩
  · rintro ⟨p, q, hp, hq, hne⟩ heq
    have h1 := centre_min_le a hp
    have h2 := le_centre_max a hp
    have h3 := centre_min_le a hq
    have h4 := le_centre_max a hq
    apply hne
    rw [heq] at h1 h3
    exact le_antisymm (le_trans h2 h3) (le_trans h4 h1)

theorem fmul_self_mono {x y : ℚ} (h0 : 0 ≤ x) (h : x ≤ y) : fmul x x ≤ fmul y y :=
  fmul_mono h h h0 h0

/-- The method `AABB::area` is monotone: a box inside another box has at most
its area. -/
theorem area_mono (A B : AABB) (h1 : Vec3.le B.min A.min) (h2 : Vec3.le A.max B.max)
    (h3 : Vec3.le A.min A.max) : A.area ≤ B.area := by
  obtain ⟨a1, a2, a3⟩ := h1
  obtain ⟨b1, b2, b3⟩ := h2
  obtain ⟨c1, c2, c3⟩ := h3
  have hsub : ∀ u v : Vec3, (u - v).x = fsub u.x v.x ∧ (u - v).y = fsub u.y v.y ∧
      (u - v).z = fsub u.z v.z := fun u v => ⟨rfl, rfl, rfl⟩
  unfold AABB.area
  simp only [hsub]
  exact fadd_mono (fadd_mono
    (fmul_self_mono (fsub_nonneg c1) (fsub_mono b1 a1))
    (fmul_self_mono (fsub_nonneg c2) (fsub_mono b2 a2)))
    (fmul_self_mono (fsub_nonneg c3) (fsub_mono b3 a3))

/-- The box of some of the triangles has at most the area of the box of all
of them. -/
theorem area_filter_le (S : List Triangle) (f : Triangle → Bool) (h : S.filter f ≠ []) :
    (bounds (S.filter f)).area ≤ (bounds S).area := by
  have hperm : (S.filter (fun x => f x || !f x)).Perm (S.filter f ++ S.filter (fun x => !f x)) :=
    filter_or_perm S f (fun x => !f x) (by
      intro x _ ⟨h1, h2⟩
      simp [h1] at h2)
  have hall : S.filter (fun x => f x || !f x) = S := by
    rw [List.filter_eq_self]
    intro x _
    simp
  rw [hall] at hperm
  have elo : lo S = Vec3.min (lo (S.filter f)) (lo (S.filter (fun x => !f x))) := by
    rw [lo_perm hperm, lo_append]
  have ehi : hi S = Vec3.max (hi (S.filter f)) (hi (S.filter (fun x => !f x))) := by
    rw [hi_perm hperm, hi_append]
  have h1 : Vec3.le (lo S) (lo (S.filter f)) := by
    rw [elo, Vec3.vmin_def]
    exact ⟨min_le_left _ _, min_le_left _ _, min_le_left _ _⟩
  have h2 : Vec3.le (hi (S.filter f)) (hi S) := by
    rw [ehi, Vec3.vmax_def]
    exact ⟨le_max_left _ _, le_max_left _ _, le_max_left _ _⟩
  exact area_mono (bounds (S.filter f)) (bounds S) h1 h2 (lo_le_hi h)

theorem area_nonneg (b : AABB) : 0 ≤ b.area :=
  fadd_nonneg (fadd_nonneg (fmul_self_nonneg _) (fmul_self_nonneg _)) (fmul_self_nonneg _)

/-- One side of a plane costs at most its number of triangles times the area
of the box of all triangles. -/
theorem side_cost_le (S : List Triangle) (f : Triangle → Bool) :
    side_cost (S.filter f) ≤ fmul (of_u32 (S.filter f).length) (bounds S).area := by
  unfold side_cost
  by_cases hf : S.filter f = []
  · rw [hf]
    simp only [List.length_nil]
    rw [of_u32_zero, fmul_zero_left, fmul_zero_left]
  · exact fmul_mono (le_refl _) (area_filter_le S f hf) (of_u32_nonneg _) (area_nonneg _)

/-- The sum `nL * area + nR * area` in binary32 against the product
`(nL + nR) * area`: the three roundings of the sum and the roundings of the
counts add at most `2 ^ (-21)` of the product and `2 ^ (-147)`. -/
theorem cost_tolerance (nl nr : Nat) (A : ℚ) (hA : 0 ≤ A) :
    fadd (fmul (of_u32 nl) A) (fmul (of_u32 nr) A) ≤
      fmul (of_u32 (nl + nr)) A * (1 + 1 / 2 ^ 21) + 1 / 2 ^ 147 := by
  obtain ⟨_, l2⟩ := of_u32_rel nl
  obtain ⟨_, r2⟩ := of_u32_rel nr
  obtain ⟨n1, _⟩ := of_u32_rel (nl + nr)
  have hl0 := of_u32_nonneg nl
  have hr0 := of_u32_nonneg nr
  have hn0 := of_u32_nonneg (nl + nr)
  have x2 := (fl_abs (of_u32 nl * A) (mul_nonneg hl0 hA)).2
  have y2 := (fl_abs (of_u32 nr * A) (mul_nonneg hr0 hA)).2
  have x0 : 0 ≤ fmul (of_u32 nl) A := fmul_nonneg hl0 hA
  have y0 : 0 ≤ fmul (of_u32 nr) A := fmul_nonneg hr0 hA
  have s2 := (fl_abs (fmul (of_u32 nl) A + fmul (of_u32 nr) A) (add_nonneg x0 y0)).2
  have c1 := (fl_abs (of_u32 (nl + nr) * A) (mul_nonneg hn0 hA)).1
  have hnl : (0 : ℚ) ≤ nl := Nat.cast_nonneg _
  have hnr : (0 : ℚ) ≤ nr := Nat.cast_nonneg _
  have la := mul_le_mul_of_nonneg_right l2 hA
  have ra := mul_le_mul_of_nonneg_right r2 hA
  have na := mul_le_mul_of_nonneg_right n1 hA
  push_cast at na
  have hP : 0 ≤ ((nl : ℚ) + nr) * A := mul_nonneg (add_nonneg hnl hnr) hA
  unfold fadd fmul at *
  generalize fl (fl (of_u32 nl * A) + fl (of_u32 nr * A)) = s at *
  generalize fl (of_u32 nl * A) = x at *
  generalize fl (of_u32 nr * A) = y at *
  generalize fl (of_u32 (nl + nr) * A) = c at *
  generalize of_u32 nl = cl at *
  generalize of_u32 nr = cr at *
  generalize of_u32 (nl + nr) = cn at *
  have hPl : 0 ≤ (nl : ℚ) * A := mul_nonneg hnl hA
  have hPr : 0 ≤ (nr : ℚ) * A := mul_nonneg hnr hA
  generalize (nl : ℚ) * A = pl at *
  generalize (nr : ℚ) * A = pr at *
  nlinarith [hPl, hPr]

theorem ex_in_range : ∀ p, p ∈ slice ex_prims 0 3 → p.in_range := by
  intro p hp
  have : p = ex_tri 4 ∨ p = ex_tri 0 ∨ p = ex_tri 8 := by
    simpa [slice, ex_prims] using hp
  rcases this with rfl | rfl | rfl <;>
    simp only [Triangle.in_range, Vec3.in_range, ex_tri] <;> norm_num

theorem big_in_range : ∀ p, p ∈ slice big_prims 0 3 → p.in_range := by
  intro p hp
  have : p = big_tri 4 ∨ p = big_tri 0 ∨ p = big_tri 8 := by
    simpa [slice, big_prims] using hp
  rcases this with rfl | rfl | rfl <;>
    simp only [Triangle.in_range, Vec3.in_range, big_tri] <;> norm_num

theorem near_in_range : ∀ p, p ∈ slice near_prims 0 3 → p.in_range := by
  intro p hp
  have : p = point_tri ⟨2 ^ 24, 0, 0⟩ ∨ p = point_tri ⟨2 ^ 24 + 2, 0, 0⟩ := by
    simpa [slice, near_prims] using hp
  rcases this with rfl | rfl <;>
    simp only [Triangle.in_range, Vec3.in_range, point_tri] <;> norm_num

theorem thin_in_range : ∀ p, p ∈ slice thin_prims 0 5 → p.in_range := by
  intro p hp
  have : p = thin_tri 0 ∨ p = thin_tri 1 := by
    simpa [slice, thin_prims] using hp
  rcases this with rfl | rfl <;>
    simp only [Triangle.in_range, Vec3.in_range, thin_tri] <;> norm_num

/-- What `find_best_split` returns on a node with at least one primitive, all
in range, in terms of the cost of the two sides that the bins give. -/
theorem find_best_split_bins (prims : List Triangle) (node : Node) (axis : Int) (t : ℚ)
    (hrange : node.left_first + node.prim_count ≤ prims.length) (hn : 0 < node.prim_count)
    (hr : ∀ p, p ∈ slice prims node.left_first node.prim_count → p.in_range) :
    ∃ s, find_best_split prims node axis t = .ok s ∧
      s.cost ≤ f1e30 ∧
      (∀ a i, a < 3 → i < 7 → Spread (slice prims node.left_first node.prim_count) a →
        s.cost ≤ bin_cost (slice prims node.left_first node.prim_count) a i) ∧
      (s.cost < f1e30 → ∃ a i, a < 3 ∧ i < 7 ∧
        Spread (slice prims node.left_first node.prim_count) a ∧
        s.axis = (a : Int) ∧
        s.t = plane_t (slice prims node.left_first node.prim_count) a i ∧
        s.cost = bin_cost (slice prims node.left_first node.prim_count) a i) ∧
      (s.cost = f1e30 → s.axis = axis ∧ s.t = t) ∧
      ((∀ a, a < 3 → ¬ Spread (slice prims node.left_first node.prim_count) a) →
        s = { cost := f1e30, axis := axis, t := t }) := by
  obtain ⟨s, hs, h1, h2, h3⟩ := find_best_split_spec prims node axis t hrange hn
  generalize hS : slice prims node.left_first node.prim_count = S at hr h2 h3 ⊢
  have hlenS : S.length = node.prim_count := by
    rw [← hS]
    exact length_slice _ _ _ hrange
  have hne : S ≠ [] := by
    intro e
    rw [e] at hlenS
    simp at hlenS
    omega
  obtain ⟨q0, hq0⟩ := List.exists_mem_of_ne_nil S hne
  have hlt : ∀ a, centre_min S a ≠ centre_max S a → centre_min S a < centre_max S a :=
    fun a h => lt_of_le_of_ne (le_trans (centre_min_le a hq0) (le_centre_max a hq0)) h
  refine ⟨s, hs, h1, ?_, ?_, ?_, ?_⟩
  · intro a i ha hi hsp
    have hc := (spread_iff S a hne hr).2 hsp
    rw [← plane_cost_eq S a i hi (hlt a hc) hr]
    exact h2 a ha hc i hi
  · intro hc
    rcases h3 with h3 | ⟨b, j, hb, hj, hsp, _, h3⟩
    · rw [h3] at hc
      exact absurd hc (lt_irrefl _)
    · refine ⟨b, j, hb, hj, (spread_iff S b hne hr).1 hsp, by rw [h3], by rw [h3], ?_⟩
      rw [h3]
      exact plane_cost_eq S b j hj (hlt b hsp) hr
  · intro hc
    rcases h3 with h3 | ⟨b, j, hb, hj, hsp, hcost, h3⟩
    · rw [h3]
      exact ⟨rfl, rfl⟩
    · rw [h3] at hc
      simp only at hc
      rw [hc] at hcost
      exact absurd hcost (lt_irrefl _)
  · intro hno
    rcases h3 with h3 | ⟨b, j, hb, hj, hsp, hcost, h3⟩
    · exact h3
    · exact absurd ((spread_iff S b hne hr).1 hsp) (hno b hb)

/-! ## The claims on find_best_split -/

/-- **C23** as stated fails on the code.  The three triangles of `big_prims`
are in range and have distinct centroids on axis 0, and every plane of every
axis costs more than `1e30`: `find_best_split` returns `1e30`, which is the
cost of no plane, and leaves `axis = -1` and `t = 0`, which are no plane.  On
the three point triangles of `near_prims` it returns the cost 0 with
`t = 2 ^ 24`, the first plane `bmin + 0.25` of axis 0 rounded, while no
centroid is below `2 ^ 24`: splitting at the plane `t` it outputs costs 12. -/
theorem best_split_above_sentinel :
    ((∀ p, p ∈ slice big_prims 0 3 → p.in_range) ∧
      Spread (slice big_prims 0 3) 0 ∧
      refit_node ⟨Vec3.splat 0, 0, Vec3.splat 0, 3⟩ big_prims =
        .ok ⟨⟨0, 0, 0⟩, 0, ⟨9 * 2 ^ 55, 2 ^ 55, 0⟩, 3⟩ ∧
      find_best_split big_prims ⟨⟨0, 0, 0⟩, 0, ⟨9 * 2 ^ 55, 2 ^ 55, 0⟩, 3⟩ (-1) 0 =
        .ok ⟨f1e30, -1, 0⟩ ∧
      ∀ a, a < 3 → ∀ i, i < 7 →
        f1e30 < sah_cost (slice big_prims 0 3) a (plane_t (slice big_prims 0 3) a i)) ∧
    ((∀ p, p ∈ slice near_prims 0 3 → p.in_range) ∧
      Spread (slice near_prims 0 3) 0 ∧
      find_best_split near_prims ⟨⟨2 ^ 24, 0, 0⟩, 0, ⟨2 ^ 24 + 2, 0, 0⟩, 3⟩ (-1) 0 =
        .ok ⟨0, 0, 2 ^ 24⟩ ∧
      plane_t (slice near_prims 0 3) 0 0 = 2 ^ 24 ∧
      sah_cost (slice near_prims 0 3) 0 (2 ^ 24) = 12) := by
  refine ⟨⟨big_in_range, ⟨big_tri 4, big_tri 0, by decide!, by decide!, by decide!⟩, by decide!,
    by decide!, by decide!⟩,
    ⟨near_in_range, ⟨point_tri ⟨2 ^ 24, 0, 0⟩, point_tri ⟨2 ^ 24 + 2, 0, 0⟩, by decide!,
      by decide!, by decide!⟩, by decide!, by decide!, by decide!⟩⟩

/-- **C23** (amended).  On a node with at least one primitive, all in range
and with a finite `scale` on every axis, `find_best_split` returns the least
of `1e30` and the costs `nL * areaL + nR * areaR`, in binary32, of the 7
planes of every axis on which the centroids are not all equal, where `L` are
the primitives that the second loop puts into the bins `0..i` of the axis and
`R` the others.  When the returned cost is below `1e30`, the axis and `t` it
outputs are the axis and the position `bmin + scale * (i + 1)`, rounded, of a
plane of that cost; when it is `1e30`, and so when no axis has distinct
centroids, `axis` and `t` are left untouched. -/
theorem find_best_split_min (prims : List Triangle) (node : Node) (axis : Int) (t : ℚ)
    (hrange : node.left_first + node.prim_count ≤ prims.length) (hn : 0 < node.prim_count)
    (hr : ∀ p, p ∈ slice prims node.left_first node.prim_count → p.in_range)
    (_hfin : scale_finite (slice prims node.left_first node.prim_count)) :
    ∃ s, find_best_split prims node axis t = .ok s ∧
      s.cost ≤ f1e30 ∧
      (∀ a i, a < 3 → i < 7 → Spread (slice prims node.left_first node.prim_count) a →
        s.cost ≤ bin_cost (slice prims node.left_first node.prim_count) a i) ∧
      (s.cost < f1e30 → ∃ a i, a < 3 ∧ i < 7 ∧
        Spread (slice prims node.left_first node.prim_count) a ∧
        s.axis = (a : Int) ∧
        s.t = plane_t (slice prims node.left_first node.prim_count) a i ∧
        s.cost = bin_cost (slice prims node.left_first node.prim_count) a i) ∧
      (s.cost = f1e30 → s.axis = axis ∧ s.t = t) ∧
      ((∀ a, a < 3 → ¬ Spread (slice prims node.left_first node.prim_count) a) →
        s = { cost := f1e30, axis := axis, t := t }) :=
  find_best_split_bins prims node axis t hrange hn hr

theorem find_best_split_min_witness :
    ((0 : Nat) + 3 ≤ ex_prims.length ∧ 0 < 3 ∧
      (∀ p, p ∈ slice ex_prims 0 3 → p.in_range) ∧ scale_finite (slice ex_prims 0 3)) ∧
    ∃ s, find_best_split ex_prims ⟨⟨0, 0, 0⟩, 0, ⟨9, 1, 0⟩, 3⟩ (-1) 0 = .ok s ∧
      s.cost ≤ f1e30 ∧
      (∀ a i, a < 3 → i < 7 → Spread (slice ex_prims 0 3) a →
        s.cost ≤ bin_cost (slice ex_prims 0 3) a i) ∧
      (s.cost < f1e30 → ∃ a i, a < 3 ∧ i < 7 ∧ Spread (slice ex_prims 0 3) a ∧
        s.axis = (a : Int) ∧ s.t = plane_t (slice ex_prims 0 3) a i ∧
        s.cost = bin_cost (slice ex_prims 0 3) a i) ∧
      (s.cost = f1e30 → s.axis = -1 ∧ s.t = 0) ∧
      ((∀ a, a < 3 → ¬ Spread (slice ex_prims 0 3) a) →
        s = { cost := f1e30, axis := -1, t := 0 }) :=
  have hfin : scale_finite (slice ex_prims 0 3) := by
    unfold scale_finite
    decide!
  ⟨⟨by decide, by decide, ex_in_range, hfin⟩,
    find_best_split_min ex_prims ⟨⟨0, 0, 0⟩, 0, ⟨9, 1, 0⟩, 3⟩ (-1) 0 (by decide) (by decide)
      ex_in_range hfin⟩

/-- **C27** as stated fails on the code.  The three triangles of `edge_prims`
lie in the plane `x = 1e30` and have distinct centroids on axis 1.  The box of
each bin has `min.x = 1e30`, which `AABB::grow` takes for an empty box, so
every plane costs more than `1e30` and `find_best_split` returns `1e30`; the
parent cost of the refitted node is `3 * 82 = 246`.  The five thin triangles
of `thin_prims` are in range and have distinct centroids on axis 0; the area
`1 + 8195 * 8195` of their box rounds to 67158024, the parent cost
`5 * 67158024` to 335790112, and the cost `2 * 67158024 + 3 * 67158024` of the
one way to split them to 335790144.  In both cases the exit
`split_cost >= parent_cost` is taken with unequal costs. -/
theorem split_cost_above_parent :
    (Spread (slice edge_prims 0 3) 1 ∧
      refit_node ⟨Vec3.splat 0, 0, Vec3.splat 0, 3⟩ edge_prims =
        .ok ⟨⟨f1e30, 0, 0⟩, 0, ⟨f1e30, 9, 1⟩, 3⟩ ∧
      find_best_split edge_prims ⟨⟨f1e30, 0, 0⟩, 0, ⟨f1e30, 9, 1⟩, 3⟩ (-1) 0 =
        .ok ⟨f1e30, -1, 0⟩ ∧
      fmul (of_u32 3) ({ min := ⟨f1e30, 0, 0⟩, max := ⟨f1e30, 9, 1⟩ } : AABB).area = 246 ∧
      ({} : Bvh).build (some edge_prims) (some ex_norms) 3 =
        .ok { nodes := some [⟨⟨f1e30, 0, 0⟩, 0, ⟨f1e30, 9, 1⟩, 3⟩, Node.zero, Node.zero,
                             Node.zero, Node.zero, Node.zero],
              nodes_used := 2, size := 3, prims := some edge_prims, norms := some ex_norms,
              prim_count := 3,
              gpu_nodes := some [{ GPUNode.zero with prim_count := 3 }, GPUNode.zero] }) ∧
    ((∀ p, p ∈ slice thin_prims 0 5 → p.in_range) ∧
      Spread (slice thin_prims 0 5) 0 ∧
      refit_node ⟨Vec3.splat 0, 0, Vec3.splat 0, 5⟩ thin_prims =
        .ok ⟨⟨0, 0, 0⟩, 0, ⟨1, 8195, 0⟩, 5⟩ ∧
      find_best_split thin_prims ⟨⟨0, 0, 0⟩, 0, ⟨1, 8195, 0⟩, 5⟩ (-1) 0 =
        .ok ⟨335790144, 0, 1 / 8⟩ ∧
      fmul (of_u32 5) ({ min := ⟨0, 0, 0⟩, max := ⟨1, 8195, 0⟩ } : AABB).area = 335790112 ∧
      ({} : Bvh).build (some thin_prims) (some thin_norms) 5 =
        .ok { nodes := some ([⟨⟨0, 0, 0⟩, 0, ⟨1, 8195, 0⟩, 5⟩] ++ List.replicate 9 Node.zero),
              nodes_used := 2, size := 5, prims := some thin_prims, norms := some thin_norms,
              prim_count := 5,
              gpu_nodes := some [{ GPUNode.zero with prim_count := 5 }, GPUNode.zero] }) := by
  refine ⟨⟨⟨edge_tri 4, edge_tri 0, by decide!, by decide!, by decide!⟩, by decide!, by decide!,
    by decide!, by decide!⟩,
    ⟨thin_in_range, ⟨thin_tri 0, thin_tri 1, by decide!, by decide!, by decide!⟩, by decide!,
      by decide!, by decide!, by decide!⟩⟩

/-- **C27** (amended).  On a node with at least one primitive, all in range
and with a finite `scale` on every axis, whose box is the refit bound of its
primitives and on which at least one axis has distinct centroids, the cost
`find_best_split` returns is at most the parent cost
`prim_count * (e.x * e.x + e.y * e.y + e.z * e.z)` of `subdivide`, with
`e = max - min`, up to the rounding of binary32: at most the parent cost times
`1 + 2 ^ (-21)` plus `2 ^ (-147)`. -/
theorem split_cost_le_parent (prims : List Triangle) (node : Node) (axis : Int) (t : ℚ)
    (hrange : node.left_first + node.prim_count ≤ prims.length) (hn : 0 < node.prim_count)
    (hr : ∀ p, p ∈ slice prims node.left_first node.prim_count → p.in_range)
    (_hfin : scale_finite (slice prims node.left_first node.prim_count))
    (hmin : node.min = lo (slice prims node.left_first node.prim_count))
    (hmax : node.max = hi (slice prims node.left_first node.prim_count))
    (hsp : ∃ a, a < 3 ∧ Spread (slice prims node.left_first node.prim_count) a) :
    ∃ s, find_best_split prims node axis t = .ok s ∧
      s.cost ≤ fmul (of_u32 node.prim_count)
        (fadd (fadd (fmul (node.max - node.min).x (node.max - node.min).x)
            (fmul (node.max - node.min).y (node.max - node.min).y))
          (fmul (node.max - node.min).z (node.max - node.min).z)) * (1 + 1 / 2 ^ 21) +
        1 / 2 ^ 147 := by
  obtain ⟨s, hs, _, h2, _⟩ := find_best_split_bins prims node axis t hrange hn hr
  obtain ⟨a, ha, hspa⟩ := hsp
  have h := h2 a 0 ha (by omega) hspa
  generalize hS : slice prims node.left_first node.prim_count = S at h hmin hmax
  have hlenS : S.length = node.prim_count := by
    rw [← hS]
    exact length_slice _ _ _ hrange
  have harea : (bounds S).area =
      fadd (fadd (fmul (node.max - node.min).x (node.max - node.min).x)
          (fmul (node.max - node.min).y (node.max - node.min).y))
        (fmul (node.max - node.min).z (node.max - node.min).z) := by
    rw [hmin, hmax]
    rfl
  have hperm : (S.filter (fun x => decide (bin_of S a x ≤ 0) || !decide (bin_of S a x ≤ 0))).Perm
      (S.filter (fun x => decide (bin_of S a x ≤ 0)) ++
        S.filter (fun x => !decide (bin_of S a x ≤ 0))) :=
    filter_or_perm S _ (fun x => !decide (bin_of S a x ≤ 0)) (by
      intro x _ ⟨h1, h2⟩
      simp only [h1, Bool.not_true, Bool.false_eq_true] at h2)
  have hall : S.filter (fun x => decide (bin_of S a x ≤ 0) || !decide (bin_of S a x ≤ 0)) = S := by
    rw [List.filter_eq_self]
    intro x _
    simp
  rw [hall] at hperm
  have hlen : (S.filter (fun x => decide (bin_of S a x ≤ 0))).length +
      (S.filter (fun x => !decide (bin_of S a x ≤ 0))).length = node.prim_count := by
    rw [← hlenS, hperm.length_eq, List.length_append]
  have hb : bin_cost S a 0 ≤
      fadd (fmul (of_u32 (S.filter (fun x => decide (bin_of S a x ≤ 0))).length) (bounds S).area)
        (fmul (of_u32 (S.filter (fun x => !decide (bin_of S a x ≤ 0))).length)
          (bounds S).area) :=
    fadd_mono (side_cost_le S _) (side_cost_le S _)
  have ht := cost_tolerance (S.filter (fun x => decide (bin_of S a x ≤ 0))).length
    (S.filter (fun x => !decide (bin_of S a x ≤ 0))).length (bounds S).area (area_nonneg _)
  rw [hlen, harea] at ht
  rw [harea] at hb
  exact ⟨s, hs, le_trans h (le_trans hb ht)⟩

theorem split_cost_le_parent_witness :
    ((0 : Nat) + 3 ≤ ex_prims.length ∧ 0 < 3 ∧
      (∀ p, p ∈ slice ex_prims 0 3 → p.in_range) ∧ scale_finite (slice ex_prims 0 3) ∧
      (⟨0, 0, 0⟩ : Vec3) = lo (slice ex_prims 0 3) ∧ (⟨9, 1, 0⟩ : Vec3) = hi (slice ex_prims 0 3) ∧
      ∃ a, a < 3 ∧ Spread (slice ex_prims 0 3) a) ∧
    ∃ s, find_best_split ex_prims ⟨⟨0, 0, 0⟩, 0, ⟨9, 1, 0⟩, 3⟩ (-1) 0 = .ok s ∧
      s.cost ≤ fmul (of_u32 3)
        (fadd (fadd (fmul ((⟨9, 1, 0⟩ : Vec3) - ⟨0, 0, 0⟩).x ((⟨9, 1, 0⟩ : Vec3) - ⟨0, 0, 0⟩).x)
            (fmul ((⟨9, 1, 0⟩ : Vec3) - ⟨0, 0, 0⟩).y ((⟨9, 1, 0⟩ : Vec3) - ⟨0, 0, 0⟩).y))
          (fmul ((⟨9, 1, 0⟩ : Vec3) - ⟨0, 0, 0⟩).z ((⟨9, 1, 0⟩ : Vec3) - ⟨0, 0, 0⟩).z)) *
          (1 + 1 / 2 ^ 21) + 1 / 2 ^ 147 :=
  have h1 : (⟨0, 0, 0⟩ : Vec3) = lo (slice ex_prims 0 3) := by decide!
  have h2 : (⟨9, 1, 0⟩ : Vec3) = hi (slice ex_prims 0 3) := by decide!
  have h3 : ∃ a, a < 3 ∧ Spread (slice ex_prims 0 3) a :=
    ⟨0, by decide, ex_tri 4, ex_tri 0, by decide!, by decide!, by decide!⟩
  have hfin : scale_finite (slice ex_prims 0 3) := by
    unfold scale_finite
    decide!
  ⟨⟨by decide, by decide, ex_in_range, hfin, h1, h2, h3⟩,
    split_cost_le_parent ex_prims ⟨⟨0, 0, 0⟩, 0, ⟨9, 1, 0⟩, 3⟩ (-1) 0 (by decide) (by decide)
      ex_in_range hfin h1 h2 h3⟩

/-! ## A chain of internal nodes and the traversal stack -/

theorem centre_min_perm {A B : List Triangle} (h : A.Perm B) (a : Nat) :
    centre_min A a = centre_min B a := by
  unfold centre_min
  haveI : RightCommutative (fun (bmin : ℚ) (p : Triangle) => fminf bmin (p.centre a)) :=
    ⟨fun x p q => by
      simp only [fminf_eq]
      rw [min_assoc, min_comm (p.centre a), ← min_assoc]⟩
  exact h.foldl_eq _

theorem centre_max_perm {A B : List Triangle} (h : A.Perm B) (a : Nat) :
    centre_max A a = centre_max B a := by
  unfold centre_max
  haveI : RightCommutative (fun (bmax : ℚ) (p : Triangle) => fmaxf bmax (p.centre a)) :=
    ⟨fun x p q => by
      simp only [fmaxf_eq]
      rw [max_assoc, max_comm (p.centre a), ← max_assoc]⟩
  exact h.foldl_eq _

theorem plane_t_perm {A B : List Triangle} (h : A.Perm B) (a i : Nat) :
    plane_t A a i = plane_t B a i := by
  unfold plane_t
  rw [centre_min_perm h, centre_max_perm h]

theorem spread_perm {A B : List Triangle} (h : A.Perm B) (a : Nat) :
    Spread A a ↔ Spread B a := by
  unfold Spread
  constructor
  · rintro ⟨p, q, hp, hq, hne⟩
    exact ⟨p, q, h.mem_iff.1 hp, h.mem_iff.1 hq, hne⟩
  · rintro ⟨p, q, hp, hq, hne⟩
    exact ⟨p, q, h.mem_iff.2 hp, h.mem_iff.2 hq, hne⟩

theorem bin_of_perm {A B : List Triangle} (h : A.Perm B) (a : Nat) :
    bin_of A a = bin_of B a := by
  funext p
  unfold bin_of bin_scale
  rw [centre_min_perm h, centre_max_perm h]

theorem bin_cost_perm {A B : List Triangle} (h : A.Perm B) (a i : Nat) :
    bin_cost A a i = bin_cost B a i := by
  unfold bin_cost side_cost
  rw [bin_of_perm h a, (h.filter _).length_eq, bounds_perm (h.filter _),
    (h.filter (fun p => !decide (bin_of B a p ≤ i))).length_eq,
    bounds_perm (h.filter (fun p => !decide (bin_of B a p ≤ i)))]

theorem le_fold_vmin (vs : List Vec3) (c : Vec3) :
    ∀ e : Vec3, Vec3.le c e → (∀ v, v ∈ vs → Vec3.le c v) → Vec3.le c (vs.foldl Vec3.min e) := by
  induction vs with
  | nil => intro e he _; exact he
  | cons v vs ih =>
    intro e he h
    rw [List.foldl_cons]
    apply ih
    · have hv := h v (List.mem_cons_self _ _)
      unfold Vec3.le Vec3.min at *
      simp only
      refine ⟨?_, ?_, ?_⟩ <;> split_ifs <;> simp only [hv.1, hv.2.1, hv.2.2, he.1, he.2.1, he.2.2]
    · intro w hw
      exact h w (List.mem_cons_of_mem _ hw)

theorem fold_vmax_le (vs : List Vec3) (c : Vec3) :
    ∀ e : Vec3, Vec3.le e c → (∀ v, v ∈ vs → Vec3.le v c) → Vec3.le (vs.foldl Vec3.max e) c := by
  induction vs with
  | nil => intro e he _; exact he
  | cons v vs ih =>
    intro e he h
    rw [List.foldl_cons]
    apply ih
    · have hv := h v (List.mem_cons_self _ _)
      unfold Vec3.le Vec3.max at *
      simp only
      refine ⟨?_, ?_, ?_⟩ <;> split_ifs <;> simp only [hv.1, hv.2.1, hv.2.2, he.1, he.2.1, he.2.2]
    · intro w hw
      exact h w (List.mem_cons_of_mem _ hw)

/-- A lower bound of the vertices that is at most `1e30` is a lower bound of
the least corner. -/
theorem le_lo (S : List Triangle) (c : Vec3) (hc : Vec3.le c (Vec3.splat f1e30))
    (h : ∀ p, p ∈ S → Vec3.le c p.v0 ∧ Vec3.le c p.v1 ∧ Vec3.le c p.v2) :
    Vec3.le c (lo S) := by
  unfold lo
  apply le_fold_vmin _ _ _ hc
  intro v hv
  obtain ⟨p, hp, hv⟩ := List.mem_flatMap.1 hv
  simp only [List.mem_cons, List.mem_singleton, List.not_mem_nil, or_false] at hv
  rcases hv with rfl | rfl | rfl
  · exact (h p hp).1
  · exact (h p hp).2.1
  · exact (h p hp).2.2

/-- An upper bound of the vertices that is at least `-1e30` is an upper bound
of the greatest corner. -/
theorem hi_le (S : List Triangle) (c : Vec3) (hc : Vec3.le (Vec3.splat (-f1e30)) c)
    (h : ∀ p, p ∈ S → Vec3.le p.v0 c ∧ Vec3.le p.v1 c ∧ Vec3.le p.v2 c) :
    Vec3.le (hi S) c := by
  unfold hi
  apply fold_vmax_le _ _ _ hc
  intro v hv
  obtain ⟨p, hp, hv⟩ := List.mem_flatMap.1 hv
  simp only [List.mem_cons, List.mem_singleton, List.not_mem_nil, or_false] at hv
  rcases hv with rfl | rfl | rfl
  · exact (h p hp).1
  · exact (h p hp).2.1
  · exact (h p hp).2.2

/-- The loop overflows its stack on a chain of internal nodes that is longer
than the room left on the stack allows: every internal node of the chain
pushes two entries before the loop descends to its left child. -/
theorem flatten_spine (nodes : List Node) :
    ∀ (d fuel : Nat) (s : Flat), Spine nodes s.node_ptr d → s.stack.length % 2 = 0 →
      s.stack.length ≤ 128 → 130 ≤ s.stack.length + 2 * d → d ≤ fuel →
      s.alt_node + d ≤ s.gpu_nodes.length →
      flatten nodes fuel s = .error .stack_index := by
  intro d
  induction d with
  | zero =>
    intro fuel s _ _ h1 h2 _ _
    omega
  | succ d ih =>
    intro fuel s hsp heven hle hge hfuel hgpu
    obtain ⟨fuel, rfl⟩ : ∃ f, fuel = f + 1 := ⟨fuel - 1, by omega⟩
    obtain ⟨nd, l, r, hnd, hcount, hl, hr, hsp⟩ := hsp
    rw [flatten, rd_ok_iff.2 hnd]
    simp only
    have hleaf : nd.is_leaf = false := by simp [Node.is_leaf, hcount]
    rw [hleaf]
    simp only [Bool.false_eq_true, if_false]
    rw [rd_ok_iff.2 hl, rd_ok_iff.2 hr]
    simp only
    rw [upd_gpu_ok _ _ _ (by omega)]
    simp only
    by_cases hfull : s.stack.length < 128
    · have h126 : s.stack.length ≤ 126 := by omega
      rw [push, if_pos hfull]
      simp only
      rw [push, if_pos (by simp only [List.length_cons]; omega)]
      simp only
      exact ih fuel _ hsp (by simp only [List.length_cons]; omega)
        (by simp only [List.length_cons]; omega) (by simp only [List.length_cons]; omega)
        (by omega) (by simp only [length_gmod]; omega)
    · rw [push, if_neg hfull]

/-! ## Powers of two in binary32 -/

theorem fl_zpow (k : Nat) (E : Int) (hk : k < 2 ^ 24) (hE : -149 ≤ E) :
    fl ((k : ℚ) * 2 ^ E) = (k : ℚ) * 2 ^ E := by
  have := fl_exact (k : Int) E (by simpa using hk) hE
  simpa using this

theorem fl_two_zpow (E : Int) (hE : -149 ≤ E) : fl (2 ^ E) = 2 ^ E := by
  have := fl_zpow 1 E (by norm_num) hE
  simpa using this

/-- The centroid `(c + c + c) / 3.0f` of a point at a power of two is the
point. -/
theorem centroid_pow (E : Int) (hE : -149 ≤ E) :
    fdiv (fadd (fadd (2 ^ E) (2 ^ E)) (2 ^ E)) 3 = 2 ^ E := by
  have h2 := fl_zpow 2 E (by norm_num) hE
  have h3 := fl_zpow 3 E (by norm_num) hE
  have h1 := fl_two_zpow E hE
  have e2 : (2 : ℚ) ^ E + 2 ^ E = ((2 : Nat) : ℚ) * 2 ^ E := by push_cast; ring
  have e3 : ((2 : Nat) : ℚ) * 2 ^ E + 2 ^ E = ((3 : Nat) : ℚ) * 2 ^ E := by push_cast; ring
  have e1 : ((3 : Nat) : ℚ) * 2 ^ E / 3 = 2 ^ E := by push_cast; ring
  unfold fdiv fadd
  rw [e2, h2, e3, h3, e1, h1]

theorem centroid_zero : fdiv (fadd (fadd 0 0) 0) 3 = 0 := by
  unfold fdiv fadd
  simp [fl_zero]

/-- The planes of an axis on which the centroids range from 0 to a power of
two are computed without rounding. -/
theorem plane_exact (E : Int) (hE : -50 ≤ E) (k : Nat) (hk : k < 2 ^ 24) :
    fadd 0 (fmul (fdiv (fsub (2 ^ E) 0) 8) (k : ℚ)) = 2 ^ E / 8 * (k : ℚ) := by
  have hu : (2 : ℚ) ^ E = 8 * 2 ^ (E - 3) := by
    rw [zpow_sub₀ (by norm_num)]
    norm_num
    field_simp
  have h8 := fl_zpow 8 (E - 3) (by norm_num) (by omega)
  have h1 := fl_two_zpow (E - 3) (by omega)
  have hk' := fl_zpow k (E - 3) hk (by omega)
  rw [hu]
  generalize (2 : ℚ) ^ (E - 3) = u at *
  push_cast at h8
  unfold fadd fmul fdiv fsub
  rw [sub_zero, h8, show 8 * u / 8 = u by ring, h1, zero_add, mul_comm u, hk', hk']

/-- The value `scale` of an axis on which the centroids range from 0 to a
power of two. -/
theorem scale_exact (E : Int) (hE : -50 ≤ E) (hE' : E ≤ 50) :
    fdiv 8 (fsub (2 ^ E) 0) = 2 ^ (3 - E) := by
  have h1 := fl_two_zpow E (by omega)
  have h2 := fl_two_zpow (3 - E) (by omega)
  unfold fdiv fsub
  rw [sub_zero, h1]
  have e : (8 : ℚ) / 2 ^ E = 2 ^ (3 - E) := by
    rw [zpow_sub₀ (by norm_num)]
    norm_num
  rw [e, h2]

theorem to_int_zero (q : ℚ) (h0 : 0 ≤ q) (h1 : q < 1) : to_int q = 0 := by
  rw [to_int_floor q h0]
  exact Int.floor_eq_zero_iff.2 ⟨h0, h1⟩

theorem bin_zero (scale : ℚ) : bin_index 0 scale 0 = 0 := by
  unfold bin_index
  have : fmul (fsub 0 0) scale = 0 := by
    unfold fmul fsub
    simp [fl_zero]
  rw [this, of_u32_bins.2, fminf_eq, min_eq_right (by norm_num)]
  rfl

theorem bin_top (E : Int) (hE : -50 ≤ E) (hE' : E ≤ 50) :
    bin_index 0 (2 ^ (3 - E)) (2 ^ E) = 7 := by
  unfold bin_index
  have h1 := fl_two_zpow E (by omega)
  have h8 := fl_zpow 8 0 (by norm_num) (by norm_num)
  simp only [Nat.cast_ofNat, zpow_zero, mul_one] at h8
  have : fmul (fsub (2 ^ E) 0) (2 ^ (3 - E)) = 8 := by
    unfold fmul fsub
    rw [sub_zero, h1, ← zpow_add₀ (by norm_num)]
    have : E + (3 - E) = 3 := by ring
    rw [this]
    norm_num
    exact h8
  rw [this, of_u32_bins.2, fminf_eq, min_eq_left (by norm_num), to_int_floor _ (by norm_num)]
  norm_num
  rfl

theorem bin_low (E e : Int) (hE : -50 ≤ E) (hE' : E ≤ 50) (he0 : -50 ≤ e)
    (he : e + 4 ≤ E) : bin_index 0 (2 ^ (3 - E)) (2 ^ e) = 0 := by
  unfold bin_index
  have h1 := fl_two_zpow e (by omega)
  have h2 := fl_two_zpow (e + (3 - E)) (by omega)
  have hv : fmul (fsub (2 ^ e) 0) (2 ^ (3 - E)) = 2 ^ (e + (3 - E)) := by
    unfold fmul fsub
    rw [sub_zero, h1, ← zpow_add₀ (by norm_num), h2]
  have hle : (2 : ℚ) ^ (e + (3 - E)) ≤ 2 ^ (-1 : Int) := two_zpow_le (by omega)
  have hhalf : (2 : ℚ) ^ (-1 : Int) = 1 / 2 := by norm_num
  rw [hhalf] at hle
  have hpos := two_zpow_pos (e + (3 - E))
  rw [hv, of_u32_bins.2, fminf_eq, min_eq_right (by linarith),
    to_int_zero _ hpos.le (by linarith)]
  rfl

/-! ## The triangles of the ladder -/

theorem rung_val (i : Nat) : (16 : ℚ) ^ (i + 1) / 2 ^ 44 = 2 ^ (4 * (i : Int) - 40) := by
  have h : (2 : ℚ) ^ (4 * (i : Int) - 40) = (2 ^ 4) ^ i / 2 ^ 40 := by
    rw [zpow_sub₀ (by norm_num), zpow_mul, zpow_natCast]
    norm_num
  rw [h, pow_succ]
  norm_num
  field_simp
  ring

theorem rung_exact (i : Nat) :
    fdiv (fadd (fadd (16 ^ (i + 1) / 2 ^ 44) (16 ^ (i + 1) / 2 ^ 44)) (16 ^ (i + 1) / 2 ^ 44)) 3 =
      16 ^ (i + 1) / 2 ^ 44 := by
  rw [rung_val]
  exact centroid_pow _ (by omega)

/-- The centroid of a point triangle is the point, on an axis on which
`(c + c + c) / 3.0f` gives the coordinate `c` of the point. -/
theorem centre_point_tri (v : Vec3) (a : Nat)
    (h : fdiv (fadd (fadd (v.comp a) (v.comp a)) (v.comp a)) 3 = v.comp a) :
    (point_tri v).centre a = v.comp a := by
  have e : (point_tri v).get_centroid = ⟨fdiv (fadd (fadd v.x v.x) v.x) 3,
      fdiv (fadd (fadd v.y v.y) v.y) 3, fdiv (fadd (fadd v.z v.z) v.z) 3⟩ := rfl
  unfold Triangle.centre
  rw [e]
  unfold Vec3.comp at h ⊢
  split_ifs at h ⊢ <;> exact h

theorem comp_axis_point (a b : Nat) (c : ℚ) (ha : a < 3) (hb : b < 3) :
    (axis_point a c).comp b = if a = b then c else 0 := by
  interval_cases a <;> interval_cases b <;> simp [axis_point, Vec3.comp]

theorem centre_rung (a b i : Nat) (ha : a < 3) (hb : b < 3) :
    (rung a i).centre b = if a = b then 16 ^ (i + 1) / 2 ^ 44 else 0 := by
  unfold rung
  have hc := comp_axis_point a b (16 ^ (i + 1) / 2 ^ 44) ha hb
  rw [centre_point_tri _ _ (by
    rw [hc]
    split_ifs
    · exact rung_exact i
    · exact centroid_zero), hc]

theorem centre_origin (b : Nat) : (point_tri ⟨0, 0, 0⟩).centre b = 0 := by
  rw [centre_point_tri _ _ (by
    unfold Vec3.comp
    split_ifs <;> exact centroid_zero)]
  unfold Vec3.comp
  split_ifs <;> rfl

theorem rung_pos (i : Nat) : (0 : ℚ) < 16 ^ (i + 1) / 2 ^ 44 := by positivity

theorem rung_le (i n : Nat) (h : i < n) : (16 : ℚ) ^ (i + 1) / 2 ^ 44 ≤ 16 ^ n / 2 ^ 44 := by
  apply div_le_div_of_nonneg_right _ (by positivity)
  exact pow_le_pow_right₀ (by norm_num) (by omega)

theorem rung_lt_sentinel (i : Nat) (h : i < 22) : (16 : ℚ) ^ (i + 1) / 2 ^ 44 ≤ 2 ^ 44 := by
  refine le_trans (rung_le i 22 h) ?_
  norm_num

theorem mem_ladder (kx ky kz : Nat) (p : Triangle) :
    p ∈ ladder kx ky kz ↔ p = point_tri ⟨0, 0, 0⟩ ∨ (∃ i, i < kx ∧ p = rung 0 i) ∨
      (∃ i, i < ky ∧ p = rung 1 i) ∨ ∃ i, i < kz ∧ p = rung 2 i := by
  unfold ladder rungs
  simp only [List.mem_append, List.mem_cons, List.mem_singleton, List.not_mem_nil, or_false,
    List.mem_map, List.mem_range, or_self]
  constructor
  · rintro (((h | ⟨i, hi, rfl⟩) | ⟨i, hi, rfl⟩) | ⟨i, hi, rfl⟩)
    · exact Or.inl h
    · exact Or.inr (Or.inl ⟨i, hi, rfl⟩)
    · exact Or.inr (Or.inr (Or.inl ⟨i, hi, rfl⟩))
    · exact Or.inr (Or.inr (Or.inr ⟨i, hi, rfl⟩))
  · rintro (h | ⟨i, hi, rfl⟩ | ⟨i, hi, rfl⟩ | ⟨i, hi, rfl⟩)
    · exact Or.inl (Or.inl (Or.inl h))
    · exact Or.inl (Or.inl (Or.inr ⟨i, hi, rfl⟩))
    · exact Or.inl (Or.inr ⟨i, hi, rfl⟩)
    · exact Or.inr ⟨i, hi, rfl⟩

theorem length_ladder (kx ky kz : Nat) : (ladder kx ky kz).length = kx + ky + kz + 2 := by
  unfold ladder rungs
  simp only [List.length_append, List.length_cons, List.length_nil, List.length_map,
    List.length_range]
  omega

/-- Every triangle of the ladder is a point triangle of which the coordinates
are between 0 and `2 ^ 44`. -/
theorem ladder_point (kx ky kz : Nat) (hx : kx ≤ 22) (hy : ky ≤ 22) (hz : kz ≤ 22)
    (p : Triangle) (hp : p ∈ ladder kx ky kz) :
    ∃ v : Vec3, p = point_tri v ∧ Vec3.le ⟨0, 0, 0⟩ v ∧ Vec3.le v (Vec3.splat (2 ^ 44)) := by
  have h0 : ((0 : ℚ) ≤ 0 ∧ (0 : ℚ) ≤ 0 ∧ (0 : ℚ) ≤ 0) ∧
      ((0 : ℚ) ≤ 2 ^ 44 ∧ (0 : ℚ) ≤ 2 ^ 44 ∧ (0 : ℚ) ≤ 2 ^ 44) := by norm_num
  rcases (mem_ladder kx ky kz p).1 hp with h | ⟨i, hi, h⟩ | ⟨i, hi, h⟩ | ⟨i, hi, h⟩
  · exact ⟨⟨0, 0, 0⟩, h, h0.1, h0.2⟩
  · refine ⟨axis_point 0 (16 ^ (i + 1) / 2 ^ 44), h, ?_, ?_⟩
    · exact ⟨(rung_pos i).le, le_refl _, le_refl _⟩
    · exact ⟨rung_lt_sentinel i (by omega), h0.2.1, h0.2.1⟩
  · refine ⟨axis_point 1 (16 ^ (i + 1) / 2 ^ 44), h, ?_, ?_⟩
    · exact ⟨le_refl _, (rung_pos i).le, le_refl _⟩
    · exact ⟨h0.2.1, rung_lt_sentinel i (by omega), h0.2.1⟩
  · refine ⟨axis_point 2 (16 ^ (i + 1) / 2 ^ 44), h, ?_, ?_⟩
    · exact ⟨le_refl _, le_refl _, (rung_pos i).le⟩
    · exact ⟨h0.2.1, h0.2.1, rung_lt_sentinel i (by omega)⟩

theorem pow44_lt : (2 : ℚ) ^ 44 < f1e30 := by
  unfold f1e30
  norm_num

theorem point_in_range (v : Vec3) (h0 : Vec3.le ⟨0, 0, 0⟩ v)
    (h1 : Vec3.le v (Vec3.splat (2 ^ 44))) : (point_tri v).in_range := by
  have hs : (2 : ℚ) ^ 44 < 2 ^ 99 := by norm_num
  have hn : -(2 : ℚ) ^ 99 < 0 := by norm_num
  obtain ⟨a1, a2, a3⟩ := h0
  obtain ⟨b1, b2, b3⟩ := h1
  simp only [Vec3.splat] at a1 a2 a3 b1 b2 b3
  have hv : v.in_range :=
    ⟨⟨by linarith, by linarith⟩, ⟨by linarith, by linarith⟩, ⟨by linarith, by linarith⟩⟩
  exact ⟨hv, hv, hv⟩

theorem ladder_in_range (kx ky kz : Nat) (hx : kx ≤ 22) (hy : ky ≤ 22) (hz : kz ≤ 22)
    (p : Triangle) (hp : p ∈ ladder kx ky kz) : p.in_range := by
  obtain ⟨v, rfl, h0, h1⟩ := ladder_point kx ky kz hx hy hz p hp
  exact point_in_range v h0 h1

theorem ladder_ne_nil (kx ky kz : Nat) : ladder kx ky kz ≠ [] := by
  intro h
  have := length_ladder kx ky kz
  rw [h] at this
  simp at this

/-- The box of the ladder lies between the origin and `2 ^ 44`. -/
theorem ladder_box (kx ky kz : Nat) (hx : kx ≤ 22) (hy : ky ≤ 22) (hz : kz ≤ 22) :
    Vec3.le ⟨0, 0, 0⟩ (lo (ladder kx ky kz)) ∧
      Vec3.le (hi (ladder kx ky kz)) (Vec3.splat (2 ^ 44)) := by
  have hs := pow44_lt
  constructor
  · apply le_lo
    · simp only [Vec3.le, Vec3.splat]
      have : (0 : ℚ) ≤ f1e30 := by linarith [show (0 : ℚ) < 2 ^ 44 by positivity]
      exact ⟨this, this, this⟩
    · intro p hp
      obtain ⟨v, rfl, h0, _⟩ := ladder_point kx ky kz hx hy hz p hp
      exact ⟨h0, h0, h0⟩
  · apply hi_le
    · simp only [Vec3.le, Vec3.splat]
      have : -f1e30 ≤ (2 : ℚ) ^ 44 := by linarith [show (0 : ℚ) < 2 ^ 44 by positivity]
      exact ⟨this, this, this⟩
    · intro p hp
      obtain ⟨v, rfl, _, h1⟩ := ladder_point kx ky kz hx hy hz p hp
      exact ⟨h1, h1, h1⟩

theorem fl_pow44 : fl (2 ^ 44) = 2 ^ 44 ∧ fl (2 ^ 88) = 2 ^ 88 ∧ fl (2 ^ 89) = 2 ^ 89 ∧
    fl (3 * 2 ^ 88) = 3 * 2 ^ 88 ∧ fl (204 * 2 ^ 88) = 204 * 2 ^ 88 := by
  refine ⟨by decide!, by decide!, by decide!, by decide!, by decide!⟩

theorem sq_le_sq_of (a b : ℚ) (h0 : 0 ≤ a) (h : a ≤ b) : a * a ≤ b * b :=
  mul_le_mul h h h0 (le_trans h0 h)

/-- The area of the box of the ladder is at most `3 * 2 ^ 88`. -/
theorem ladder_area_le (kx ky kz : Nat) (hx : kx ≤ 22) (hy : ky ≤ 22) (hz : kz ≤ 22) :
    (bounds (ladder kx ky kz)).area ≤ 3 * 2 ^ 88 := by
  obtain ⟨⟨a1, a2, a3⟩, ⟨b1, b2, b3⟩⟩ := ladder_box kx ky kz hx hy hz
  obtain ⟨c1, c2, c3⟩ := lo_le_hi (ladder_ne_nil kx ky kz)
  simp only [Vec3.splat] at a1 a2 a3 b1 b2 b3
  obtain ⟨p44, p88, p89, p3, _⟩ := fl_pow44
  have hsub : ∀ u v : Vec3, (u - v).x = fsub u.x v.x ∧ (u - v).y = fsub u.y v.y ∧
      (u - v).z = fsub u.z v.z := fun u v => ⟨rfl, rfl, rfl⟩
  have side : ∀ h l : ℚ, 0 ≤ l → l ≤ h → h ≤ 2 ^ 44 →
      0 ≤ fmul (fsub h l) (fsub h l) ∧ fmul (fsub h l) (fsub h l) ≤ 2 ^ 88 := by
    intro h l hl hlh hh
    have e0 : 0 ≤ fsub h l := fsub_nonneg hlh
    have e1 : fsub h l ≤ 2 ^ 44 := fl_le_of_le (by linarith) p44
    refine ⟨fmul_nonneg e0 e0, fl_le_of_le ?_ p88⟩
    have := sq_le_sq_of _ _ e0 e1
    calc fsub h l * fsub h l ≤ 2 ^ 44 * 2 ^ 44 := this
      _ = 2 ^ 88 := by norm_num
  obtain ⟨x0, x1⟩ := side _ _ a1 c1 b1
  obtain ⟨y0, y1⟩ := side _ _ a2 c2 b2
  obtain ⟨z0, z1⟩ := side _ _ a3 c3 b3
  unfold AABB.area bounds
  simp only [hsub]
  have s1 : fadd (fmul (fsub (hi (ladder kx ky kz)).x (lo (ladder kx ky kz)).x)
      (fsub (hi (ladder kx ky kz)).x (lo (ladder kx ky kz)).x))
      (fmul (fsub (hi (ladder kx ky kz)).y (lo (ladder kx ky kz)).y)
      (fsub (hi (ladder kx ky kz)).y (lo (ladder kx ky kz)).y)) ≤ 2 ^ 89 :=
    fl_le_of_le (by linarith) p89
  exact fl_le_of_le (by linarith) p3

/-! ## Splitting the ladder -/

theorem origin_mem_ladder (kx ky kz : Nat) : point_tri ⟨0, 0, 0⟩ ∈ ladder kx ky kz :=
  (mem_ladder kx ky kz _).2 (Or.inl rfl)

theorem rung_mem_ladder (kx ky kz b i : Nat) (hb : b < 3) (hi : i < rung_count kx ky kz b) :
    rung b i ∈ ladder kx ky kz := by
  rw [mem_ladder]
  interval_cases b <;> simp only [rung_count, if_true, if_false, one_ne_zero,
    OfNat.ofNat_ne_zero, OfNat.ofNat_ne_one] at hi
  · exact Or.inr (Or.inl ⟨i, hi, rfl⟩)
  · exact Or.inr (Or.inr (Or.inl ⟨i, hi, rfl⟩))
  · exact Or.inr (Or.inr (Or.inr ⟨i, hi, rfl⟩))

/-- On axis `b` a triangle of the ladder is at 0 or is a rung of the axis. -/
theorem ladder_centre (kx ky kz b : Nat) (hb : b < 3) (p : Triangle)
    (hp : p ∈ ladder kx ky kz) :
    p.centre b = 0 ∨ ∃ i, i < rung_count kx ky kz b ∧ p = rung b i := by
  rcases (mem_ladder kx ky kz p).1 hp with h | ⟨i, hi, h⟩ | ⟨i, hi, h⟩ | ⟨i, hi, h⟩
  · left
    rw [h, centre_origin]
  · by_cases e : b = 0
    · right
      subst e
      exact ⟨i, by simpa [rung_count] using hi, h⟩
    · left
      rw [h, centre_rung 0 b i (by omega) hb, if_neg (Ne.symm e)]
  · by_cases e : b = 1
    · right
      subst e
      exact ⟨i, by simpa [rung_count] using hi, h⟩
    · left
      rw [h, centre_rung 1 b i (by omega) hb, if_neg (Ne.symm e)]
  · by_cases e : b = 2
    · right
      subst e
      exact ⟨i, by simpa [rung_count] using hi, h⟩
    · left
      rw [h, centre_rung 2 b i (by omega) hb, if_neg (Ne.symm e)]

theorem centre_rung_self (b i : Nat) (hb : b < 3) :
    (rung b i).centre b = 16 ^ (i + 1) / 2 ^ 44 := by
  rw [centre_rung b b i hb hb, if_pos rfl]

theorem ladder_centre_nonneg (kx ky kz b : Nat) (hb : b < 3) (p : Triangle)
    (hp : p ∈ ladder kx ky kz) : 0 ≤ p.centre b := by
  rcases ladder_centre kx ky kz b hb p hp with h | ⟨i, _, h⟩
  · rw [h]
  · rw [h, centre_rung_self b i hb]
    exact (rung_pos i).le

theorem centre_min_ladder (kx ky kz b : Nat) (hb : b < 3) :
    centre_min (ladder kx ky kz) b = 0 := by
  have ho := origin_mem_ladder kx ky kz
  have hs := pow44_lt
  obtain ⟨p, hp, e⟩ := centre_min_mem b ho (by
    rw [centre_origin]
    linarith [show (0 : ℚ) < 2 ^ 44 by positivity])
  apply le_antisymm
  · have := centre_min_le b ho
    rwa [centre_origin] at this
  · rw [e]
    exact ladder_centre_nonneg kx ky kz b hb p hp

theorem centre_max_ladder (kx ky kz b n : Nat) (hb : b < 3)
    (hn : rung_count kx ky kz b = n + 1) :
    centre_max (ladder kx ky kz) b = 16 ^ (n + 1) / 2 ^ 44 := by
  have ho := origin_mem_ladder kx ky kz
  have hs := pow44_lt
  obtain ⟨p, hp, e⟩ := centre_max_mem b ho (by
    rw [centre_origin]
    linarith [show (0 : ℚ) < 2 ^ 44 by positivity])
  apply le_antisymm
  · rw [e]
    rcases ladder_centre kx ky kz b hb p hp with h | ⟨i, hi, h⟩
    · rw [h]
      exact (rung_pos n).le
    · rw [h, centre_rung_self b i hb]
      exact rung_le i (n + 1) (by omega)
  · have := le_centre_max b (rung_mem_ladder kx ky kz b n hb (by omega))
    rwa [centre_rung_self b n hb] at this

theorem spread_ladder (kx ky kz b : Nat) (hb : b < 3) (h : Spread (ladder kx ky kz) b) :
    ∃ n, rung_count kx ky kz b = n + 1 := by
  by_contra hne
  have h0 : rung_count kx ky kz b = 0 := by
    rcases Nat.eq_zero_or_pos (rung_count kx ky kz b) with e | e
    · exact e
    · exact absurd ⟨rung_count kx ky kz b - 1, by omega⟩ hne
  obtain ⟨p, q, hp, hq, hpq⟩ := h
  apply hpq
  have z : ∀ r, r ∈ ladder kx ky kz → r.centre b = 0 := by
    intro r hr
    rcases ladder_centre kx ky kz b hb r hr with h | ⟨i, hi, _⟩
    · exact h
    · omega
  rw [z p hp, z q hq]

theorem ladder_spread (kx ky kz b n : Nat) (hb : b < 3)
    (hn : rung_count kx ky kz b = n + 1) : Spread (ladder kx ky kz) b := by
  refine ⟨point_tri ⟨0, 0, 0⟩, rung b n, origin_mem_ladder kx ky kz,
    rung_mem_ladder kx ky kz b n hb (by omega), ?_⟩
  rw [centre_origin, centre_rung_self b n hb]
  exact (rung_pos n).ne

theorem rung_count_le (kx ky kz b : Nat) (hx : kx ≤ 22) (hy : ky ≤ 22) (hz : kz ≤ 22) :
    rung_count kx ky kz b ≤ 22 := by
  unfold rung_count
  split_ifs <;> assumption

/-- Every plane of an axis with `n + 1` rungs lies above rung `n - 1` and not
above rung `n`. -/
theorem plane_t_ladder (kx ky kz b n j : Nat) (hx : kx ≤ 22) (hy : ky ≤ 22) (hz : kz ≤ 22)
    (hb : b < 3) (hj : j < 7) (hn : rung_count kx ky kz b = n + 1) :
    16 ^ n / 2 ^ 44 < plane_t (ladder kx ky kz) b j ∧
      plane_t (ladder kx ky kz) b j ≤ 16 ^ (n + 1) / 2 ^ 44 := by
  have hn22 := rung_count_le kx ky kz b hx hy hz
  have hj24 : j + 1 < 2 ^ 24 := lt_of_lt_of_le (show j + 1 < 8 by omega) (by norm_num)
  unfold plane_t
  rw [centre_min_ladder kx ky kz b hb, centre_max_ladder kx ky kz b n hb hn, of_u32_bins.1,
    of_u32_exact (j + 1) hj24, rung_val, plane_exact _ (by omega) (j + 1) hj24,
    ← rung_val]
  have hu : (0 : ℚ) < 16 ^ n / 2 ^ 44 := by positivity
  have e : (16 : ℚ) ^ (n + 1) / 2 ^ 44 = 16 * (16 ^ n / 2 ^ 44) := by
    rw [pow_succ]
    ring
  rw [e]
  have j1 : (1 : ℚ) ≤ ((j + 1 : Nat) : ℚ) := by
    have : 1 ≤ j + 1 := by omega
    exact_mod_cast this
  have j7 : ((j + 1 : Nat) : ℚ) ≤ 7 := by
    have : j + 1 ≤ 7 := by omega
    exact_mod_cast this
  generalize (16 : ℚ) ^ n / 2 ^ 44 = u at hu ⊢
  generalize ((j + 1 : Nat) : ℚ) = w at j1 j7 ⊢
  constructor
  · nlinarith
  · nlinarith

/-- On an axis with `n + 1` rungs the second loop of `find_best_split` puts
rung `n` into bin 7 and every other triangle of the ladder into bin 0: the
bins `0..j` hold the triangles below plane `j`. -/
theorem ladder_bin (kx ky kz b n j : Nat) (hx : kx ≤ 22) (hy : ky ≤ 22) (hz : kz ≤ 22)
    (hb : b < 3) (hj : j < 7) (hn : rung_count kx ky kz b = n + 1) (p : Triangle)
    (hp : p ∈ ladder kx ky kz) :
    bin_of (ladder kx ky kz) b p ≤ j ↔ p.centre b < plane_t (ladder kx ky kz) b j := by
  have hn22 := rung_count_le kx ky kz b hx hy hz
  obtain ⟨t1, t2⟩ := plane_t_ladder kx ky kz b n j hx hy hz hb hj hn
  have hsc : bin_scale (ladder kx ky kz) b = 2 ^ (3 - (4 * ((n : Nat) : Int) - 40)) := by
    unfold bin_scale
    rw [centre_min_ladder kx ky kz b hb, centre_max_ladder kx ky kz b n hb hn, of_u32_bins.1,
      rung_val, scale_exact _ (by omega) (by omega)]
  unfold bin_of
  rw [hsc, centre_min_ladder kx ky kz b hb]
  rcases ladder_centre kx ky kz b hb p hp with h | ⟨i, hi, h⟩
  · rw [h, bin_zero]
    constructor
    · intro _
      exact lt_trans (by positivity) t1
    · intro _
      omega
  · have hc : p.centre b = 2 ^ (4 * ((i : Nat) : Int) - 40) := by
      rw [h, centre_rung_self b i hb, rung_val]
    have hc' : p.centre b = 16 ^ (i + 1) / 2 ^ 44 := by
      rw [h, centre_rung_self b i hb]
    by_cases hin : i = n
    · subst hin
      have hbin : bin_index 0 (2 ^ (3 - (4 * ((i : Nat) : Int) - 40))) (p.centre b) = 7 := by
        rw [hc]
        exact bin_top _ (by omega) (by omega)
      rw [hbin, hc']
      constructor
      · intro h7
        omega
      · intro hlt
        exact absurd hlt (not_lt.2 t2)
    · have hlt : i < n := by omega
      have hbin : bin_index 0 (2 ^ (3 - (4 * ((n : Nat) : Int) - 40))) (p.centre b) = 0 := by
        rw [hc]
        exact bin_low _ _ (by omega) (by omega) (by omega) (by omega)
      rw [hbin, hc']
      constructor
      · intro _
        exact lt_of_le_of_lt (rung_le i n hlt) t1
      · intro _
        omega

theorem rungs_succ (a n : Nat) : rungs a (n + 1) = rungs a n ++ [rung a n] := by
  unfold rungs
  rw [List.range_succ, List.map_append]
  rfl

theorem filter_rungs_self (a n : Nat) (f : Triangle → Bool)
    (h : ∀ i, i < n → f (rung a i) = true) : (rungs a n).filter f = rungs a n := by
  rw [List.filter_eq_self]
  intro p hp
  unfold rungs at hp
  obtain ⟨i, hi, rfl⟩ := List.mem_map.1 hp
  exact h i (List.mem_range.1 hi)

theorem filter_rungs_nil (a n : Nat) (f : Triangle → Bool)
    (h : ∀ i, i < n → f (rung a i) = false) : (rungs a n).filter f = [] := by
  rw [List.filter_eq_nil_iff]
  intro p hp
  unfold rungs at hp
  obtain ⟨i, hi, rfl⟩ := List.mem_map.1 hp
  rw [h i (List.mem_range.1 hi)]
  simp

/-- The triangles of the ladder below a plane between the two last rungs of an
axis are the ladder without the last rung of the axis, which is the one
triangle not below the plane. -/
theorem ladder_filter (kx ky kz b n : Nat) (t : ℚ) (hb : b < 3)
    (hn : rung_count kx ky kz b = n + 1) (h1 : 16 ^ n / 2 ^ 44 < t)
    (h2 : t ≤ 16 ^ (n + 1) / 2 ^ 44) :
    ∃ kx' ky' kz', kx' ≤ kx ∧ ky' ≤ ky ∧ kz' ≤ kz ∧ kx' + ky' + kz' + 1 = kx + ky + kz ∧
      (ladder kx ky kz).filter (fun p => decide (p.centre b < t)) = ladder kx' ky' kz' ∧
      (ladder kx ky kz).filter (fun p => !decide (p.centre b < t)) = [rung b n] := by
  have ht : (0 : ℚ) < t := lt_trans (by positivity) h1
  have ho : (point_tri ⟨0, 0, 0⟩).centre b < t := by rw [centre_origin]; exact ht
  have hother : ∀ a i, a < 3 → a ≠ b → (rung a i).centre b < t := by
    intro a i ha hab
    rw [centre_rung a b i ha hb, if_neg hab]
    exact ht
  have hlow : ∀ i, i < n → (rung b i).centre b < t := by
    intro i hi
    rw [centre_rung_self b i hb]
    exact lt_of_le_of_lt (rung_le i n hi) h1
  have htop : ¬ (rung b n).centre b < t := by
    rw [centre_rung_self b n hb]
    exact not_lt.2 h2
  have fo : [point_tri ⟨0, 0, 0⟩, point_tri ⟨0, 0, 0⟩].filter
      (fun p => decide (p.centre b < t)) = [point_tri ⟨0, 0, 0⟩, point_tri ⟨0, 0, 0⟩] := by
    rw [List.filter_eq_self]
    intro p hp
    simp only [List.mem_cons, List.mem_singleton, List.not_mem_nil, or_false, or_self] at hp
    rw [hp]
    exact decide_eq_true ho
  have fo' : [point_tri ⟨0, 0, 0⟩, point_tri ⟨0, 0, 0⟩].filter
      (fun p => !decide (p.centre b < t)) = [] := by
    rw [List.filter_eq_nil_iff]
    intro p hp
    simp only [List.mem_cons, List.mem_singleton, List.not_mem_nil, or_false, or_self] at hp
    rw [hp]
    simp [ho]
  have ft : [rung b n].filter (fun p => decide (p.centre b < t)) = [] := by
    rw [List.filter_eq_nil_iff]
    intro p hp
    rw [List.mem_singleton.1 hp]
    simp [htop]
  have ft' : [rung b n].filter (fun p => !decide (p.centre b < t)) = [rung b n] := by
    rw [List.filter_eq_self]
    intro p hp
    rw [List.mem_singleton.1 hp]
    simp [htop]
  have fa : ∀ a k, a < 3 → a ≠ b →
      (rungs a k).filter (fun p => decide (p.centre b < t)) = rungs a k := by
    intro a k ha hab
    exact filter_rungs_self a k _ (fun i _ => decide_eq_true (hother a i ha hab))
  have fa' : ∀ a k, a < 3 → a ≠ b →
      (rungs a k).filter (fun p => !decide (p.centre b < t)) = [] := by
    intro a k ha hab
    exact filter_rungs_nil a k _ (fun i _ => by simp [hother a i ha hab])
  have fb : (rungs b n).filter (fun p => decide (p.centre b < t)) = rungs b n :=
    filter_rungs_self b n _ (fun i hi => decide_eq_true (hlow i hi))
  have fb' : (rungs b n).filter (fun p => !decide (p.centre b < t)) = [] :=
    filter_rungs_nil b n _ (fun i hi => by simp [hlow i hi])
  interval_cases b
  · have hk : kx = n + 1 := by simpa [rung_count] using hn
    subst hk
    refine ⟨n, ky, kz, by omega, le_refl _, le_refl _, by omega, ?_, ?_⟩
    · unfold ladder
      rw [rungs_succ]
      simp only [List.filter_append]
      rw [fo, ft, fb, fa 1 ky (by omega) (by omega), fa 2 kz (by omega) (by omega),
        List.append_nil]
    · unfold ladder
      rw [rungs_succ]
      simp only [List.filter_append]
      rw [fo', ft', fb', fa' 1 ky (by omega) (by omega), fa' 2 kz (by omega) (by omega)]
      rfl
  · have hk : ky = n + 1 := by simpa [rung_count] using hn
    subst hk
    refine ⟨kx, n, kz, le_refl _, by omega, le_refl _, by omega, ?_, ?_⟩
    · unfold ladder
      rw [rungs_succ]
      simp only [List.filter_append]
      rw [fo, ft, fb, fa 0 kx (by omega) (by omega), fa 2 kz (by omega) (by omega),
        List.append_nil]
    · unfold ladder
      rw [rungs_succ]
      simp only [List.filter_append]
      rw [fo', ft', fb', fa' 0 kx (by omega) (by omega), fa' 2 kz (by omega) (by omega)]
      rfl
  · have hk : kz = n + 1 := by simpa [rung_count] using hn
    subst hk
    refine ⟨kx, ky, n, le_refl _, le_refl _, by omega, by omega, ?_, ?_⟩
    · unfold ladder
      rw [rungs_succ]
      simp only [List.filter_append]
      rw [fo, ft, fb, fa 0 kx (by omega) (by omega), fa 1 ky (by omega) (by omega),
        List.append_nil, List.append_assoc]
    · unfold ladder
      rw [rungs_succ]
      simp only [List.filter_append]
      rw [fo', ft', fb', fa' 0 kx (by omega) (by omega), fa' 1 ky (by omega) (by omega)]
      rfl

/-! ## The cost of splitting the ladder -/

/-- The box of a point triangle in range has area 0. -/
theorem area_point (v : Vec3) (h0 : Vec3.le ⟨0, 0, 0⟩ v)
    (h1 : Vec3.le v (Vec3.splat (2 ^ 44))) : (bounds [point_tri v]).area = 0 := by
  have hs := pow44_lt
  have hm : point_tri v ∈ [point_tri v] := List.mem_singleton.2 rfl
  obtain ⟨a, _, _⟩ := lo_le hm
  obtain ⟨b, _, _⟩ := le_hi hm
  have hv : ∀ p, p ∈ [point_tri v] → Vec3.le v p.v0 ∧ Vec3.le v p.v1 ∧ Vec3.le v p.v2 := by
    intro p hp
    rw [List.mem_singleton.1 hp]
    exact ⟨⟨le_refl _, le_refl _, le_refl _⟩, ⟨le_refl _, le_refl _, le_refl _⟩,
      ⟨le_refl _, le_refl _, le_refl _⟩⟩
  have hv' : ∀ p, p ∈ [point_tri v] → Vec3.le p.v0 v ∧ Vec3.le p.v1 v ∧ Vec3.le p.v2 v := by
    intro p hp
    rw [List.mem_singleton.1 hp]
    exact ⟨⟨le_refl _, le_refl _, le_refl _⟩, ⟨le_refl _, le_refl _, le_refl _⟩,
      ⟨le_refl _, le_refl _, le_refl _⟩⟩
  obtain ⟨h11, h12, h13⟩ := h1
  obtain ⟨h01, h02, h03⟩ := h0
  simp only [Vec3.splat] at h11 h12 h13 h01 h02 h03
  have c := le_lo [point_tri v] v
    ⟨by simp only [Vec3.splat]; linarith, by simp only [Vec3.splat]; linarith,
      by simp only [Vec3.splat]; linarith⟩ hv
  have d := hi_le [point_tri v] v
    ⟨by simp only [Vec3.splat]; linarith, by simp only [Vec3.splat]; linarith,
      by simp only [Vec3.splat]; linarith⟩ hv'
  have px : (point_tri v).v0 = v := rfl
  rw [px] at a b
  have ex : (hi [point_tri v]).x = (lo [point_tri v]).x :=
    le_antisymm (le_trans d.1 c.1) (le_trans a.1 b.1)
  have ey : (hi [point_tri v]).y = (lo [point_tri v]).y :=
    le_antisymm (le_trans d.2.1 c.2.1) (le_trans a.2.1 b.2.1)
  have ez : (hi [point_tri v]).z = (lo [point_tri v]).z :=
    le_antisymm (le_trans d.2.2 c.2.2) (le_trans a.2.2 b.2.2)
  have hsub : ∀ u w : Vec3, (u - w).x = fsub u.x w.x ∧ (u - w).y = fsub u.y w.y ∧
      (u - w).z = fsub u.z w.z := fun u w => ⟨rfl, rfl, rfl⟩
  unfold AABB.area bounds
  simp only [hsub]
  rw [ex, ey, ez]
  simp [fsub, fmul, fadd, fl_zero]

theorem fadd_ge_left {x y c : ℚ} (hc : fl c = c) (h : c ≤ x) (hy : 0 ≤ y) : c ≤ fadd x y :=
  le_fl_of_le (by linarith) hc

theorem fadd_ge_right {x y c : ℚ} (hc : fl c = c) (h : c ≤ y) (hx : 0 ≤ x) : c ≤ fadd x y :=
  le_fl_of_le (by linarith) hc

/-- The box of a ladder with a rung has an area of at least `2 ^ (-80)`. -/
theorem ladder_area_ge (kx ky kz b n : Nat) (hb : b < 3)
    (hn : rung_count kx ky kz b = n + 1) :
    (2 : ℚ) ^ (-80 : Int) ≤ (bounds (ladder kx ky kz)).area := by
  obtain ⟨a, _, _⟩ := lo_le (origin_mem_ladder kx ky kz)
  obtain ⟨c, _, _⟩ := le_hi (rung_mem_ladder kx ky kz b n hb (by omega))
  have hsub : ∀ u w : Vec3, (u - w).x = fsub u.x w.x ∧ (u - w).y = fsub u.y w.y ∧
      (u - w).z = fsub u.z w.z := fun u w => ⟨rfl, rfl, rfl⟩
  have p40 := fl_two_zpow (-40) (by norm_num)
  have p80 := fl_two_zpow (-80) (by norm_num)
  have hr0 : (2 : ℚ) ^ (-40 : Int) ≤ 16 ^ (n + 1) / 2 ^ 44 := by
    rw [rung_val]
    exact two_zpow_le (by omega)
  have side : ∀ h l : ℚ, l ≤ 0 → 16 ^ (n + 1) / 2 ^ 44 ≤ h →
      (2 : ℚ) ^ (-80 : Int) ≤ fmul (fsub h l) (fsub h l) := by
    intro h l hl hh
    have e2 : 16 ^ (n + 1) / 2 ^ 44 ≤ h - l := by
      generalize (16 : ℚ) ^ (n + 1) / 2 ^ 44 = R at hh ⊢
      linarith
    have e1 : (2 : ℚ) ^ (-40 : Int) ≤ fsub h l := le_fl_of_le (le_trans hr0 e2) p40
    have e0 : (0 : ℚ) ≤ 2 ^ (-40 : Int) := (two_zpow_pos _).le
    refine le_fl_of_le ?_ p80
    have := sq_le_sq_of _ _ e0 e1
    calc (2 : ℚ) ^ (-80 : Int) = 2 ^ (-40 : Int) * 2 ^ (-40 : Int) := by
          rw [← zpow_add₀ (by norm_num)]
          norm_num
      _ ≤ fsub h l * fsub h l := this
  have o : (point_tri ⟨0, 0, 0⟩).v0 = ⟨0, 0, 0⟩ := rfl
  rw [o] at a
  obtain ⟨a1, a2, a3⟩ := a
  obtain ⟨c1, c2, c3⟩ := c
  simp only at a1 a2 a3
  unfold AABB.area bounds
  simp only [hsub]
  interval_cases b
  · have r : ((rung 0 n).v0).x = 16 ^ (n + 1) / 2 ^ 44 := rfl
    rw [r] at c1
    exact fadd_ge_left p80 (fadd_ge_left p80 (side _ _ a1 c1) (fmul_self_nonneg _))
      (fmul_self_nonneg _)
  · have r : ((rung 1 n).v0).y = 16 ^ (n + 1) / 2 ^ 44 := rfl
    rw [r] at c2
    exact fadd_ge_left p80 (fadd_ge_right p80 (side _ _ a2 c2) (fmul_self_nonneg _))
      (fmul_self_nonneg _)
  · have r : ((rung 2 n).v0).z = 16 ^ (n + 1) / 2 ^ 44 := rfl
    rw [r] at c3
    exact fadd_ge_right p80 (side _ _ a3 c3)
      (fadd_nonneg (fmul_self_nonneg _) (fmul_self_nonneg _))

/-- In binary32, `k` times an area is below `k + 1` times an area that is
not smaller and at least `2 ^ (-80)`, for `k` up to 67. -/
theorem cost_lt (k : Nat) (hk : k ≤ 67) (A A' : ℚ) (h0 : 0 ≤ A') (h1 : A' ≤ A)
    (hA : (2 : ℚ) ^ (-80 : Int) ≤ A) :
    fmul (of_u32 k) A' < fmul (of_u32 (k + 1)) A := by
  rw [of_u32_exact k (by omega), of_u32_exact (k + 1) (by omega)]
  have hk0 : (0 : ℚ) ≤ k := Nat.cast_nonneg _
  have hk67 : (k : ℚ) ≤ 67 := by exact_mod_cast hk
  have hA0 : 0 ≤ A := le_trans h0 h1
  have h80 : (2 : ℚ) ^ (-80 : Int) = 1 / 2 ^ 80 := by
    rw [show (-80 : Int) = -(80 : Nat) by norm_num, zpow_neg, zpow_natCast]
    norm_num
  have h126 : (2 : ℚ) ^ (-126 : Int) ≤ 2 ^ (-80 : Int) := two_zpow_le (by norm_num)
  have hx := (fl_abs ((k : ℚ) * A') (mul_nonneg hk0 h0)).2
  have hPA : (k : ℚ) * A' ≤ (k : ℚ) * A := mul_le_mul_of_nonneg_left h1 hk0
  have hP67 : (k : ℚ) * A ≤ 67 * A := mul_le_mul_of_nonneg_right hk67 hA0
  have hy := (fl_rel (((k + 1 : Nat) : ℚ) * A) (by
    push_cast
    nlinarith)).1
  push_cast at hy
  unfold fmul
  push_cast
  rw [h80] at hA
  generalize fl ((k : ℚ) * A') = x at *
  generalize fl (((k : ℚ) + 1) * A) = y at *
  generalize (k : ℚ) * A' = P' at *
  have e : ((k : ℚ) + 1) * A = (k : ℚ) * A + A := by ring
  rw [e] at hy
  generalize (k : ℚ) * A = P at *
  norm_num at hx hy hA
  linarith

/-- Every plane of an axis on which the ladder has a rung splits off the last
rung of the axis, at a cost below the cost of the node and below `1e30`. -/
theorem ladder_split (kx ky kz b j : Nat) (hx : kx ≤ 22) (hy : ky ≤ 22) (hz : kz ≤ 22)
    (hb : b < 3) (hj : j < 7) (hs : Spread (ladder kx ky kz) b) :
    bin_cost (ladder kx ky kz) b j <
        fmul (of_u32 (ladder kx ky kz).length) (bounds (ladder kx ky kz)).area ∧
      bin_cost (ladder kx ky kz) b j < f1e30 ∧
      ∃ kx' ky' kz', kx' ≤ kx ∧ ky' ≤ ky ∧ kz' ≤ kz ∧ kx' + ky' + kz' + 1 = kx + ky + kz ∧
        (ladder kx ky kz).filter
          (fun p => decide (p.centre b < plane_t (ladder kx ky kz) b j)) = ladder kx' ky' kz' := by
  obtain ⟨n, hn⟩ := spread_ladder kx ky kz b hb hs
  obtain ⟨t1, t2⟩ := plane_t_ladder kx ky kz b n j hx hy hz hb hj hn
  obtain ⟨kx', ky', kz', x1, x2, x3, x4, f1, f2⟩ :=
    ladder_filter kx ky kz b n (plane_t (ladder kx ky kz) b j) hb hn t1 t2
  have g1 : (ladder kx ky kz).filter (fun p => decide (bin_of (ladder kx ky kz) b p ≤ j)) =
      (ladder kx ky kz).filter (fun p => decide (p.centre b < plane_t (ladder kx ky kz) b j)) := by
    apply List.filter_congr
    intro p hp
    exact decide_eq_decide.2 (ladder_bin kx ky kz b n j hx hy hz hb hj hn p hp)
  have g2 : (ladder kx ky kz).filter (fun p => !decide (bin_of (ladder kx ky kz) b p ≤ j)) =
      (ladder kx ky kz).filter
        (fun p => !decide (p.centre b < plane_t (ladder kx ky kz) b j)) := by
    apply List.filter_congr
    intro p hp
    rw [decide_eq_decide.2 (ladder_bin kx ky kz b n j hx hy hz hb hj hn p hp)]
  have hA := ladder_area_ge kx ky kz b n hb hn
  have hAle := ladder_area_le kx ky kz hx hy hz
  have hle := area_filter_le (ladder kx ky kz)
    (fun p => decide (p.centre b < plane_t (ladder kx ky kz) b j)) (by
      rw [f1]
      exact ladder_ne_nil _ _ _)
  rw [f1] at hle
  have hrung : (bounds [rung b n]).area = 0 := by
    obtain ⟨v, hv, h0, h1⟩ := ladder_point kx ky kz hx hy hz (rung b n)
      (rung_mem_ladder kx ky kz b n hb (by omega))
    rw [hv]
    exact area_point v h0 h1
  have hcost : bin_cost (ladder kx ky kz) b j =
      fmul (of_u32 (kx' + ky' + kz' + 2)) (bounds (ladder kx' ky' kz')).area := by
    unfold bin_cost
    rw [g1, g2, f1, f2]
    unfold side_cost
    rw [hrung, fmul_zero_right, length_ladder]
    exact fadd_zero_right _
  have hlen : (ladder kx ky kz).length = (kx' + ky' + kz' + 2) + 1 := by
    rw [length_ladder]
    omega
  have hc : bin_cost (ladder kx ky kz) b j <
      fmul (of_u32 (ladder kx ky kz).length) (bounds (ladder kx ky kz)).area := by
    rw [hcost, hlen]
    exact cost_lt _ (by omega) _ _ (area_nonneg _) hle hA
  refine ⟨hc, lt_of_lt_of_le hc ?_, kx', ky', kz', x1, x2, x3, x4, f1⟩
  obtain ⟨_, _, _, _, p204⟩ := fl_pow44
  rw [length_ladder, of_u32_exact _ (by omega)]
  have hn68 : ((kx + ky + kz + 2 : Nat) : ℚ) ≤ 68 := by
    have : kx + ky + kz + 2 ≤ 68 := by omega
    exact_mod_cast this
  have hprod : ((kx + ky + kz + 2 : Nat) : ℚ) * (bounds (ladder kx ky kz)).area ≤
      204 * 2 ^ 88 := by
    calc ((kx + ky + kz + 2 : Nat) : ℚ) * (bounds (ladder kx ky kz)).area
        ≤ 68 * (3 * 2 ^ 88) := mul_le_mul hn68 hAle (area_nonneg _) (by norm_num)
      _ = 204 * 2 ^ 88 := by norm_num
  refine le_trans (fl_le_of_le hprod p204) ?_
  unfold f1e30
  norm_num

/-- A node that holds the triangles of a ladder with a rung, in any order: the
triangles are in range, some axis has distinct centroids, and every plane of
such an axis splits off one triangle, at a cost below the cost of the node and
below `1e30`, with a ladder of one rung less below the plane. -/
theorem perm_ladder_split (S : List Triangle) (kx ky kz : Nat) (hx : kx ≤ 22) (hy : ky ≤ 22)
    (hz : kz ≤ 22) (hk : 0 < kx + ky + kz) (hS : S.Perm (ladder kx ky kz)) :
    (∀ p, p ∈ S → p.in_range) ∧
    (∃ a, a < 3 ∧ Spread S a) ∧
    ∀ b j, b < 3 → j < 7 → Spread S b →
      bin_cost S b j < fmul (of_u32 S.length) (bounds S).area ∧
      bin_cost S b j < f1e30 ∧
      ∃ kx' ky' kz', kx' ≤ 22 ∧ ky' ≤ 22 ∧ kz' ≤ 22 ∧ kx' + ky' + kz' + 1 = kx + ky + kz ∧
        (S.filter (fun p => decide (p.centre b < plane_t S b j))).Perm (ladder kx' ky' kz') := by
  refine ⟨fun p hp => ladder_in_range kx ky kz hx hy hz p (hS.mem_iff.1 hp), ?_, ?_⟩
  · have : 0 < kx ∨ 0 < ky ∨ 0 < kz := by omega
    rcases this with h | h | h
    · exact ⟨0, by omega, (spread_perm hS 0).2
        (ladder_spread kx ky kz 0 (kx - 1) (by omega) (by simp only [rung_count, if_true]; omega))⟩
    · exact ⟨1, by omega, (spread_perm hS 1).2
        (ladder_spread kx ky kz 1 (ky - 1) (by omega) (by simp [rung_count]; omega))⟩
    · exact ⟨2, by omega, (spread_perm hS 2).2
        (ladder_spread kx ky kz 2 (kz - 1) (by omega) (by simp [rung_count]; omega))⟩
  · intro b j hb hj hsp
    obtain ⟨c1, c2, kx', ky', kz', x1, x2, x3, x4, f⟩ :=
      ladder_split kx ky kz b j hx hy hz hb hj ((spread_perm hS b).1 hsp)
    rw [bin_cost_perm hS, plane_t_perm hS, hS.length_eq, bounds_perm hS]
    refine ⟨c1, c2, kx', ky', kz', by omega, by omega, by omega, x4, ?_⟩
    rw [← f]
    exact hS.filter _

/-! ## The hierarchy of the ladder -/

theorem Spine.mono (nodes : List Node) :
    ∀ (d d' idx : Nat), d' ≤ d → Spine nodes idx d → Spine nodes idx d' := by
  intro d
  induction d with
  | zero =>
    intro d' idx h hs
    have e : d' = 0 := by omega
    subst e
    exact hs
  | succ d ih =>
    intro d' idx h hs
    cases d' with
    | zero => trivial
    | succ d' =>
      obtain ⟨nd, l, r, h1, h2, h3, h4, h5⟩ := hs
      exact ⟨nd, l, r, h1, h2, h3, h4, ih d' _ (by omega) h5⟩

/-- The partition loop on a plane of axis `b` below which the range holds the
triangles `L`, at least one: it ends with the triangles below the plane, a
permutation of `L`, at the start of the range. -/
theorem partition_filter (prims : List Triangle) (norms : List Normals) (first c b : Nat)
    (t : ℚ) (L : List Triangle) (hb3 : b < 3) (hc : 0 < c)
    (hrange : first + c ≤ prims.length) (hlen : prims.length = norms.length)
    (hf : ((slice prims first c).filter (fun p => decide (p.centre b < t))).Perm L)
    (hL : L ≠ []) :
    ∃ i prims' norms',
      partition (b : Int) t (c + 1) first (first + c - 1) prims norms = .ok (i, prims', norms') ∧
      first ≤ i ∧ i ≤ first + c ∧ i - first = L.length ∧ prims'.length = prims.length ∧
      norms'.length = norms.length ∧ (slice prims' first (i - first)).Perm L := by
  obtain ⟨p0, hp0⟩ := List.exists_mem_of_ne_nil _ hL
  have hp0' := List.mem_filter.1 (hf.mem_iff.2 hp0)
  obtain ⟨kp, kp1, kp2, kp3⟩ := mem_slice_get hp0'.1
  obtain ⟨r, hr'⟩ := partition_ok b hb3 t (c + 1) first (first + c - 1) prims norms
    (by omega) (by omega) (by omega) hlen
    (Or.inr ⟨kp, p0, kp1, by omega, kp3, of_decide_eq_true hp0'.2⟩)
  have hspec := partition_spec (b : Int) t (c + 1) first (first + c - 1) prims norms
    (by omega) (by omega) (by omega) hlen
  rw [hr'] at hspec
  simp only at hspec
  obtain ⟨i, prims', norms'⟩ := r
  obtain ⟨p1, p2, p3, p4, p5, p6, p7, p8, p9⟩ := hspec
  simp only at p1 p2 p3 p4 p5 p6 p7 p8 p9
  have hsl : (slice prims' first c).Perm (slice prims first c) :=
    slice_perm_of_perm _ _ _ _ (perm_of_zip_perm p5 hlen (by omega))
      (fun k hk => p6 k (by omega))
  have hcut : slice prims' first c =
      slice prims' first (i - first) ++ slice prims' i (c - (i - first)) := by
    have e1 : c = (i - first) + (c - (i - first)) := by omega
    have e2 : first + (i - first) = i := by omega
    conv_lhs => rw [e1]
    rw [slice_append, e2]
  have hA : (slice prims' first (i - first)).filter (fun p => decide (p.centre b < t)) =
      slice prims' first (i - first) := by
    rw [List.filter_eq_self]
    intro p hp
    obtain ⟨k, k1, k2, k3⟩ := mem_slice_get hp
    exact decide_eq_true ((below_iff p b hb3 _).1 (p8 k p k1 (by omega) k3))
  have hB : (slice prims' i (c - (i - first))).filter (fun p => decide (p.centre b < t)) =
      [] := by
    rw [List.filter_eq_nil_iff]
    intro p hp
    obtain ⟨k, k1, k2, k3⟩ := mem_slice_get hp
    have := (not_below_iff p b hb3 _).1 (p9 k p k1 (by omega) k3)
    simpa using this
  have hleft : (slice prims' first (i - first)).Perm L := by
    have h := (hsl.filter (fun p => decide (p.centre b < t))).trans hf
    rwa [hcut, List.filter_append, hA, hB, List.append_nil] at h
  have hcnt : i - first = L.length := by
    have h := hleft.length_eq
    rwa [length_slice _ _ _ (by omega)] at h
  exact ⟨i, prims', norms', hr', p1, by omega, hcnt, p3, p4, hleft⟩

/-- The step of `subdivide` on a node that has just been split with one
triangle in the right child: the recursion into the right child returns at
once, and the chain of the left child is one node longer at the node. -/
theorem spine_step (fuel : Nat) (m m1 m2 : BvhMem) (idx d : Nat) (mn mx : Vec3) (right : Node)
    (hidx : idx < m.nodes_used) (hu : m.nodes_used + 1 < m.nodes.length)
    (u1 : m1.nodes_used = m.nodes_used + 2) (q3 : m1.nodes.length = m.nodes.length)
    (n1 : m1.nodes[idx]? = some ⟨mn, m.nodes_used, mx, 0⟩)
    (n3 : m1.nodes[m.nodes_used + 1]? = some right) (hright : right.prim_count ≤ 2)
    (l3 : m2.nodes.length = m1.nodes.length)
    (l4 : ∀ k, k ≠ m.nodes_used → k < m1.nodes_used ∨ m2.nodes_used ≤ k →
      m2.nodes[k]? = m1.nodes[k]?)
    (hu2 : m2.nodes_used = m1.nodes_used + 2 * d) (hsp2 : Spine m2.nodes m.nodes_used d) :
    ∃ m', subdivide (fuel + 1) m2 (m.nodes_used + 1) = .ok m' ∧
      m'.nodes_used = m.nodes_used + 2 * (d + 1) ∧ Spine m'.nodes idx (d + 1) := by
  have hr : m2.nodes[m.nodes_used + 1]? = some right := by
    rw [l4 (m.nodes_used + 1) (by omega) (Or.inl (by omega)), n3]
  rw [subdivide, rd_ok_iff.2 hr]
  simp only
  rw [if_pos hright]
  refine ⟨m2, rfl, by omega, ?_⟩
  have hroot : m2.nodes[idx]? = some ⟨mn, m.nodes_used, mx, 0⟩ := by
    rw [l4 idx (by omega) (Or.inl (by omega)), n1]
  have hlen1 : m.nodes_used < m2.nodes.length := by omega
  have hlen2 : m.nodes_used + 1 < m2.nodes.length := by omega
  have hc1 : m2.nodes[m.nodes_used]? = some (m2.nodes[m.nodes_used]) :=
    List.getElem?_eq_getElem hlen1
  have hc2 : m2.nodes[m.nodes_used + 1]? = some (m2.nodes[m.nodes_used + 1]) :=
    List.getElem?_eq_getElem hlen2
  exact ⟨_, _, _, hroot, rfl, hc1, hc2, hsp2⟩

/-- On a leaf that holds the triangles of a ladder with `d` rungs, in any
order, `subdivide` returns, having made a chain of `d` internal nodes: every
split puts one triangle in the right child and the others in the left child. -/
theorem subdivide_ladder :
    ∀ (d fuel : Nat) (m : BvhMem) (idx first kx ky kz : Nat),
      kx + ky + kz = d → kx ≤ 22 → ky ≤ 22 → kz ≤ 22 →
      Built m.nodes m.prims (.leaf idx first (d + 2)) m.nodes_used m.nodes_used →
      (slice m.prims first (d + 2)).Perm (ladder kx ky kz) →
      m.prims.length = m.norms.length → d + 2 ≤ fuel →
      m.nodes_used + 2 * (d + 2) ≤ m.nodes.length + 2 →
      ∃ m', subdivide fuel m idx = .ok m' ∧ m'.nodes_used = m.nodes_used + 2 * d ∧
        Spine m'.nodes idx d := by
  intro d
  induction d with
  | zero =>
    intro fuel m idx first kx ky kz _ _ _ _ hb _ _ hfuel _
    obtain ⟨fuel, rfl⟩ : ∃ f, fuel = f + 1 := ⟨fuel - 1, by omega⟩
    obtain ⟨_, hidx, heven, hcount, hrange, hnode⟩ := id hb
    rw [subdivide, rd_ok_iff.2 hnode]
    simp only
    rw [if_pos (by omega)]
    exact ⟨m, rfl, by omega, trivial⟩
  | succ d ih =>
    intro fuel m idx first kx ky kz hk hx hy hz hb hS hlen hfuel hbudget
    obtain ⟨fuel, rfl⟩ : ∃ f, fuel = f + 1 + 1 := ⟨fuel - 2, by omega⟩
    obtain ⟨_, hidx, heven, hcount, hrange, hnode⟩ := id hb
    obtain ⟨hr, ⟨a0, ha0, hsp0⟩, hsplit⟩ :=
      perm_ladder_split _ kx ky kz hx hy hz (by omega) hS
    have hlenS : (slice m.prims first (d + 1 + 2)).length = d + 1 + 2 :=
      length_slice _ _ _ hrange
    rw [subdivide, rd_ok_iff.2 hnode]
    simp only
    rw [if_neg (by omega)]
    obtain ⟨s, hs, _, h2, h3, _⟩ := find_best_split_bins m.prims
      ⟨lo (slice m.prims first (d + 1 + 2)), first, hi (slice m.prims first (d + 1 + 2)),
        d + 1 + 2⟩ (-1) 0 hrange (by simp only; omega) hr
    simp only at h2 h3
    rw [hs]
    simp only
    obtain ⟨c1, c2, _⟩ := hsplit a0 0 ha0 (by omega) hsp0
    have hle := h2 a0 0 ha0 (by omega) hsp0
    have hcost1 : s.cost < f1e30 := lt_of_le_of_lt hle c2
    have hcost2 : s.cost < fmul (of_u32 (d + 1 + 2))
        (bounds (slice m.prims first (d + 1 + 2))).area := by
      rw [hlenS] at c1
      exact lt_of_le_of_lt hle c1
    obtain ⟨b, j, hb3, hj, hspb, haxis, ht, _⟩ := h3 hcost1
    obtain ⟨_, _, kx', ky', kz', x1, x2, x3, x4, hf⟩ := hsplit b j hb3 hj hspb
    split_ifs with hcost
    · exact absurd hcost (not_le.2 hcost2)
    · rw [haxis, ht]
      obtain ⟨i, prims', norms', hp, p1, p2, hcnt, p3, p4, hleft⟩ :=
        partition_filter m.prims m.norms first (d + 1 + 2) b
          (plane_t (slice m.prims first (d + 1 + 2)) b j) (ladder kx' ky' kz') hb3
          (by omega) hrange hlen hf (ladder_ne_nil _ _ _)
      rw [length_ladder] at hcnt
      have hcnt' : i - first = d + 2 := by omega
      rw [hp]
      simp only
      split_ifs with hsplit'
      · exfalso
        omega
      · obtain ⟨m1, hm1, u1, q1, q2, q3, n1, n2, n3, n4⟩ := make_children_ok m idx
          ⟨lo (slice m.prims first (d + 1 + 2)), first, hi (slice m.prims first (d + 1 + 2)),
            d + 1 + 2⟩ i prims' norms' hnode hidx (by omega) p1 p2
          (by simp only; omega)
        simp only at n1 n2 n3
        rw [hm1]
        simp only
        rw [hcnt'] at n2 hleft
        have hbl : Built m1.nodes m1.prims (.leaf m.nodes_used first (d + 2))
            m1.nodes_used m1.nodes_used := by
          rw [u1, q1]
          exact ⟨rfl, by omega, by omega, by omega, by omega, n2⟩
        have hlen1 : m1.prims.length = m1.norms.length := by
          rw [q1, q2]
          omega
        have hbud1 : m1.nodes_used + 2 * (d + 2) ≤ m1.nodes.length + 2 := by
          rw [u1, q3]
          omega
        obtain ⟨m2, hl, hu2, hsp2⟩ := ih (fuel + 1) m1 m.nodes_used first kx' ky' kz'
          (by omega) x1 x2 x3 hbl (by rw [q1]; exact hleft) hlen1 (by omega) hbud1
        have hpost := subdivide_spec (fuel + 1) m1 m.nodes_used first (d + 2) hbl hlen1
          (by omega) hbud1
        rw [hl] at hpost
        simp only at hpost
        rw [hl]
        simp only
        exact spine_step fuel m m1 m2 idx d _ _ _ hidx (by omega) u1 q3 n1 n3
          (by simp only; omega) hpost.len_nodes hpost.nodes_out hu2 hsp2

/-- On the triangles of a ladder with at least 65 rungs, in any order, `build`
runs into the write beyond the 128 entries of the traversal stack. -/
theorem build_ladder (prims : List Triangle) (norms : List Normals) (d kx ky kz : Nat)
    (hk : kx + ky + kz = d) (hx : kx ≤ 22) (hy : ky ≤ 22) (hz : kz ≤ 22) (hd : 65 ≤ d)
    (hp : prims.Perm (ladder kx ky kz)) (hn : norms.length = d + 2) :
    ({} : Bvh).build (some prims) (some norms) (d + 2) = .error .stack_index := by
  have hlp : prims.length = d + 2 := by
    rw [hp.length_eq, length_ladder]
    omega
  unfold Bvh.build
  simp only
  rw [if_neg (by omega), if_neg (by omega)]
  have hl1 : prims.take (d + 2) = prims := List.take_of_length_le (by omega)
  have hl2 : norms.take (d + 2) = norms := List.take_of_length_le (by omega)
  rw [hl1, hl2]
  have h0 : (List.replicate ((d + 2) * 2) Node.zero)[root_idx]? = some Node.zero := by
    rw [List.getElem?_replicate, if_pos (by unfold root_idx; omega)]
  rw [upd_ok _ _ _ _ h0]
  simp only
  rw [refit_at_ok _ _ prims ⟨Node.zero.min, 0, Node.zero.max, d + 2⟩
    (by rw [List.getElem?_set_self (by simp [root_idx])])
    (by simp only; omega)]
  simp only [List.set_set]
  have hb : Built ((List.replicate ((d + 2) * 2) Node.zero).set root_idx
        ⟨lo (slice prims 0 (d + 2)), 0, hi (slice prims 0 (d + 2)), d + 2⟩)
      prims (.leaf root_idx 0 (d + 2)) 2 2 := by
    refine ⟨rfl, by simp [root_idx], rfl, by omega, by omega, ?_⟩
    rw [List.getElem?_set_self (by simp [root_idx])]
  have hsl : slice prims 0 (d + 2) = prims := by
    rw [← hlp]
    exact slice_zero_length prims
  obtain ⟨m, hsub, hused, hspine⟩ := subdivide_ladder d (d + 2)
    { nodes := (List.replicate ((d + 2) * 2) Node.zero).set root_idx
        ⟨lo (slice prims 0 (d + 2)), 0, hi (slice prims 0 (d + 2)), d + 2⟩,
      nodes_used := 2, prims := prims, norms := norms }
    root_idx 0 kx ky kz hk hx hy hz hb (by simp only; rw [hsl]; exact hp)
    (by simp only; omega) (le_refl _)
    (by simp only [List.length_set, List.length_replicate]; omega)
  rw [hsub]
  simp only at hused ⊢
  rw [flatten_spine m.nodes 65 (m.nodes_used + 1)
    { alt_node := 0, node_ptr := 0, stack := [],
      gpu_nodes := List.replicate m.nodes_used GPUNode.zero }
    (Spine.mono m.nodes d 65 _ hd hspine) rfl (by simp) (by simp) (by omega)
    (by simp only [List.length_replicate]; omega)]

/-- **C29** as stated fails on the code.  On the 67 triangles of `ladder_prims`
every split of `subdivide` puts one triangle in the right child, so that the
hierarchy is a chain of 65 internal nodes, and the GPU flattening of `build`,
which pushes two entries for every internal node on the way down, reaches the
65th of them with 128 entries on its stack and writes beyond the stack. -/
theorem flatten_stack_overflow :
    ({} : Bvh).build (some ladder_prims) (some ladder_norms) 67 = .error .stack_index :=
  build_ladder ladder_prims ladder_norms 65 22 22 21 rfl (by omega) (by omega) (by omega)
    (le_refl _) (List.Perm.refl _) (by simp [ladder_norms])

end wyre
